import Mathlib

/-!
# LuaStrap: function call marshalling

A shallow embedding of the call-marshalling core of LuaStrap
(`CppLuaInterface.h`, `DataTypes.h`, `LuaStrap.cpp`, `FuncBinding.h`,
`Helpers.h`, `BasicTraits.h`) together with the properties established
about it.

Modelling conventions

* The Lua state is an explicit record: the operand stack (bottom first, so the
  absolute index `i` is entry `i - 1`), a heap of tables, a heap of full
  userdata, and the integer-keyed part of the registry.  The function-local
  `static` maps `refsPerLs` of the three `metatable` functions are part of the
  record (one main thread is modelled).
* Native C++ values live in one untyped universe `NVal`; a parameter type is
  represented by its `Traits` record, as the C++ templates are instantiated
  with `LuaStrap::Traits<T>`.
* A failing `assert` aborts: functions that contain one return `Option`, and
  `none` stands for the abort (and for exhausted fuel where fuel is used).
* `lua_checkstack` and memory errors are not modelled (the stack is unbounded).
* The call marshalling returns, next to its result and the final state, a
  ghost trace: which arguments were read, each invocation of the bound
  callable and each `emplace`, so that "exactly once" and "never" can be
  stated.  Trait functions and callables cannot see the trace.
-/

namespace LuaStrap

/-! ## Values and the Lua state -/

/-- Native (C++) values, untyped.  `list` carries vectors, arrays, tuples and
pairs; `opt` carries `std::optional`. -/
inductive NVal where
  | unit : NVal
  | int (i : Int) : NVal
  | bool (b : Bool) : NVal
  | num (q : Rat) : NVal
  | str (s : String) : NVal
  | opt (o : Option NVal) : NVal
  | list (xs : List NVal) : NVal

/-- Lua values.  Tables and full userdata are references into the heaps of the
state.  Floats are modelled by exact rationals. -/
inductive Value where
  | nil : Value
  | bool (b : Bool) : Value
  | int (i : Int) : Value
  | num (q : Rat) : Value
  | str (s : String) : Value
  | table (id : Nat) : Value
  | udata (id : Nat) : Value
  | cfunc (name : String) (tid : Nat) : Value
deriving DecidableEq

/-- A Lua table: its entries and its metatable (a table id). -/
structure Table where
  entries : List (Value × Value)
  meta : Option Nat

/-- A full userdata: the object stored in its block and its metatable. A
registry reference (`int`) stored in a marker is the payload `NVal.int`. -/
structure UData where
  payload : NVal
  meta : Option Nat

/-- The modelled runtime state. -/
structure LuaState where
  stack : List Value
  tables : List Table
  udatas : List UData
  registry : List (Int × Value)
  pendingRefs : Option Int
  indirectRefs : Option Int
  bakedRefs : List (Nat × Int)

/-! ## The Lua C API operations that the library uses -/

/-- The operation `lua_gettop`. -/
def lua_gettop (s : LuaState) : Nat := s.stack.length

/-- The operation `lua_absindex` for stack indices (no pseudo-indices). -/
def lua_absindex (s : LuaState) (idx : Int) : Nat :=
  if 0 < idx then idx.toNat else s.stack.length + 1 - idx.natAbs

/-- The value at an absolute index; `none` is an index outside the stack. -/
def stackAt (s : LuaState) (i : Nat) : Option Value :=
  if i = 0 then none else s.stack.get? (i - 1)

/-- Push one value. -/
def pushValue (s : LuaState) (v : Value) : LuaState :=
  { s with stack := s.stack ++ [v] }

/-- The operation `lua_pop`. -/
def lua_pop (s : LuaState) (n : Nat) : LuaState :=
  { s with stack := s.stack.take (s.stack.length - n) }

/-- The operation `lua_settop` for a non-negative index: truncate, or fill with nil. -/
def lua_settop (s : LuaState) (n : Nat) : LuaState :=
  { s with stack := s.stack.take n ++ List.replicate (n - s.stack.length) Value.nil }

/-- The operation `lua_pushvalue`. -/
def lua_pushvalue (s : LuaState) (idx : Int) : LuaState :=
  pushValue s ((stackAt s (lua_absindex s idx)).getD Value.nil)

/-- The operation `lua_isuserdata`. -/
def lua_isuserdata (s : LuaState) (i : Nat) : Bool :=
  match stackAt s i with
  | some (Value.udata _) => true
  | _ => false

/-- The metatable of a value: only tables and full userdata carry their own. -/
def metatableOf (s : LuaState) (v : Value) : Option Nat :=
  match v with
  | Value.table t => (s.tables.get? t).bind (fun tb => tb.meta)
  | Value.udata u => (s.udatas.get? u).bind (fun ud => ud.meta)
  | _ => none

/-- The operation `lua_getmetatable`: pushes the metatable and returns true, or
pushes nothing and returns false. -/
def lua_getmetatable (s : LuaState) (idx : Int) : Bool × LuaState :=
  match (stackAt s (lua_absindex s idx)).bind (metatableOf s) with
  | some t => (true, pushValue s (Value.table t))
  | none => (false, s)

/-- Primitive equality of two Lua values (integers and floats compare by value). -/
def rawEqualValues (a b : Value) : Bool :=
  match a, b with
  | Value.int i, Value.num q => decide ((i : Rat) = q)
  | Value.num q, Value.int i => decide ((i : Rat) = q)
  | x, y => decide (x = y)

/-- The operation `lua_rawequal`: false when an index is not valid. -/
def lua_rawequal (s : LuaState) (i j : Int) : Bool :=
  match stackAt s (lua_absindex s i), stackAt s (lua_absindex s j) with
  | some a, some b => rawEqualValues a b
  | _, _ => false

/-- Integer-keyed lookup in the registry; an absent key is nil. -/
def registryGet (s : LuaState) (r : Int) : Value :=
  (s.registry.lookup r).getD Value.nil

/-- The call `lua_rawgeti(ls, LUA_REGISTRYINDEX, r)`. -/
def lua_rawgeti_registry (s : LuaState) (r : Int) : LuaState :=
  pushValue s (registryGet s r)

/-- The call `lua_rawseti(ls, LUA_REGISTRYINDEX, r)`: pops the value and stores it. -/
def lua_rawseti_registry (s : LuaState) (r : Int) : LuaState :=
  let v := (stackAt s (lua_gettop s)).getD Value.nil
  { lua_pop s 1 with registry := (r, v) :: s.registry }

/-- A reference that no registry entry uses (above `LUA_RIDX_LAST`). -/
def freshRef (reg : List (Int × Value)) : Int :=
  reg.foldl (fun m kv => max m kv.1) 2 + 1

/-- The call `luaL_ref(ls, LUA_REGISTRYINDEX)`: pops the value; nil is not
stored and yields `LUA_REFNIL`. -/
def luaL_ref (s : LuaState) : Int × LuaState :=
  let v := (stackAt s (lua_gettop s)).getD Value.nil
  if v = Value.nil then (-1, lua_pop s 1)
  else (freshRef s.registry, { lua_pop s 1 with registry := (freshRef s.registry, v) :: s.registry })

/-- The call `lua_createtable(ls, 0, 0)`. -/
def lua_createtable (s : LuaState) : LuaState :=
  { s with stack := s.stack ++ [Value.table s.tables.length],
           tables := s.tables ++ [{ entries := [], meta := none }] }

/-- Raw assignment into a list of table entries; assigning nil removes the key. -/
def entriesSet (es : List (Value × Value)) (k v : Value) : List (Value × Value) :=
  let rest := es.filter (fun kv => !rawEqualValues kv.1 k)
  if v = Value.nil then rest else rest ++ [(k, v)]

/-- Raw lookup in a list of table entries. -/
def entriesGet (es : List (Value × Value)) (k : Value) : Value :=
  match es.find? (fun kv => rawEqualValues kv.1 k) with
  | some kv => kv.2
  | none => Value.nil

/-- Assign `t[k] = v` in the table heap (metamethods are not modelled). -/
def tableSet (s : LuaState) (t : Nat) (k v : Value) : LuaState :=
  match s.tables.get? t with
  | some tb => { s with tables := s.tables.set t { tb with entries := entriesSet tb.entries k v } }
  | none => s

/-- Read `t[k]` from the table heap (metamethods are not modelled). -/
def tableGet (s : LuaState) (t : Nat) (k : Value) : Value :=
  match s.tables.get? t with
  | some tb => entriesGet tb.entries k
  | none => Value.nil

/-- The operation `lua_setfield`: pops the value and assigns it to the field. -/
def lua_setfield (s : LuaState) (idx : Int) (k : String) : LuaState :=
  let v := (stackAt s (lua_gettop s)).getD Value.nil
  match stackAt s (lua_absindex s idx) with
  | some (Value.table t) => tableSet (lua_pop s 1) t (Value.str k) v
  | _ => lua_pop s 1

/-- The operation `lua_setmetatable`: pops a table (or nil) and makes it the
metatable of the table or userdata at the index. -/
def lua_setmetatable (s : LuaState) (idx : Int) : LuaState :=
  let mt : Option Nat :=
    match stackAt s (lua_gettop s) with
    | some (Value.table t) => some t
    | _ => none
  let s1 := lua_pop s 1
  match stackAt s (lua_absindex s idx) with
  | some (Value.table t) =>
      (match s.tables.get? t with
       | some tb => { s1 with tables := s1.tables.set t { tb with meta := mt } }
       | none => s1)
  | some (Value.udata u) =>
      (match s.udatas.get? u with
       | some ud => { s1 with udatas := s1.udatas.set u { ud with meta := mt } }
       | none => s1)
  | _ => s1

/-- The calls `new (lua_newuserdata(ls, sizeof(T))) T{v}`: a fresh userdata
block holding the object, pushed on the stack. -/
def lua_newuserdata (s : LuaState) (payload : NVal) : LuaState :=
  { s with stack := s.stack ++ [Value.udata s.udatas.length],
           udatas := s.udatas ++ [{ payload := payload, meta := none }] }

/-- The operation `lua_touserdata`: the block of the userdata at the index, or
null. -/
def lua_touserdata (s : LuaState) (idx : Int) : Option Nat :=
  match stackAt s (lua_absindex s idx) with
  | some (Value.udata u) => some u
  | _ => none

/-- The read `*static_cast<int*>(lua_touserdata(ls, idx))` of the registry
reference kept in a marker; `none` is undefined behaviour. -/
def readRef (s : LuaState) (idx : Int) : Option Int :=
  match lua_touserdata s idx with
  | some u =>
      (match s.udatas.get? u with
       | some { payload := NVal.int r, meta := _ } => some r
       | _ => none)
  | none => none

/-- The helper `popIfOnTop` of `Helpers.h`. -/
def popIfOnTop (s : LuaState) (idx : Nat) : LuaState :=
  if idx = lua_gettop s then lua_pop s 1 else s

/-! ## The type trait contract (`CppLuaInterface.h`) -/

/-- The specialisation `LuaStrap::Traits<T>` of one decayed type `T`: which of
`read`, `write`, `emplace`, `defaultValue` it defines, and what they do.
`tid` identifies `T` (it selects the static map of `BakedData::metatable<T>`),
`typeName` is `typeid(T).name()`, and `memberFuncs` lists the member functions
named in `Traits<T>::members`.  A trait function returns `none` when an
assertion inside it fails or when it does not return. -/
structure Traits where
  tid : Nat
  typeName : String
  read : Option (LuaState → Nat → Option (Option NVal × LuaState))
  write : Option (LuaState → NVal → Option LuaState)
  emplace : Option (LuaState → NVal → Nat → Option LuaState)
  defaultValue : Option (LuaState → NVal)
  memberFuncs : List String

/-- The concept `LuaWritable` for a decayed type. -/
def LuaWritable (tr : Traits) : Bool := tr.write.isSome || tr.emplace.isSome

/-- The concept `LuaInterfacable` for a decayed type. -/
def LuaInterfacable (tr : Traits) : Bool := LuaWritable tr && tr.read.isSome

/-- The concept `LuaInterfacableWithDefault` for a decayed type. -/
def LuaInterfacableWithDefault (tr : Traits) : Bool :=
  LuaInterfacable tr && tr.defaultValue.isSome

/-- The function template `LuaStrap::read<T>`; `none` when `T` has no `read`
or an assertion fails. -/
def read (tr : Traits) (s : LuaState) (idx : Int) : Option (Option NVal × LuaState) :=
  match tr.read with
  | some rd => rd s (lua_absindex s idx)
  | none => none

/-- The function template `LuaStrap::write<T>`: `Traits<T>::write` when it
exists, else a fresh table filled by `Traits<T>::emplace`. -/
def write (tr : Traits) (s : LuaState) (v : NVal) : Option LuaState :=
  match tr.write with
  | some w => w s v
  | none =>
      match tr.emplace with
      | some e => let s1 := lua_createtable s; e s1 v (lua_gettop s1)
      | none => none

/-- The function template `LuaStrap::emplace<T>` (it requires `Traits<T>::emplace`). -/
def emplace (tr : Traits) (s : LuaState) (v : NVal) (idx : Int) : Option LuaState :=
  match tr.emplace with
  | some e => e s v (lua_absindex s idx)
  | none => none

/-! ## The data lifecycle (`DataTypes.h`, `LuaStrap.cpp`) -/

/-- The helper `refHoldingMetatable` on the static map entry of this main
thread: create the metatable once and keep it in the registry, later fetch it. -/
def refHoldingMetatable (s : LuaState) (refs : Option Int) : LuaState × Option Int :=
  match refs with
  | none =>
      let s1 := lua_createtable s
      let s2 := pushValue s1 (Value.cfunc "refHolding.__gc" 0)
      let s3 := lua_setfield s2 (-2) "__gc"
      let s4 := lua_pushvalue s3 (-1)
      let r := luaL_ref s4
      (r.2, some r.1)
  | some r => (lua_rawgeti_registry s r, some r)

/-- The function `PendingData::metatable`. -/
def PendingData_metatable (s : LuaState) : LuaState :=
  let r := refHoldingMetatable s s.pendingRefs
  { r.1 with pendingRefs := r.2 }

/-- The function `IndirectData::metatable`. -/
def IndirectData_metatable (s : LuaState) : LuaState :=
  let r := refHoldingMetatable s s.indirectRefs
  { r.1 with indirectRefs := r.2 }

/-- Set the fields named by the member functions of `Traits<T>::members`. -/
def setMemberFuncs (tid : Nat) : List String → LuaState → LuaState
  | [], s => s
  | m :: ms, s =>
      setMemberFuncs tid ms (lua_setfield (pushValue s (Value.cfunc m tid)) (-2) m)

/-- The function `BakedData::metatable<T>`. -/
def BakedData_metatable (tr : Traits) (s : LuaState) : LuaState :=
  match s.bakedRefs.lookup tr.tid with
  | none =>
      let s1 := lua_createtable s
      let s2 := lua_setfield (lua_pushvalue s1 (-1)) (-2) "__index"
      let s3 := lua_setfield (pushValue s2 (Value.cfunc "__gc" tr.tid)) (-2) "__gc"
      let s4 := if LuaWritable tr
        then lua_setfield (pushValue s3 (Value.cfunc "toLuaData" tr.tid)) (-2) "toLuaData"
        else s3
      let s5 := if LuaInterfacable tr
        then lua_setfield (pushValue s4 (Value.cfunc "toBakedData" tr.tid)) (-2) "toBakedData"
        else s4
      let s6 := setMemberFuncs tr.tid tr.memberFuncs s5
      let r := luaL_ref (lua_pushvalue s6 (-1))
      { r.2 with bakedRefs := (tr.tid, r.1) :: r.2.bakedRefs }
  | some r => lua_rawgeti_registry s r

/-- The variant `AnyData`; the `lua_State*` member is the state that is passed
along, `idx` is the absolute index. -/
inductive AnyData where
  | FailData : AnyData
  | LuaData (idx : Nat) : AnyData
  | PendingData (idx : Nat) : AnyData
  | IndirectData (idx : Nat) : AnyData
  | BakedData (idx : Nat) : AnyData
deriving DecidableEq

/-- The function `dataDispatch` of `LuaStrap.cpp`. -/
def dataDispatch (s : LuaState) (idx : Int) : AnyData × LuaState :=
  let idx := lua_absindex s idx
  if !lua_isuserdata s idx then (AnyData.LuaData idx, s)
  else
    let m := lua_getmetatable s idx
    if !m.1 then (AnyData.FailData, lua_pop m.2 1)
    else
      let s1 := IndirectData_metatable m.2
      if lua_rawequal s1 (-2) (-1) then (AnyData.IndirectData idx, lua_pop s1 2)
      else
        let s2 := PendingData_metatable (lua_pop s1 1)
        if lua_rawequal s2 (-2) (-1) then (AnyData.PendingData idx, lua_pop s2 2)
        else (AnyData.BakedData idx, lua_pop s2 2)

/-- The class `PotentialOwner<T>`: nothing, an owned object, or a pointer to
the object inside a userdata block. -/
inductive PotentialOwner where
  | monostate : PotentialOwner
  | owned (v : NVal) : PotentialOwner
  | ptr (u : Nat) : PotentialOwner

/-- The conversion `PotentialOwner::operator bool`. -/
def PotentialOwner.toBool : PotentialOwner → Bool
  | PotentialOwner.monostate => false
  | _ => true

/-- The dereference `PotentialOwner::operator*`; `none` is the failed assertion
(or a dangling pointer). -/
def PotentialOwner.deref (s : LuaState) : PotentialOwner → Option NVal
  | PotentialOwner.monostate => none
  | PotentialOwner.owned v => some v
  | PotentialOwner.ptr u => (s.udatas.get? u).map (fun ud => ud.payload)

/-- The function `LuaData::readAs<T>`. -/
def LuaData_readAs (tr : Traits) (idx : Nat) (s : LuaState) : Option (PotentialOwner × LuaState) :=
  if LuaInterfacable tr then
    match read tr s idx with
    | none => none
    | some (some v, s1) => some (PotentialOwner.owned v, s1)
    | some (none, s1) => some (PotentialOwner.monostate, s1)
  else some (PotentialOwner.monostate, s)

/-- The function `BakedData::readAs<T>`. -/
def BakedData_readAs (tr : Traits) (idx : Nat) (s : LuaState) : Option (PotentialOwner × LuaState) :=
  let s1 := BakedData_metatable tr s
  let m := lua_getmetatable s1 idx
  if m.1 && lua_rawequal m.2 (-2) (-1) then
    let s2 := lua_pop m.2 2
    match lua_touserdata s2 idx with
    | some u => some (PotentialOwner.ptr u, s2)
    | none => none
  else none

/-- The function `bakePendingData<T>`, with the pending marker on top of the
stack; `readDispatched` is `dataDispatch(ls, -1).readAs<T>()` after the
dispatch.  Returns the pointer to the new object, or null. -/
def bakePendingData (tr : Traits)
    (readDispatched : AnyData → LuaState → Option (PotentialOwner × LuaState))
    (s : LuaState) : Option (Option Nat × LuaState) :=
  match readRef s (-1) with
  | none => none
  | some luaDataStackObj =>
      let s1 := lua_rawgeti_registry s luaDataStackObj
      let pendingDataIdx := lua_gettop s1 - 1
      let d := dataDispatch s1 (-1)
      match readDispatched d.1 d.2 with
      | none => none
      | some (PotentialOwner.monostate, s2) => some (none, s2)
      | some (readAttempt, s2) =>
          match readAttempt.deref s2 with
          | none => none
          | some v =>
              let s3 := lua_newuserdata s2 v
              let udata := s2.udatas.length
              let s4 := lua_setmetatable (BakedData_metatable tr s3) (-2)
              let s5 := lua_rawseti_registry s4 luaDataStackObj
              let s6 := lua_setmetatable (IndirectData_metatable s5) pendingDataIdx
              some (some udata, s6)

/-- The member functions `readAs<T>` of the five data states, dispatched as in
`AnyData::readAs`.  The fuel bounds the recursion through the registry
(`PendingData` and `IndirectData` read what their slot refers to). -/
def readAs (tr : Traits) : Nat → AnyData → LuaState → Option (PotentialOwner × LuaState)
  | _, AnyData.FailData, _ => none
  | _, AnyData.LuaData idx, s => LuaData_readAs tr idx s
  | _, AnyData.BakedData idx, s => BakedData_readAs tr idx s
  | 0, AnyData.PendingData _, _ => none
  | 0, AnyData.IndirectData _, _ => none
  | fuel + 1, AnyData.PendingData idx, s =>
      let s1 := lua_pushvalue s idx
      let pendingDataIdx := lua_gettop s1
      match bakePendingData tr (readAs tr fuel) s1 with
      | none => none
      | some (some u, s2) => some (PotentialOwner.ptr u, popIfOnTop s2 pendingDataIdx)
      | some (none, s2) => some (PotentialOwner.monostate, popIfOnTop s2 pendingDataIdx)
  | fuel + 1, AnyData.IndirectData idx, s =>
      match readRef s idx with
      | none => none
      | some luaStackObj =>
          let s1 := lua_rawgeti_registry s luaStackObj
          let referencedDataIdx := lua_gettop s1
          let d := dataDispatch s1 (-1)
          match readAs tr fuel d.1 d.2 with
          | none => none
          | some (readAttempt, s2) => some (readAttempt, popIfOnTop s2 referencedDataIdx)

/-! ## Traits of vocabulary types (`BasicTraits.h`) -/

/-- The operation `lua_geti` on a table (metamethods are not modelled); pushes
the element (nil when the value indexed is not a table). -/
def lua_geti (s : LuaState) (idx : Nat) (n : Int) : LuaState :=
  match stackAt s idx with
  | some (Value.table t) => pushValue s (tableGet s t (Value.int n))
  | _ => pushValue s Value.nil

/-- The operation `lua_seti` on a table (metamethods are not modelled); pops
the value. -/
def lua_seti (s : LuaState) (idx : Nat) (n : Int) : LuaState :=
  let v := (stackAt s (lua_gettop s)).getD Value.nil
  match stackAt s idx with
  | some (Value.table t) => tableSet (lua_pop s 1) t (Value.int n) v
  | _ => lua_pop s 1

/-- The test `lua_isnil`. -/
def lua_isnil (s : LuaState) (idx : Int) : Bool :=
  match stackAt s (lua_absindex s idx) with
  | some Value.nil => true
  | _ => false

/-- The test `lua_type(ls, idx) == LUA_TTABLE`. -/
def lua_istable (s : LuaState) (idx : Nat) : Bool :=
  match stackAt s idx with
  | some (Value.table _) => true
  | _ => false

/-- The function template `LuaStrap::readNoPush<T>`. -/
def readNoPush (tr : Traits) (s : LuaState) (idx : Int) : Option (Option NVal × LuaState) :=
  match tr.read with
  | some rd =>
      (match rd s (lua_absindex s idx) with
       | some r => if lua_gettop r.2 = lua_gettop s then some r else none
       | none => none)
  | none => none

/-- Conversion of a 64-bit `lua_Integer` to `int` (two's complement, 32 bits). -/
def wrapInt32 (i : Int) : Int := (i + 2147483648) % 4294967296 - 2147483648

/-- The integer carried by a native value of an integral type. -/
def NVal.toInt : NVal → Int
  | NVal.int i => i
  | _ => 0

/-- The elements carried by a native container value. -/
def NVal.toList : NVal → List NVal
  | NVal.list xs => xs
  | _ => []

/-- The specialisation `Traits<Int>` for `Int = int`. -/
def intTraits : Traits where
  tid := 1
  typeName := "int"
  read := some (fun s idx =>
    match stackAt s idx with
    | some (Value.int i) => some (some (NVal.int (wrapInt32 i)), s)
    | _ => some (none, s))
  write := some (fun s v => some (pushValue s (Value.int v.toInt)))
  emplace := none
  defaultValue := none
  memberFuncs := []

/-- The specialisation `Traits<std::optional<Val>>`.  Its `write` of an engaged
optional calls `LuaStrap::write` on the optional itself and so never returns;
its `emplace` is constrained on itself and is never available. -/
def optionalTraits (val : Traits) (tid : Nat) : Traits where
  tid := tid
  typeName := "optional<" ++ val.typeName ++ ">"
  read := some (fun s idx =>
    if lua_isnil s idx then some (some (NVal.opt none), s)
    else
      match readNoPush val s idx with
      | none => none
      | some (some v, s1) => some (some (NVal.opt (some v)), s1)
      | some (none, s1) => some (none, s1))
  write := some (fun s v =>
    match v with
    | NVal.opt (some _) => none
    | _ => some (pushValue s Value.nil))
  emplace := none
  defaultValue := some (fun _ => NVal.opt none)
  memberFuncs := []

/-- The number carried by a native value of a floating-point type. -/
def NVal.toNum : NVal → Rat
  | NVal.num q => q
  | _ => 0

/-- The specialisation `Traits<Float>` for `Float = double`.  `lua_isnumber`
also accepts a string that converts to a number; that conversion belongs to
Lua and is the parameter `str2number`. -/
def doubleTraits (str2number : String → Option Rat) : Traits where
  tid := 4
  typeName := "double"
  read := some (fun s idx =>
    match stackAt s idx with
    | some (Value.num q) => some (some (NVal.num q), s)
    | some (Value.int i) => some (some (NVal.num (i : Rat)), s)
    | some (Value.str t) => some ((str2number t).map NVal.num, s)
    | _ => some (none, s))
  write := some (fun s v => some (pushValue s (Value.num v.toNum)))
  emplace := none
  defaultValue := none
  memberFuncs := []

/-- The function template `sinkArrayElem<T>`: returns 0 for nil, -1 for an
element that does not read, 1 with the element otherwise. -/
def sinkArrayElem (tr : Traits) (s : LuaState) (tblIdx : Nat) (elmKey : Int) :
    Option (Int × Option NVal × LuaState) :=
  let s1 := lua_geti s tblIdx elmKey
  if lua_isnil s1 (-1) then some (0, none, lua_pop s1 1)
  else
    match readNoPush tr s1 (-1) with
    | none => none
    | some (some v, s2) => some (1, some v, lua_pop s2 1)
    | some (none, s2) => some (-1, none, lua_pop s2 1)

/-- The loop of `readArrayUnlimited<T>`, from element `i`, with the elements
sunk so far; the fuel bounds the iterations. -/
def readArrayLoop (tr : Traits) (idx : Nat) :
    Nat → Nat → List NVal → LuaState → Option (Int × List NVal × LuaState)
  | 0, _, _, _ => none
  | fuel + 1, i, acc, s =>
      match sinkArrayElem tr s idx ((i : Int) + 1) with
      | none => none
      | some (sinkRes, v, s1) =>
          if sinkRes = 1 then
            readArrayLoop tr idx fuel (i + 1) (acc ++ (v.map (fun x => [x])).getD []) s1
          else if sinkRes = 0 then some ((i : Int), acc, s1)
          else some (-1, acc, s1)

/-- The number of entries of the table at an index. -/
def tableSizeAt (s : LuaState) (idx : Nat) : Nat :=
  match stackAt s idx with
  | some (Value.table t) => ((s.tables.get? t).map (fun tb => tb.entries.length)).getD 0
  | _ => 0

/-- The function template `readArrayUnlimited<T>` sinking into a container.
The loop ends at the first nil element, after at most one iteration per entry
of the table and one more. -/
def readArrayUnlimited (tr : Traits) (s : LuaState) (idx : Nat) :
    Option (Int × List NVal × LuaState) :=
  if !lua_istable s idx then some (-1, [], s)
  else readArrayLoop tr idx (tableSizeAt s idx + 1) 0 [] s

/-- The loop of `Traits<std::vector<Val>>::emplace`. -/
def vectorEmplaceLoop (val : Traits) (idx : Nat) : List NVal → Nat → LuaState → Option LuaState
  | [], _, s => some s
  | x :: xs, i, s =>
      match write val s x with
      | none => none
      | some s1 => vectorEmplaceLoop val idx xs (i + 1) (lua_seti s1 idx ((i : Int) + 1))

/-- The specialisation `Traits<std::vector<Val>>`. -/
def vectorTraits (val : Traits) (tid : Nat) : Traits where
  tid := tid
  typeName := "vector<" ++ val.typeName ++ ">"
  read := some (fun s idx =>
    match readArrayUnlimited val s idx with
    | none => none
    | some (n, result, s1) =>
        if lua_gettop s1 = lua_gettop s then
          (if n ≠ -1 then some (some (NVal.list result), s1) else some (none, s1))
        else none)
  write := none
  emplace := some (fun s v idx => vectorEmplaceLoop val idx v.toList 0 s)
  defaultValue := none
  memberFuncs := []

/-! ## Arity (`CppLuaInterface.h`) -/

/-- How a parameter is declared in the bound signature. -/
inductive RefKind where
  | byValue : RefKind
  | constRef : RefKind
  | mutRef : RefKind
deriving DecidableEq

/-- Fold step of `getMinMaxArgumentCount`: the pack expansion
`(minArgCount = (LuaInterfacableWithDefault<Args> ? minArgCount : argNum)), ++argNum`
run left to right over the flags "is `LuaInterfacableWithDefault`". -/
def minArgStep : List Bool → Nat → Nat → Nat
  | [], minArgCount, _ => minArgCount
  | d :: rest, minArgCount, argNum =>
      minArgStep rest (if d then minArgCount else argNum) (argNum + 1)

/-- The function `getMinMaxArgumentCount<Args...>()`, on the list of flags
`LuaInterfacableWithDefault<Args>`. -/
def getMinMaxArgumentCount (defaultable : List Bool) : Nat × Nat :=
  (minArgStep defaultable 0 1, defaultable.length)

/-! ## Calling a bound function (`FuncBinding.h`, `Helpers.h`) -/

/-- One parameter `Arg` of the bound signature: the traits of
`std::decay_t<Arg>` and how `Arg` is declared. -/
structure Param where
  traits : Traits
  kind : RefKind

/-- The test `LuaInterfacableWithDefault<Arg>` on the declared parameter type:
the concept demands a decayed type, so a reference parameter never has it. -/
def Param.isDefaultable (p : Param) : Bool :=
  decide (p.kind = RefKind.byValue) && LuaInterfacableWithDefault p.traits

/-- The struct `TryToCallResult`. -/
structure TryToCallResult where
  howManyArgsRead : Nat
  howManyArgsTotal : Nat
  errMsg : String
deriving DecidableEq

/-- Ghost events recorded by the call marshalling. -/
inductive Event where
  | readArg (luaIdx : Nat) : Event
  | invoke (args : List NVal) : Event
  | writeResult (v : NVal) : Event
  | emplace (luaIdx : Nat) (v : NVal) : Event

/-- The bound callable: from the argument objects and the Lua state to the
returned object, the argument objects after the call (seen by the caller only
through mutable references) and the Lua state. -/
abbrev Invoc := List NVal → LuaState → NVal × List NVal × LuaState

/-- The function `failedToEmplaceError`. -/
def failedToEmplaceError (typeName : String) : String :=
  "An argument which is taken by mutable reference must have 'emplace' defined in its LuaStrap type traits.\nArgument type: "
    ++ typeName ++ "\nAlternatively, pass the argument as baked data, not as lua data.\n"

/-- The function `wrongArgumentCountError`. -/
def wrongArgumentCountError (minArgCount maxArgCount argCount : Nat) : String :=
  if minArgCount = maxArgCount then
    "Wrong number of arguments. Expected " ++ toString minArgCount ++ ", got "
      ++ toString argCount ++ "."
  else
    "Wrong number of arguments. Expected between " ++ toString minArgCount ++ " and "
      ++ toString maxArgCount ++ ", got " ++ toString argCount ++ "."

/-- The message of a failed argument read in `tryToCallRaw`. -/
def failedReadingError (failedArgLuaIdx : Nat) : String :=
  "Failed reading argument #" ++ toString failedArgLuaIdx ++ "."

/-- The function `reverseIotaSequence`: entry `v` becomes `arr[size - arr[v] - 1]`. -/
def reverseIotaSequence (vals : List Nat) : List Nat :=
  vals.map (fun v => vals.getD (vals.length - vals.getD v 0 - 1) 0)

/-- The read inside `step<index, Arg>` of `tryToCallRaw`:
`dataDispatch(ls, index + 1).readAs<std::decay_t<Arg>>()`. -/
def readArg (fuel : Nat) (p : Param) (index : Nat) (s : LuaState) :
    Option (PotentialOwner × LuaState) :=
  let d := dataDispatch s ((index : Int) + 1)
  readAs p.traits fuel d.1 d.2

/-- The first fold of `tryToCallRaw`, `(step<indices, Args>() && ...)`: read
the supplied arguments from the left.  Returns `translatedArgs`,
`failedArgLuaIdx`, the state and the reads that were made. -/
def readArgs (fuel origTop : Nat) :
    List Param → Nat → LuaState → Option (List PotentialOwner × Nat × LuaState × List Event)
  | [], _, s => some ([], 0, s, [])
  | p :: ps, index, s =>
      if index ≥ origTop then
        some (List.replicate (ps.length + 1) PotentialOwner.monostate, 0, s, [])
      else
        match readArg fuel p index s with
        | none => none
        | some (a, s1) =>
            if a.toBool then
              match readArgs fuel origTop ps (index + 1) s1 with
              | none => none
              | some (rest, failed, s2, ev) =>
                  some (a :: rest, failed, s2, Event.readArg (index + 1) :: ev)
            else
              some (a :: List.replicate ps.length PotentialOwner.monostate, index + 1, s1,
                [Event.readArg (index + 1)])

/-- The inner step of the second fold: `translatedArgs[reverseIndex]` becomes
the default value when the parameter is `LuaInterfacableWithDefault`. -/
def fillStep (params : List Param) (s : LuaState) (reverseIndex : Nat)
    (args : List PotentialOwner) : List PotentialOwner :=
  match params.get? reverseIndex with
  | some p =>
      if p.isDefaultable then
        match p.traits.defaultValue with
        | some dv => args.set reverseIndex (PotentialOwner.owned (dv s))
        | none => args
      else args
  | none => args

/-- The second fold of `tryToCallRaw`,
`((step<reverseIndices>(), reverseIndices >= origTop) && ...)`. -/
def fillDefaults (params : List Param) (origTop : Nat) (s : LuaState) :
    List Nat → List PotentialOwner → List PotentialOwner
  | [], args => args
  | reverseIndex :: rest, args =>
      let args1 := fillStep params s reverseIndex args
      if reverseIndex ≥ origTop then fillDefaults params origTop s rest args1 else args1

/-- Dereference every translated argument for the invocation (`*arg...`). -/
def derefAll (s : LuaState) : List PotentialOwner → Option (List NVal)
  | [] => some []
  | a :: rest =>
      match a.deref s, derefAll s rest with
      | some v, some vs => some (v :: vs)
      | _, _ => none

/-- Overwrite the object inside a userdata block. -/
def setPayload (s : LuaState) (u : Nat) (v : NVal) : LuaState :=
  match s.udatas.get? u with
  | some ud => { s with udatas := s.udatas.set u { ud with payload := v } }
  | none => s

/-- What the invocation leaves in the argument objects: a parameter taken by
mutable reference refers to the translated argument itself (the owned object,
or the object in the userdata block, which is mutated in place); the others
are copies or const.  When two mutable references point into the same userdata
block the value of the later position is the one kept. -/
def storeArgs : List Param → List PotentialOwner → List NVal → LuaState →
    List PotentialOwner × LuaState
  | p :: ps, a :: rest, v :: vs, s =>
      if p.kind = RefKind.mutRef then
        match a with
        | PotentialOwner.owned _ =>
            let r := storeArgs ps rest vs s
            (PotentialOwner.owned v :: r.1, r.2)
        | PotentialOwner.ptr u =>
            let r := storeArgs ps rest vs (setPayload s u v)
            (PotentialOwner.ptr u :: r.1, r.2)
        | PotentialOwner.monostate =>
            let r := storeArgs ps rest vs s
            (PotentialOwner.monostate :: r.1, r.2)
      else
        let r := storeArgs ps rest vs s
        (a :: r.1, r.2)
  | _, args, _, s => (args, s)

/-- The third fold of `tryToCallRaw`, `(emplaceArg<indices>() && ...)`, with
`n = sizeof...(Args)`. -/
def emplaceArgs (n : Nat) :
    List Param → List PotentialOwner → Nat → LuaState →
      Option (TryToCallResult × LuaState × List Event)
  | p :: ps, a :: rest, index, s =>
      if p.kind = RefKind.mutRef then
        match a with
        | PotentialOwner.owned v =>
            (match p.traits.emplace with
             | some _ =>
                 match emplace p.traits s v ((index : Int) + 1) with
                 | none => none
                 | some s1 =>
                     match emplaceArgs n ps rest (index + 1) s1 with
                     | none => none
                     | some r => some (r.1, r.2.1, Event.emplace (index + 1) v :: r.2.2)
             | none =>
                 some ({ howManyArgsRead := n, howManyArgsTotal := n,
                         errMsg := failedToEmplaceError p.traits.typeName }, s, []))
        | _ => emplaceArgs n ps rest (index + 1) s
      else emplaceArgs n ps rest (index + 1) s
  | _, _, _, s => some ({ howManyArgsRead := n, howManyArgsTotal := n, errMsg := "" }, s, [])

/-- The write of the returned object after the invocation: `LuaStrap::write`
for a `Ret` that is neither `void` nor the baked-return tag (`ret` is its
traits), nothing otherwise; with the event recorded for it. -/
def writeReturn (ret : Option Traits) (s : LuaState) (v : NVal) : Option LuaState × List Event :=
  match ret with
  | some rt => (write rt s v, [Event.writeResult v])
  | none => (some s, [])

/-- The argument lists of the invocations recorded in a trace. -/
def invocations : List Event → List (List NVal)
  | [] => []
  | Event.invoke args :: rest => args :: invocations rest
  | _ :: rest => invocations rest

/-- The objects emplaced into the stack slot `luaIdx`, as recorded in a trace. -/
def emplacedAt (luaIdx : Nat) : List Event → List NVal
  | [] => []
  | Event.emplace i v :: rest =>
      if i = luaIdx then v :: emplacedAt luaIdx rest else emplacedAt luaIdx rest
  | _ :: rest => emplacedAt luaIdx rest

/-- The stack slots read, as recorded in a trace. -/
def readSlots : List Event → List Nat
  | [] => []
  | Event.readArg i :: rest => i :: readSlots rest
  | _ :: rest => readSlots rest

/-- Reading the arguments of the given parameters one after the other, from
stack slot `index + 1` on, each read starting in the state the previous one
left: the translated arguments and the state after the last read. -/
def readSeq (fuel : Nat) : List Param → Nat → LuaState → Option (List PotentialOwner × LuaState)
  | [], _, s => some ([], s)
  | p :: ps, index, s =>
      match readArg fuel p index s with
      | none => none
      | some (a, s1) =>
          match readSeq fuel ps (index + 1) s1 with
          | none => none
          | some (rest, s2) => some (a :: rest, s2)

/-- What a call attempt returns in the model: the `TryToCallResult`, the Lua
state it leaves, and the ghost trace. -/
structure CallOutcome where
  res : TryToCallResult
  state : LuaState
  trace : List Event

/-- The function template `tryToCallRaw<Invoc, Ret, Args...>`.  `ret` is the
traits of `Ret`, or `none` when `Ret` is `void` or the baked-return tag. -/
def tryToCallRaw (fuel : Nat) (params : List Param) (ret : Option Traits) (f : Invoc)
    (s : LuaState) : Option CallOutcome :=
  let mm := getMinMaxArgumentCount (params.map Param.isDefaultable)
  let origTop := lua_gettop s
  if !(decide (origTop ≥ mm.1) && decide (origTop ≤ mm.2)) then
    some { res := { howManyArgsRead := 0, howManyArgsTotal := params.length,
                    errMsg := wrongArgumentCountError mm.1 mm.2 origTop },
           state := s, trace := [] }
  else
    match readArgs fuel origTop params 0 s with
    | none => none
    | some (translatedArgs, failedArgLuaIdx, s1, reads) =>
        if failedArgLuaIdx ≠ 0 then
          some { res := { howManyArgsRead := failedArgLuaIdx - 1,
                          howManyArgsTotal := params.length,
                          errMsg := failedReadingError failedArgLuaIdx },
                 state := lua_settop s1 origTop, trace := reads }
        else
          let args := fillDefaults params origTop s1
            (reverseIotaSequence (List.range params.length)) translatedArgs
          match derefAll s1 args with
          | none => none
          | some vals =>
              let r := f vals s1
              let st := storeArgs params args r.2.1 r.2.2
              let w := writeReturn ret st.2 r.1
              match w.1 with
              | none => none
              | some s4 =>
                  match emplaceArgs params.length params st.1 0 s4 with
                  | none => none
                  | some e =>
                      some { res := e.1, state := e.2.1,
                             trace := reads ++ [Event.invoke vals] ++ w.2 ++ e.2.2 }

/-- The contract of `read` in the rules for writing traits: it signals no
error and changes nothing but the stack, where it may only push ("'read' should
generally not push anything on stack, but some special types require it"). -/
def FramedRead (tr : Traits) : Prop :=
  ∀ rd, tr.read = some rd → ∀ (s : LuaState) (i : Nat) (res : Option NVal) (s1 : LuaState),
    rd s i = some (res, s1) → ∃ extra, s1 = { s with stack := s.stack ++ extra }

/-- The userdata `m` is a pending marker for the registry slot `r`, as
`LuaData::toBakedData` creates it: it holds the reference `r`, its metatable is
the one of `PendingData::metatable`, the slot holds a value that is not a
userdata, and the metatable of `IndirectData::metatable`, if it exists already,
is a different table kept in a different slot. -/
def IsPendingMarker (s : LuaState) (m : Nat) (r : Int) : Prop :=
  ∃ tP rP, s.udatas.get? m = some { payload := NVal.int r, meta := some tP } ∧
    s.pendingRefs = some rP ∧ registryGet s rP = Value.table tP ∧ tP < s.tables.length ∧
    (∃ x, s.registry.lookup r = some x) ∧ (∀ u, registryGet s r ≠ Value.udata u) ∧
    ∀ rI, s.indirectRefs = some rI →
      rI ≠ r ∧ ∃ tI, registryGet s rI = Value.table tI ∧ tI ≠ tP

/-- The userdata `m` carries the metatable of `IndirectData::metatable`. -/
def IsIndirectMarker (s : LuaState) (m : Nat) : Prop :=
  ∃ tI rI ud, s.udatas.get? m = some ud ∧ ud.meta = some tI ∧
    s.indirectRefs = some rI ∧ registryGet s rI = Value.table tI

/-! ## The lifecycle states and the registry of metatables -/

/-- The states of the data lifecycle. -/
inductive DataState where
  | Dynamic : DataState
  | Fail : DataState
  | Indirect : DataState
  | PendingBake : DataState
  | Baked : DataState
deriving DecidableEq

/-- The lifecycle state that an alternative of `AnyData` stands for. -/
def AnyData.state : AnyData → DataState
  | AnyData.FailData => DataState.Fail
  | AnyData.LuaData _ => DataState.Dynamic
  | AnyData.PendingData _ => DataState.PendingBake
  | AnyData.IndirectData _ => DataState.Indirect
  | AnyData.BakedData _ => DataState.Baked

/-- The marker metatable that a static map entry refers to, once it has been
created. -/
def markerMetatable (s : LuaState) (refs : Option Int) : Option Value :=
  refs.map (registryGet s)

/-- The classification table of the specification: not a userdata is Dynamic; a
userdata without metatable is Fail; with the metatable of the indirect markers
Indirect; with the metatable of the pending markers PendingBake; any other
userdata with a metatable is Baked. -/
def classifyByTable (s : LuaState) (v : Value) : DataState :=
  match v with
  | Value.udata _ =>
      (match metatableOf s v with
       | none => DataState.Fail
       | some t =>
           if markerMetatable s s.indirectRefs = some (Value.table t) then DataState.Indirect
           else if markerMetatable s s.pendingRefs = some (Value.table t) then DataState.PendingBake
           else DataState.Baked)
  | _ => DataState.Dynamic

/-- The registry slot `r` holds the table `t`, and that table exists. -/
def HoldsTable (s : LuaState) (r : Int) (t : Nat) : Prop :=
  s.registry.lookup r = some (Value.table t) ∧ t < s.tables.length

/-- The state of the metatables that the library keeps in the registry: every
reference of a static map names a slot holding an existing table, the
metatables of the pending markers, of the indirect markers and of the baked
types are pairwise different tables, and the metatable of every userdata
exists. -/
structure MetatablesOk (s : LuaState) : Prop where
  pending : ∀ r, s.pendingRefs = some r → ∃ t, HoldsTable s r t
  indirect : ∀ r, s.indirectRefs = some r → ∃ t, HoldsTable s r t
  baked : ∀ tid r, s.bakedRefs.lookup tid = some r → ∃ t, HoldsTable s r t
  pendingIndirect : ∀ rP rI, s.pendingRefs = some rP → s.indirectRefs = some rI →
    s.registry.lookup rP ≠ s.registry.lookup rI
  bakedPending : ∀ tid rB rP, s.bakedRefs.lookup tid = some rB → s.pendingRefs = some rP →
    s.registry.lookup rB ≠ s.registry.lookup rP
  bakedIndirect : ∀ tid rB rI, s.bakedRefs.lookup tid = some rB → s.indirectRefs = some rI →
    s.registry.lookup rB ≠ s.registry.lookup rI
  udataMeta : ∀ u ud t, s.udatas.get? u = some ud → ud.meta = some t → t < s.tables.length

/-- The step from `s` to `t` only created metatables: the userdata are the
same, the tables and registry slots of `s` are kept, the references of the
static maps are kept, and a slot that is new holds a table that is new. -/
structure CachesGrown (s t : LuaState) : Prop where
  udatas : t.udatas = s.udatas
  tablesLen : s.tables.length ≤ t.tables.length
  tables : ∀ i, i < s.tables.length → t.tables.get? i = s.tables.get? i
  registry : ∀ k x, s.registry.lookup k = some x → t.registry.lookup k = some x
  fresh : ∀ k x, s.registry.lookup k = none → t.registry.lookup k = some x →
    ∃ n, x = Value.table n ∧ s.tables.length ≤ n
  pending : ∀ r, s.pendingRefs = some r → t.pendingRefs = some r
  indirect : ∀ r, s.indirectRefs = some r → t.indirectRefs = some r
  baked : ∀ tid r, s.bakedRefs.lookup tid = some r → t.bakedRefs.lookup tid = some r
  pendingNew : ∀ r, s.pendingRefs = none → t.pendingRefs = some r → s.registry.lookup r = none
  indirectNew : ∀ r, s.indirectRefs = none → t.indirectRefs = some r → s.registry.lookup r = none
  bakedNew : ∀ tid r, s.bakedRefs.lookup tid = none → t.bakedRefs.lookup tid = some r →
    s.registry.lookup r = none

/-- The alternative of `AnyData` that stands for a lifecycle state; all but
`FailData` carry the index. -/
def AnyData.ofState : DataState → Nat → AnyData
  | DataState.Fail, _ => AnyData.FailData
  | DataState.Dynamic, i => AnyData.LuaData i
  | DataState.PendingBake, i => AnyData.PendingData i
  | DataState.Indirect, i => AnyData.IndirectData i
  | DataState.Baked, i => AnyData.BakedData i

/-- The userdata `m` is a pending marker of a well-formed state: it holds the
reference `r` and carries the metatable of the pending markers, the registry
slot `r` holds the value `d`, which is not a userdata, and `r` is none of the
slots in which the library keeps a metatable. -/
structure PendingMarker (s : LuaState) (m : Nat) (r : Int) (d : Value) : Prop where
  ok : MetatablesOk s
  marker : ∃ tP rP, s.udatas.get? m = some { payload := NVal.int r, meta := some tP } ∧
    s.pendingRefs = some rP ∧ s.registry.lookup rP = some (Value.table tP)
  slot : s.registry.lookup r = some d
  dynamic : ∀ u, d ≠ Value.udata u
  notPending : s.pendingRefs ≠ some r
  notIndirect : s.indirectRefs ≠ some r
  notBaked : ∀ tid, s.bakedRefs.lookup tid ≠ some r

/-- Ghost count of the calls of `LuaStrap::read<T>` (and with it of
`Traits<T>::read`) made by `readAs<T>` on dispatched data: one in
`LuaData::readAs` when `T` is `LuaInterfacable`, none in `BakedData::readAs`,
and in `PendingData::readAs` (through `bakePendingData`) and
`IndirectData::readAs` those of the nested `dataDispatch(ls, -1).readAs<T>()`. -/
def readDecodes (tr : Traits) : Nat → AnyData → LuaState → Nat
  | _, AnyData.FailData, _ => 0
  | _, AnyData.LuaData _, _ => if LuaInterfacable tr then 1 else 0
  | _, AnyData.BakedData _, _ => 0
  | 0, AnyData.PendingData _, _ => 0
  | 0, AnyData.IndirectData _, _ => 0
  | fuel + 1, AnyData.PendingData idx, s =>
      let s1 := lua_pushvalue s idx
      match readRef s1 (-1) with
      | none => 0
      | some luaDataStackObj =>
          let d := dataDispatch (lua_rawgeti_registry s1 luaDataStackObj) (-1)
          readDecodes tr fuel d.1 d.2
  | fuel + 1, AnyData.IndirectData idx, s =>
      match readRef s idx with
      | none => 0
      | some luaStackObj =>
          let d := dataDispatch (lua_rawgeti_registry s luaStackObj) (-1)
          readDecodes tr fuel d.1 d.2

/-- The expression `dataDispatch(ls, idx).readAs<T>()` evaluated `n` times in a
row: the results, the number of calls of `Traits<T>::read` (ghost) and the
final state. -/
def readRepeatedly (tr : Traits) (fuel : Nat) (idx : Int) :
    Nat → LuaState → Option (List PotentialOwner × Nat × LuaState)
  | 0, s => some ([], 0, s)
  | n + 1, s =>
      let d := dataDispatch s idx
      match readAs tr fuel d.1 d.2 with
      | none => none
      | some (a, s1) =>
          match readRepeatedly tr fuel idx n s1 with
          | none => none
          | some (rest, c, s2) => some (a :: rest, readDecodes tr fuel d.1 d.2 + c, s2)

/-- The userdata `m` is an indirect marker of a well-formed state: it holds the
reference `r` and carries the metatable of the indirect markers, the registry
slot `r` holds the userdata `u`, whose block holds the object `v` of the type
`tid` under the metatable of `BakedData` for that type; the metatable of the
pending markers exists. -/
structure IndirectMarker (s : LuaState) (m : Nat) (r : Int) (u tid : Nat) (v : NVal) :
    Prop where
  ok : MetatablesOk s
  marker : ∃ tI rI, s.udatas.get? m = some { payload := NVal.int r, meta := some tI } ∧
    s.indirectRefs = some rI ∧ s.registry.lookup rI = some (Value.table tI)
  slot : s.registry.lookup r = some (Value.udata u)
  object : ∃ tB rB, s.udatas.get? u = some { payload := v, meta := some tB } ∧
    s.bakedRefs.lookup tid = some rB ∧ s.registry.lookup rB = some (Value.table tB)
  pending : ∃ rP, s.pendingRefs = some rP

/-! ## Baking and unbaking from Lua (`LuaStrap.cpp`) -/

/-- The operation `lua_getfield` on a table (metamethods are not modelled):
pushes the field, nil when the value indexed is not a table. -/
def lua_getfield (s : LuaState) (idx : Int) (k : String) : LuaState :=
  match stackAt s (lua_absindex s idx) with
  | some (Value.table t) => pushValue s (tableGet s t (Value.str k))
  | _ => pushValue s Value.nil

/-- The test `lua_iscfunction`. -/
def lua_iscfunction (s : LuaState) (idx : Int) : Bool :=
  match stackAt s (lua_absindex s idx) with
  | some (Value.cfunc _ _) => true
  | _ => false

/-- The operation `lua_remove`: removes the element at the index, shifting
down the elements above it. -/
def lua_remove (s : LuaState) (idx : Int) : LuaState :=
  { s with stack := s.stack.eraseIdx (lua_absindex s idx - 1) }

/-- The C functions that can be called from Lua, as an environment.  The
function is applied to the state whose stack is the frame of the call (the
arguments).  `none`: the call aborts or does not return; `Except.error`: it
raises a Lua error with this message; `Except.ok`: it returns one result, the
top of the stack of the state it leaves. -/
abbrev CFuncs := Value → LuaState → Option (Except String LuaState)

/-- The call `lua_call(ls, 1, 1)`: the function below the top is called with
the top as its argument, both are replaced by the result. -/
def lua_call11 (env : CFuncs) (s : LuaState) : Option (Except String LuaState) :=
  let n := lua_gettop s
  let f := (stackAt s (n - 1)).getD Value.nil
  let arg := (stackAt s n).getD Value.nil
  match env f { s with stack := [arg] } with
  | none => none
  | some (Except.error e) => some (Except.error e)
  | some (Except.ok s1) =>
      some (Except.ok { s1 with
        stack := s.stack.take (n - 2) ++ [(stackAt s1 (lua_gettop s1)).getD Value.nil] })

/-- The function stored as `toBakedData` in the metatable of `BakedData<T>`
(`DataTypes.h`): a new userdata block, filled with
`unconditionalRead<T>(ls, 1)`, which raises an error (with the empty default
message) when the argument does not read as `T`. -/
def toBakedDataHook (tr : Traits) (s : LuaState) : Option (Except String LuaState) :=
  let s1 := lua_newuserdata s NVal.unit
  match read tr s1 1 with
  | none => none
  | some (none, _) => some (Except.error "")
  | some (some v, s2) =>
      let s3 := setPayload s2 s.udatas.length v
      some (Except.ok (lua_setmetatable (BakedData_metatable tr s3) (-2)))

/-- The error message of the function stored as `toLuaData`. -/
def toLuaDataError : String :=
  "Wrong argument for 'toLuaData'. Note: functions 'toLuaData' and 'toBakedData' of a baked object's metatable are meant for internal use. Use the library provided functions 'unbaked' and 'markedForBaking' instead."

/-- The function stored as `toLuaData` in the metatable of `BakedData<T>`
(`DataTypes.h`): checks the metatable of its argument and writes the object. -/
def toLuaDataHook (tr : Traits) (s : LuaState) : Option (Except String LuaState) :=
  let m := lua_getmetatable s 1
  if !m.1 then some (Except.error toLuaDataError)
  else
    let s1 := BakedData_metatable tr m.2
    if !lua_rawequal s1 (-2) (-1) then some (Except.error toLuaDataError)
    else
      match (lua_touserdata s1 1).bind (fun u => s1.udatas.get? u) with
      | none => none
      | some ud =>
          match write tr s1 ud.payload with
          | none => none
          | some s2 => some (Except.ok s2)

/-- The function `LuaData::toBakedData`, the value on top of the stack. -/
def LuaData_toBakedData (env : CFuncs) (s : LuaState) : Option (Except String LuaState) :=
  let m := lua_getmetatable s (-1)
  let p : Bool × LuaState :=
    if m.1 then
      let s1 := lua_getfield m.2 (-1) "toBakedData"
      if lua_iscfunction s1 (-1) then (true, s1) else (false, lua_pop s1 2)
    else (false, m.2)
  if p.1 then
    match lua_call11 env (lua_pushvalue p.2 (-3)) with
    | none => none
    | some (Except.error e) => some (Except.error e)
    | some (Except.ok s3) => some (Except.ok (lua_remove s3 (-2)))
  else
    let r := luaL_ref (lua_pushvalue p.2 (-1))
    let s4 := lua_newuserdata r.2 (NVal.int r.1)
    some (Except.ok (lua_setmetatable (PendingData_metatable s4) (-2)))

/-- The member functions `toBakedData` of the five data states, dispatched as
in `AnyData::toBakedData`. -/
def toBakedData (env : CFuncs) : AnyData → LuaState → Option (Except String LuaState)
  | AnyData.FailData, _ => none
  | AnyData.LuaData _, s => LuaData_toBakedData env s
  | AnyData.PendingData _, _ => some (Except.error "The data is already marked for baking.")
  | AnyData.BakedData _, _ => some (Except.error "The data is already baked.")
  | AnyData.IndirectData _, _ => some (Except.error "The data is already baked.")

/-- The Lua function `markedForBaking` published by `publishLuaStrapUtils`; the
stack of the state is the frame of the call. -/
def markedForBaking (env : CFuncs) (s : LuaState) : Option (Except String LuaState) :=
  if lua_gettop s = 0 then some (Except.error "No arguments provided.")
  else
    let d := dataDispatch (lua_settop s 1) 1
    toBakedData env d.1 d.2

/-- The function `BakedData::toLuaData`, the userdata on top of the stack. -/
def BakedData_toLuaData (env : CFuncs) (s : LuaState) : Option (Except String LuaState) :=
  let m := lua_getmetatable s (-1)
  if !m.1 then none
  else
    let s1 := lua_getfield m.2 (-1) "toLuaData"
    if !lua_iscfunction s1 (-1) then none
    else
      match lua_call11 env (lua_pushvalue s1 (-3)) with
      | none => none
      | some (Except.error e) => some (Except.error e)
      | some (Except.ok s3) => some (Except.ok (lua_remove s3 (-2)))

/-- The member functions `toLuaData` of the five data states, dispatched as in
`AnyData::toLuaData`. -/
def toLuaData (env : CFuncs) : AnyData → LuaState → Option (Except String LuaState)
  | AnyData.FailData, _ => none
  | AnyData.LuaData _, _ => some (Except.error "Can't convert LuaData to LuaData.")
  | AnyData.PendingData _, s =>
      (match readRef s 1 with
       | none => none
       | some refToLuaData => some (Except.ok (lua_rawgeti_registry s refToLuaData)))
  | AnyData.BakedData _, s => BakedData_toLuaData env s
  | AnyData.IndirectData _, s =>
      (match readRef s (-1) with
       | none => none
       | some ref =>
           match BakedData_toLuaData env (lua_rawgeti_registry s ref) with
           | none => none
           | some (Except.error e) => some (Except.error e)
           | some (Except.ok s2) => some (Except.ok (lua_remove s2 (-2))))

/-- The Lua function `unbaked` published by `publishLuaStrapUtils`; the stack of
the state is the frame of the call. -/
def unbaked (env : CFuncs) (s : LuaState) : Option (Except String LuaState) :=
  if lua_gettop s = 0 then some (Except.error "No arguments provided.")
  else
    let d := dataDispatch (lua_settop s 1) 1
    toLuaData env d.1 d.2

/-- The value that a function returning one result returns. -/
def returned (s : LuaState) : Value := (stackAt s (lua_gettop s)).getD Value.nil

/-- The environment in which the functions `toBakedData` and `toLuaData` of the
metatables of the given types are the ones of `BakedData::metatable<T>`; no
other C function is modelled. -/
def hooksOf (types : List Traits) : CFuncs := fun f s =>
  match f with
  | Value.cfunc name tid =>
      (match types.find? (fun tr => tr.tid == tid) with
       | some tr =>
           if name = "toBakedData" then toBakedDataHook tr s
           else if name = "toLuaData" then toLuaDataHook tr s
           else none
       | none => none)
  | _ => none

/-- The `toBakedData` hook that the metatable of a value provides: the field
`toBakedData` of the metatable when it is a C function. -/
def bakingHook (s : LuaState) (v : Value) : Option Value :=
  match metatableOf s v with
  | none => none
  | some t =>
      match tableGet s t (Value.str "toBakedData") with
      | Value.cfunc n tid => some (Value.cfunc n tid)
      | _ => none

/-! ## More traits of vocabulary types (`BasicTraits.h`) -/

/-- The characters of a `std::string` up to its first zero byte: what a
`const char*` obtained from it denotes (`c_str()`, `lua_tostring`). -/
def cString (s : String) : String :=
  String.mk (s.data.takeWhile (fun c => c != Char.ofNat 0))

/-- The string carried by a native value of type `std::string`. -/
def NVal.toStr : NVal → String
  | NVal.str s => s
  | _ => ""

/-- The specialisation `Traits<std::string>`: `read` builds the string from
the `const char*` that `lua_tostring` returns, `write` pushes `v.c_str()` with
`lua_pushstring`; both end at the first zero byte. -/
def stringTraits : Traits where
  tid := 5
  typeName := "string"
  read := some (fun s idx =>
    match stackAt s idx with
    | some (Value.str t) => some (some (NVal.str (cString t)), s)
    | _ => some (none, s))
  write := some (fun s v => some (pushValue s (Value.str (cString v.toStr))))
  emplace := none
  defaultValue := none
  memberFuncs := []

/-- The call chain of `Traits<std::optional<Val>>::write`, unrolled `fuel`
times: for an engaged optional it calls `LuaStrap::write(ls, v)` with the
optional itself, which calls `Traits<std::optional<Val>>::write` again; for an
empty one it pushes nil.  `none`: the chain has not ended after `fuel` calls. -/
def optionalWriteCalls : Nat → LuaState → NVal → Option LuaState
  | 0, _, _ => none
  | fuel + 1, s, NVal.opt (some x) => optionalWriteCalls fuel s (NVal.opt (some x))
  | _ + 1, s, _ => some (pushValue s Value.nil)

/-- The operation `lua_rawgeti` on a table; metamethods are not modelled, so
it is `lua_geti`. -/
def lua_rawgeti (s : LuaState) (idx : Nat) (n : Int) : LuaState := lua_geti s idx n

/-- The operation `lua_rawseti` on a table; metamethods are not modelled, so
it is `lua_seti`. -/
def lua_rawseti (s : LuaState) (idx : Nat) (n : Int) : LuaState := lua_seti s idx n

/-- The test `lua_isnumber` with the conversion `lua_tonumber`: a number, or a
string that converts to one. -/
def toNumber (str2number : String → Option Rat) : Option Value → Option Rat
  | some (Value.num q) => some q
  | some (Value.int i) => some (i : Rat)
  | some (Value.str t) => str2number t
  | _ => none

/-- The specialisation `Traits<bool>`. -/
def boolTraits : Traits where
  tid := 6
  typeName := "bool"
  read := some (fun s idx =>
    match stackAt s idx with
    | some (Value.bool b) => some (some (NVal.bool b), s)
    | _ => some (none, s))
  write := some (fun s v =>
    match v with
    | NVal.bool b => some (pushValue s (Value.bool b))
    | _ => some (pushValue s (Value.bool false)))
  emplace := none
  defaultValue := none
  memberFuncs := []

/-- The specialisation `Traits<Int>` for an integral type of the given width
and signedness: `write` converts to `lua_Integer` (64 bits, signed), `read`
converts `lua_Integer` to `Int`; both conversions are modular. -/
def integralTraits (bits : Nat) (signed : Bool) (tid : Nat) : Traits where
  tid := tid
  typeName := "integral"
  read := some (fun s idx =>
    match stackAt s idx with
    | some (Value.int i) =>
        some (some (NVal.int (if signed then (i + 2 ^ (bits - 1)) % 2 ^ bits - 2 ^ (bits - 1)
                              else i % 2 ^ bits)), s)
    | _ => some (none, s))
  write := some (fun s v =>
    some (pushValue s (Value.int ((v.toInt + 2 ^ 63) % 2 ^ 64 - 2 ^ 63))))
  emplace := none
  defaultValue := none
  memberFuncs := []

/-- The specialisation `Traits<std::complex<T>>` for a floating-point `T`; the
value is the list of the real and the imaginary part. -/
def complexTraits (str2number : String → Option Rat) (tid : Nat) : Traits where
  tid := tid
  typeName := "complex"
  read := some (fun s idx =>
    if !lua_istable s idx then some (none, s)
    else
      let s1 := lua_geti s idx 1
      let s2 := lua_geti s1 idx 2
      match toNumber str2number (stackAt s2 (lua_absindex s2 (-2))),
            toNumber str2number (stackAt s2 (lua_absindex s2 (-1))) with
      | some r, some i => some (some (NVal.list [NVal.num r, NVal.num i]), lua_pop s2 2)
      | _, _ => some (none, s2))
  write := none
  emplace := some (fun s v idx =>
    let s1 := lua_rawseti (pushValue s (Value.num (v.toList.getD 0 NVal.unit).toNum)) idx 1
    some (lua_rawseti (pushValue s1 (Value.num (v.toList.getD 1 NVal.unit).toNum)) idx 2))
  defaultValue := none
  memberFuncs := []

/-- The loop of `readArrayUpTo<T>`, `remaining` iterations from element `i`. -/
def readArrayUpToLoop (tr : Traits) (idx : Nat) :
    Nat → Nat → List NVal → LuaState → Option (Int × List NVal × LuaState)
  | 0, i, acc, s => some ((i : Int), acc, s)
  | remaining + 1, i, acc, s =>
      match sinkArrayElem tr s idx ((i : Int) + 1) with
      | none => none
      | some (sinkRes, v, s1) =>
          if sinkRes = 1 then
            readArrayUpToLoop tr idx remaining (i + 1) (acc ++ (v.map (fun x => [x])).getD []) s1
          else if sinkRes = 0 then some ((i : Int), acc, s1)
          else some (-1, acc, s1)

/-- The function template `readArrayUpTo<T>` sinking into a container. -/
def readArrayUpTo (tr : Traits) (s : LuaState) (idx capacity : Nat) :
    Option (Int × List NVal × LuaState) :=
  if !lua_istable s idx then some (-1, [], s)
  else
    let s1 := lua_geti s idx ((capacity : Int) + 1)
    if !lua_isnil s1 (-1) then some (-1, [], s1)
    else readArrayUpToLoop tr idx capacity 0 [] (lua_pop s1 1)

/-- The loop of `Traits<std::array<Val, size>>::emplace`. -/
def arrayEmplaceLoop (val : Traits) (idx : Nat) : List NVal → Nat → LuaState → Option LuaState
  | [], _, s => some s
  | x :: xs, i, s =>
      match write val s x with
      | none => none
      | some s1 => arrayEmplaceLoop val idx xs (i + 1) (lua_rawseti s1 idx ((i : Int) + 1))

/-- The specialisation `Traits<std::array<Val, size>>`. -/
def arrayTraits (val : Traits) (size tid : Nat) : Traits where
  tid := tid
  typeName := "array<" ++ val.typeName ++ ">"
  read := some (fun s idx =>
    match readArrayUpTo val s idx size with
    | none => none
    | some (n, result, s1) =>
        if lua_gettop s1 = lua_gettop s then
          (if n = (size : Int) then some (some (NVal.list result), s1) else some (none, s1))
        else none)
  write := none
  emplace := some (fun s v idx => arrayEmplaceLoop val idx v.toList 0 s)
  defaultValue := none
  memberFuncs := []

/-- The specialisation `Traits<std::pair<First, Second>>`. -/
def pairTraits (first second : Traits) (tid : Nat) : Traits where
  tid := tid
  typeName := "pair<" ++ first.typeName ++ "," ++ second.typeName ++ ">"
  read := some (fun s idx =>
    if !lua_istable s idx then some (none, s)
    else
      match read first (lua_rawgeti s idx 1) (-1) with
      | none => none
      | some (none, s2) => some (none, lua_pop s2 1)
      | some (some fv, s2) =>
          match read second (lua_rawgeti (lua_pop s2 1) idx 2) (-1) with
          | none => none
          | some (none, s5) => some (none, lua_pop s5 1)
          | some (some sv, s5) => some (some (NVal.list [fv, sv]), lua_pop s5 1))
  write := none
  emplace := some (fun s v idx =>
    match write first s (v.toList.getD 0 NVal.unit) with
    | none => none
    | some s1 =>
        match write second (lua_seti s1 idx 1) (v.toList.getD 1 NVal.unit) with
        | none => none
        | some s2 => some (lua_seti s2 idx 2))
  defaultValue := none
  memberFuncs := []

/-- The fold `(readElem<indices>() && ...)` of `Traits<std::tuple<Vals...>>::read`. -/
def tupleReadLoop (idx : Nat) :
    List Traits → Nat → List NVal → LuaState → Option (Option NVal × LuaState)
  | [], _, acc, s => some (some (NVal.list acc), s)
  | t :: rest, i, acc, s =>
      match readNoPush t (lua_rawgeti s idx ((i : Int) + 1)) (-1) with
      | none => none
      | some (none, s2) => some (none, lua_pop s2 1)
      | some (some v, s2) => tupleReadLoop idx rest (i + 1) (acc ++ [v]) (lua_pop s2 1)

/-- The pack expansion `writeElem<indices>()...` of
`Traits<std::tuple<Vals...>>::emplace`. -/
def tupleEmplaceLoop (idx : Nat) : List Traits → List NVal → Nat → LuaState → Option LuaState
  | t :: rest, x :: xs, i, s =>
      (match write t s x with
       | none => none
       | some s1 => tupleEmplaceLoop idx rest xs (i + 1) (lua_seti s1 idx ((i : Int) + 1)))
  | _, _, _, s => some s

/-- The specialisation `Traits<std::tuple<Vals...>>`. -/
def tupleTraits (vals : List Traits) (tid : Nat) : Traits where
  tid := tid
  typeName := "tuple"
  read := some (fun s idx =>
    if !lua_istable s idx then some (none, s) else tupleReadLoop idx vals 0 [] s)
  write := none
  emplace := some (fun s v idx => tupleEmplaceLoop idx vals v.toList 0 s)
  defaultValue := none
  memberFuncs := []

/-- The entries of the table at an index, in the order in which `lua_next`
visits them. -/
def tableEntriesAt (s : LuaState) (idx : Nat) : List (Value × Value) :=
  match stackAt s idx with
  | some (Value.table t) => ((s.tables.get? t).map (fun tb => tb.entries)).getD []
  | _ => []

/-- The call `result.emplace(key, val)` on a `std::map` kept as the list of its
entries in ascending key order (`keyLt` is `std::less<Key>`): `none` when an
equivalent key is present. -/
def mapInsert (keyLt : NVal → NVal → Bool) (k v : NVal) :
    List (NVal × NVal) → Option (List (NVal × NVal))
  | [] => some [(k, v)]
  | (k1, v1) :: rest =>
      if keyLt k k1 then some ((k, v) :: (k1, v1) :: rest)
      else if keyLt k1 k then (mapInsert keyLt k v rest).map (fun r => (k1, v1) :: r)
      else none

/-- The loop `while (lua_next(ls, idx))` of `Traits<std::map<Key, Val>>::read`
over the entries still to visit; between two iterations the key of the entry
just visited is on top of the stack, here it is popped at the end of the
iteration and the next key pushed at the start of the next. -/
def mapReadLoop (key val : Traits) (keyLt : NVal → NVal → Bool) :
    List (Value × Value) → List (NVal × NVal) → LuaState →
      Option (Option (List (NVal × NVal)) × LuaState)
  | [], acc, s => some (some acc, s)
  | (k, v) :: rest, acc, s =>
      let s1 := pushValue (pushValue s k) v
      match readNoPush key s1 (-2) with
      | none => none
      | some (kr, s2) =>
          match readNoPush val s2 (-1) with
          | none => none
          | some (vr, s3) =>
              let s4 := lua_pop s3 1
              match kr, vr with
              | some kk, some vv =>
                  (match mapInsert keyLt kk vv acc with
                   | some acc1 => mapReadLoop key val keyLt rest acc1 (lua_pop s4 1)
                   | none => some (none, s4))
              | _, _ => some (none, s4)

/-- The native value of a `std::map`: the list of its entries, each the list of
key and value. -/
def NVal.ofMap (m : List (NVal × NVal)) : NVal :=
  NVal.list (m.map (fun kv => NVal.list [kv.1, kv.2]))

/-- The entries of the native value of a `std::map`. -/
def NVal.toMap (v : NVal) : List (NVal × NVal) :=
  v.toList.map (fun e => (e.toList.getD 0 NVal.unit, e.toList.getD 1 NVal.unit))

/-- The helper `clearTable` of `Helpers.h`: removes every entry of the table. -/
def clearTable (s : LuaState) (idx : Nat) : LuaState :=
  match stackAt s idx with
  | some (Value.table t) =>
      (match s.tables.get? t with
       | some tb => { s with tables := s.tables.set t { tb with entries := [] } }
       | none => s)
  | _ => s

/-- The operation `lua_settable` on a table (metamethods are not modelled):
pops the key and the value and assigns; `none` is the error raised for a nil
key. -/
def lua_settable (s : LuaState) (idx : Nat) : Option LuaState :=
  let k := (stackAt s (lua_gettop s - 1)).getD Value.nil
  let v := (stackAt s (lua_gettop s)).getD Value.nil
  if k = Value.nil then none
  else
    match stackAt s idx with
    | some (Value.table t) => some (tableSet (lua_pop s 2) t k v)
    | _ => some (lua_pop s 2)

/-- The loop of `Traits<std::map<Key, Val>>::emplace` over the entries. -/
def mapEmplaceLoop (key val : Traits) (idx : Nat) : List (NVal × NVal) → LuaState → Option LuaState
  | [], s => some s
  | (k, v) :: rest, s =>
      match write key s k with
      | none => none
      | some s1 =>
          match write val s1 v with
          | none => none
          | some s2 =>
              match lua_settable s2 idx with
              | none => none
              | some s3 => mapEmplaceLoop key val idx rest s3

/-- The specialisation `Traits<std::map<Key, Val>>`. -/
def mapTraits (key val : Traits) (keyLt : NVal → NVal → Bool) (tid : Nat) : Traits where
  tid := tid
  typeName := "map<" ++ key.typeName ++ "," ++ val.typeName ++ ">"
  read := some (fun s idx =>
    if !lua_istable s idx then some (none, s)
    else
      match mapReadLoop key val keyLt (tableEntriesAt s idx) [] s with
      | none => none
      | some (r, s1) => some (r.map NVal.ofMap, s1))
  write := none
  emplace := some (fun s v idx => mapEmplaceLoop key val idx v.toMap (clearTable s idx))
  defaultValue := none
  memberFuncs := []

/-- The read of a trait is a pure decoding: it returns what `dec` yields on the
value at the index and the tables of the state, and leaves the state as it
found it. -/
def Decodes (tr : Traits) (dec : List Table → Value → Option NVal) : Prop :=
  ∃ rd, tr.read = some rd ∧
    ∀ (s : LuaState) (idx : Nat) (v : Value), stackAt s idx = some v →
      rd s idx = some (dec s.tables v, s)

/-- The decoding of `Traits<int>::read`. -/
def intDecode : List Table → Value → Option NVal
  | _, Value.int i => some (NVal.int (wrapInt32 i))
  | _, _ => none

/-- The order `std::less<int>` on native values. -/
def intLess (a b : NVal) : Bool := decide (a.toInt < b.toInt)

/-- The native values of an integral type. -/
def IsInt (a : NVal) : Prop := ∃ i : Int, a = NVal.int i

/-! ## The round trip of integer-based values -/

/-- The value is a boolean, an integer or a table: what the writes of the
integer-based types push. -/
def Value.isPlain : Value → Bool
  | Value.bool _ => true
  | Value.int _ => true
  | Value.table _ => true
  | _ => false

/-- The state with another stack and other tables. -/
def LuaState.setHeap (s : LuaState) (st : List Value) (tb : List Table) : LuaState :=
  { s with stack := st, tables := tb }

/-- The entries `{ [1] = x1, [2] = x2, ... }` of a sequence. -/
def seqEntries (xs : List Value) : List (Value × Value) :=
  xs.enum.map (fun p => (Value.int ((p.1 : Int) + 1), p.2))

/-- Reading the Lua value `y` as the type of `tr`, at any index of any state
with the tables `T`, returns `v` and leaves the state as it was. -/
def ReadsIn (T : List Table) (tr : Traits) (v : NVal) (y : Value) : Prop :=
  ∀ (t : LuaState) (idx : Nat), t.tables = T → stackAt t idx = some y →
    ∃ rd, tr.read = some rd ∧ rd t idx = some (some v, t)

/-- Reading `y` returns `v` in every state whose tables `lo ≤ j < hi` are
those of `T`. -/
def ReadsBack (tr : Traits) (v : NVal) (y : Value) (lo hi : Nat) (T : List Table) : Prop :=
  ∀ T1 : List Table, (∀ j, lo ≤ j → j < hi → T1.get? j = T.get? j) → ReadsIn T1 tr v y

/-- The round trip of one native value: in every state `write` pushes exactly
one plain value, creating tables after the existing ones and changing nothing
else, and reading that value returns `v` in every state that has kept the
tables created. -/
def RoundTrips (tr : Traits) (v : NVal) : Prop :=
  ∀ s : LuaState, ∃ (x : Value) (ext : List Table),
    write tr s v = some (s.setHeap (s.stack ++ [x]) (s.tables ++ ext)) ∧
    x.isPlain = true ∧
    ReadsBack tr v x s.tables.length (s.tables.length + ext.length) (s.tables ++ ext)

/-- The integer-based types and their values: `IntegerBased tr v` holds when
`tr` is the trait of an integral type (of at most 64 bits), of `bool`, or of a
vector, array, pair, tuple or map of integer-based types, and `v` is a value of
that type.  A map is given by its entries in ascending key order; `keyLt` is
`std::less<Key>`, asymmetric on the keys. -/
inductive IntegerBased : Traits → NVal → Prop where
  | integral (bits : Nat) (signed : Bool) (tid : Nat) (i : Int) :
      1 ≤ bits → bits ≤ 64 →
      (if signed then -(2 : Int) ^ (bits - 1) ≤ i ∧ i < 2 ^ (bits - 1)
       else 0 ≤ i ∧ i < 2 ^ bits) →
      IntegerBased (integralTraits bits signed tid) (NVal.int i)
  | bool (b : Bool) : IntegerBased boolTraits (NVal.bool b)
  | vector (val : Traits) (tid : Nat) (xs : List NVal) :
      (∀ x, x ∈ xs → IntegerBased val x) →
      IntegerBased (vectorTraits val tid) (NVal.list xs)
  | array (val : Traits) (size tid : Nat) (xs : List NVal) :
      xs.length = size → (∀ x, x ∈ xs → IntegerBased val x) →
      IntegerBased (arrayTraits val size tid) (NVal.list xs)
  | pair (first second : Traits) (tid : Nat) (a b : NVal) :
      IntegerBased first a → IntegerBased second b →
      IntegerBased (pairTraits first second tid) (NVal.list [a, b])
  | tuple (vals : List Traits) (tid : Nat) (xs : List NVal) :
      vals.length = xs.length → (∀ p, p ∈ vals.zip xs → IntegerBased p.1 p.2) →
      IntegerBased (tupleTraits vals tid) (NVal.list xs)
  | map (key val : Traits) (keyLt : NVal → NVal → Bool) (tid : Nat) (m : List (NVal × NVal)) :
      m.Pairwise (fun a b => keyLt a.1 b.1 = true) →
      (∀ a, a ∈ m → ∀ b, b ∈ m → keyLt a.1 b.1 = true → keyLt b.1 a.1 = false) →
      (∀ e, e ∈ m → IntegerBased key e.1) → (∀ e, e ∈ m → IntegerBased val e.2) →
      IntegerBased (mapTraits key val keyLt tid) (NVal.ofMap m)

/-- The Lua entry `ye` holds what the writes of the key and of the value of the
native map entry `e` pushed. -/
def EntryReadsBack (key val : Traits) (lo hi : Nat) (T : List Table)
    (e : NVal × NVal) (ye : Value × Value) : Prop :=
  ye.1.isPlain = true ∧ ye.2.isPlain = true ∧
    ReadsBack key e.1 ye.1 lo hi T ∧ ReadsBack val e.2 ye.2 lo hi T

/-! ## Size and memory (`Helpers.h`) -/

/-- The function template `integerCeil`, for an integer type in which the
product does not overflow. -/
def integerCeil (a b : Nat) : Nat := a * (a / b + if a % b ≠ 0 then 1 else 0)

/-- The variable template `minNeededSpace<T, arenaAlignment>`, in `std::size_t`
arithmetic (64 bits), for a type of the given size and alignment. -/
def minNeededSpace (size align arenaAlignment : Nat) : Nat :=
  (size + max 0 ((align + 2 ^ 64 - arenaAlignment) % 2 ^ 64)) % 2 ^ 64

/-- A C++ type as the arena and the builders see it: its traits, `sizeof` and
`alignof`. -/
structure CType where
  traits : Traits
  size : Nat
  align : Nat

/-- The function template `mostSpaciousTupleElem<arenaAlignment>` of a tuple
of types (`std::max` of a non-empty list). -/
def mostSpaciousTupleElem (arenaAlignment : Nat) (ts : List CType) : Nat :=
  (ts.map (fun t => minNeededSpace t.size t.align arenaAlignment)).foldl max 0

/-- The function `std::align(alignment, size, ptr, space)` on addresses: the
aligned address and the space left, `none` for the null pointer. -/
def stdAlign (alignment size ptr space : Nat) : Option (Nat × Nat) :=
  if space < size then none
  else
    let aligned := (ptr + alignment - 1) / alignment * alignment
    if aligned - ptr > space - size then none else some (aligned, space - (aligned - ptr))

/-- An object built in a pool: its address, its size and its value. -/
structure PoolElem where
  addr : Nat
  size : Nat
  value : NVal

/-- The class template `Pool<maxElemCount, size, alignment>`: `base` is the
address of the member `pool` (a multiple of `alignment`), `elems` are the
objects at `elemPtrs[0 .. elemIndex)`. -/
structure Pool where
  maxElemCount : Nat
  size : Nat
  alignment : Nat
  base : Nat
  currentAddr : Nat
  elems : List PoolElem

/-- A pool as its default member initialisers leave it. -/
def Pool.fresh (maxElemCount size alignment base : Nat) : Pool :=
  { maxElemCount := maxElemCount, size := size, alignment := alignment, base := base,
    currentAddr := base, elems := [] }

/-- The member `Pool::build<NextElem>` for a type of the given size and
alignment: the address of the new element and the pool after the call; `none`
when one of its three assertions fails.  The subtraction
`size - (currentAddr - pool)` is in `std::size_t`. -/
def Pool.build (p : Pool) (size align : Nat) (v : NVal) : Option (Nat × Pool) :=
  if ¬ p.elems.length < p.maxElemCount then none
  else
    let space := (p.size + 2 ^ 64 - (p.currentAddr - p.base)) % 2 ^ 64
    match stdAlign align size p.currentAddr space with
    | none => none
    | some (addr, space1) =>
        match stdAlign p.alignment 1 (addr + size) space1 with
        | none => none
        | some (next, _) =>
            some (addr, { p with currentAddr := next,
                                 elems := p.elems ++ [{ addr := addr, size := size, value := v }] })

/-- The member `Pool::destruct<ElemTypes...>` for `n` element types: the
addresses of the objects destroyed, in order; `none` when its assertion
fails. -/
def Pool.destruct (p : Pool) (n : Nat) : Option (List Nat) :=
  if p.elems.length = n then some (p.elems.map (fun e => e.addr)) else none

/-- The member `Pool::getElemPtrs`. -/
def Pool.getElemPtrs (p : Pool) : List Nat := p.elems.map (fun e => e.addr)

/-! ## Type reordering (`Helpers.h`) -/

/-- The lambda `translateReverseIndex` of `typePartitionStep`: the subtraction
is in `std::size_t`, the result an `int`. -/
def translateReverseIndex (nTrue : Nat) (index : Int) : Int :=
  if index < 0 then wrapInt32 (((nTrue : Int) - 1 - index) % 2 ^ 64) else index

/-- The function template `typePartitionStep` over the types still to process
(given by the value of `Pred` on each), with the sequences `TrueIndices`,
`FalseIndices` and `InverseIndices` built so far. -/
def typePartitionStep : List Bool → List Nat → List Nat → List Int → List Nat × List Int
  | [], trueIndices, falseIndices, inverseIndices =>
      (trueIndices ++ falseIndices,
        inverseIndices.map (translateReverseIndex trueIndices.length))
  | p :: rest, trueIndices, falseIndices, inverseIndices =>
      if p then
        typePartitionStep rest (trueIndices ++ [trueIndices.length + falseIndices.length])
          falseIndices (inverseIndices ++ [(trueIndices.length : Int)])
      else
        typePartitionStep rest trueIndices
          (falseIndices ++ [trueIndices.length + falseIndices.length])
          (inverseIndices ++ [-(falseIndices.length : Int) - 1])

/-- The alias template `TypePartition<Pred, Ts...>`: the order partitioned by
`Pred` and the indices of the inverse operation. -/
def TypePartition (preds : List Bool) : List Nat × List Int :=
  typePartitionStep preds [] [] []

/-- The loop `for (i = sizeof...(Idxs); i > 0; --i) lua_remove(ls, i)`. -/
def removeBelow : Nat → LuaState → LuaState
  | 0, s => s
  | i + 1, s => removeBelow i (lua_remove s ((i : Int) + 1))

/-- The function template `reorderLuaStack`; `none` when its assertion fails. -/
def reorderLuaStack (s : LuaState) (idxs : List Nat) : Option LuaState :=
  if lua_gettop s ≠ idxs.length then none
  else some (removeBelow idxs.length
    (idxs.foldl (fun (st : LuaState) (i : Nat) => lua_pushvalue st ((i : Int) + 1)) s))

/-! ## Generic function binding (`GenericFuncBinding.H`) -/

/-- A builder `SimpleBuilder<Ts...>` or `SimpleAmbiguousBuilder<Ts...>`: its
`PossibleTypes`, whether it declares `ambiguous`, and `typeid(Builder).name()`. -/
structure Builder where
  possibleTypes : List CType
  ambiguous : Bool
  name : String

/-- The alias template `PoolForBuilders<Builders...>` as a fresh pool at the
address `base`; `maxAlign` is `alignof(std::max_align_t)`.  The capacity is
computed in `std::size_t`. -/
def PoolForBuilders (maxAlign base : Nat) (builders : List Builder) : Pool :=
  Pool.fresh builders.length
    ((builders.map (fun b =>
        integerCeil (mostSpaciousTupleElem maxAlign b.possibleTypes) maxAlign % 2 ^ 64)).sum
      % 2 ^ 64)
    maxAlign base

/-- A generic callable `Exec`: for which argument types (in the order given) it
is invocable, the traits of its result type (`none` for `void`), and what a call
does: the result, the arguments as the call leaves them, and the state. -/
structure GenericExec where
  invocable : List CType → Bool
  ret : List CType → Option Traits
  call : List CType → List NVal → LuaState → NVal × List NVal × LuaState

/-- What a builder passes to its continuation: a pointer to the object built (of
the type given), `std::nullopt` (custom builders only), or one of the two error
tags. -/
inductive BuilderArg where
  | built (t : CType) (addr : Nat) : BuilderArg
  | nullopt : BuilderArg
  | leadsNowhereErr : BuilderArg
  | wrongFormatErr : BuilderArg

/-- The observable steps of a bulk dispatch: a read of the stack slot `idx`
(holding `source`) as a type, with its success; an object built in the arena; an
object destroyed; and the call of the callable given to `bulkExecStep`, with the
types and the values of its arguments. -/
inductive BulkEvent where
  | read (t : CType) (idx : Nat) (source : Option Value) (ok : Bool) : BulkEvent
  | built (t : CType) (addr : Nat) (value : NVal) : BulkEvent
  | destroyed (addr : Nat) : BulkEvent
  | called (types : List CType) (args : List NVal) : BulkEvent

/-- The state of a bulk dispatch: the Lua state, the arena, and the steps so
far. -/
structure BulkState where
  lua : LuaState
  pool : Pool
  trace : List BulkEvent

/-- The return type of `bulkExecStep` for the arguments built so far and the
builders still to run: `true` is `std::true_type`. -/
def stepReturnsTrue (invocable : List CType → Bool) : List Builder → List CType → Bool
  | [], args => invocable args
  | b :: rest, args => b.possibleTypes.any (fun t => stepReturnsTrue invocable rest (args ++ [t]))

/-- The fold `(tryRead<Ts>() || ...) || (continuation(err), false)` of
`SimpleBuilder<Ts...>::operator()` over the types still to try, with the counter
`howManyLeadAnywhere`; `leadsAnywhere` is `LuaStrap::leadsAnywhere<Continuation, T>()`.
The result is what the continuation returns; `none` when a read aborts or the
arena fails an assertion. -/
def tryReadFold {α : Type} (idx : Nat) (leadsAnywhere : CType → Bool)
    (continuation : BuilderArg → BulkState → Option α) :
    List CType → Nat → BulkState → Option α
  | [], howManyLeadAnywhere, st =>
      if howManyLeadAnywhere = 0 then continuation BuilderArg.leadsNowhereErr st
      else continuation BuilderArg.wrongFormatErr st
  | t :: rest, howManyLeadAnywhere, st =>
      if leadsAnywhere t then
        match read t.traits st.lua (idx : Int) with
        | none => none
        | some (some v, lua1) =>
            (match st.pool.build t.size t.align v with
             | none => none
             | some (addr, pool1) =>
                 continuation (BuilderArg.built t addr)
                   { lua := lua1, pool := pool1,
                     trace := st.trace ++ [BulkEvent.read t idx (stackAt st.lua idx) true,
                                           BulkEvent.built t addr v] })
        | some (none, lua1) =>
            tryReadFold idx leadsAnywhere continuation rest (howManyLeadAnywhere + 1)
              { st with lua := lua1,
                        trace := st.trace ++ [BulkEvent.read t idx (stackAt st.lua idx) false] }
      else tryReadFold idx leadsAnywhere continuation rest howManyLeadAnywhere st

/-- The call operator of `SimpleBuilder<Ts...>`. -/
def SimpleBuilder {α : Type} (b : Builder) (leadsAnywhere : CType → Bool)
    (continuation : BuilderArg → BulkState → Option α) (idx : Nat) (st : BulkState) : Option α :=
  tryReadFold idx leadsAnywhere continuation b.possibleTypes 0 st

/-- The operation `lua_pushstring` on a `c_str()`. -/
def lua_pushstring (s : LuaState) (str : String) : LuaState :=
  pushValue s (Value.str (cString str))

/-- The name `lua_typename(ls, lua_type(ls, idx))` of the type of a slot. -/
def lua_typename : Option Value → String
  | none => "no value"
  | some Value.nil => "nil"
  | some (Value.bool _) => "boolean"
  | some (Value.int _) => "number"
  | some (Value.num _) => "number"
  | some (Value.str _) => "string"
  | some (Value.table _) => "table"
  | some (Value.udata _) => "userdata"
  | some (Value.cfunc _ _) => "function"

/-- The function template `noMatchingOverloadError<Args...>`: one line per
argument built so far, sorted by the original position. -/
def noMatchingOverloadError (typeNames : List String) (argOrder : List Nat) (msg : String) :
    String :=
  msg ++ "\n" ++ String.join
    (((List.zipWith (fun o n => (o + 1, n)) argOrder typeNames).insertionSort
        (fun a b => a.1 ≤ b.1)).map
      (fun l => "#" ++ toString l.1 ++ " " ++ l.2 ++ "\n"))

/-- The function template `failedToReadError<Builder>`. -/
def failedToReadError (builderName : String) (s : LuaState) (argLuaIdx : Nat) : String :=
  "Wrong format of argument #" ++ toString argLuaIdx ++ "\nBuilder: " ++ builderName ++
    "\nArgument type: " ++ lua_typename (stackAt s argLuaIdx) ++ "\n"

/-- The pack expansion `emplaceIfPossible(ls, args, argIdx++)...` of the lambda
`caller`. -/
def emplaceIfPossible : List CType → List NVal → Nat → LuaState → Option LuaState
  | t :: ts, v :: vs, argIdx, s =>
      if LuaWritable t.traits && t.traits.emplace.isSome then
        (match emplace t.traits s v (argIdx : Int) with
         | none => none
         | some s1 => emplaceIfPossible ts vs (argIdx + 1) s1)
      else emplaceIfPossible ts vs (argIdx + 1) s
  | _, _, _, s => some s

/-- The lambda `caller` of `bulkExecStep` applied to the objects of the arena. -/
def bulkCaller (ex : GenericExec) (args : List CType) (st : BulkState) : Option BulkState :=
  let vals := st.pool.elems.map (fun e => e.value)
  let r := ex.call args vals st.lua
  let pool1 : Pool :=
    { st.pool with elems := List.zipWith (fun e v => { e with value := v }) st.pool.elems r.2.1 }
  let pushed : Option LuaState :=
    match ex.ret args with
    | none => some (pushValue r.2.2 (Value.int 0))
    | some tr => (write tr r.2.2 r.1).map (fun l => pushValue l (Value.int 1))
  match pushed with
  | none => none
  | some lua1 =>
      match emplaceIfPossible args r.2.1 1 lua1 with
      | none => none
      | some lua2 =>
          some { lua := lua2, pool := pool1,
                 trace := st.trace ++ [BulkEvent.called args vals] }

/-- The member call `pool.destruct<ArgsSoFar...>()` with its steps recorded. -/
def destructAll (st : BulkState) (n : Nat) : Option BulkState :=
  match st.pool.destruct n with
  | none => none
  | some ds => some { st with trace := st.trace ++ ds.map BulkEvent.destroyed }

/-- The call `lua_pushstring(ls, msg.c_str())` of an error message. -/
def BulkState.pushError (st : BulkState) (msg : String) : BulkState :=
  { st with lua := lua_pushstring st.lua msg }

/-- The function template `bulkExecStep` for the builders still to run, the
types of the arguments built so far, and the stack index of the next
argument.  `none` when an assertion fails. -/
def bulkExecStep (ex : GenericExec) (argOrder : List Nat) :
    List Builder → List CType → Nat → BulkState → Option BulkState
  | [], args, _, st =>
      if ex.invocable args then
        match bulkCaller ex args st with
        | none => none
        | some st1 => destructAll st1 args.length
      else
        match destructAll st args.length with
        | none => none
        | some st1 =>
            some (st1.pushError
              (noMatchingOverloadError (args.map (fun t => t.traits.typeName)) argOrder
                "No overload available for the given arguments:"))
  | b :: rest, args, idx, st =>
      if !(b.possibleTypes.any (fun t => stepReturnsTrue ex.invocable rest (args ++ [t]))) then
        match destructAll st args.length with
        | none => none
        | some st1 =>
            some (st1.pushError
              (noMatchingOverloadError (args.map (fun t => t.traits.typeName)) argOrder
                "No overload available for the given partial list of arguments:"))
      else
        SimpleBuilder b (fun t => stepReturnsTrue ex.invocable rest (args ++ [t]))
          (fun arg st1 =>
            match arg with
            | BuilderArg.built t _ => bulkExecStep ex argOrder rest (args ++ [t]) (idx + 1) st1
            | BuilderArg.nullopt =>
                some (st1.pushError
                  (failedToReadError b.name st1.lua (argOrder.getD args.length 0 + 1)))
            | BuilderArg.leadsNowhereErr =>
                some (st1.pushError
                  (noMatchingOverloadError (args.map (fun t => t.traits.typeName)) argOrder
                    "No overload available for the given arguments:"))
            | BuilderArg.wrongFormatErr =>
                some (st1.pushError
                  (failedToReadError b.name st1.lua (argOrder.getD args.length 0 + 1))))
          idx st

/-- The pack `get<Indices>(tuple)...` for a sequence of `int` indices. -/
def pickInts {α : Type} (indices : List Int) (xs : List α) : List α :=
  indices.filterMap (fun i => xs.get? i.toNat)

/-- The pack `tuple_element_t<Indices, Tuple>...` for a sequence of indices. -/
def pickNats {α : Type} (indices : List Nat) (xs : List α) : List α :=
  indices.filterMap (fun i => xs.get? i)

/-- The lambda `reorderedExec` of `pushBulkFunc`: invocable with reordered
arguments when `Exec` is with the arguments picked by the inverse order, and
calling `Exec{}(get<Indices>(argsTuple)...)`. -/
def reorderedExec (exec : GenericExec) (order : List Nat) (inverse : List Int) : GenericExec where
  invocable := fun reArgs => exec.invocable (pickInts inverse reArgs)
  ret := fun reArgs => exec.ret (pickInts inverse reArgs)
  call := fun reArgs reVals s =>
    let r := exec.call (pickInts inverse reArgs) (pickInts inverse reVals) s
    (r.1, pickNats order r.2.1, r.2.2)

/-- The C function that `pushBulkFunc<Builders...>(ls, Exec)` pushes, called
with the arguments on the stack: the number of results left on top of the stack,
or the message of the error raised, and the final state.  `none` when the
binding is ill-formed (no builder, more than eight, or the `static_assert`
fails) or an assertion fails at run time. -/
def bulkFunc (maxAlign base : Nat) (builders : List Builder) (exec : GenericExec)
    (s : LuaState) : Option (Except String Nat × BulkState) :=
  let par := TypePartition (builders.map (fun b => !b.ambiguous))
  let reordered := pickNats par.1 builders
  let rex := reorderedExec exec par.1 par.2
  if builders.length = 0 ∨ 8 < builders.length then none
  else if !(stepReturnsTrue rex.invocable reordered []) then none
  else
    match reorderLuaStack (lua_settop s builders.length) par.1 with
    | none => none
    | some s2 =>
        match bulkExecStep rex par.1 reordered [] 1
            { lua := s2, pool := PoolForBuilders maxAlign base reordered, trace := [] } with
        | none => none
        | some st =>
            match stackAt st.lua (lua_gettop st.lua) with
            | some (Value.int n) => some (Except.ok n.toNat, { st with lua := lua_pop st.lua 1 })
            | some (Value.str msg) => some (Except.error msg, st)
            | _ => some (Except.error "", st)

/-! ## The vectors and matrices of the test (`tests/VectorMatrixTest.cpp`) -/

/-- The specialisation `Traits<Float>` for `Float = float`; as for `double`,
the values are exact rationals. -/
def floatTraits (str2number : String → Option Rat) : Traits :=
  { doubleTraits str2number with tid := 14, typeName := "float" }

/-- The loop of the `emplace` of a vector or matrix type over its elements
`getElem(v, i)`, `i < count`. -/
def shapeEmplaceLoop (elem : Traits) (idx : Nat) (v : List NVal) : Nat → Nat → LuaState → Option LuaState
  | 0, _, s => some s
  | remaining + 1, i, s =>
      match write elem s (v.getD i NVal.unit) with
      | none => none
      | some s1 => shapeEmplaceLoop elem idx v remaining (i + 1) (lua_seti s1 idx ((i : Int) + 1))

/-- The specialisation `LuaStrap::Traits<V>` for the types `Vec<T, dimension>`
of the test. -/
def vecShapeTraits (elem : Traits) (dimension tid : Nat) : Traits where
  tid := tid
  typeName := "Vec<" ++ elem.typeName ++ "," ++ toString dimension ++ ">"
  read := some (fun s idx =>
    match readArrayUpTo elem s idx dimension with
    | none => none
    | some (n, result, s1) =>
        if n = (dimension : Int) then some (some (NVal.list result), s1) else some (none, s1))
  write := none
  emplace := some (fun s v idx => shapeEmplaceLoop elem idx v.toList dimension 0 s)
  defaultValue := none
  memberFuncs := []

/-- The specialisation `LuaStrap::Traits<M>` for the types `Mat<T, w, h>` of
the test. -/
def matShapeTraits (elem : Traits) (w h tid : Nat) : Traits where
  tid := tid
  typeName := "Mat<" ++ elem.typeName ++ "," ++ toString w ++ "," ++ toString h ++ ">"
  read := some (fun s idx =>
    if !lua_istable s idx then some (none, s)
    else
      match readArrayUpTo elem s idx (w * h) with
      | none => none
      | some (n, result, s1) =>
          if n = ((w * h : Nat) : Int) then some (some (NVal.list result), s1) else some (none, s1))
  write := none
  emplace := some (fun s v idx => shapeEmplaceLoop elem idx v.toList (w * h) 0 s)
  defaultValue := none
  memberFuncs := []

/-- The invariant of `typePartitionStep` after the types `done`: `T` and `F`
list the indices on which `Pred` holds and fails, in ascending order, and `I`
gives every index its place in `T`, or minus its place in `F` minus one. -/
structure PartitionInv (done : List Bool) (T F : List Nat) (I : List Int) : Prop where
  lenI : I.length = done.length
  lenTF : T.length + F.length = done.length
  trues : T = (List.range done.length).filter (fun i => done.getD i false)
  falses : F = (List.range done.length).filter (fun i => !done.getD i false)
  invT : ∀ j t, T.get? j = some t → I.get? t = some (j : Int)
  invF : ∀ j f, F.get? j = some f → I.get? f = some (-(j : Int) - 1)
  ordT : ∀ i x, I.get? i = some x → 0 ≤ x → T.get? x.toNat = some i
  ordF : ∀ i x, I.get? i = some x → x < 0 → F.get? (-x - 1).toNat = some i

/-- The address of the object that a step built, if it is a build. -/
def BulkEvent.builtAddr : BulkEvent → Option Nat
  | BulkEvent.built _ addr _ => some addr
  | _ => none

/-- The address of the object that a step destroyed, if it is a destruction. -/
def BulkEvent.destroyedAddr : BulkEvent → Option Nat
  | BulkEvent.destroyed addr => some addr
  | _ => none

/-- The type name of the object that a step built, if it is a build. -/
def BulkEvent.builtName : BulkEvent → Option String
  | BulkEvent.built t _ _ => some t.traits.typeName
  | _ => none

/-- The message of the error that a dispatch raised, if it raised one. -/
def raisedMessage : Except String Nat → Option String
  | Except.error m => some m
  | Except.ok _ => none

/-- The types `ts` were read one after the other at the slot `idx`, from the
state `l` to the state `l2`, and none decoded the slot; `evs` are the steps
recorded. -/
inductive FailedReads (idx : Nat) : List CType → LuaState → LuaState → List BulkEvent → Prop where
  | nil (l : LuaState) : FailedReads idx [] l l []
  | cons (t : CType) (ts : List CType) (l l1 l2 : LuaState) (evs : List BulkEvent) :
      read t.traits l (idx : Int) = some (none, l1) → FailedReads idx ts l1 l2 evs →
      FailedReads idx (t :: ts) l l2 (BulkEvent.read t idx (stackAt l idx) false :: evs)

/-- What one call of a builder does before it invokes its continuation with
`arg` in the state `st1`, told in the words of the contract: either the first
type in declared order that leads anywhere and decodes the slot was built, after
the leading types before it failed to decode; or every leading type failed and
the tag is `wrongFormatErr` (`seen` counts leading types tried before `ts`); or
no type leads anywhere, nothing was read, and the tag is `leadsNowhereErr`. -/
def BuilderOutcome (idx : Nat) (leadsAnywhere : CType → Bool) (ts : List CType) (seen : Nat)
    (st : BulkState) (arg : BuilderArg) (st1 : BulkState) : Prop :=
  (∃ pre t post addr v lua0 evs pool1,
      ts = pre ++ t :: post ∧ leadsAnywhere t = true ∧ arg = BuilderArg.built t addr ∧
      FailedReads idx (pre.filter leadsAnywhere) st.lua lua0 evs ∧
      read t.traits lua0 (idx : Int) = some (some v, st1.lua) ∧
      st.pool.build t.size t.align v = some (addr, pool1) ∧ st1.pool = pool1 ∧
      st1.trace = st.trace ++ evs ++
        [BulkEvent.read t idx (stackAt lua0 idx) true, BulkEvent.built t addr v]) ∨
  (arg = BuilderArg.wrongFormatErr ∧ (seen ≠ 0 ∨ ∃ t, t ∈ ts ∧ leadsAnywhere t = true) ∧
      st1.pool = st.pool ∧
      ∃ evs, FailedReads idx (ts.filter leadsAnywhere) st.lua st1.lua evs ∧
        st1.trace = st.trace ++ evs) ∨
  (arg = BuilderArg.leadsNowhereErr ∧ seen = 0 ∧ (∀ t, t ∈ ts → leadsAnywhere t = false) ∧
      st1 = st)

/-- The state `l1` is `l` with more values pushed on the stack. -/
def StackGrown (l l1 : LuaState) : Prop :=
  ∃ extra, l1 = { l with stack := l.stack ++ extra }

/-- The value is a Lua number (an integer or a float). -/
def Value.isNumber : Value → Bool
  | Value.int _ => true
  | Value.num _ => true
  | _ => false

/-- The number that `lua_tonumber` yields for a Lua number. -/
def Value.toNum : Value → Rat
  | Value.int i => (i : Rat)
  | Value.num q => q
  | _ => 0

/-- The native vector or matrix whose elements are the numbers of a sequence. -/
def NVal.ofNumbers (ys : List Value) : NVal :=
  NVal.list (ys.map (fun y => NVal.num y.toNum))

/-- The read of the type decodes exactly the sequences of `c` numbers: on a
table holding a sequence of numbers it returns the native value when the
sequence has `c` elements and empty otherwise, and it only pushes. -/
def ShapeLike (t : CType) (c : Nat) : Prop :=
  ∀ (l : LuaState) (idx n : Nat) (ys : List Value) (m : Option Nat),
    stackAt l idx = some (Value.table n) →
    l.tables.get? n = some { entries := seqEntries ys, meta := m } →
    (∀ y, y ∈ ys → y.isNumber = true) →
    ∃ extra, read t.traits l (idx : Int) =
      some (if c = ys.length then some (NVal.ofNumbers ys) else none,
        { l with stack := l.stack ++ extra })

/-! ## Bindings used as examples (after `tests/Tests.cpp`) -/

/-- A Lua state with an empty stack and nothing allocated. -/
def emptyState : LuaState :=
  { stack := [], tables := [], udatas := [], registry := [], pendingRefs := none,
    indirectRefs := none, bakedRefs := [] }

/-- The signature `(int, int)`. -/
def twoInts : List Param :=
  [{ traits := intTraits, kind := RefKind.byValue },
   { traits := intTraits, kind := RefKind.byValue }]

/-- The callable `int plus(int lhs, int rhs) { return lhs + rhs; }`. -/
def plusInt : Invoc := fun args s =>
  (NVal.int ((args.getD 0 NVal.unit).toInt + (args.getD 1 NVal.unit).toInt), args, s)

/-- The stack of a call with the single argument `3`. -/
def oneIntState : LuaState := { emptyState with stack := [Value.int 3] }

/-- The stack of a call with the arguments `(3, 5)`. -/
def twoIntState : LuaState := { emptyState with stack := [Value.int 3, Value.int 5] }

/-- The signature `(double, double)`, with no string converting to a number. -/
def twoDoubles : List Param :=
  [{ traits := doubleTraits (fun _ => none), kind := RefKind.byValue },
   { traits := doubleTraits (fun _ => none), kind := RefKind.byValue }]

/-- The callable `average` of `tests/Tests.cpp`: `(a + b) / 2.0`. -/
def average : Invoc := fun args s =>
  (NVal.num (((args.getD 0 NVal.unit).toNum + (args.getD 1 NVal.unit).toNum) / 2), args, s)

/-- The signature `(int&)`. -/
def oneIntRef : List Param := [{ traits := intTraits, kind := RefKind.mutRef }]

/-- The callable `int inc(int& x) { return ++x; }`. -/
def incInt : Invoc := fun args s =>
  (NVal.int ((args.getD 0 NVal.unit).toInt + 1), [NVal.int ((args.getD 0 NVal.unit).toInt + 1)], s)

/-- The type `std::optional<int>`. -/
def optIntTraits : Traits := optionalTraits intTraits 3

/-- The signature `(std::optional<int>)`, the parameter taken by value. -/
def oneOptInt : List Param := [{ traits := optIntTraits, kind := RefKind.byValue }]

/-- The callable `int valueOr(std::optional<int> x) { return x.value_or(-1); }`. -/
def valueOr : Invoc := fun args s =>
  (match args.getD 0 NVal.unit with
   | NVal.opt (some v) => v
   | _ => NVal.int (-1), args, s)

/-- The stack of a call with the arguments `(3, "x")`. -/
def intStringState : LuaState := { emptyState with stack := [Value.int 3, Value.str "x"] }

/-- The type `std::vector<int>`. -/
def vecIntTraits : Traits := vectorTraits intTraits 2

/-- The signature `(std::vector<int>&)`. -/
def oneVecRef : List Param := [{ traits := vecIntTraits, kind := RefKind.mutRef }]

/-- The callable `void popBack(std::vector<int>& v) { v.pop_back(); }`. -/
def popBack : Invoc := fun args s =>
  (NVal.unit, [NVal.list (args.getD 0 NVal.unit).toList.dropLast], s)

/-- The stack of a call with the single argument `{1, 2, 3}` (a Lua table). -/
def vecState : LuaState :=
  { emptyState with
    stack := [Value.table 0],
    tables := [{ entries := [(Value.int 1, Value.int 1), (Value.int 2, Value.int 2),
                             (Value.int 3, Value.int 3)],
                 meta := none }] }

/-- The stack of a call with the arguments `(m, "x")`, where `m` is what
`markedForBaking(5)` returned: a pending marker for the registry slot 3, which
holds `5`; slot 4 holds the metatable of the pending markers. -/
def pendingState : LuaState :=
  { stack := [Value.udata 0, Value.str "x"],
    tables := [{ entries := [(Value.str "__gc", Value.cfunc "refHolding.__gc" 0)],
                 meta := none }],
    udatas := [{ payload := NVal.int 3, meta := some 0 }],
    registry := [(4, Value.table 0), (3, Value.int 5)],
    pendingRefs := some 4,
    indirectRefs := none,
    bakedRefs := [] }

/-- The state in which `PendingData::readAs` calls `bakePendingData`: the
pending marker of `pendingState` (registry slot 3, holding `5`) alone on the
stack. -/
def markerOnTop : LuaState := { pendingState with stack := [Value.udata 0] }

/-- The frame of a call with one argument: the table `{"x"}`, to which Lua code
has given the metatable of `BakedData<std::vector<int>>`
(`setmetatable(t, getmetatable(bakedVector))`). -/
def hookedTable : LuaState :=
  lua_setmetatable (BakedData_metatable vecIntTraits
    { emptyState with
      stack := [Value.table 0],
      tables := [{ entries := [(Value.int 1, Value.str "x")], meta := none }] }) 1

/-- The frame of a call whose argument is what
`makeBakedData<std::optional<int>, int>(5, ls)` pushed: a userdata holding the
engaged optional under the metatable of `BakedData<std::optional<int>>`. -/
def bakedOptional : LuaState :=
  lua_setmetatable (BakedData_metatable optIntTraits
    (lua_newuserdata emptyState (NVal.opt (some (NVal.int 5))))) (-2)

/-- A stack holding one table `{ 1, "x" }`. -/
def mixedTable : LuaState :=
  { emptyState with
    stack := [Value.table 0],
    tables := [{ entries := [(Value.int 1, Value.int 1), (Value.int 2, Value.str "x")],
                 meta := none }] }

/-- The traits of `std::map<int, std::vector<std::pair<unsigned char, bool>>>`. -/
def nestedMapTraits : Traits :=
  mapTraits (integralTraits 32 true 1)
    (vectorTraits (pairTraits (integralTraits 8 false 10) boolTraits 11) 12) intLess 13

/-- The entries of the map `{ 1 ↦ { (200, true) }, 2 ↦ { } }`. -/
def nestedMapEntries : List (NVal × NVal) :=
  [(NVal.int 1, NVal.list [NVal.list [NVal.int 200, NVal.bool true]]),
   (NVal.int 2, NVal.list [])]

/-- The type `Vec<float, d>` of the test: `d` floats. -/
def vecT (d : Nat) : CType :=
  { traits := vecShapeTraits (floatTraits (fun _ => none)) d (20 + d), size := 4 * d, align := 4 }

/-- The type `Mat<float, w, h>` of the test: `w * h` floats. -/
def matT (w h : Nat) : CType :=
  { traits := matShapeTraits (floatTraits (fun _ => none)) w h (100 + 10 * w + h),
    size := 4 * (w * h), align := 4 }

/-- The type `std::complex<double>`: two doubles. -/
def complexDoubleT : CType :=
  { traits := complexTraits (fun _ => none) 7, size := 16, align := 8 }

/-- The builder `vecB` of the test. -/
def vecB : Builder :=
  { possibleTypes := [vecT 2, vecT 3, vecT 4], ambiguous := false, name := "vecB" }

/-- The builder `matB` of the test. -/
def matB : Builder :=
  { possibleTypes := [matT 2 2, matT 2 3, matT 2 4, matT 3 2, matT 3 3, matT 3 4,
                      matT 4 2, matT 4 3, matT 4 4],
    ambiguous := true, name := "matB" }

/-- A stack `[u, 5]` whose first slot holds a full userdata without metatable. -/
def bareUserdata : LuaState :=
  { emptyState with
    stack := [Value.udata 0, Value.int 5],
    udatas := [{ payload := NVal.unit, meta := none }] }

/-- The generic callable `lstrapFuncWrapper(VecMat::operator*)` on a matrix and
a vector: invocable for `(Mat<float, w, h>, Vec<float, d>)` when `w = d`, and
returning the `Vec<float, h>` of the products of the rows with the vector. -/
def matVecMul : GenericExec where
  invocable := fun args =>
    match args with
    | [m, v] =>
        decide (100 ≤ m.traits.tid) && decide (m.traits.tid < 200) &&
        decide (20 ≤ v.traits.tid) && decide (v.traits.tid < 30) &&
        decide ((m.traits.tid - 100) / 10 = v.traits.tid - 20)
    | _ => false
  ret := fun args =>
    match args with
    | [m, _] => some (vecT ((m.traits.tid - 100) % 10)).traits
    | _ => none
  call := fun args vals s =>
    match args, vals with
    | [m, _], [a, b] =>
        (NVal.list ((List.range ((m.traits.tid - 100) % 10)).map (fun y =>
            NVal.num (((List.range ((m.traits.tid - 100) / 10)).map (fun x =>
              (a.toList.getD (y * ((m.traits.tid - 100) / 10) + x) NVal.unit).toNum *
                (b.toList.getD x NVal.unit).toNum)).sum))),
          vals, s)
    | _, _ => (NVal.unit, vals, s)

/-- The call `matVecMul(m, 7)` with `m = { 1, 0, 0, 1, 1, 1 }`: the vector
argument is a number. -/
def matAndNumber : LuaState :=
  { emptyState with
    stack := [Value.table 0, Value.int 7],
    tables := [{ entries := seqEntries [Value.int 1, Value.int 0, Value.int 0, Value.int 1,
                                        Value.int 1, Value.int 1],
                 meta := none }] }

/-- The call `matVecMul(5, { 2, 3 })`: the matrix argument is a number. -/
def numberAndVec : LuaState :=
  { emptyState with
    stack := [Value.int 5, Value.table 0],
    tables := [{ entries := seqEntries [Value.int 2, Value.int 3], meta := none }] }

/-- The call `matVecMul(m, v)` with `m = { 1, 0, 0, 1, 1, 1 }` and `v = { 2, 3 }`. -/
def matAndVec2 : LuaState :=
  { emptyState with
    stack := [Value.table 0, Value.table 1],
    tables := [{ entries := seqEntries [Value.int 1, Value.int 0, Value.int 0, Value.int 1,
                                        Value.int 1, Value.int 1],
                 meta := none },
               { entries := seqEntries [Value.int 2, Value.int 3], meta := none }] }

/-- The call `matVecMul(m, v)` with `m = { 1, 0, 0, 1, 1, 1 }` and
`v = { 2, 3, 4 }`. -/
def matAndVec3 : LuaState :=
  { emptyState with
    stack := [Value.table 0, Value.table 1],
    tables := [{ entries := seqEntries [Value.int 1, Value.int 0, Value.int 0, Value.int 1,
                                        Value.int 1, Value.int 1],
                 meta := none },
               { entries := seqEntries [Value.int 2, Value.int 3, Value.int 4], meta := none }] }

/-- The type `long long`. -/
def int64T : CType :=
  { traits := integralTraits 64 true 15, size := 8, align := 8 }

/-- The builders `<SimpleAmbiguousBuilder<long long>, SimpleBuilder<long long>>`. -/
def ambiguousThenSimple : List Builder :=
  [{ possibleTypes := [int64T], ambiguous := true, name := "a" },
   { possibleTypes := [int64T], ambiguous := false, name := "b" }]

/-- The generic callable `[](auto& a, auto& b) { return a - b; }`. -/
def minus : GenericExec where
  invocable := fun args => args.length == 2
  ret := fun _ => some (integralTraits 64 true 15)
  call := fun _ vals s =>
    (NVal.int ((vals.getD 0 NVal.unit).toInt - (vals.getD 1 NVal.unit).toInt), vals, s)

/-! ## Properties: arity -/


theorem minArgStep_spec (l : List Bool) : ∀ (m a : Nat),
    (minArgStep l m a = m ∧ ∀ d ∈ l, d = true) ∨
    (a ≤ minArgStep l m a ∧ minArgStep l m a < a + l.length ∧
      l.get? (minArgStep l m a - a) = some false ∧
      ∀ i, minArgStep l m a - a < i → i < l.length → l.get? i = some true) := by
  induction l with
  | nil => intro m a; left; simp [minArgStep]
  | cons d rest ih =>
    intro m a
    cases d with
    | true =>
      rcases ih m (a + 1) with ⟨h1, h2⟩ | ⟨h1, h2, h3, h4⟩
      · left
        refine ⟨by simpa [minArgStep] using h1, ?_⟩
        intro d hd
        rcases List.mem_cons.1 hd with h | h
        · exact h
        · exact h2 d h
      · right
        have hr : minArgStep (true :: rest) m a = minArgStep rest m (a + 1) := by
          simp [minArgStep]
        rw [hr]
        have hsub : minArgStep rest m (a + 1) - a = (minArgStep rest m (a + 1) - (a + 1)) + 1 := by
          omega
        refine ⟨by omega, by simp only [List.length_cons]; omega, ?_, ?_⟩
        · rw [hsub]; simpa using h3
        · intro i hi hlen
          rw [hsub] at hi
          obtain ⟨j, rfl⟩ : ∃ j, i = j + 1 := ⟨i - 1, by omega⟩
          have := h4 j (by omega) (by simpa using hlen)
          simpa using this
    | false =>
      have hr : minArgStep (false :: rest) m a = minArgStep rest a (a + 1) := by
        simp [minArgStep]
      rw [hr]
      right
      rcases ih a (a + 1) with ⟨h1, h2⟩ | ⟨h1, h2, h3, h4⟩
      · rw [h1]
        refine ⟨le_refl _, by simp, by simp, ?_⟩
        intro i hi hlen
        obtain ⟨j, rfl⟩ : ∃ j, i = j + 1 := ⟨i - 1, by omega⟩
        have hj : j < rest.length := by simpa using hlen
        have hmem : rest.get ⟨j, hj⟩ ∈ rest := List.get_mem _ _ _
        have := h2 _ hmem
        simp only [List.get?_cons_succ]
        rw [List.get?_eq_get hj, this]
      · have hsub : minArgStep rest a (a + 1) - a = (minArgStep rest a (a + 1) - (a + 1)) + 1 := by
          omega
        refine ⟨by omega, by simp only [List.length_cons]; omega, ?_, ?_⟩
        · rw [hsub]; simpa using h3
        · intro i hi hlen
          rw [hsub] at hi
          obtain ⟨j, rfl⟩ : ∃ j, i = j + 1 := ⟨i - 1, by omega⟩
          have := h4 j (by omega) (by simpa using hlen)
          simpa using this

/-- C1: `getMinMaxArgumentCount` returns `(min, max)` where `max` is the number
of parameters and `min` is the 1-based position of the rightmost parameter that
is not `LuaInterfacableWithDefault`, or 0 when every parameter is; hence
`min ≤ max` and every parameter at a position greater than `min` is defaultable. -/
theorem getMinMaxArgumentCount_spec (defaultable : List Bool) :
    (getMinMaxArgumentCount defaultable).2 = defaultable.length ∧
    (getMinMaxArgumentCount defaultable).1 ≤ (getMinMaxArgumentCount defaultable).2 ∧
    ((getMinMaxArgumentCount defaultable).1 = 0 ↔ ∀ d ∈ defaultable, d = true) ∧
    ((getMinMaxArgumentCount defaultable).1 ≠ 0 →
      defaultable.get? ((getMinMaxArgumentCount defaultable).1 - 1) = some false) ∧
    (∀ i, (getMinMaxArgumentCount defaultable).1 ≤ i → i < defaultable.length →
      defaultable.get? i = some true) := by
  simp only [getMinMaxArgumentCount]
  rcases minArgStep_spec defaultable 0 1 with ⟨h1, h2⟩ | ⟨h1, h2, h3, h4⟩
  · rw [h1]
    refine ⟨trivial, Nat.zero_le _, ⟨fun _ => h2, fun _ => rfl⟩, fun h => absurd rfl h, ?_⟩
    intro i _ hlen
    have hmem : defaultable.get ⟨i, hlen⟩ ∈ defaultable := List.get_mem _ _ _
    rw [List.get?_eq_get hlen, h2 _ hmem]
  · refine ⟨trivial, by omega, ⟨fun h => by omega, fun h => ?_⟩, fun _ => h3, ?_⟩
    · exfalso
      have hlt : minArgStep defaultable 0 1 - 1 < defaultable.length := by omega
      have hmem : defaultable.get ⟨_, hlt⟩ ∈ defaultable := List.get_mem _ _ _
      have := h (defaultable.get ⟨_, hlt⟩) hmem
      rw [List.get?_eq_get hlt, this] at h3
      simp at h3
    · intro i hi hlen
      exact h4 i (by omega) hlen

/-! ## Properties: the shape of a call attempt -/

theorem wrongArgumentCountError_head (a b c : Nat) :
    (wrongArgumentCountError a b c).data.head? = some 'W' := by
  unfold wrongArgumentCountError
  split <;> simp [String.data_append]

theorem failedReadingError_head (k : Nat) :
    (failedReadingError k).data.head? = some 'F' := by
  unfold failedReadingError
  simp [String.data_append]

theorem failedToEmplaceError_head (n : String) :
    (failedToEmplaceError n).data.head? = some 'A' := by
  unfold failedToEmplaceError
  simp [String.data_append]

/-- The three ways in which `tryToCallRaw` returns. -/
theorem tryToCallRaw_cases (fuel : Nat) (params : List Param) (ret : Option Traits) (f : Invoc)
    (s : LuaState) (o : CallOutcome) (h : tryToCallRaw fuel params ret f s = some o) :
    (¬ ((getMinMaxArgumentCount (params.map Param.isDefaultable)).1 ≤ lua_gettop s ∧
        lua_gettop s ≤ (getMinMaxArgumentCount (params.map Param.isDefaultable)).2) ∧
      o = { res := { howManyArgsRead := 0, howManyArgsTotal := params.length,
                     errMsg := wrongArgumentCountError
                       (getMinMaxArgumentCount (params.map Param.isDefaultable)).1
                       (getMinMaxArgumentCount (params.map Param.isDefaultable)).2
                       (lua_gettop s) },
            state := s, trace := [] }) ∨
    (((getMinMaxArgumentCount (params.map Param.isDefaultable)).1 ≤ lua_gettop s ∧
        lua_gettop s ≤ (getMinMaxArgumentCount (params.map Param.isDefaultable)).2) ∧
      ∃ args k s1 reads, readArgs fuel (lua_gettop s) params 0 s = some (args, k, s1, reads) ∧
        k ≠ 0 ∧
        o = { res := { howManyArgsRead := k - 1, howManyArgsTotal := params.length,
                       errMsg := failedReadingError k },
              state := lua_settop s1 (lua_gettop s), trace := reads }) ∨
    (((getMinMaxArgumentCount (params.map Param.isDefaultable)).1 ≤ lua_gettop s ∧
        lua_gettop s ≤ (getMinMaxArgumentCount (params.map Param.isDefaultable)).2) ∧
      ∃ args s1 reads vals s4 e,
        readArgs fuel (lua_gettop s) params 0 s = some (args, 0, s1, reads) ∧
        derefAll s1 (fillDefaults params (lua_gettop s) s1
          (reverseIotaSequence (List.range params.length)) args) = some vals ∧
        (writeReturn ret (storeArgs params (fillDefaults params (lua_gettop s) s1
          (reverseIotaSequence (List.range params.length)) args)
            (f vals s1).2.1 (f vals s1).2.2).2 (f vals s1).1).1 = some s4 ∧
        emplaceArgs params.length params (storeArgs params (fillDefaults params (lua_gettop s) s1
          (reverseIotaSequence (List.range params.length)) args)
            (f vals s1).2.1 (f vals s1).2.2).1 0 s4 = some e ∧
        o = { res := e.1, state := e.2.1,
              trace := reads ++ [Event.invoke vals] ++
                (writeReturn ret (storeArgs params (fillDefaults params (lua_gettop s) s1
                  (reverseIotaSequence (List.range params.length)) args)
                    (f vals s1).2.1 (f vals s1).2.2).2 (f vals s1).1).2 ++ e.2.2 }) := by
  unfold tryToCallRaw at h
  simp only [] at h
  split at h
  · rename_i hr
    left
    refine ⟨?_, ?_⟩
    · intro hh
      simp [hh.1, hh.2] at hr
    · exact (Option.some.inj h).symm
  · rename_i hr
    have hin : ((getMinMaxArgumentCount (params.map Param.isDefaultable)).1 ≤ lua_gettop s ∧
        lua_gettop s ≤ (getMinMaxArgumentCount (params.map Param.isDefaultable)).2) := by
      simpa using hr
    right
    split at h
    · exact absurd h (by simp)
    · rename_i args k s1 reads hread
      split at h
      · rename_i hk
        left
        exact ⟨hin, args, k, s1, reads, hread, hk, (Option.some.inj h).symm⟩
      · rename_i hk
        have hk0 : k = 0 := by simpa using hk
        subst hk0
        right
        split at h
        · exact absurd h (by simp)
        · rename_i vals hvals
          split at h
          · exact absurd h (by simp)
          · rename_i s4 hs4
            split at h
            · exact absurd h (by simp)
            · rename_i e he
              exact ⟨hin, args, s1, reads, vals, s4, e, hread, hvals, hs4, he,
                (Option.some.inj h).symm⟩

theorem emplaceArgs_result (n : Nat) : ∀ (ps : List Param) (args : List PotentialOwner)
    (i : Nat) (s : LuaState) (r : TryToCallResult × LuaState × List Event),
    emplaceArgs n ps args i s = some r →
    r.1.howManyArgsRead = n ∧ r.1.howManyArgsTotal = n ∧
    (r.1.errMsg = "" ∨ ∃ p ∈ ps, p.kind = RefKind.mutRef ∧ p.traits.emplace = none ∧
      r.1.errMsg = failedToEmplaceError p.traits.typeName) := by
  intro ps
  induction ps with
  | nil =>
    intro args i s r h
    simp only [emplaceArgs] at h
    cases h
    simp
  | cons p ps ih =>
    intro args i s r h
    cases args with
    | nil =>
      simp only [emplaceArgs] at h
      cases h
      simp
    | cons a rest =>
      have lift : ∀ r0 : TryToCallResult × LuaState × List Event, (r0.1.howManyArgsRead = n ∧ r0.1.howManyArgsTotal = n ∧
          (r0.1.errMsg = "" ∨ ∃ q ∈ ps, q.kind = RefKind.mutRef ∧ q.traits.emplace = none ∧
            r0.1.errMsg = failedToEmplaceError q.traits.typeName)) →
          (r0.1.howManyArgsRead = n ∧ r0.1.howManyArgsTotal = n ∧
          (r0.1.errMsg = "" ∨ ∃ q ∈ p :: ps, q.kind = RefKind.mutRef ∧ q.traits.emplace = none ∧
            r0.1.errMsg = failedToEmplaceError q.traits.typeName)) := by
        intro r0 h0
        refine ⟨h0.1, h0.2.1, ?_⟩
        rcases h0.2.2 with h1 | ⟨q, hq, h1⟩
        · exact Or.inl h1
        · exact Or.inr ⟨q, List.mem_cons_of_mem _ hq, h1⟩
      simp only [emplaceArgs] at h
      split at h
      · rename_i hk
        split at h
        · rename_i v
          split at h
          · rename_i e he
            split at h
            · exact absurd h (by simp)
            · rename_i s1 hs1
              split at h
              · exact absurd h (by simp)
              · rename_i r1 hr1
                cases h
                exact lift (r1.1, r1.2.1, Event.emplace (i + 1) v :: r1.2.2) (ih _ _ _ r1 hr1)
          · rename_i he
            cases h
            exact ⟨rfl, rfl, Or.inr ⟨p, List.mem_cons_self _ _, hk, he, rfl⟩⟩
        · exact lift _ (ih _ _ _ _ h)
      · exact lift _ (ih _ _ _ _ h)

/-! ## Properties: the arity check -/

theorem head_ne_of_eq {a b : String} {x y : Char} (ha : a.data.head? = some x)
    (hb : b.data.head? = some y) (hxy : x ≠ y) : a ≠ b := by
  intro h
  rw [h, hb] at ha
  exact hxy (Option.some.inj ha).symm

/-- C2: `tryToCallRaw` returns the arity error `wrongArgumentCountError(min, max, N)`
with `howManyArgsRead = 0` if and only if `N < min` or `N > max`; in that case it
reads no argument, does not invoke the callable and leaves the state untouched.
A function of exactly two non-defaultable parameters is rejected for
`N = 0, 1, 3` and passes the arity check for `N = 2`. -/
theorem tryToCallRaw_arity (fuel : Nat) (params : List Param) (ret : Option Traits) (f : Invoc)
    (s : LuaState) :
    ((∃ o, tryToCallRaw fuel params ret f s = some o ∧
        o.res = { howManyArgsRead := 0, howManyArgsTotal := params.length,
                  errMsg := wrongArgumentCountError
                    (getMinMaxArgumentCount (params.map Param.isDefaultable)).1
                    (getMinMaxArgumentCount (params.map Param.isDefaultable)).2
                    (lua_gettop s) }) ↔
      (lua_gettop s < (getMinMaxArgumentCount (params.map Param.isDefaultable)).1 ∨
        (getMinMaxArgumentCount (params.map Param.isDefaultable)).2 < lua_gettop s)) ∧
    ((lua_gettop s < (getMinMaxArgumentCount (params.map Param.isDefaultable)).1 ∨
        (getMinMaxArgumentCount (params.map Param.isDefaultable)).2 < lua_gettop s) →
      tryToCallRaw fuel params ret f s =
        some { res := { howManyArgsRead := 0, howManyArgsTotal := params.length,
                        errMsg := wrongArgumentCountError
                          (getMinMaxArgumentCount (params.map Param.isDefaultable)).1
                          (getMinMaxArgumentCount (params.map Param.isDefaultable)).2
                          (lua_gettop s) },
               state := s, trace := [] }) ∧
    (∀ p1 p2 : Param, params = [p1, p2] → p1.isDefaultable = false → p2.isDefaultable = false →
      ((lua_gettop s = 0 ∨ lua_gettop s = 1 ∨ lua_gettop s = 3) →
        tryToCallRaw fuel params ret f s =
          some { res := { howManyArgsRead := 0, howManyArgsTotal := 2,
                          errMsg := wrongArgumentCountError 2 2 (lua_gettop s) },
                 state := s, trace := [] }) ∧
      (lua_gettop s = 2 → ∀ o, tryToCallRaw fuel params ret f s = some o →
        o.res.errMsg ≠ wrongArgumentCountError 2 2 2)) := by
  have hout : (lua_gettop s < (getMinMaxArgumentCount (params.map Param.isDefaultable)).1 ∨
        (getMinMaxArgumentCount (params.map Param.isDefaultable)).2 < lua_gettop s) →
      tryToCallRaw fuel params ret f s =
        some { res := { howManyArgsRead := 0, howManyArgsTotal := params.length,
                        errMsg := wrongArgumentCountError
                          (getMinMaxArgumentCount (params.map Param.isDefaultable)).1
                          (getMinMaxArgumentCount (params.map Param.isDefaultable)).2
                          (lua_gettop s) },
               state := s, trace := [] } := by
    intro h
    unfold tryToCallRaw
    simp only []
    rw [if_pos]
    rcases h with h | h
    · simp [Nat.not_le.2 h]
    · simp [Nat.not_le.2 h]
  have hin : ∀ o, tryToCallRaw fuel params ret f s = some o →
      ((getMinMaxArgumentCount (params.map Param.isDefaultable)).1 ≤ lua_gettop s ∧
        lua_gettop s ≤ (getMinMaxArgumentCount (params.map Param.isDefaultable)).2) →
      ∀ a b c, o.res.errMsg ≠ wrongArgumentCountError a b c := by
    intro o ho hr a b c
    rcases tryToCallRaw_cases fuel params ret f s o ho with ⟨h1, _⟩ | ⟨_, h2⟩ | ⟨_, h3⟩
    · exact absurd hr h1
    · obtain ⟨args, k, s1, reads, _, _, rfl⟩ := h2
      exact head_ne_of_eq (failedReadingError_head k) (wrongArgumentCountError_head a b c)
        (by decide)
    · obtain ⟨args, s1, reads, vals, s4, e, _, _, _, he, rfl⟩ := h3
      rcases (emplaceArgs_result _ _ _ _ _ _ he).2.2 with h0 | ⟨p, _, _, _, h0⟩
      · show e.1.errMsg ≠ _
        rw [h0]
        intro hc
        have := wrongArgumentCountError_head a b c
        rw [← hc] at this
        simp at this
      · show e.1.errMsg ≠ _
        rw [h0]
        exact head_ne_of_eq (failedToEmplaceError_head _) (wrongArgumentCountError_head a b c)
          (by decide)
  refine ⟨⟨?_, ?_⟩, hout, ?_⟩
  · rintro ⟨o, ho, hres⟩
    by_contra hcon
    have hr : ((getMinMaxArgumentCount (params.map Param.isDefaultable)).1 ≤ lua_gettop s ∧
        lua_gettop s ≤ (getMinMaxArgumentCount (params.map Param.isDefaultable)).2) := by
      omega
    exact hin o ho hr _ _ _ (by rw [hres])
  · intro h
    exact ⟨_, hout h, rfl⟩
  · intro p1 p2 hp h1 h2
    have hmm : getMinMaxArgumentCount (params.map Param.isDefaultable) = (2, 2) := by
      subst hp
      simp [getMinMaxArgumentCount, minArgStep, h1, h2]
    have hlen : params.length = 2 := by subst hp; rfl
    rw [hmm] at hout hin
    rw [hlen] at hout
    refine ⟨fun h => hout (by simp only []; omega), ?_⟩
    intro hN o ho
    exact hin o ho (by simp only []; omega) 2 2 2

theorem tryToCallRaw_arity_witness :
    tryToCallRaw 0 twoInts (some intTraits) plusInt oneIntState =
      some { res := { howManyArgsRead := 0, howManyArgsTotal := 2,
                      errMsg := "Wrong number of arguments. Expected 2, got 1." },
             state := oneIntState, trace := [] } :=
  (tryToCallRaw_arity 0 twoInts (some intTraits) plusInt oneIntState).2.1 (by decide)

/-! ## Properties: the stages of a call attempt -/

theorem reverseIotaSequence_range_succ (m : Nat) :
    ∃ rest, reverseIotaSequence (List.range (m + 1)) = m :: rest := by
  refine ⟨(List.map Nat.succ (List.range m)).map (fun v =>
    (List.range (m + 1)).getD ((List.range (m + 1)).length - (List.range (m + 1)).getD v 0 - 1) 0),
    ?_⟩
  unfold reverseIotaSequence
  conv_lhs => arg 2; rw [List.range_succ_eq_map]
  simp [List.getD_eq_getElem?_getD, List.getElem?_range]

theorem readSeq_length (fuel : Nat) : ∀ (ps : List Param) (i : Nat) (s : LuaState)
    (args : List PotentialOwner) (s1 : LuaState),
    readSeq fuel ps i s = some (args, s1) → args.length = ps.length := by
  intro ps
  induction ps with
  | nil =>
    intro i s args s1 h
    simp only [readSeq] at h
    cases h
    rfl
  | cons p ps ih =>
    intro i s args s1 h
    simp only [readSeq] at h
    split at h
    · exact absurd h (by simp)
    · rename_i a s2 _
      split at h
      · exact absurd h (by simp)
      · rename_i rest s3 hrest
        cases h
        simp [ih _ _ _ _ hrest]

/-- The events of reading the stack slots `i + 1, ..., i + n`. -/
theorem readArgs_append (fuel N : Nat) : ∀ (pre : List Param) (i : Nat) (s : LuaState)
    (args : List PotentialOwner) (s1 : LuaState),
    readSeq fuel pre i s = some (args, s1) → (∀ a ∈ args, a.toBool = true) →
    i + pre.length ≤ N → ∀ rest : List Param,
    readArgs fuel N (pre ++ rest) i s =
      match readArgs fuel N rest (i + pre.length) s1 with
      | none => none
      | some (r, k, s2, ev) =>
          some (args ++ r, k, s2, (List.range' (i + 1) pre.length).map Event.readArg ++ ev) := by
  intro pre
  induction pre with
  | nil =>
    intro i s args s1 h _ _ rest
    simp only [readSeq] at h
    cases h
    simp only [List.nil_append, List.length_nil, Nat.add_zero, List.range'_zero, List.map_nil]
    cases readArgs fuel N rest i s with
    | none => rfl
    | some r => rfl
  | cons p ps ih =>
    intro i s args s1 h hall hN rest
    simp only [readSeq] at h
    split at h
    · exact absurd h (by simp)
    · rename_i a s2 ha
      split at h
      · exact absurd h (by simp)
      · rename_i rest1 s3 hrest
        cases h
        have hlen : i + (p :: ps).length = i + 1 + ps.length := by
          simp only [List.length_cons]; omega
        have hiN : ¬ (i ≥ N) := by
          simp only [List.length_cons] at hN; omega
        have ha1 : a.toBool = true := hall a (List.mem_cons_self _ _)
        have ih1 := ih (i + 1) s2 rest1 s1 hrest
          (fun b hb => hall b (List.mem_cons_of_mem _ hb)) (by rw [← hlen]; exact hN) rest
        have e1 : readArgs fuel N (p :: (ps ++ rest)) i s =
            match readArgs fuel N (ps ++ rest) (i + 1) s2 with
            | none => none
            | some (rest, failed, s2, ev) =>
                some (a :: rest, failed, s2, Event.readArg (i + 1) :: ev) := by
          simp only [readArgs, if_neg hiN, ha, ha1, if_true]
        rw [List.cons_append, e1, ih1, hlen]
        cases readArgs fuel N rest (i + 1 + ps.length) s1 with
        | none => rfl
        | some r =>
          simp only [List.length_cons, List.range'_succ, List.map_cons, List.cons_append]

theorem derefAll_owned (s : LuaState) (vals : List NVal) :
    derefAll s (vals.map PotentialOwner.owned) = some vals := by
  induction vals with
  | nil => rfl
  | cons v vs ih => simp [derefAll, PotentialOwner.deref, ih]

theorem readArgs_trace (fuel N : Nat) : ∀ (ps : List Param) (i : Nat) (s : LuaState)
    (r : List PotentialOwner × Nat × LuaState × List Event),
    readArgs fuel N ps i s = some r →
    invocations r.2.2.2 = [] ∧ ∀ j, emplacedAt j r.2.2.2 = [] := by
  intro ps
  induction ps with
  | nil =>
    intro i s r h
    simp only [readArgs] at h
    cases h
    exact ⟨rfl, fun _ => rfl⟩
  | cons p ps ih =>
    intro i s r h
    simp only [readArgs] at h
    split at h
    · cases h
      exact ⟨rfl, fun _ => rfl⟩
    · split at h
      · exact absurd h (by simp)
      · split at h
        · split at h
          · exact absurd h (by simp)
          · rename_i rest k s2 ev hrest
            cases h
            have := ih _ _ _ hrest
            exact ⟨by simpa [invocations] using this.1, fun j => by
              simpa [emplacedAt] using this.2 j⟩
        · cases h
          exact ⟨rfl, fun _ => rfl⟩

theorem invocations_append (a b : List Event) :
    invocations (a ++ b) = invocations a ++ invocations b := by
  induction a with
  | nil => rfl
  | cons e rest ih => cases e <;> simp [invocations, ih]

theorem emplacedAt_append (j : Nat) (a b : List Event) :
    emplacedAt j (a ++ b) = emplacedAt j a ++ emplacedAt j b := by
  induction a with
  | nil => rfl
  | cons e rest ih =>
    cases e <;> simp [emplacedAt, ih]
    split <;> simp

theorem storeArgs_owned : ∀ (ps : List Param) (vals newVals : List NVal) (t : LuaState),
    (storeArgs ps (vals.map PotentialOwner.owned) newVals t).2 = t := by
  intro ps
  induction ps with
  | nil => intro vals newVals t; simp [storeArgs]
  | cons p ps ih =>
    intro vals newVals t
    cases vals with
    | nil => simp [storeArgs]
    | cons v vs =>
      cases newVals with
      | nil => simp [storeArgs]
      | cons w ws =>
        simp only [List.map_cons, storeArgs]
        split
        · exact ih vs ws t
        · exact ih vs ws t

theorem emplaceArgs_ok (n : Nat) : ∀ (ps : List Param) (args : List PotentialOwner) (i : Nat)
    (t : LuaState),
    (∀ p ∈ ps, p.kind = RefKind.mutRef → ∃ e, p.traits.emplace = some e ∧
      ∀ (t0 : LuaState) (v : NVal) (j : Nat), ∃ t1, e t0 v j = some t1 ∧ t1.stack = t0.stack) →
    ∃ t1 evs, emplaceArgs n ps args i t =
        some ({ howManyArgsRead := n, howManyArgsTotal := n, errMsg := "" }, t1, evs) ∧
      t1.stack = t.stack ∧ invocations evs = [] := by
  intro ps
  induction ps with
  | nil => intro args i t _; exact ⟨t, [], by simp [emplaceArgs], rfl, rfl⟩
  | cons p ps ih =>
    intro args i t hemp
    have hemp1 : ∀ q ∈ ps, q.kind = RefKind.mutRef → ∃ e, q.traits.emplace = some e ∧
        ∀ (t0 : LuaState) (v : NVal) (j : Nat), ∃ t1, e t0 v j = some t1 ∧ t1.stack = t0.stack :=
      fun q hq => hemp q (List.mem_cons_of_mem _ hq)
    cases args with
    | nil => exact ⟨t, [], by simp [emplaceArgs], rfl, rfl⟩
    | cons a rest =>
      by_cases hk : p.kind = RefKind.mutRef
      · cases a with
        | owned v =>
          obtain ⟨e, he, hcontract⟩ := hemp p (List.mem_cons_self _ _) hk
          obtain ⟨t1, ht1, hst1⟩ := hcontract t v (lua_absindex t ((i : Int) + 1))
          obtain ⟨t2, evs, h2, hst2, hinv⟩ := ih rest (i + 1) t1 hemp1
          refine ⟨t2, Event.emplace (i + 1) v :: evs, ?_, by rw [hst2, hst1], by
            simpa [invocations] using hinv⟩
          simp only [emplaceArgs, if_pos hk, he, emplace, ht1, h2]
        | monostate =>
          obtain ⟨t2, evs, h2, hst2, hinv⟩ := ih rest (i + 1) t hemp1
          exact ⟨t2, evs, by simp only [emplaceArgs, if_pos hk, h2], hst2, hinv⟩
        | ptr u =>
          obtain ⟨t2, evs, h2, hst2, hinv⟩ := ih rest (i + 1) t hemp1
          exact ⟨t2, evs, by simp only [emplaceArgs, if_pos hk, h2], hst2, hinv⟩
      · obtain ⟨t2, evs, h2, hst2, hinv⟩ := ih rest (i + 1) t hemp1
        exact ⟨t2, evs, by simp only [emplaceArgs, if_neg hk, h2], hst2, hinv⟩

theorem tryToCallRaw_invoke (fuel : Nat) (params : List Param) (ret : Option Traits) (f : Invoc)
    (s s1 s4 : LuaState) (args : List PotentialOwner) (reads : List Event) (vals : List NVal)
    (e : TryToCallResult × LuaState × List Event)
    (hmin : (getMinMaxArgumentCount (params.map Param.isDefaultable)).1 ≤ lua_gettop s)
    (hmax : lua_gettop s ≤ (getMinMaxArgumentCount (params.map Param.isDefaultable)).2)
    (hread : readArgs fuel (lua_gettop s) params 0 s = some (args, 0, s1, reads))
    (hvals : derefAll s1 (fillDefaults params (lua_gettop s) s1
      (reverseIotaSequence (List.range params.length)) args) = some vals)
    (hw : (writeReturn ret (storeArgs params (fillDefaults params (lua_gettop s) s1
      (reverseIotaSequence (List.range params.length)) args)
        (f vals s1).2.1 (f vals s1).2.2).2 (f vals s1).1).1 = some s4)
    (he : emplaceArgs params.length params (storeArgs params (fillDefaults params (lua_gettop s) s1
      (reverseIotaSequence (List.range params.length)) args)
        (f vals s1).2.1 (f vals s1).2.2).1 0 s4 = some e) :
    tryToCallRaw fuel params ret f s =
      some { res := e.1, state := e.2.1,
             trace := reads ++ [Event.invoke vals] ++
               (writeReturn ret (storeArgs params (fillDefaults params (lua_gettop s) s1
                 (reverseIotaSequence (List.range params.length)) args)
                   (f vals s1).2.1 (f vals s1).2.2).2 (f vals s1).1).2 ++ e.2.2 } := by
  unfold tryToCallRaw
  simp only [hmin, hmax, decide_True, Bool.and_self, Bool.not_true, ge_iff_le, hread, hvals, hw, he]
  simp

/-! ## Properties: a successful call -/

theorem getMinMax_bounds (l : List Bool) :
    (getMinMaxArgumentCount l).1 ≤ l.length ∧ (getMinMaxArgumentCount l).2 = l.length := by
  simp only [getMinMaxArgumentCount]
  rcases minArgStep_spec l 0 1 with ⟨h1, _⟩ | ⟨_, h2, _, _⟩
  · rw [h1]; exact ⟨Nat.zero_le _, trivial⟩
  · exact ⟨by omega, trivial⟩

theorem fillDefaults_all_supplied (params : List Param) (s : LuaState)
    (args : List PotentialOwner)
    (hlast : ∀ p, params.getLast? = some p → p.isDefaultable = false) :
    fillDefaults params params.length s (reverseIotaSequence (List.range params.length)) args
      = args := by
  cases hn : params.length with
  | zero => simp [reverseIotaSequence, fillDefaults]
  | succ m =>
    obtain ⟨rest, hrest⟩ := reverseIotaSequence_range_succ m
    rw [hrest]
    have hm : ¬ (m ≥ m + 1) := by omega
    have hget : params.get? m = params.getLast? := by
      rw [List.getLast?_eq_getElem?, hn, List.get?_eq_getElem?]
      rfl
    simp only [fillDefaults, if_neg hm, fillStep, hget]
    cases hl : params.getLast? with
    | none => rfl
    | some p => simp [hlast p hl]

/-! ## Properties: default values -/

/-- C4 (the code at the failing input): `valueOr(std::optional<int>)` called
with the supplied argument `3`.  The argument decodes as the engaged optional
`3`, but the callable is invoked with the default (the empty optional) and `-1`
is returned: the supplied last argument was replaced by its default. -/
theorem tryToCallRaw_default_replaces_supplied :
    readSeq 0 oneOptInt 0 oneIntState =
      some ([PotentialOwner.owned (NVal.opt (some (NVal.int 3)))], oneIntState) ∧
    (tryToCallRaw 0 oneOptInt (some intTraits) valueOr oneIntState).map
      (fun o => invocations o.trace) = some [[NVal.opt none]] ∧
    (tryToCallRaw 0 oneOptInt (some intTraits) valueOr oneIntState).map
      (fun o => (o.res, o.state.stack)) =
      some ({ howManyArgsRead := 1, howManyArgsTotal := 1, errMsg := "" },
            [Value.int 3, Value.int (-1)]) := by
  refine ⟨rfl, rfl, rfl⟩

/-! ## Properties: a failed read -/

theorem lua_settop_gettop (s : LuaState) (n : Nat) : lua_gettop (lua_settop s n) = n := by
  simp only [lua_gettop, lua_settop, List.length_append, List.length_take, List.length_replicate]
  omega

theorem readSlots_map_readArg (l : List Nat) : readSlots (l.map Event.readArg) = l := by
  induction l with
  | nil => rfl
  | cons x xs ih => simp [readSlots, ih]

theorem invocations_map_readArg (l : List Nat) : invocations (l.map Event.readArg) = [] := by
  induction l with
  | nil => rfl
  | cons x xs ih => simp [invocations, ih]

/-- C5: in a call that passes the arity check, if the arguments `1 .. k-1` decode
(read one after the other from the left) and argument `k` is supplied and does
not decode, `tryToCallRaw` returns "Failed reading argument #k." with
`howManyArgsRead = k - 1`; exactly the slots `1 .. k` were read, in this order,
the callable was not invoked, and the stack depth is the depth on entry. -/
theorem tryToCallRaw_read_failure (fuel : Nat) (pre : List Param) (p : Param)
    (post : List Param) (ret : Option Traits) (f : Invoc) (s s1 s2 : LuaState)
    (args : List PotentialOwner) (a : PotentialOwner)
    (hmin : (getMinMaxArgumentCount ((pre ++ p :: post).map Param.isDefaultable)).1 ≤ lua_gettop s)
    (hmax : lua_gettop s ≤ (getMinMaxArgumentCount ((pre ++ p :: post).map Param.isDefaultable)).2)
    (hk : pre.length + 1 ≤ lua_gettop s)
    (hpre : readSeq fuel pre 0 s = some (args, s1))
    (hok : ∀ b ∈ args, b.toBool = true)
    (hfail : readArg fuel p pre.length s1 = some (a, s2))
    (ha : a.toBool = false) :
    ∃ o, tryToCallRaw fuel (pre ++ p :: post) ret f s = some o ∧
      o.res = { howManyArgsRead := pre.length + 1 - 1,
                howManyArgsTotal := (pre ++ p :: post).length,
                errMsg := "Failed reading argument #" ++ toString (pre.length + 1) ++ "." } ∧
      readSlots o.trace = List.range' 1 (pre.length + 1) ∧
      invocations o.trace = [] ∧
      o.state = lua_settop s2 (lua_gettop s) ∧
      lua_gettop o.state = lua_gettop s := by
  have hra := readArgs_append fuel (lua_gettop s) pre 0 s args s1 hpre hok (by omega) (p :: post)
  have hnot : ¬ (pre.length ≥ lua_gettop s) := by omega
  simp only [Nat.zero_add, readArgs, if_neg hnot, hfail, ha] at hra
  simp only [Bool.false_eq_true, if_false] at hra
  have hne : pre.length + 1 ≠ 0 := by omega
  refine ⟨{ res := { howManyArgsRead := pre.length + 1 - 1,
                     howManyArgsTotal := (pre ++ p :: post).length,
                     errMsg := failedReadingError (pre.length + 1) },
            state := lua_settop s2 (lua_gettop s),
            trace := (List.range' 1 pre.length).map Event.readArg ++
              [Event.readArg (pre.length + 1)] }, ?_, rfl, ?_, ?_, rfl, lua_settop_gettop _ _⟩
  · unfold tryToCallRaw
    simp only [hmin, hmax, decide_True, Bool.and_self, Bool.not_true, ge_iff_le, hra]
    simp
  · have : (List.range' 1 pre.length).map Event.readArg ++ [Event.readArg (pre.length + 1)]
        = (List.range' 1 (pre.length + 1)).map Event.readArg := by
      rw [List.range'_1_concat, List.map_append]
      simp [Nat.add_comm]
    show readSlots _ = _
    rw [this, readSlots_map_readArg]
  · have : (List.range' 1 pre.length).map Event.readArg ++ [Event.readArg (pre.length + 1)]
        = (List.range' 1 (pre.length + 1)).map Event.readArg := by
      rw [List.range'_1_concat, List.map_append]
      simp [Nat.add_comm]
    show invocations _ = _
    rw [this, invocations_map_readArg]

/-- C5 (witness): `plus(int, int)` called with `(3, "x")` fails reading
argument 2 after reading slots 1 and 2, without invoking the callable. -/
theorem tryToCallRaw_read_failure_witness :
    ∃ o, tryToCallRaw 0 twoInts (some intTraits) plusInt intStringState = some o ∧
      o.res = { howManyArgsRead := 1, howManyArgsTotal := 2,
                errMsg := "Failed reading argument #2." } ∧
      readSlots o.trace = [1, 2] ∧
      invocations o.trace = [] ∧
      o.state = lua_settop intStringState 2 ∧
      lua_gettop o.state = 2 :=
  tryToCallRaw_read_failure 0 [{ traits := intTraits, kind := RefKind.byValue }]
    { traits := intTraits, kind := RefKind.byValue } [] (some intTraits) plusInt
    intStringState intStringState intStringState [PotentialOwner.owned (NVal.int 3)]
    PotentialOwner.monostate (by decide) (by decide) (by decide) rfl
    (by intro b hb; simp only [List.mem_singleton] at hb; subst hb; rfl) rfl rfl

/-! ## Properties: errors and the invocation -/

theorem emplaceArgs_trace (n : Nat) : ∀ (ps : List Param) (args : List PotentialOwner)
    (i : Nat) (s : LuaState) (r : TryToCallResult × LuaState × List Event),
    emplaceArgs n ps args i s = some r → invocations r.2.2 = [] ∧ readSlots r.2.2 = [] := by
  intro ps
  induction ps with
  | nil =>
    intro args i s r h
    simp only [emplaceArgs] at h
    cases h
    exact ⟨rfl, rfl⟩
  | cons p ps ih =>
    intro args i s r h
    cases args with
    | nil =>
      simp only [emplaceArgs] at h
      cases h
      exact ⟨rfl, rfl⟩
    | cons a rest =>
      simp only [emplaceArgs] at h
      split at h
      · split at h
        · split at h
          · split at h
            · exact absurd h (by simp)
            · split at h
              · exact absurd h (by simp)
              · rename_i r1 hr1
                cases h
                have := ih _ _ _ r1 hr1
                exact ⟨by simpa [invocations] using this.1, by simpa [readSlots] using this.2⟩
          · cases h
            exact ⟨rfl, rfl⟩
        · exact ih _ _ _ _ h
      · exact ih _ _ _ _ h

theorem invocations_writeReturn (ret : Option Traits) (s : LuaState) (v : NVal) :
    invocations (writeReturn ret s v).2 = [] := by
  cases ret <;> rfl

/-- C7 (amended): a non-empty error message of `tryToCallRaw` is either the
arity error or a failed-read error, and then the callable has not been invoked
and the stack depth equals the depth on entry; or it is `failedToEmplaceError`
for a parameter taken by mutable reference whose type has no `emplace`, and
this one is returned at call time, after the callable has run exactly once. -/
theorem tryToCallRaw_error (fuel : Nat) (params : List Param) (ret : Option Traits) (f : Invoc)
    (s : LuaState) (o : CallOutcome) (h : tryToCallRaw fuel params ret f s = some o)
    (herr : o.res.errMsg ≠ "") :
    (((∃ a b c, o.res.errMsg = wrongArgumentCountError a b c) ∨
        (∃ k, o.res.errMsg = failedReadingError k)) ∧
      invocations o.trace = [] ∧ lua_gettop o.state = lua_gettop s) ∨
    ((∃ p ∈ params, p.kind = RefKind.mutRef ∧ p.traits.emplace = none ∧
        o.res.errMsg = failedToEmplaceError p.traits.typeName) ∧
      ∃ vals, invocations o.trace = [vals]) := by
  rcases tryToCallRaw_cases fuel params ret f s o h with ⟨_, h1⟩ | ⟨_, h2⟩ | ⟨_, h3⟩
  · left
    subst h1
    exact ⟨Or.inl ⟨_, _, _, rfl⟩, rfl, rfl⟩
  · left
    obtain ⟨args, k, s1, reads, hread, _, rfl⟩ := h2
    exact ⟨Or.inr ⟨k, rfl⟩, (readArgs_trace _ _ _ _ _ _ hread).1, lua_settop_gettop _ _⟩
  · right
    obtain ⟨args, s1, reads, vals, s4, e, hread, _, _, he, rfl⟩ := h3
    rcases (emplaceArgs_result _ _ _ _ _ _ he).2.2 with h0 | h0
    · exact absurd h0 herr
    · refine ⟨h0, vals, ?_⟩
      simp only [invocations_append, (readArgs_trace _ _ _ _ _ _ hread).1,
        (emplaceArgs_trace _ _ _ _ _ _ he).1, invocations_writeReturn, invocations,
        List.nil_append, List.append_nil]

/-- C7 (witness): the arity error of `plus(int, int)` called with one argument. -/
theorem tryToCallRaw_error_witness :
    (((∃ a b c, "Wrong number of arguments. Expected 2, got 1." = wrongArgumentCountError a b c) ∨
        (∃ k, "Wrong number of arguments. Expected 2, got 1." = failedReadingError k)) ∧
      invocations [] = [] ∧ lua_gettop oneIntState = lua_gettop oneIntState) ∨
    ((∃ p ∈ twoInts, p.kind = RefKind.mutRef ∧ p.traits.emplace = none ∧
        "Wrong number of arguments. Expected 2, got 1." =
          failedToEmplaceError p.traits.typeName) ∧
      ∃ vals, invocations [] = [vals]) :=
  tryToCallRaw_error 0 twoInts (some intTraits) plusInt oneIntState
    { res := { howManyArgsRead := 0, howManyArgsTotal := 2,
               errMsg := "Wrong number of arguments. Expected 2, got 1." },
      state := oneIntState, trace := [] } rfl (by decide)

/-- C7 (counterexample): `int inc(int&)` called with the Dynamic argument `3`
returns a non-empty error message although the callable has been invoked (once,
with `3`) and its result has been pushed: the stack is one deeper than on entry. -/
theorem tryToCallRaw_error_counterexample :
    (tryToCallRaw 0 oneIntRef (some intTraits) incInt oneIntState).map
      (fun o => (o.res.errMsg, invocations o.trace, o.state.stack)) =
      some (failedToEmplaceError "int", [[NVal.int 3]], [Value.int 3, Value.int 4]) ∧
    failedToEmplaceError "int" ≠ "" ∧ lua_gettop oneIntState = 1 := by
  refine ⟨rfl, by decide, rfl⟩

/-! ## Properties: write-back through mutable references -/

theorem failedToEmplaceError_ne_empty (n : String) : failedToEmplaceError n ≠ "" := by
  intro h
  have := failedToEmplaceError_head n
  rw [h] at this
  simp at this

/-- What the slot `j` of the emplace pass records: the owned object of a
parameter taken by mutable reference, nothing otherwise. -/
theorem emplaceArgs_emplacedAt (n : Nat) : ∀ (ps : List Param) (args : List PotentialOwner)
    (idx : Nat) (s : LuaState) (r : TryToCallResult × LuaState × List Event),
    emplaceArgs n ps args idx s = some r → r.1.errMsg = "" →
    (∀ m, m ≤ idx → emplacedAt m r.2.2 = []) ∧
    ∀ j, emplacedAt (idx + j + 1) r.2.2 =
      match ps.get? j, args.get? j with
      | some p, some (PotentialOwner.owned v) => if p.kind = RefKind.mutRef then [v] else []
      | _, _ => [] := by
  intro ps
  induction ps with
  | nil =>
    intro args idx s r h _
    simp only [emplaceArgs] at h
    cases h
    exact ⟨fun _ _ => rfl, fun _ => by simp [emplacedAt]⟩
  | cons p ps ih =>
    intro args idx s r h hmsg
    cases args with
    | nil =>
      simp only [emplaceArgs] at h
      cases h
      refine ⟨fun _ _ => rfl, fun j => ?_⟩
      simp only [emplacedAt, List.get?_nil]
      split <;> simp_all
    | cons a rest =>
      have skip : ∀ r0 : TryToCallResult × LuaState × List Event,
          emplaceArgs n ps rest (idx + 1) s = some r0 → r0.1.errMsg = "" →
          (∀ v, a = PotentialOwner.owned v → p.kind ≠ RefKind.mutRef) →
          (∀ m, m ≤ idx → emplacedAt m r0.2.2 = []) ∧
          ∀ j, emplacedAt (idx + j + 1) r0.2.2 =
            match (p :: ps).get? j, (a :: rest).get? j with
            | some p, some (PotentialOwner.owned v) =>
                if p.kind = RefKind.mutRef then [v] else []
            | _, _ => [] := by
        intro r0 h0 hm0 hskip
        have ih0 := ih rest (idx + 1) s r0 h0 hm0
        refine ⟨fun m hm => ih0.1 m (by omega), fun j => ?_⟩
        cases j with
        | zero =>
          rw [ih0.1 (idx + 0 + 1) (by omega)]
          simp only [List.get?_cons_zero]
          cases a with
          | owned v => simp [hskip v rfl]
          | monostate => rfl
          | ptr u => rfl
        | succ j =>
          have := ih0.2 j
          rw [show idx + (j + 1) + 1 = idx + 1 + j + 1 by omega, this]
          simp only [List.get?_cons_succ]
      simp only [emplaceArgs] at h
      split at h
      · rename_i hk
        split at h
        · rename_i v
          split at h
          · split at h
            · exact absurd h (by simp)
            · rename_i s1 _
              split at h
              · exact absurd h (by simp)
              · rename_i r1 hr1
                cases h
                have ih1 := ih rest (idx + 1) s1 r1 hr1 hmsg
                refine ⟨fun m hm => ?_, fun j => ?_⟩
                · have hne : ¬ (idx + 1 = m) := by omega
                  simp only [emplacedAt, if_neg hne]
                  exact ih1.1 m (by omega)
                · cases j with
                  | zero =>
                    simp only [emplacedAt, Nat.add_zero, if_true, List.get?_cons_zero, hk]
                    rw [ih1.1 (idx + 1) (le_refl _)]
                  | succ j =>
                    have hne : ¬ (idx + 1 = idx + (j + 1) + 1) := by omega
                    simp only [emplacedAt, if_neg hne, List.get?_cons_succ]
                    have := ih1.2 j
                    rw [show idx + (j + 1) + 1 = idx + 1 + j + 1 by omega, this]
          · cases h
            exact absurd hmsg (failedToEmplaceError_ne_empty _)
        · rename_i hno
          exact skip r h hmsg (fun v hv => absurd hv (hno v))
      · rename_i hk
        exact skip r h hmsg (fun _ _ => hk)

/-- What the invocation leaves in slot `i` of the translated arguments. -/
theorem storeArgs_get : ∀ (ps : List Param) (args : List PotentialOwner) (nv : List NVal)
    (t : LuaState) (i : Nat),
    (storeArgs ps args nv t).1.get? i =
      match args.get? i, ps.get? i, nv.get? i with
      | some (PotentialOwner.owned v), some p, some w =>
          if p.kind = RefKind.mutRef then some (PotentialOwner.owned w)
          else some (PotentialOwner.owned v)
      | x, _, _ => x := by
  intro ps
  induction ps with
  | nil =>
    intro args nv t i
    simp only [storeArgs, List.get?_nil]
    split <;> simp_all
  | cons p ps ih =>
    intro args nv t i
    cases args with
    | nil => simp [storeArgs]
    | cons a rest =>
      cases nv with
      | nil =>
        simp only [storeArgs, List.get?_nil]
        split <;> simp_all
      | cons w ws =>
        cases i with
        | zero =>
          simp only [storeArgs, List.get?_cons_zero]
          split
          · rename_i hk
            cases a <;> simp [hk]
          · rename_i hk
            cases a <;> simp [hk]
        | succ i =>
          simp only [storeArgs, List.get?_cons_succ]
          split
          · cases a <;> simp only [List.get?_cons_succ] <;> exact ih _ _ _ _
          · simp only [List.get?_cons_succ]; exact ih _ _ _ _

theorem fillStep_get (params : List Param) (s : LuaState) (ri i : Nat)
    (args : List PotentialOwner)
    (hnd : ∀ p, params.get? i = some p → p.isDefaultable = false) :
    (fillStep params s ri args).get? i = args.get? i := by
  unfold fillStep
  split
  · rename_i p hp
    split
    · rename_i hd
      split
      · have hne : ri ≠ i := by
          intro he
          subst he
          rw [hnd p hp] at hd
          exact absurd hd (by simp)
        simp [List.getElem?_set, hne]
      · rfl
    · rfl
  · rfl

theorem fillDefaults_get (params : List Param) (N : Nat) (s : LuaState) (i : Nat)
    (hnd : ∀ p, params.get? i = some p → p.isDefaultable = false) :
    ∀ (ris : List Nat) (args : List PotentialOwner),
      (fillDefaults params N s ris args).get? i = args.get? i := by
  intro ris
  induction ris with
  | nil => intro args; rfl
  | cons ri rest ih =>
    intro args
    simp only [fillDefaults]
    split
    · rw [ih, fillStep_get params s ri i args hnd]
    · exact fillStep_get params s ri i args hnd

theorem derefAll_get (s : LuaState) : ∀ (args : List PotentialOwner) (vals : List NVal),
    derefAll s args = some vals → ∀ i a, args.get? i = some a → vals.get? i = a.deref s := by
  intro args
  induction args with
  | nil => intro vals _ i a ha; simp at ha
  | cons b rest ih =>
    intro vals h i a ha
    simp only [derefAll] at h
    split at h
    · rename_i v vs hv hvs
      cases h
      cases i with
      | zero =>
        simp only [List.get?_cons_zero, Option.some.injEq] at ha
        subst ha
        simp [hv]
      | succ i =>
        simp only [List.get?_cons_succ] at ha ⊢
        exact ih vs hvs i a ha
    · exact absurd h (by simp)

/-- In a read fold without failure, each supplied argument was read by
`readArg` in the state left by the reads before it, and decoded. -/
theorem readArgs_zero_get (fuel N : Nat) : ∀ (ps : List Param) (idx : Nat) (s : LuaState)
    (args : List PotentialOwner) (s1 : LuaState) (reads : List Event),
    readArgs fuel N ps idx s = some (args, 0, s1, reads) →
    ∀ i p, ps.get? i = some p → idx + i < N →
      ∃ pre si a si', readSeq fuel (ps.take i) idx s = some (pre, si) ∧
        readArg fuel p (idx + i) si = some (a, si') ∧ a.toBool = true ∧
        args.get? i = some a := by
  intro ps
  induction ps with
  | nil => intro idx s args s1 reads _ i p hp; simp at hp
  | cons q ps ih =>
    intro idx s args s1 reads h i p hp hi
    simp only [readArgs] at h
    split at h
    · omega
    · split at h
      · exact absurd h (by simp)
      · rename_i a0 s0 ha0
        split at h
        · rename_i hb
          split at h
          · exact absurd h (by simp)
          · rename_i rest failed s2 ev hrest
            simp only [Option.some.injEq, Prod.mk.injEq] at h
            obtain ⟨rfl, rfl, rfl, rfl⟩ := h
            cases i with
            | zero =>
              simp only [List.get?_cons_zero, Option.some.injEq] at hp
              subst hp
              exact ⟨[], s, a0, s0, by simp [readSeq], by simpa using ha0, hb, rfl⟩
            | succ i =>
              simp only [List.get?_cons_succ] at hp
              obtain ⟨pre, si, a, si', h1, h2, h3, h4⟩ :=
                ih (idx + 1) s0 rest s2 ev hrest i p hp (by omega)
              refine ⟨a0 :: pre, si, a, si', ?_, ?_, h3, ?_⟩
              · simp only [List.take_succ_cons, readSeq, ha0, h1]
              · rw [show idx + (i + 1) = idx + 1 + i by omega]; exact h2
              · simpa using h4
        · simp only [Option.some.injEq, Prod.mk.injEq] at h
          omega

theorem readAs_LuaData (tr : Traits) (fuel j : Nat) (s : LuaState) :
    readAs tr fuel (AnyData.LuaData j) s = LuaData_readAs tr j s := by
  cases fuel <;> rfl

theorem readAs_BakedData (tr : Traits) (fuel j : Nat) (s : LuaState) :
    readAs tr fuel (AnyData.BakedData j) s = BakedData_readAs tr j s := by
  cases fuel <;> rfl

theorem BakedData_readAs_ptr (tr : Traits) (j : Nat) (s s1 : LuaState) (a : PotentialOwner)
    (h : BakedData_readAs tr j s = some (a, s1)) : ∃ u, a = PotentialOwner.ptr u := by
  unfold BakedData_readAs at h
  simp only [] at h
  split at h
  · split at h
    · rename_i u _
      cases h
      exact ⟨u, rfl⟩
    · exact absurd h (by simp)
  · exact absurd h (by simp)

/-- The kind of translated argument that each data state yields. -/
theorem readAs_kind (tr : Traits) (fuel : Nat) (d : AnyData) (s s1 : LuaState)
    (a : PotentialOwner) (h : readAs tr fuel d s = some (a, s1)) :
    (∀ j, d = AnyData.LuaData j → a = PotentialOwner.monostate ∨ ∃ v, a = PotentialOwner.owned v) ∧
    (∀ j, d = AnyData.BakedData j → ∃ u, a = PotentialOwner.ptr u) ∧
    (∀ j, d = AnyData.PendingData j → a = PotentialOwner.monostate ∨ ∃ u, a = PotentialOwner.ptr u) ∧
    (∀ j, d = AnyData.IndirectData j → ∀ r, readRef s j = some r →
      ∀ j1, (dataDispatch (lua_rawgeti_registry s r) (-1)).1 = AnyData.BakedData j1 →
        ∃ u, a = PotentialOwner.ptr u) := by
  refine ⟨?_, ?_, ?_, ?_⟩
  · intro j hd
    subst hd
    rw [readAs_LuaData] at h
    unfold LuaData_readAs at h
    split at h
    · split at h
      · exact absurd h (by simp)
      · cases h; exact Or.inr ⟨_, rfl⟩
      · cases h; exact Or.inl rfl
    · cases h; exact Or.inl rfl
  · intro j hd
    subst hd
    rw [readAs_BakedData] at h
    exact BakedData_readAs_ptr tr j s s1 a h
  · intro j hd
    subst hd
    cases fuel with
    | zero => simp [readAs] at h
    | succ fuel =>
      simp only [readAs] at h
      split at h
      · exact absurd h (by simp)
      · cases h; exact Or.inr ⟨_, rfl⟩
      · cases h; exact Or.inl rfl
  · intro j hd r hr j1 hj1
    subst hd
    cases fuel with
    | zero => simp [readAs] at h
    | succ fuel =>
      simp only [readAs, hr] at h
      split at h
      · exact absurd h (by simp)
      · rename_i a1 s2 h2
        cases h
        rw [hj1, readAs_BakedData] at h2
        exact BakedData_readAs_ptr tr _ _ _ _ h2

theorem nondefaultable_lt_min (l : List Bool) (i : Nat) (h : l.get? i = some false) :
    i < (getMinMaxArgumentCount l).1 := by
  simp only [getMinMaxArgumentCount]
  have hlen : i < l.length := by
    by_contra hc
    rw [List.get?_eq_none.2 (by omega)] at h
    exact absurd h (by simp)
  rcases minArgStep_spec l 0 1 with ⟨_, h2⟩ | ⟨h1, _, _, h4⟩
  · have hmem : l.get ⟨i, hlen⟩ ∈ l := List.get_mem _ _ _
    have := h2 _ hmem
    rw [List.get?_eq_get hlen, this] at h
    exact absurd h (by simp)
  · by_contra hc
    have := h4 i (by omega) hlen
    rw [this] at h
    exact absurd h (by simp)

theorem emplacedAt_writeReturn (j : Nat) (ret : Option Traits) (s : LuaState) (v : NVal) :
    emplacedAt j (writeReturn ret s v).2 = [] := by
  cases ret <;> rfl

theorem wrongArgumentCountError_ne_empty (a b c : Nat) : wrongArgumentCountError a b c ≠ "" := by
  intro h
  have := wrongArgumentCountError_head a b c
  rw [h] at this
  simp at this

theorem failedReadingError_ne_empty (k : Nat) : failedReadingError k ≠ "" := by
  intro h
  have := failedReadingError_head k
  rw [h] at this
  simp at this

/-- C8: after a successful `tryToCallRaw` the callable was invoked once (on
`vals`, in state `s1`), and for every parameter `i`: one that is not a non-const
lvalue reference is never emplaced; one that is was read by `readArg` in the
state left by the reads before it, and if its argument classified as Dynamic
the read produced an owned object and `emplace` is recorded exactly once for
its own slot `i + 1`, with the value the callable left in it; if it classified
as Baked or PendingBake (or as Indirect with a Baked object in its registry
slot) the read produced a pointer, no `emplace` is recorded for the slot, and
the object the callable received is the one inside the userdata block. -/
theorem tryToCallRaw_writeBack (fuel : Nat) (params : List Param) (ret : Option Traits)
    (f : Invoc) (s : LuaState) (o : CallOutcome)
    (h : tryToCallRaw fuel params ret f s = some o) (hok : o.res.errMsg = "") :
    ∃ vals s1, invocations o.trace = [vals] ∧
      ∀ i p, params.get? i = some p →
        (p.kind ≠ RefKind.mutRef → emplacedAt (i + 1) o.trace = []) ∧
        (p.kind = RefKind.mutRef →
          ∃ pre si a si', readSeq fuel (params.take i) 0 s = some (pre, si) ∧
            readArg fuel p i si = some (a, si') ∧
            (∀ j, (dataDispatch si ((i : Int) + 1)).1 = AnyData.LuaData j →
              ∃ v, a = PotentialOwner.owned v) ∧
            (∀ j, (dataDispatch si ((i : Int) + 1)).1 = AnyData.BakedData j ∨
                (dataDispatch si ((i : Int) + 1)).1 = AnyData.PendingData j →
              ∃ u, a = PotentialOwner.ptr u) ∧
            (∀ j, (dataDispatch si ((i : Int) + 1)).1 = AnyData.IndirectData j →
              ∀ r, readRef (dataDispatch si ((i : Int) + 1)).2 j = some r →
              ∀ j1, (dataDispatch (lua_rawgeti_registry (dataDispatch si ((i : Int) + 1)).2 r)
                  (-1)).1 = AnyData.BakedData j1 →
              ∃ u, a = PotentialOwner.ptr u) ∧
            (∀ v, a = PotentialOwner.owned v →
              emplacedAt (i + 1) o.trace = [((f vals s1).2.1.get? i).getD v]) ∧
            (∀ u, a = PotentialOwner.ptr u →
              emplacedAt (i + 1) o.trace = [] ∧
              vals.get? i = (s1.udatas.get? u).map (fun ud => ud.payload))) := by
  rcases tryToCallRaw_cases fuel params ret f s o h with ⟨_, h1⟩ | ⟨_, h2⟩ | ⟨hin, h3⟩
  · subst h1
    exact absurd hok (wrongArgumentCountError_ne_empty _ _ _)
  · obtain ⟨args, k, s1, reads, _, _, rfl⟩ := h2
    exact absurd hok (failedReadingError_ne_empty _)
  · obtain ⟨args, s1, reads, vals, s4, e, hread, hvals, hw, he, rfl⟩ := h3
    have hrt := readArgs_trace _ _ _ _ _ _ hread
    have het := emplaceArgs_trace _ _ _ _ _ _ he
    have hem := emplaceArgs_emplacedAt _ _ _ _ _ _ he hok
    refine ⟨vals, s1, ?_, ?_⟩
    · simp only [invocations_append, hrt.1, het.1, invocations_writeReturn, invocations,
        List.nil_append, List.append_nil]
    · intro i p hp
      have htrace : ∀ j, emplacedAt j (reads ++ [Event.invoke vals] ++
          (writeReturn ret (storeArgs params (fillDefaults params (lua_gettop s) s1
            (reverseIotaSequence (List.range params.length)) args)
              (f vals s1).2.1 (f vals s1).2.2).2 (f vals s1).1).2 ++ e.2.2) =
          emplacedAt j e.2.2 := by
        intro j
        simp only [emplacedAt_append, hrt.2 j, emplacedAt_writeReturn, emplacedAt,
          List.nil_append]
      have hslot := hem.2 i
      rw [Nat.zero_add] at hslot
      rw [hp, storeArgs_get] at hslot
      constructor
      · intro hk
        show emplacedAt (i + 1) _ = []
        rw [htrace, hslot, hp]
        split
        · rename_i q v hq hv
          cases hq
          simp [hk]
        · rfl
      · intro hk
        have hnd : p.isDefaultable = false := by
          simp [Param.isDefaultable, hk]
        have hiN : i < lua_gettop s := by
          have := nondefaultable_lt_min (params.map Param.isDefaultable) i (by
            simp [List.get?_eq_getElem?, List.getElem?_map] at hp ⊢
            exact ⟨p, hp, hnd⟩)
          omega
        obtain ⟨pre, si, a, si', hpre, harg, hb, hget⟩ :=
          readArgs_zero_get fuel (lua_gettop s) params 0 s args s1 reads hread i p hp
            (by omega)
        rw [Nat.zero_add] at harg
        have hfill : (fillDefaults params (lua_gettop s) s1
            (reverseIotaSequence (List.range params.length)) args).get? i = some a := by
          rw [fillDefaults_get params (lua_gettop s) s1 i (by
            intro q hq; rw [hp] at hq; cases hq; exact hnd), hget]
        have hkind := readAs_kind p.traits fuel _ _ _ _ harg
        refine ⟨pre, si, a, si', hpre, harg, ?_, ?_, ?_, ?_, ?_⟩
        · intro j hj
          rcases hkind.1 j hj with h0 | h0
          · rw [h0] at hb; exact absurd hb (by simp [PotentialOwner.toBool])
          · exact h0
        · intro j hj
          rcases hj with hj | hj
          · exact hkind.2.1 j hj
          · rcases hkind.2.2.1 j hj with h0 | h0
            · rw [h0] at hb; exact absurd hb (by simp [PotentialOwner.toBool])
            · exact h0
        · intro j hj r hr j1 hj1
          exact hkind.2.2.2 j hj r hr j1 hj1
        · intro v hv
          subst hv
          show emplacedAt (i + 1) _ = _
          rw [htrace, hslot, hfill, hp]
          cases hnv : (f vals s1).2.1.get? i with
          | none => simp [hk]
          | some w => simp [hk]
        · intro u hu
          subst hu
          constructor
          · show emplacedAt (i + 1) _ = _
            rw [htrace, hslot, hfill, hp]
          · rw [derefAll_get s1 _ vals hvals i _ hfill]
            rfl

/-- C8 (witness): `popBack(std::vector<int>&)` called with the Lua table
`{1, 2, 3}` succeeds; the theorem applies to its outcome. -/
theorem tryToCallRaw_writeBack_witness :
    ∃ o, tryToCallRaw 0 oneVecRef none popBack vecState = some o ∧ o.res.errMsg = "" ∧
      emplacedAt 1 o.trace = [NVal.list [NVal.int 1, NVal.int 2]] ∧
      ∃ vals s1, invocations o.trace = [vals] ∧
      ∀ i p, oneVecRef.get? i = some p →
        (p.kind ≠ RefKind.mutRef → emplacedAt (i + 1) o.trace = []) ∧
        (p.kind = RefKind.mutRef →
          ∃ pre si a si', readSeq 0 (oneVecRef.take i) 0 vecState = some (pre, si) ∧
            readArg 0 p i si = some (a, si') ∧
            (∀ j, (dataDispatch si ((i : Int) + 1)).1 = AnyData.LuaData j →
              ∃ v, a = PotentialOwner.owned v) ∧
            (∀ j, (dataDispatch si ((i : Int) + 1)).1 = AnyData.BakedData j ∨
                (dataDispatch si ((i : Int) + 1)).1 = AnyData.PendingData j →
              ∃ u, a = PotentialOwner.ptr u) ∧
            (∀ j, (dataDispatch si ((i : Int) + 1)).1 = AnyData.IndirectData j →
              ∀ r, readRef (dataDispatch si ((i : Int) + 1)).2 j = some r →
              ∀ j1, (dataDispatch (lua_rawgeti_registry (dataDispatch si ((i : Int) + 1)).2 r)
                  (-1)).1 = AnyData.BakedData j1 →
              ∃ u, a = PotentialOwner.ptr u) ∧
            (∀ v, a = PotentialOwner.owned v →
              emplacedAt (i + 1) o.trace = [((popBack vals s1).2.1.get? i).getD v]) ∧
            (∀ u, a = PotentialOwner.ptr u →
              emplacedAt (i + 1) o.trace = [] ∧
              vals.get? i = (s1.udatas.get? u).map (fun ud => ud.payload))) :=
  ⟨_, rfl, rfl, rfl, tryToCallRaw_writeBack 0 oneVecRef none popBack vecState _ rfl rfl⟩

/-! ## Properties: emplace of a vector -/

/-- C9 (the code at the failing input): `popBack(std::vector<int>&)` called
with the Lua table `{1, 2, 3}`.  The call succeeds and emplaces `{1, 2}` into
slot 1, but the table still holds `[3] = 3`: decoding it as `std::vector<int>`
after the call yields `{1, 2, 3}`, not the value `{1, 2}` the function left. -/
theorem vector_emplace_keeps_stale_elements :
    (tryToCallRaw 0 oneVecRef none popBack vecState).map
      (fun o => (o.res.errMsg, emplacedAt 1 o.trace)) =
      some ("", [NVal.list [NVal.int 1, NVal.int 2]]) ∧
    (tryToCallRaw 0 oneVecRef none popBack vecState).bind
      (fun o => (read vecIntTraits o.state 1).map (fun r => r.1)) =
      some (some (NVal.list [NVal.int 1, NVal.int 2, NVal.int 3])) ∧
    (tryToCallRaw 0 oneVecRef none popBack vecState).map
      (fun o => tableGet o.state 0 (Value.int 3)) = some (Value.int 3) := by
  refine ⟨rfl, rfl, rfl⟩

/-! ## Properties: overloads -/

theorem freshRef_fold_ge (reg : List (Int × Value)) : ∀ (init : Int),
    init ≤ reg.foldl (fun m kv => max m kv.1) init ∧
    ∀ kv ∈ reg, kv.1 ≤ reg.foldl (fun m kv => max m kv.1) init := by
  induction reg with
  | nil => intro init; simp
  | cons x rest ih =>
    intro init
    simp only [List.foldl_cons, List.mem_cons]
    have h := ih (max init x.1)
    refine ⟨le_trans (le_max_left _ _) h.1, ?_⟩
    rintro kv (rfl | hkv)
    · exact le_trans (le_max_right _ _) h.1
    · exact h.2 kv hkv

theorem lookup_lt_freshRef (reg : List (Int × Value)) (k : Int) (x : Value)
    (h : reg.lookup k = some x) : k < freshRef reg := by
  have hmem : (k, x) ∈ reg := by
    induction reg with
    | nil => simp at h
    | cons kv rest ih =>
      obtain ⟨k1, v1⟩ := kv
      simp only [List.lookup_cons] at h
      split at h
      · rename_i heq
        have : k = k1 := by simpa using heq
        subst this
        cases h
        simp
      · exact List.mem_cons_of_mem _ (ih h)
  have := (freshRef_fold_ge reg 2).2 (k, x) hmem
  simp only [freshRef]
  omega

theorem registryGet_cons_ne (s : LuaState) (reg : List (Int × Value)) (k r : Int) (v : Value)
    (h : k ≠ r) (hreg : s.registry = (r, v) :: reg) :
    registryGet s k = (reg.lookup k).getD Value.nil := by
  simp only [registryGet, hreg, List.lookup_cons]
  have : (k == r) = false := by simpa using h
  rw [this]

theorem stackAt_append (s : LuaState) (e : List Value) (i : Nat) (hi : i ≤ s.stack.length) :
    stackAt { s with stack := s.stack ++ e } i = stackAt s i := by
  unfold stackAt
  split
  · rfl
  · rename_i h0
    simp only []
    rw [List.get?_eq_getElem?, List.get?_eq_getElem?, List.getElem?_append_left (by omega)]

theorem dataDispatch_not_udata (s : LuaState) (i : Nat)
    (h : ∀ u, stackAt s (i + 1) ≠ some (Value.udata u)) :
    dataDispatch s ((i : Int) + 1) = (AnyData.LuaData (i + 1), s) := by
  have habs : lua_absindex s ((i : Int) + 1) = i + 1 := by
    unfold lua_absindex
    have : (0 : Int) < (i : Int) + 1 := by omega
    simp only [this, if_true]
    omega
  unfold dataDispatch
  simp only [habs]
  have : lua_isuserdata s (i + 1) = false := by
    unfold lua_isuserdata
    split
    · rename_i u hu
      exact absurd hu (h u)
    · rfl
  simp [this]

theorem readArg_dynamic (fuel : Nat) (q : Param) (i : Nat) (t t1 : LuaState)
    (a : PotentialOwner) (hf : FramedRead q.traits)
    (hd : ∀ u, stackAt t (i + 1) ≠ some (Value.udata u))
    (h : readArg fuel q i t = some (a, t1)) :
    ∃ extra, t1 = { t with stack := t.stack ++ extra } := by
  unfold readArg at h
  rw [dataDispatch_not_udata t i hd] at h
  simp only [readAs_LuaData] at h
  unfold LuaData_readAs at h
  split at h
  · unfold read at h
    cases hrd : q.traits.read with
    | none => rw [hrd] at h; simp at h
    | some rd =>
      rw [hrd] at h
      simp only [] at h
      split at h
      · exact absurd h (by simp)
      · rename_i v s1 hr
        cases h
        exact hf rd hrd _ _ _ _ hr
      · rename_i s1 hr
        cases h
        exact hf rd hrd _ _ _ _ hr
  · cases h
    exact ⟨[], by simp⟩

theorem readSeq_dynamic (fuel : Nat) : ∀ (ps : List Param) (idx : Nat) (t t1 : LuaState)
    (args : List PotentialOwner), (∀ q ∈ ps, FramedRead q.traits) →
    idx + ps.length ≤ t.stack.length →
    (∀ j u, idx ≤ j → j < idx + ps.length → stackAt t (j + 1) ≠ some (Value.udata u)) →
    readSeq fuel ps idx t = some (args, t1) →
    ∃ extra, t1 = { t with stack := t.stack ++ extra } := by
  intro ps
  induction ps with
  | nil =>
    intro idx t t1 args _ _ _ h
    simp only [readSeq] at h
    cases h
    exact ⟨[], by simp⟩
  | cons q ps ih =>
    intro idx t t1 args hf hlen hd h
    simp only [readSeq] at h
    split at h
    · exact absurd h (by simp)
    · rename_i a t2 ha
      split at h
      · exact absurd h (by simp)
      · rename_i rest t3 hrest
        cases h
        simp only [List.length_cons] at hlen hd
        obtain ⟨e1, he1⟩ := readArg_dynamic fuel q idx t t2 a (hf q (List.mem_cons_self _ _))
          (fun u => hd idx u (le_refl _) (by omega)) ha
        subst he1
        obtain ⟨e2, he2⟩ := ih (idx + 1) _ t1 rest
          (fun x hx => hf x (List.mem_cons_of_mem _ hx))
          (by simp only [List.length_append]; omega)
          (fun j u hj1 hj2 => by
            rw [stackAt_append t e1 (j + 1) (by omega)]
            exact hd j u (by omega) (by omega)) hrest
        exact ⟨e1 ++ e2, by rw [he2]; simp⟩

theorem settop_append (s : LuaState) (e : List Value) :
    lua_settop { s with stack := s.stack ++ e } s.stack.length = s := by
  cases s
  simp [lua_settop]

theorem readSeq_split (fuel : Nat) : ∀ (pre : List Param) (q : Param) (post : List Param)
    (idx : Nat) (t t1 : LuaState) (args : List PotentialOwner),
    readSeq fuel (pre ++ q :: post) idx t = some (args, t1) →
    ∃ argsA tA a tq argsB, readSeq fuel pre idx t = some (argsA, tA) ∧
      readArg fuel q (idx + pre.length) tA = some (a, tq) ∧
      readSeq fuel post (idx + pre.length + 1) tq = some (argsB, t1) ∧
      args = argsA ++ a :: argsB := by
  intro pre
  induction pre with
  | nil =>
    intro q post idx t t1 args h
    simp only [List.nil_append, readSeq] at h
    split at h
    · exact absurd h (by simp)
    · rename_i a tq ha
      split at h
      · exact absurd h (by simp)
      · rename_i rest t3 hrest
        cases h
        exact ⟨[], t, a, tq, rest, rfl, by simpa using ha, by simpa using hrest, rfl⟩
  | cons p pre ih =>
    intro q post idx t t1 args h
    simp only [List.cons_append, readSeq] at h
    split at h
    · exact absurd h (by simp)
    · rename_i a0 t0 ha0
      split at h
      · exact absurd h (by simp)
      · rename_i rest t3 hrest
        cases h
        obtain ⟨argsA, tA, a, tq, argsB, h1, h2, h3, h4⟩ := ih q post (idx + 1) t0 t1 rest hrest
        refine ⟨a0 :: argsA, tA, a, tq, argsB, ?_, ?_, ?_, by rw [h4]; rfl⟩
        · simp only [readSeq, ha0, h1]
        · rw [show idx + (p :: pre).length = idx + 1 + pre.length by
            simp only [List.length_cons]; omega]
          exact h2
        · rw [show idx + (p :: pre).length + 1 = idx + 1 + pre.length + 1 by
            simp only [List.length_cons]; omega]
          exact h3

theorem stackAt_top1 (s : LuaState) (l : List Value) (v : Value) (h : s.stack = l ++ [v]) :
    stackAt s (lua_absindex s (-1)) = some v ∧ stackAt s (lua_gettop s) = some v := by
  have hlen : s.stack.length = l.length + 1 := by rw [h]; simp
  have habs : lua_absindex s (-1) = l.length + 1 := by
    unfold lua_absindex
    simp [hlen]
  rw [habs]
  unfold stackAt lua_gettop
  simp [h, hlen]

theorem stackAt_top2 (s : LuaState) (l : List Value) (v w : Value)
    (h : s.stack = l ++ [v, w]) :
    stackAt s (lua_absindex s (-2)) = some v ∧ stackAt s (lua_absindex s (-1)) = some w ∧
      stackAt s (lua_gettop s) = some w := by
  have hlen : s.stack.length = l.length + 2 := by rw [h]; simp
  have habs1 : lua_absindex s (-1) = l.length + 2 := by
    unfold lua_absindex
    simp [hlen]
  have habs2 : lua_absindex s (-2) = l.length + 1 := by
    unfold lua_absindex
    simp [hlen]
  have hv : (l ++ [v, w]).get? l.length = some v := by
    rw [List.get?_eq_getElem?, List.getElem?_append_right (le_refl _)]
    simp
  have hw : (l ++ [v, w]).get? (l.length + 1) = some w := by
    rw [List.get?_eq_getElem?, List.getElem?_append_right (by omega)]
    simp
  have h3 : stackAt s (lua_gettop s) = some w := by
    unfold stackAt lua_gettop
    rw [hlen]
    simp only [Nat.add_one_ne_zero, if_false, Nat.add_sub_cancel]
    rw [h]
    exact hw
  rw [habs1, habs2]
  refine ⟨?_, ?_, h3⟩
  · unfold stackAt
    simp only [Nat.add_one_ne_zero, if_false, Nat.add_sub_cancel]
    rw [h]
    exact hv
  · unfold stackAt
    simp only [Nat.add_one_ne_zero, if_false, Nat.add_sub_cancel]
    rw [h]
    exact hw

theorem lua_pop_pushValue (s : LuaState) (v : Value) : lua_pop (pushValue s v) 1 = s := by
  cases s
  simp [lua_pop, pushValue]

theorem lua_pop_stack (s : LuaState) (l e : List Value) (n : Nat) (h : s.stack = l ++ e)
    (hn : e.length = n) : lua_pop s n = { s with stack := l } := by
  cases s
  simp only [] at h
  simp [lua_pop, h, hn]

theorem tableSet_frame (s : LuaState) (t : Nat) (k v : Value) :
    ∃ tb, tableSet s t k v = { s with tables := tb } ∧ tb.length = s.tables.length := by
  unfold tableSet
  split
  · exact ⟨_, rfl, by simp⟩
  · exact ⟨s.tables, by cases s; rfl, rfl⟩

theorem lua_setfield_pushValue (s : LuaState) (v : Value) (idx : Int) (k : String) :
    ∃ tb, lua_setfield (pushValue s v) idx k = { s with tables := tb } ∧
      tb.length = s.tables.length := by
  unfold lua_setfield
  simp only [lua_pop_pushValue]
  split
  · exact tableSet_frame s _ _ _
  · exact ⟨s.tables, by cases s; rfl, rfl⟩

theorem lua_pushvalue_top (s : LuaState) (l : List Value) (x : Value) (h : s.stack = l ++ [x]) :
    lua_pushvalue s (-1) = pushValue s x := by
  unfold lua_pushvalue
  rw [(stackAt_top1 s l x h).1]
  rfl

theorem luaL_ref_pushValue (s : LuaState) (v : Value) (hv : v ≠ Value.nil) :
    luaL_ref (pushValue s v) =
      (freshRef s.registry, { s with registry := (freshRef s.registry, v) :: s.registry }) := by
  unfold luaL_ref
  have htop := (stackAt_top1 (pushValue s v) s.stack v rfl).2
  simp only [htop, Option.getD_some, if_neg hv, lua_pop_pushValue]
  cases s
  rfl

theorem refHoldingMetatable_none (s : LuaState) :
    ∃ tb, refHoldingMetatable s none =
        ({ s with stack := s.stack ++ [Value.table s.tables.length], tables := tb,
                  registry := (freshRef s.registry, Value.table s.tables.length) :: s.registry },
          some (freshRef s.registry)) ∧ s.tables.length < tb.length := by
  simp only [refHoldingMetatable]
  have e1 : lua_createtable s = pushValue
      { s with tables := s.tables ++ [{ entries := [], meta := none }] }
      (Value.table s.tables.length) := by
    cases s; rfl
  obtain ⟨tb, e3, hlen⟩ := lua_setfield_pushValue (lua_createtable s)
    (Value.cfunc "refHolding.__gc" 0) (-2) "__gc"
  rw [e3]
  have e4 : lua_pushvalue { lua_createtable s with tables := tb } (-1) =
      pushValue { lua_createtable s with tables := tb } (Value.table s.tables.length) :=
    lua_pushvalue_top _ s.stack _ (by cases s; rfl)
  rw [e4, luaL_ref_pushValue _ _ (by simp)]
  refine ⟨tb, ?_, ?_⟩
  · cases s; rfl
  · rw [hlen, e1]
    simp [pushValue]

theorem setMemberFuncs_frame (tid : Nat) : ∀ (ms : List String) (s : LuaState),
    ∃ tb, setMemberFuncs tid ms s = { s with tables := tb } := by
  intro ms
  induction ms with
  | nil => intro s; exact ⟨s.tables, by cases s; rfl⟩
  | cons m ms ih =>
    intro s
    simp only [setMemberFuncs]
    obtain ⟨tb1, e1, _⟩ := lua_setfield_pushValue s (Value.cfunc m tid) (-2) m
    rw [e1]
    obtain ⟨tb2, e2⟩ := ih { s with tables := tb1 }
    exact ⟨tb2, by rw [e2]⟩

theorem BakedData_metatable_frame (tr : Traits) (s : LuaState) :
    ∃ y tb reg bR, BakedData_metatable tr s =
        { s with stack := s.stack ++ [y], tables := tb, registry := reg, bakedRefs := bR } ∧
      (reg = s.registry ∨ ∃ v, reg = (freshRef s.registry, v) :: s.registry) := by
  unfold BakedData_metatable
  split
  · simp only []
    have e0 : lua_pushvalue (lua_createtable s) (-1) =
        pushValue (lua_createtable s) (Value.table s.tables.length) :=
      lua_pushvalue_top _ s.stack _ (by cases s; rfl)
    rw [e0]
    obtain ⟨tb1, e1, _⟩ := lua_setfield_pushValue (lua_createtable s)
      (Value.table s.tables.length) (-2) "__index"
    rw [e1]
    obtain ⟨tb2, e2, _⟩ := lua_setfield_pushValue { lua_createtable s with tables := tb1 }
      (Value.cfunc "__gc" tr.tid) (-2) "__gc"
    rw [e2]
    have h4 : ∃ tb4, (if LuaWritable tr = true then
        lua_setfield (pushValue { lua_createtable s with tables := tb2 }
          (Value.cfunc "toLuaData" tr.tid)) (-2) "toLuaData"
        else { lua_createtable s with tables := tb2 }) =
        { lua_createtable s with tables := tb4 } := by
      split
      · obtain ⟨tb, e, _⟩ := lua_setfield_pushValue { lua_createtable s with tables := tb2 }
          (Value.cfunc "toLuaData" tr.tid) (-2) "toLuaData"
        exact ⟨tb, e⟩
      · exact ⟨tb2, rfl⟩
    obtain ⟨tb4, e4⟩ := h4
    rw [e4]
    have h5 : ∃ tb5, (if LuaInterfacable tr = true then
        lua_setfield (pushValue { lua_createtable s with tables := tb4 }
          (Value.cfunc "toBakedData" tr.tid)) (-2) "toBakedData"
        else { lua_createtable s with tables := tb4 }) =
        { lua_createtable s with tables := tb5 } := by
      split
      · obtain ⟨tb, e, _⟩ := lua_setfield_pushValue { lua_createtable s with tables := tb4 }
          (Value.cfunc "toBakedData" tr.tid) (-2) "toBakedData"
        exact ⟨tb, e⟩
      · exact ⟨tb4, rfl⟩
    obtain ⟨tb5, e5⟩ := h5
    rw [e5]
    obtain ⟨tb6, e6⟩ := setMemberFuncs_frame tr.tid tr.memberFuncs
      { lua_createtable s with tables := tb5 }
    rw [e6]
    have e7 : lua_pushvalue { lua_createtable s with tables := tb6 } (-1) =
        pushValue { lua_createtable s with tables := tb6 } (Value.table s.tables.length) :=
      lua_pushvalue_top _ s.stack _ (by cases s; rfl)
    rw [e7, luaL_ref_pushValue _ _ (by simp)]
    refine ⟨Value.table s.tables.length, tb6,
      (freshRef s.registry, Value.table s.tables.length) :: s.registry,
      (tr.tid, freshRef s.registry) :: s.bakedRefs, ?_, Or.inr ⟨_, rfl⟩⟩
    cases s
    rfl
  · rename_i r _
    exact ⟨registryGet s r, s.tables, s.registry, s.bakedRefs, by cases s; rfl, Or.inl rfl⟩

theorem lookup_of_registryGet_table (s : LuaState) (k : Int) (t : Nat)
    (h : registryGet s k = Value.table t) : s.registry.lookup k = some (Value.table t) := by
  unfold registryGet at h
  cases hl : s.registry.lookup k with
  | none => rw [hl] at h; simp at h
  | some x => rw [hl] at h; simp at h; rw [h]

theorem lua_absindex_pos (s : LuaState) (i : Nat) : lua_absindex s ((i : Int) + 1) = i + 1 := by
  unfold lua_absindex
  have : (0 : Int) < (i : Int) + 1 := by omega
  simp only [this, if_true]
  omega

theorem lua_rawequal_top2 (s : LuaState) (l : List Value) (v w : Value)
    (h : s.stack = l ++ [v, w]) : lua_rawequal s (-2) (-1) = rawEqualValues v w := by
  unfold lua_rawequal
  rw [(stackAt_top2 s l v w h).1, (stackAt_top2 s l v w h).2.1]

theorem rawEqualValues_table (a b : Nat) :
    rawEqualValues (Value.table a) (Value.table b) = decide (a = b) := by
  simp [rawEqualValues]

theorem PendingData_metatable_some (s : LuaState) (rP : Int) (h : s.pendingRefs = some rP) :
    PendingData_metatable s = pushValue s (registryGet s rP) := by
  unfold PendingData_metatable
  rw [h]
  obtain ⟨stack, tables, udatas, registry, pR, iR, bR⟩ := s
  simp only [] at h
  subst h
  rfl

theorem IndirectData_metatable_some (s : LuaState) (rI : Int) (h : s.indirectRefs = some rI) :
    IndirectData_metatable s = pushValue s (registryGet s rI) := by
  unfold IndirectData_metatable
  rw [h]
  obtain ⟨stack, tables, udatas, registry, pR, iR, bR⟩ := s
  simp only [] at h
  subst h
  rfl

/-- Classifying a pending marker: the result is `PendingData`, the stack is as
before, and the marker is still a pending marker (the metatable of the indirect
markers may have been created). -/
theorem dataDispatch_pending (t : LuaState) (i m : Nat) (r : Int)
    (hm : IsPendingMarker t m r) (hv : stackAt t (i + 1) = some (Value.udata m)) :
    ∃ t1, dataDispatch t ((i : Int) + 1) = (AnyData.PendingData (i + 1), t1) ∧
      t1.stack = t.stack ∧ IsPendingMarker t1 m r ∧ ∃ rI, t1.indirectRefs = some rI := by
  obtain ⟨tP, rP, hud, hpr, hreg, htP, ⟨x, hx⟩, hslot, hind⟩ := hm
  have hlkP := lookup_of_registryGet_table t rP tP hreg
  unfold dataDispatch
  simp only [lua_absindex_pos]
  have hisu : lua_isuserdata t (i + 1) = true := by
    unfold lua_isuserdata; rw [hv]
  have hgm : lua_getmetatable t ((i + 1 : Nat) : Int) = (true, pushValue t (Value.table tP)) := by
    unfold lua_getmetatable
    have hmo : metatableOf t (Value.udata m) = some tP := by
      simp only [metatableOf]
      rw [hud]
      rfl
    rw [Nat.cast_succ, lua_absindex_pos, hv]
    simp only [Option.some_bind, hmo]
  simp only [hisu, hgm, Bool.not_true, Bool.false_eq_true, if_false]
  cases hI : t.indirectRefs with
  | none =>
    obtain ⟨tb, e1, htb⟩ := refHoldingMetatable_none (pushValue t (Value.table tP))
    have hS1 : IndirectData_metatable (pushValue t (Value.table tP)) =
        { t with stack := t.stack ++ [Value.table tP, Value.table t.tables.length],
                 tables := tb,
                 registry := (freshRef t.registry, Value.table t.tables.length) :: t.registry,
                 indirectRefs := some (freshRef t.registry) } := by
      unfold IndirectData_metatable
      have : (pushValue t (Value.table tP)).indirectRefs = none := hI
      rw [this, e1]
      cases t
      simp [pushValue]
    rw [hS1]
    have hne : decide (tP = t.tables.length) = false := by
      simp; omega
    rw [lua_rawequal_top2 _ t.stack (Value.table tP) (Value.table t.tables.length) rfl,
      rawEqualValues_table, hne]
    simp only [Bool.false_eq_true, if_false]
    rw [lua_pop_stack _ (t.stack ++ [Value.table tP]) [Value.table t.tables.length] 1
      (by simp) rfl]
    have hrP : rP ≠ freshRef t.registry := by
      have := lookup_lt_freshRef t.registry rP _ hlkP
      omega
    have hS2 : PendingData_metatable
        { t with stack := t.stack ++ [Value.table tP], tables := tb,
                 registry := (freshRef t.registry, Value.table t.tables.length) :: t.registry,
                 indirectRefs := some (freshRef t.registry) } =
        { t with stack := t.stack ++ [Value.table tP, Value.table tP], tables := tb,
                 registry := (freshRef t.registry, Value.table t.tables.length) :: t.registry,
                 indirectRefs := some (freshRef t.registry) } := by
      rw [PendingData_metatable_some
        { t with stack := t.stack ++ [Value.table tP], tables := tb,
                 registry := (freshRef t.registry, Value.table t.tables.length) :: t.registry,
                 indirectRefs := some (freshRef t.registry) } rP hpr,
        registryGet_cons_ne _ t.registry rP _ _ hrP rfl, hlkP]
      simp [pushValue]
    rw [hS2, lua_rawequal_top2 _ t.stack (Value.table tP) (Value.table tP) rfl,
      rawEqualValues_table]
    simp only [decide_True, if_true]
    rw [lua_pop_stack _ t.stack [Value.table tP, Value.table tP] 2 (by simp) rfl]
    have hr : r ≠ freshRef t.registry := by
      have := lookup_lt_freshRef t.registry r _ hx
      omega
    refine ⟨_, rfl, rfl, ⟨tP, rP, hud, hpr, ?_, ?_, ⟨x, ?_⟩, ?_, ?_⟩, _, rfl⟩
    · rw [registryGet_cons_ne _ t.registry rP _ _ hrP rfl, hlkP]; rfl
    · show tP < tb.length
      simp only [pushValue] at htb
      omega
    · show List.lookup r ((freshRef t.registry, _) :: t.registry) = some x
      simp only [List.lookup_cons]
      have : (r == freshRef t.registry) = false := by simpa using hr
      rw [this]
      exact hx
    · intro u
      rw [registryGet_cons_ne _ t.registry r _ _ hr rfl]
      exact hslot u
    · intro rI hrI
      have : rI = freshRef t.registry := by
        simp only [] at hrI
        exact (Option.some.inj hrI).symm
      subst this
      refine ⟨fun h => hr h.symm, t.tables.length, ?_, by omega⟩
      simp [registryGet]
  | some rI =>
    obtain ⟨hrIr, tI, hregI, htI⟩ := hind rI hI
    have hS1 : IndirectData_metatable (pushValue t (Value.table tP)) =
        { t with stack := t.stack ++ [Value.table tP, Value.table tI] } := by
      rw [IndirectData_metatable_some (pushValue t (Value.table tP)) rI hI]
      have : registryGet (pushValue t (Value.table tP)) rI = Value.table tI := hregI
      rw [this]
      simp [pushValue]
    rw [hS1]
    have hne : decide (tP = tI) = false := by
      simp; exact fun h => htI h.symm
    rw [lua_rawequal_top2 _ t.stack (Value.table tP) (Value.table tI) rfl,
      rawEqualValues_table, hne]
    simp only [Bool.false_eq_true, if_false]
    rw [lua_pop_stack _ (t.stack ++ [Value.table tP]) [Value.table tI] 1 (by simp) rfl]
    have hS2 : PendingData_metatable { t with stack := t.stack ++ [Value.table tP] } =
        { t with stack := t.stack ++ [Value.table tP, Value.table tP] } := by
      rw [PendingData_metatable_some { t with stack := t.stack ++ [Value.table tP] } rP hpr]
      have : registryGet { t with stack := t.stack ++ [Value.table tP] } rP = Value.table tP :=
        hreg
      rw [this]
      simp [pushValue]
    rw [hS2, lua_rawequal_top2 _ t.stack (Value.table tP) (Value.table tP) rfl,
      rawEqualValues_table]
    simp only [decide_True, if_true]
    rw [lua_pop_stack _ t.stack [Value.table tP, Value.table tP] 2 (by simp) rfl]
    refine ⟨_, rfl, rfl, ⟨tP, rP, hud, hpr, hreg, htP, ⟨x, hx⟩, hslot, hind⟩, rI, hI⟩

theorem dataDispatch_LuaData (s : LuaState) (idx : Int)
    (h : ∀ u, stackAt s (lua_absindex s idx) ≠ some (Value.udata u)) :
    dataDispatch s idx = (AnyData.LuaData (lua_absindex s idx), s) := by
  unfold dataDispatch
  have : lua_isuserdata s (lua_absindex s idx) = false := by
    unfold lua_isuserdata
    split
    · rename_i u hu
      exact absurd hu (h u)
    · rfl
  simp [this]

/-- The metatable that `lua_setmetatable` takes from the top of the stack. -/
theorem lua_setmetatable_udata (s : LuaState) (l : List Value) (y : Value) (idx : Int)
    (m : Nat) (ud : UData) (hs : s.stack = l ++ [y])
    (hv : stackAt s (lua_absindex s idx) = some (Value.udata m))
    (hud : s.udatas.get? m = some ud) :
    ∃ mt, lua_setmetatable s idx =
        { s with stack := l, udatas := s.udatas.set m { ud with meta := mt } } ∧
      ∀ t, y = Value.table t → mt = some t := by
  unfold lua_setmetatable
  rw [(stackAt_top1 s l y hs).2, hv]
  simp only [hud, lua_pop_stack s l [y] 1 hs rfl]
  refine ⟨_, rfl, ?_⟩
  intro t ht
  subst ht
  rfl

theorem lua_rawseti_registry_top (s : LuaState) (l : List Value) (v : Value) (r : Int)
    (hs : s.stack = l ++ [v]) :
    lua_rawseti_registry s r = { s with stack := l, registry := (r, v) :: s.registry } := by
  unfold lua_rawseti_registry
  rw [(stackAt_top1 s l v hs).2, lua_pop_stack s l [v] 1 hs rfl]
  rfl

theorem lua_pushvalue_at (s : LuaState) (i : Nat) (v : Value) (h : stackAt s (i + 1) = some v) :
    lua_pushvalue s ((i + 1 : Nat) : Int) = pushValue s v := by
  unfold lua_pushvalue
  rw [Nat.cast_succ, lua_absindex_pos, h]
  rfl

theorem readRef_top (s : LuaState) (l : List Value) (m : Nat) (r : Int) (mt : Option Nat)
    (hs : s.stack = l ++ [Value.udata m])
    (hud : s.udatas.get? m = some { payload := NVal.int r, meta := mt }) :
    readRef s (-1) = some r := by
  unfold readRef lua_touserdata
  rw [(stackAt_top1 s l _ hs).1]
  simp only [hud]

theorem LuaData_readAs_frame (tr : Traits) (j : Nat) (s s2 : LuaState) (a : PotentialOwner)
    (hf : FramedRead tr) (h : LuaData_readAs tr j s = some (a, s2)) :
    (a = PotentialOwner.monostate ∨ ∃ v, a = PotentialOwner.owned v) ∧
    ∃ extra, s2 = { s with stack := s.stack ++ extra } := by
  unfold LuaData_readAs at h
  split at h
  · unfold read at h
    cases hrd : tr.read with
    | none => rw [hrd] at h; simp at h
    | some rd =>
      rw [hrd] at h
      simp only [] at h
      split at h
      · exact absurd h (by simp)
      · rename_i v s1 hr
        cases h
        exact ⟨Or.inr ⟨v, rfl⟩, hf rd hrd _ _ _ _ hr⟩
      · rename_i s1 hr
        cases h
        exact ⟨Or.inl rfl, hf rd hrd _ _ _ _ hr⟩
  · cases h
    exact ⟨Or.inl rfl, [], by simp⟩

/-- Baking a pending marker whose copy is on top of the stack: either nothing
was converted, or the registry slot now holds the new userdata and the marker
carries the metatable of the indirect markers. -/
theorem bakePendingData_result (tr : Traits) (fuel : Nat) (t t2 : LuaState) (m : Nat) (r rI : Int)
    (res : Option Nat) (hm : IsPendingMarker t m r) (hI : t.indirectRefs = some rI)
    (hf : FramedRead tr)
    (h : bakePendingData tr (readAs tr fuel) (pushValue t (Value.udata m)) = some (res, t2)) :
    res = none ∨ ∃ u extra, res = some u ∧
      t2.stack = t.stack ++ ([Value.udata m, registryGet t r] ++ extra) ∧
      IsIndirectMarker t2 m ∧ registryGet t2 r = Value.udata u := by
  obtain ⟨tP, rP, hud, hpr, hreg, htP, ⟨x, hx⟩, hslot, hind⟩ := hm
  obtain ⟨hrIr, tI, hregI, htI⟩ := hind rI hI
  have hlkI := lookup_of_registryGet_table t rI tI hregI
  unfold bakePendingData at h
  rw [readRef_top (pushValue t (Value.udata m)) t.stack m r (some tP) rfl hud] at h
  simp only [] at h
  have hS1 : lua_rawgeti_registry (pushValue t (Value.udata m)) r =
      { t with stack := t.stack ++ [Value.udata m, registryGet t r] } := by
    cases t; simp [lua_rawgeti_registry, pushValue, registryGet]
  rw [hS1] at h
  have htop := stackAt_top2 { t with stack := t.stack ++ [Value.udata m, registryGet t r] }
    t.stack (Value.udata m) (registryGet t r) rfl
  rw [dataDispatch_LuaData _ (-1) (by rw [htop.2.1]; intro u hu; exact hslot u (Option.some.inj hu))]
    at h
  simp only [readAs_LuaData] at h
  split at h
  · exact absurd h (by simp)
  · rename_i s2 _
    cases h
    exact Or.inl rfl
  · rename_i a s2 hnm hread
    obtain ⟨hkind, extra, hs2⟩ := LuaData_readAs_frame tr _ _ s2 a hf hread
    rcases hkind with hk | ⟨v, hk⟩
    · exact absurd hk hnm
    · subst hk
      subst hs2
      simp only [PotentialOwner.deref] at h
      right
      have hmlt : m < t.udatas.length := by
        by_contra hc
        rw [List.get?_eq_none.2 (by omega)] at hud
        exact absurd hud (by simp)
      obtain ⟨y, tb, reg, bR, hBM, hregcases⟩ := BakedData_metatable_frame tr
        (lua_newuserdata { t with stack := t.stack ++ [Value.udata m, registryGet t r] ++ extra } v)
      have hlkI2 : reg.lookup rI = some (Value.table tI) := by
        rcases hregcases with h0 | ⟨v0, h0⟩
        · rw [h0]; exact hlkI
        · rw [h0]
          have hne : rI ≠ freshRef t.registry := by
            have := lookup_lt_freshRef t.registry rI _ hlkI
            omega
          simp only [lua_newuserdata, List.lookup_cons]
          have : (rI == freshRef t.registry) = false := by simpa using hne
          rw [this]
          exact hlkI
      have hBM2 : BakedData_metatable tr (lua_newuserdata { t with stack := t.stack ++ [Value.udata m, registryGet t r] ++ extra } v) =
          { t with stack := t.stack ++ [Value.udata m, registryGet t r] ++ extra ++ [Value.udata t.udatas.length] ++ [y], udatas := t.udatas ++ [({ payload := v, meta := none } : UData)], tables := tb, registry := reg, bakedRefs := bR } :=
        hBM.trans (by simp [lua_newuserdata])
      obtain ⟨mt1, hSM1, _⟩ := lua_setmetatable_udata
        { t with stack := t.stack ++ [Value.udata m, registryGet t r] ++ extra ++ [Value.udata t.udatas.length] ++ [y], udatas := t.udatas ++ [({ payload := v, meta := none } : UData)], tables := tb, registry := reg, bakedRefs := bR }
        (t.stack ++ [Value.udata m, registryGet t r] ++ extra ++ [Value.udata t.udatas.length])
        y (-2) t.udatas.length { payload := v, meta := none } rfl
        (stackAt_top2 _ (t.stack ++ [Value.udata m, registryGet t r] ++ extra)
          (Value.udata t.udatas.length) y (by simp)).1
        (by simp)
      rw [hBM2, hSM1] at h
      rw [lua_rawseti_registry_top _
        (t.stack ++ [Value.udata m, registryGet t r] ++ extra) (Value.udata t.udatas.length) r rfl] at h
      rw [IndirectData_metatable_some
        { t with stack := t.stack ++ [Value.udata m, registryGet t r] ++ extra, udatas := (t.udatas ++ [({ payload := v, meta := none } : UData)]).set t.udatas.length ({ payload := v, meta := mt1 } : UData), tables := tb, registry := (r, Value.udata t.udatas.length) :: reg, bakedRefs := bR } rI hI] at h
      have hregI2 : registryGet
          { t with stack := t.stack ++ [Value.udata m, registryGet t r] ++ extra, udatas := (t.udatas ++ [({ payload := v, meta := none } : UData)]).set t.udatas.length ({ payload := v, meta := mt1 } : UData), tables := tb, registry := (r, Value.udata t.udatas.length) :: reg, bakedRefs := bR } rI = Value.table tI := by
        rw [registryGet_cons_ne _ reg rI r _ hrIr rfl, hlkI2]
        rfl
      rw [hregI2] at h
      have hudm : ((t.udatas ++ [({ payload := v, meta := none } : UData)]).set t.udatas.length ({ payload := v, meta := mt1 } : UData)).get? m =
          some { payload := NVal.int r, meta := some tP } := by
        rw [List.get?_eq_getElem?, List.getElem?_set_ne (by omega),
          List.getElem?_append_left hmlt, ← List.get?_eq_getElem?]
        exact hud
      obtain ⟨mt2, hSM2, hmt2⟩ := lua_setmetatable_udata
        (pushValue
          { t with stack := t.stack ++ [Value.udata m, registryGet t r] ++ extra, udatas := (t.udatas ++ [({ payload := v, meta := none } : UData)]).set t.udatas.length ({ payload := v, meta := mt1 } : UData), tables := tb, registry := (r, Value.udata t.udatas.length) :: reg, bakedRefs := bR } (Value.table tI))
        (t.stack ++ [Value.udata m, registryGet t r] ++ extra) (Value.table tI)
        ((lua_gettop { t with stack := t.stack ++ [Value.udata m, registryGet t r] } - 1 : Nat) : Int)
        m { payload := NVal.int r, meta := some tP } rfl
        (by
          have hidx : lua_gettop { t with stack := t.stack ++ [Value.udata m, registryGet t r] }
              - 1 = t.stack.length + 1 := by
            simp [lua_gettop]
          rw [hidx, Nat.cast_succ, lua_absindex_pos]
          unfold stackAt
          simp only [Nat.add_one_ne_zero, if_false, Nat.add_sub_cancel, pushValue]
          rw [List.get?_eq_getElem?, List.append_assoc, List.append_assoc,
            List.getElem?_append_right (le_refl _)]
          simp)
        hudm
      rw [hSM2] at h
      simp only [Option.some.injEq, Prod.mk.injEq] at h
      obtain ⟨hres, ht2⟩ := h
      subst ht2
      refine ⟨t.udatas.length, extra, hres.symm, ?_, ?_, ?_⟩
      · simp [pushValue]
      · refine ⟨tI, rI, { payload := NVal.int r, meta := mt2 }, ?_, hmt2 tI rfl, hI, hregI2⟩
        show (List.set _ m _).get? m = _
        rw [List.get?_eq_getElem?, List.getElem?_set_self]
        show m < ((t.udatas ++ [({ payload := v, meta := none } : UData)]).set t.udatas.length
          ({ payload := v, meta := mt1 } : UData)).length
        rw [List.length_set, List.length_append]
        omega
      · simp [registryGet, pushValue]

theorem stackAt_of_stack (s t : LuaState) (e : List Value) (i : Nat) (h : t.stack = s.stack ++ e)
    (hi : i ≤ s.stack.length) : stackAt t i = stackAt s i := by
  unfold stackAt
  split
  · rfl
  · rw [h, List.get?_eq_getElem?, List.get?_eq_getElem?, List.getElem?_append_left (by omega)]

theorem dataDispatch_indirect (t : LuaState) (i m : Nat) (hm : IsIndirectMarker t m)
    (hv : stackAt t (i + 1) = some (Value.udata m)) :
    (dataDispatch t ((i : Int) + 1)).1 = AnyData.IndirectData (i + 1) := by
  obtain ⟨tI, rI, ud, hud, hmeta, hI, hreg⟩ := hm
  unfold dataDispatch
  simp only [lua_absindex_pos]
  have hisu : lua_isuserdata t (i + 1) = true := by
    unfold lua_isuserdata; rw [hv]
  have hgm : lua_getmetatable t ((i + 1 : Nat) : Int) = (true, pushValue t (Value.table tI)) := by
    unfold lua_getmetatable
    have hmo : metatableOf t (Value.udata m) = some tI := by
      simp only [metatableOf]
      rw [hud]
      exact hmeta
    rw [Nat.cast_succ, lua_absindex_pos, hv]
    simp only [Option.some_bind, hmo]
  simp only [hisu, hgm, Bool.not_true, Bool.false_eq_true, if_false]
  rw [IndirectData_metatable_some (pushValue t (Value.table tI)) rI hI]
  have : registryGet (pushValue t (Value.table tI)) rI = Value.table tI := hreg
  rw [this, lua_rawequal_top2 _ t.stack (Value.table tI) (Value.table tI)
    (by simp [pushValue]), rawEqualValues_table]
  simp

/-- Reading a pending marker bakes it: the read yields a pointer to the new
object, the registry slot of the marker holds that object, and the marker
carries the metatable of the indirect markers. -/
theorem readArg_pending (fuel : Nat) (q : Param) (i m : Nat) (r : Int) (t t2 : LuaState)
    (a : PotentialOwner) (hm : IsPendingMarker t m r)
    (hv : stackAt t (i + 1) = some (Value.udata m)) (hf : FramedRead q.traits)
    (h : readArg fuel q i t = some (a, t2)) (ha : a.toBool = true) :
    ∃ u extra, a = PotentialOwner.ptr u ∧ t2.stack = t.stack ++ extra ∧
      IsIndirectMarker t2 m ∧ registryGet t2 r = Value.udata u := by
  obtain ⟨t1, hd, hst, hm1, rI, hI1⟩ := dataDispatch_pending t i m r hm hv
  unfold readArg at h
  rw [hd] at h
  have hv1 : stackAt t1 (i + 1) = some (Value.udata m) := by
    have : stackAt t1 (i + 1) = stackAt t (i + 1) := by
      unfold stackAt; rw [hst]
    rw [this, hv]
  cases fuel with
  | zero => simp [readAs] at h
  | succ fuel =>
    simp only [readAs] at h
    rw [lua_pushvalue_at t1 i _ hv1] at h
    split at h
    · exact absurd h (by simp)
    · rename_i u s2 hb
      cases h
      rcases bakePendingData_result q.traits fuel t1 s2 m r rI (some u) hm1 hI1 hf hb with
        h0 | ⟨u1, extra, hu, hstack, hind, hreg⟩
      · exact absurd h0 (by simp)
      · have hnotop : popIfOnTop s2 (lua_gettop (pushValue t1 (Value.udata m))) = s2 := by
          unfold popIfOnTop
          rw [if_neg]
          simp only [lua_gettop, pushValue, hstack, List.length_append, List.length_cons,
            List.length_nil]
          omega
        rw [hnotop]
        refine ⟨u, [Value.udata m, registryGet t1 r] ++ extra, rfl, by rw [hstack, hst], hind, ?_⟩
        rw [hreg]
        cases hu
        rfl
    · rename_i s2 hb
      cases h
      exact absurd ha (by simp [PotentialOwner.toBool])

theorem IsIndirectMarker_of_fields (t t1 : LuaState) (m : Nat) (h : IsIndirectMarker t m)
    (hu : t1.udatas = t.udatas) (hr : t1.registry = t.registry)
    (hi : t1.indirectRefs = t.indirectRefs) : IsIndirectMarker t1 m := by
  obtain ⟨tI, rI, ud, hud, hmeta, hI, hreg⟩ := h
  refine ⟨tI, rI, ud, by rw [hu]; exact hud, hmeta, by rw [hi]; exact hI, ?_⟩
  unfold registryGet at hreg ⊢
  rw [hr]
  exact hreg

theorem IsPendingMarker_of_stack (t : LuaState) (e : List Value) (m : Nat) (r : Int)
    (h : IsPendingMarker t m r) : IsPendingMarker { t with stack := e } m r := h

theorem registryGet_of_registry (t t1 : LuaState) (k : Int) (hr : t1.registry = t.registry) :
    registryGet t1 k = registryGet t k := by
  unfold registryGet
  rw [hr]

/-- C6 (amended): when `tryToCallRaw` fails while reading argument `k`, it
restores the depth of the stack and nothing else: the state it returns is the
state left by the reads of the arguments `1 .. k` with the top reset to the
entry depth, registry and userdata as those reads left them.  If the arguments
`1 .. k` are all Dynamic (and each `read` only pushes), the state on return is
the state on entry.  But a PendingBake argument before `k` (the other arguments
Dynamic) has been baked by its successful read and stays so: after the failed
call it classifies as Indirect and its registry slot holds the Baked object the
read pointed to. -/
theorem tryToCallRaw_failed_read_effects (fuel : Nat) (pre : List Param) (p : Param)
    (post : List Param) (ret : Option Traits) (f : Invoc) (s s1 s2 : LuaState)
    (args : List PotentialOwner) (a : PotentialOwner)
    (hmin : (getMinMaxArgumentCount ((pre ++ p :: post).map Param.isDefaultable)).1 ≤ lua_gettop s)
    (hmax : lua_gettop s ≤ (getMinMaxArgumentCount ((pre ++ p :: post).map Param.isDefaultable)).2)
    (hk : pre.length + 1 ≤ lua_gettop s)
    (hpre : readSeq fuel pre 0 s = some (args, s1))
    (hok : ∀ b ∈ args, b.toBool = true)
    (hfail : readArg fuel p pre.length s1 = some (a, s2))
    (ha : a.toBool = false) :
    ∃ o, tryToCallRaw fuel (pre ++ p :: post) ret f s = some o ∧
      o.state = lua_settop s2 (lua_gettop s) ∧
      o.state.registry = s2.registry ∧ o.state.udatas = s2.udatas ∧
      o.state.tables = s2.tables ∧
      ((∀ q ∈ pre ++ [p], FramedRead q.traits) →
        (∀ j u, j < pre.length + 1 → stackAt s (j + 1) ≠ some (Value.udata u)) →
        o.state = s) ∧
      (∀ i m r, i < pre.length → stackAt s (i + 1) = some (Value.udata m) →
        IsPendingMarker s m r →
        (∀ q ∈ pre ++ [p], FramedRead q.traits) →
        (∀ j u, j < pre.length + 1 → j ≠ i → stackAt s (j + 1) ≠ some (Value.udata u)) →
        (dataDispatch s ((i : Int) + 1)).1 = AnyData.PendingData (i + 1) ∧
        (dataDispatch o.state ((i : Int) + 1)).1 = AnyData.IndirectData (i + 1) ∧
        ∃ u, args.get? i = some (PotentialOwner.ptr u) ∧
          registryGet o.state r = Value.udata u) := by
  have hra := readArgs_append fuel (lua_gettop s) pre 0 s args s1 hpre hok (by omega) (p :: post)
  have hnot : ¬ (pre.length ≥ lua_gettop s) := by omega
  simp only [Nat.zero_add, readArgs, if_neg hnot, hfail, ha] at hra
  simp only [Bool.false_eq_true, if_false] at hra
  have hcall : tryToCallRaw fuel (pre ++ p :: post) ret f s =
      some { res := { howManyArgsRead := pre.length + 1 - 1,
                      howManyArgsTotal := (pre ++ p :: post).length,
                      errMsg := failedReadingError (pre.length + 1) },
             state := lua_settop s2 (lua_gettop s),
             trace := (List.range' 1 pre.length).map Event.readArg ++
               [Event.readArg (pre.length + 1)] } := by
    unfold tryToCallRaw
    simp only [hmin, hmax, decide_True, Bool.and_self, Bool.not_true, ge_iff_le, hra]
    simp
  have hlen : lua_gettop s = s.stack.length := rfl
  refine ⟨_, hcall, rfl, rfl, rfl, rfl, ?_, ?_⟩
  · intro hf hd
    obtain ⟨e1, he1⟩ := readSeq_dynamic fuel pre 0 s s1 args
      (fun q hq => hf q (List.mem_append_left _ hq)) (by rw [hlen] at hk; omega)
      (fun j u _ hj => hd j u (by omega)) hpre
    obtain ⟨e2, he2⟩ := readArg_dynamic fuel p pre.length s1 s2 a
      (hf p (List.mem_append_right _ (List.mem_singleton_self _)))
      (fun u => by
        rw [he1, stackAt_append s e1 (pre.length + 1) (by rw [hlen] at hk; omega)]
        exact hd pre.length u (by omega)) hfail
    show lua_settop s2 (lua_gettop s) = s
    rw [he2, he1, hlen]
    have : ({ s with stack := s.stack ++ e1 ++ e2 } : LuaState) =
        { s with stack := s.stack ++ (e1 ++ e2) } := by simp
    exact this ▸ settop_append s (e1 ++ e2)
  · intro i m r hi hv hm hf hd
    have hsplit : pre = pre.take i ++ (pre.get ⟨i, hi⟩) :: pre.drop (i + 1) := by
      conv_lhs => rw [← List.take_append_drop i pre, List.drop_eq_getElem_cons hi]
      rfl
    have htake : (pre.take i).length = i := by
      rw [List.length_take]; omega
    have hdrop : (pre.drop (i + 1)).length = pre.length - (i + 1) := List.length_drop _ _
    rw [hsplit] at hpre
    obtain ⟨argsA, tA, aq, tq, argsB, hA, hq, hB, hargs⟩ :=
      readSeq_split fuel (pre.take i) (pre.get ⟨i, hi⟩) (pre.drop (i + 1)) 0 s s1 args hpre
    rw [htake, Nat.zero_add] at hq hB
    have hmemA : ∀ q ∈ pre.take i, FramedRead q.traits :=
      fun q hq => hf q (List.mem_append_left _ (List.mem_of_mem_take hq))
    have hmemq : FramedRead (pre.get ⟨i, hi⟩).traits :=
      hf _ (List.mem_append_left _ (List.get_mem _ _ _))
    have hmemB : ∀ q ∈ pre.drop (i + 1), FramedRead q.traits :=
      fun q hq => hf q (List.mem_append_left _ (List.mem_of_mem_drop hq))
    obtain ⟨eA, heA⟩ := readSeq_dynamic fuel (pre.take i) 0 s tA argsA hmemA
      (by rw [htake]; rw [hlen] at hk; omega)
      (fun j u _ hj => hd j u (by rw [htake] at hj; omega) (by rw [htake] at hj; omega)) hA
    have hvA : stackAt tA (i + 1) = some (Value.udata m) := by
      rw [heA, stackAt_append s eA (i + 1) (by rw [hlen] at hk; omega)]
      exact hv
    have hmA : IsPendingMarker tA m r := by
      rw [heA]; exact IsPendingMarker_of_stack s _ m r hm
    have hlenA : argsA.length = i := by
      rw [readSeq_length fuel _ _ _ _ _ hA, htake]
    have haq : aq.toBool = true := hok aq (by rw [hargs]; simp)
    obtain ⟨u, extra, hu, hstq, hindq, hregq⟩ :=
      readArg_pending fuel (pre.get ⟨i, hi⟩) i m r tA tq aq hmA hvA hmemq hq haq
    have hstq2 : tq.stack = s.stack ++ (eA ++ extra) := by
      rw [hstq, heA]; simp
    obtain ⟨eB, heB⟩ := readSeq_dynamic fuel (pre.drop (i + 1)) (i + 1) tq s1 argsB hmemB
      (by rw [hdrop, hstq2, List.length_append]; rw [hlen] at hk; omega)
      (fun j u hj1 hj2 => by
        rw [stackAt_of_stack s tq _ (j + 1) hstq2 (by rw [hdrop] at hj2; rw [hlen] at hk; omega)]
        exact hd j u (by rw [hdrop] at hj2; omega) (by omega)) hB
    have hst1 : s1.stack = s.stack ++ (eA ++ extra ++ eB) := by
      rw [heB]; simp [hstq2]
    obtain ⟨e2, he2⟩ := readArg_dynamic fuel p pre.length s1 s2 a
      (hf p (List.mem_append_right _ (List.mem_singleton_self _)))
      (fun u => by
        rw [stackAt_of_stack s s1 _ (pre.length + 1) hst1 (by rw [hlen] at hk; omega)]
        exact hd pre.length u (by omega) (by omega)) hfail
    have hu2 : s2.udatas = tq.udatas := by rw [he2, heB]
    have hr2 : s2.registry = tq.registry := by rw [he2, heB]
    have hi2 : s2.indirectRefs = tq.indirectRefs := by rw [he2, heB]
    have hst2 : (lua_settop s2 (lua_gettop s)).stack = s.stack := by
      rw [he2]
      simp only [lua_settop, hst1, hlen]
      simp
    refine ⟨?_, ?_, u, ?_, ?_⟩
    · obtain ⟨t1, hd1, _⟩ := dataDispatch_pending s i m r hm hv
      rw [hd1]
    · apply dataDispatch_indirect _ i m
      · exact IsIndirectMarker_of_fields tq _ m hindq hu2 hr2 hi2
      · have : stackAt (lua_settop s2 (lua_gettop s)) (i + 1) = stackAt s (i + 1) := by
          unfold stackAt; rw [hst2]
        rw [this, hv]
    · rw [hargs, List.get?_eq_getElem?, List.getElem?_append_right (by omega), hlenA]
      simp [hu]
    · show registryGet (lua_settop s2 (lua_gettop s)) r = _
      rw [registryGet_of_registry tq (lua_settop s2 (lua_gettop s)) r hr2, hregq]

theorem intTraits_framed : FramedRead intTraits := by
  intro rd hrd s i res s1 h
  simp only [intTraits, Option.some.injEq] at hrd
  subst hrd
  simp only [] at h
  split at h
  · cases h; exact ⟨[], by simp⟩
  · cases h; exact ⟨[], by simp⟩

theorem pendingState_marker : IsPendingMarker pendingState 0 3 := by
  refine ⟨0, 4, rfl, rfl, by decide, by decide, ⟨Value.int 5, by decide⟩, ?_, ?_⟩
  · intro u h
    have h5 : registryGet pendingState 3 = Value.int 5 := by decide
    rw [h5] at h
    exact absurd h (by simp)
  · intro rI h
    exact absurd h (by simp [pendingState])

/-- C6 (witness): `plus(int, int)` called with `(m, "x")`, `m` a pending marker
for `5`: the call fails reading argument 2, and `m`, PendingBake on entry, is
Indirect afterwards, its registry slot holding a userdata. -/
theorem tryToCallRaw_failed_read_effects_witness :
    ∃ o, tryToCallRaw 1 twoInts (some intTraits) plusInt pendingState = some o ∧
      o.res.errMsg = "Failed reading argument #2." ∧
      (dataDispatch pendingState 1).1 = AnyData.PendingData 1 ∧
      (dataDispatch o.state 1).1 = AnyData.IndirectData 1 ∧
      ∃ u, registryGet o.state 3 = Value.udata u := by
  obtain ⟨o, ho, _, _, _, _, _, h7⟩ := tryToCallRaw_failed_read_effects 1
    [{ traits := intTraits, kind := RefKind.byValue }]
    { traits := intTraits, kind := RefKind.byValue } [] (some intTraits) plusInt
    pendingState _ _ _ _ (by decide) (by decide) (by decide) rfl
    (by intro b hb; simp only [List.mem_singleton] at hb; subst hb; rfl) rfl rfl
  obtain ⟨h8, h9, u, _, h10⟩ := h7 0 0 3 (by decide) rfl pendingState_marker
    (by
      intro q hq
      simp only [List.mem_append, List.mem_singleton] at hq
      rcases hq with hq | hq <;> subst hq <;> exact intTraits_framed)
    (by
      intro j u hj hne
      have : j = 1 := by simp only [List.length_singleton] at hj; omega
      subst this
      intro h
      have h1 : stackAt pendingState (1 + 1) = some (Value.str "x") := rfl
      rw [h1] at h
      exact absurd h (by simp))
  refine ⟨o, ho, ?_, h8, h9, u, h10⟩
  have hx : (tryToCallRaw 1 twoInts (some intTraits) plusInt pendingState).map
      (fun o => o.res.errMsg) = some "Failed reading argument #2." := rfl
  have ho2 : tryToCallRaw 1 twoInts (some intTraits) plusInt pendingState = some o := ho
  rw [ho2] at hx
  exact Option.some.inj hx

/-- C6 (counterexample): `plus(int, int)` called with `(m, "x")`, where `m` is
the pending marker returned by `markedForBaking(5)`.  Argument 1 is PendingBake
on entry and its registry slot 3 holds `5`; the call fails reading argument 2;
afterwards argument 1 classifies as Indirect and slot 3 holds a userdata (the
Baked `int`).  Reading argument 1 as a `double`, which succeeds on entry, fails
an assertion after the failed call. -/
theorem tryToCallRaw_failed_read_counterexample :
    (dataDispatch pendingState 1).1 = AnyData.PendingData 1 ∧
    registryGet pendingState 3 = Value.int 5 ∧
    (tryToCallRaw 1 twoInts (some intTraits) plusInt pendingState).map
      (fun o => (o.res, (dataDispatch o.state 1).1, registryGet o.state 3)) =
      some ({ howManyArgsRead := 1, howManyArgsTotal := 2,
              errMsg := "Failed reading argument #2." },
            AnyData.IndirectData 1, Value.udata 1) ∧
    (readArg 1 { traits := doubleTraits (fun _ => none), kind := RefKind.byValue } 0
      pendingState).map (fun r => r.1.toBool) = some true ∧
    (tryToCallRaw 1 twoInts (some intTraits) plusInt pendingState).map
      (fun o => (readArg 1 { traits := doubleTraits (fun _ => none), kind := RefKind.byValue } 0
        o.state).map (fun r => r.1.toBool)) = some none := by
  refine ⟨rfl, rfl, rfl, rfl, rfl⟩

/-! ## Properties: classification of a value -/

theorem CachesGrown.refl (s : LuaState) : CachesGrown s s where
  udatas := rfl
  tablesLen := le_refl _
  tables := fun _ _ => rfl
  registry := fun _ _ h => h
  fresh := fun k x h1 h2 => by rw [h1] at h2; exact absurd h2 (by simp)
  pending := fun _ h => h
  indirect := fun _ h => h
  baked := fun _ _ h => h
  pendingNew := fun r h1 h2 => by rw [h1] at h2; exact absurd h2 (by simp)
  indirectNew := fun r h1 h2 => by rw [h1] at h2; exact absurd h2 (by simp)
  bakedNew := fun tid r h1 h2 => by rw [h1] at h2; exact absurd h2 (by simp)

theorem CachesGrown.trans {a b c : LuaState} (h1 : CachesGrown a b) (h2 : CachesGrown b c) :
    CachesGrown a c where
  udatas := by rw [h2.udatas, h1.udatas]
  tablesLen := le_trans h1.tablesLen h2.tablesLen
  tables := fun i hi => by
    rw [h2.tables i (lt_of_lt_of_le hi h1.tablesLen), h1.tables i hi]
  registry := fun k x h => h2.registry k x (h1.registry k x h)
  fresh := fun k x hk hx => by
    cases hb : b.registry.lookup k with
    | none =>
      obtain ⟨n, hn, hle⟩ := h2.fresh k x hb hx
      exact ⟨n, hn, le_trans h1.tablesLen hle⟩
    | some y =>
      have := h2.registry k y hb
      rw [this] at hx
      have e := Option.some.inj hx
      rw [← e]
      exact h1.fresh k y hk hb
  pending := fun r h => h2.pending r (h1.pending r h)
  indirect := fun r h => h2.indirect r (h1.indirect r h)
  baked := fun tid r h => h2.baked tid r (h1.baked tid r h)
  pendingNew := fun r hn hc => by
    cases hb : b.pendingRefs with
    | none =>
      have := h2.pendingNew r hb hc
      cases ha : a.registry.lookup r with
      | none => rfl
      | some y => rw [h1.registry r y ha] at this; exact absurd this (by simp)
    | some r1 =>
      have := h2.pending r1 hb
      rw [this] at hc
      have e := Option.some.inj hc
      rw [← e]
      exact h1.pendingNew r1 hn hb
  indirectNew := fun r hn hc => by
    cases hb : b.indirectRefs with
    | none =>
      have := h2.indirectNew r hb hc
      cases ha : a.registry.lookup r with
      | none => rfl
      | some y => rw [h1.registry r y ha] at this; exact absurd this (by simp)
    | some r1 =>
      have := h2.indirect r1 hb
      rw [this] at hc
      have e := Option.some.inj hc
      rw [← e]
      exact h1.indirectNew r1 hn hb
  bakedNew := fun tid r hn hc => by
    cases hb : b.bakedRefs.lookup tid with
    | none =>
      have := h2.bakedNew tid r hb hc
      cases ha : a.registry.lookup r with
      | none => rfl
      | some y => rw [h1.registry r y ha] at this; exact absurd this (by simp)
    | some r1 =>
      have := h2.baked tid r1 hb
      rw [this] at hc
      have e := Option.some.inj hc
      rw [← e]
      exact h1.bakedNew tid r1 hn hb

/-- The invariant and the growth relation do not look at the stack. -/
theorem MetatablesOk.ok_of_fields {s t : LuaState} (h : MetatablesOk s)
    (h1 : t.tables = s.tables) (h2 : t.udatas = s.udatas) (h3 : t.registry = s.registry)
    (h4 : t.pendingRefs = s.pendingRefs) (h5 : t.indirectRefs = s.indirectRefs)
    (h6 : t.bakedRefs = s.bakedRefs) : MetatablesOk t := by
  obtain ⟨st, tb, ud, rg, pr, ir, br⟩ := s
  obtain ⟨st1, tb1, ud1, rg1, pr1, ir1, br1⟩ := t
  simp only [] at h1 h2 h3 h4 h5 h6
  subst h1 h2 h3 h4 h5 h6
  exact ⟨h.pending, h.indirect, h.baked, h.pendingIndirect, h.bakedPending, h.bakedIndirect,
    h.udataMeta⟩

theorem CachesGrown.grown_of_fields {s t : LuaState}
    (h1 : t.tables = s.tables) (h2 : t.udatas = s.udatas) (h3 : t.registry = s.registry)
    (h4 : t.pendingRefs = s.pendingRefs) (h5 : t.indirectRefs = s.indirectRefs)
    (h6 : t.bakedRefs = s.bakedRefs) : CachesGrown s t where
  udatas := h2
  tablesLen := by rw [h1]
  tables := fun _ _ => by rw [h1]
  registry := fun _ _ h => by rw [h3]; exact h
  fresh := fun k x ha hb => by rw [h3, ha] at hb; exact absurd hb (by simp)
  pending := fun _ h => by rw [h4]; exact h
  indirect := fun _ h => by rw [h5]; exact h
  baked := fun _ _ h => by rw [h6]; exact h
  pendingNew := fun r ha hb => by rw [h4, ha] at hb; exact absurd hb (by simp)
  indirectNew := fun r ha hb => by rw [h5, ha] at hb; exact absurd hb (by simp)
  bakedNew := fun tid r ha hb => by rw [h6, ha] at hb; exact absurd hb (by simp)

theorem lookup_cons_self (reg : List (Int × Value)) (k : Int) (v : Value) :
    ((k, v) :: reg).lookup k = some v := by
  simp [List.lookup_cons]

theorem lookup_cons_of_ne (reg : List (Int × Value)) (k r : Int) (v : Value) (h : k ≠ r) :
    ((r, v) :: reg).lookup k = reg.lookup k := by
  have : (k == r) = false := by simpa using h
  simp [List.lookup_cons, this]

theorem lookup_freshRef_none (reg : List (Int × Value)) : reg.lookup (freshRef reg) = none := by
  cases h : reg.lookup (freshRef reg) with
  | none => rfl
  | some x => exact absurd (lookup_lt_freshRef reg _ x h) (lt_irrefl _)

theorem lookup_cons_fresh (reg : List (Int × Value)) (k : Int) (v x : Value)
    (h : reg.lookup k = some x) : ((freshRef reg, v) :: reg).lookup k = some x := by
  rw [lookup_cons_of_ne _ _ _ _ (ne_of_lt (lookup_lt_freshRef reg k x h)), h]

theorem registryGet_of_lookup (s : LuaState) (k : Int) (x : Value)
    (h : s.registry.lookup k = some x) : registryGet s k = x := by
  simp [registryGet, h]

/-- A step that stores one new table under a fresh reference, and records the
reference in at most one static map, keeps the invariant. -/
theorem MetatablesOk.ok_grow {s t : LuaState} (h : MetatablesOk s)
    (hu : t.udatas = s.udatas) (hl : s.tables.length < t.tables.length)
    (hr : t.registry = (freshRef s.registry, Value.table s.tables.length) :: s.registry)
    (hP : ∀ r, t.pendingRefs = some r → s.pendingRefs = some r ∨
      (r = freshRef s.registry ∧ t.indirectRefs = s.indirectRefs ∧ t.bakedRefs = s.bakedRefs))
    (hI : ∀ r, t.indirectRefs = some r → s.indirectRefs = some r ∨
      (r = freshRef s.registry ∧ t.pendingRefs = s.pendingRefs ∧ t.bakedRefs = s.bakedRefs))
    (hB : ∀ tid r, t.bakedRefs.lookup tid = some r → s.bakedRefs.lookup tid = some r ∨
      (r = freshRef s.registry ∧ t.pendingRefs = s.pendingRefs ∧
        t.indirectRefs = s.indirectRefs)) :
    MetatablesOk t := by
  have hold : ∀ r t0, HoldsTable s r t0 →
      t.registry.lookup r = some (Value.table t0) ∧ t0 < s.tables.length := by
    intro r t0 ht
    rw [hr]
    exact ⟨lookup_cons_fresh _ _ _ _ ht.1, ht.2⟩
  have hnew : t.registry.lookup (freshRef s.registry) = some (Value.table s.tables.length) := by
    rw [hr]; exact lookup_cons_self _ _ _
  have hne : ∀ r t0, HoldsTable s r t0 →
      t.registry.lookup r ≠ t.registry.lookup (freshRef s.registry) := by
    intro r t0 ht
    rw [(hold r t0 ht).1, hnew]
    intro e
    have : t0 = s.tables.length := by simpa using e
    have := ht.2
    omega
  have hnotfresh : ∀ t0, ¬ HoldsTable s (freshRef s.registry) t0 := by
    intro t0 ht
    rw [HoldsTable, lookup_freshRef_none] at ht
    exact absurd ht.1 (by simp)
  have keep : ∀ r t0, HoldsTable s r t0 → HoldsTable t r t0 := fun r t0 ht =>
    ⟨(hold r t0 ht).1, lt_trans ht.2 hl⟩
  have hfreshT : HoldsTable t (freshRef s.registry) s.tables.length := ⟨hnew, hl⟩
  -- classification of a reference of `t`
  have cP : ∀ r, t.pendingRefs = some r →
      (s.pendingRefs = some r ∧ ∃ t0, HoldsTable s r t0) ∨
      (r = freshRef s.registry ∧ t.indirectRefs = s.indirectRefs ∧ t.bakedRefs = s.bakedRefs) := by
    intro r hr1
    rcases hP r hr1 with h1 | h1
    · exact Or.inl ⟨h1, h.pending r h1⟩
    · exact Or.inr h1
  have cI : ∀ r, t.indirectRefs = some r →
      (s.indirectRefs = some r ∧ ∃ t0, HoldsTable s r t0) ∨
      (r = freshRef s.registry ∧ t.pendingRefs = s.pendingRefs ∧ t.bakedRefs = s.bakedRefs) := by
    intro r hr1
    rcases hI r hr1 with h1 | h1
    · exact Or.inl ⟨h1, h.indirect r h1⟩
    · exact Or.inr h1
  have cB : ∀ tid r, t.bakedRefs.lookup tid = some r →
      (s.bakedRefs.lookup tid = some r ∧ ∃ t0, HoldsTable s r t0) ∨
      (r = freshRef s.registry ∧ t.pendingRefs = s.pendingRefs ∧
        t.indirectRefs = s.indirectRefs) := by
    intro tid r hr1
    rcases hB tid r hr1 with h1 | h1
    · exact Or.inl ⟨h1, h.baked tid r h1⟩
    · exact Or.inr h1
  have keepEq : ∀ r t0, HoldsTable s r t0 → t.registry.lookup r = s.registry.lookup r :=
    fun r t0 ht => by rw [(hold r t0 ht).1, ht.1]
  refine ⟨?_, ?_, ?_, ?_, ?_, ?_, ?_⟩
  · intro r hr1
    rcases cP r hr1 with ⟨_, t0, ht⟩ | ⟨e, _⟩
    · exact ⟨t0, keep r t0 ht⟩
    · exact ⟨_, e ▸ hfreshT⟩
  · intro r hr1
    rcases cI r hr1 with ⟨_, t0, ht⟩ | ⟨e, _⟩
    · exact ⟨t0, keep r t0 ht⟩
    · exact ⟨_, e ▸ hfreshT⟩
  · intro tid r hr1
    rcases cB tid r hr1 with ⟨_, t0, ht⟩ | ⟨e, _⟩
    · exact ⟨t0, keep r t0 ht⟩
    · exact ⟨_, e ▸ hfreshT⟩
  · intro rP rI h1 h2
    rcases cP rP h1 with ⟨a1, t1, ht1⟩ | ⟨e1, e2, _⟩
    · rcases cI rI h2 with ⟨a2, t2, ht2⟩ | ⟨e3, _, _⟩
      · rw [keepEq rP t1 ht1, keepEq rI t2 ht2]
        exact h.pendingIndirect rP rI a1 a2
      · rw [e3]; exact hne rP t1 ht1
    · rw [e2] at h2
      obtain ⟨t2, ht2⟩ := h.indirect rI h2
      rw [e1]
      exact fun e => hne rI t2 ht2 e.symm
  · intro tid rB rP h1 h2
    rcases cB tid rB h1 with ⟨a1, t1, ht1⟩ | ⟨e1, e2, _⟩
    · rcases cP rP h2 with ⟨a2, t2, ht2⟩ | ⟨e3, _, _⟩
      · rw [keepEq rB t1 ht1, keepEq rP t2 ht2]
        exact h.bakedPending tid rB rP a1 a2
      · rw [e3]; exact hne rB t1 ht1
    · rw [e2] at h2
      obtain ⟨t2, ht2⟩ := h.pending rP h2
      rw [e1]
      exact fun e => hne rP t2 ht2 e.symm
  · intro tid rB rI h1 h2
    rcases cB tid rB h1 with ⟨a1, t1, ht1⟩ | ⟨e1, _, e2⟩
    · rcases cI rI h2 with ⟨a2, t2, ht2⟩ | ⟨e3, _, _⟩
      · rw [keepEq rB t1 ht1, keepEq rI t2 ht2]
        exact h.bakedIndirect tid rB rI a1 a2
      · rw [e3]; exact hne rB t1 ht1
    · rw [e2] at h2
      obtain ⟨t2, ht2⟩ := h.indirect rI h2
      rw [e1]
      exact fun e => hne rI t2 ht2 e.symm
  · intro u ud t0 h1 h2
    rw [hu] at h1
    exact lt_trans (h.udataMeta u ud t0 h1 h2) hl

/-- A step that stores one new table under a fresh reference only creates a
metatable. -/
theorem CachesGrown.of_grow {s t : LuaState}
    (hu : t.udatas = s.udatas) (hl : s.tables.length < t.tables.length)
    (hk : ∀ i, i < s.tables.length → t.tables.get? i = s.tables.get? i)
    (hr : t.registry = (freshRef s.registry, Value.table s.tables.length) :: s.registry)
    (hP : t.pendingRefs = s.pendingRefs ∨
      (s.pendingRefs = none ∧ t.pendingRefs = some (freshRef s.registry)))
    (hI : t.indirectRefs = s.indirectRefs ∨
      (s.indirectRefs = none ∧ t.indirectRefs = some (freshRef s.registry)))
    (hB : t.bakedRefs = s.bakedRefs ∨
      ∃ tid, s.bakedRefs.lookup tid = none ∧
        t.bakedRefs = (tid, freshRef s.registry) :: s.bakedRefs) :
    CachesGrown s t where
  udatas := hu
  tablesLen := le_of_lt hl
  tables := hk
  registry := fun k x h => by rw [hr]; exact lookup_cons_fresh _ _ _ _ h
  fresh := fun k x h1 h2 => by
    rw [hr] at h2
    by_cases hkf : k = freshRef s.registry
    · rw [hkf, lookup_cons_self] at h2
      exact ⟨_, (Option.some.inj h2).symm, le_refl _⟩
    · rw [lookup_cons_of_ne _ _ _ _ hkf, h1] at h2
      exact absurd h2 (by simp)
  pending := fun r h => by
    rcases hP with e | ⟨e, _⟩
    · rw [e]; exact h
    · rw [e] at h; exact absurd h (by simp)
  indirect := fun r h => by
    rcases hI with e | ⟨e, _⟩
    · rw [e]; exact h
    · rw [e] at h; exact absurd h (by simp)
  baked := fun tid r h => by
    rcases hB with e | ⟨tid1, e1, e2⟩
    · rw [e]; exact h
    · rw [e2, List.lookup_cons]
      have : (tid == tid1) = false := by
        cases hq : (tid == tid1) with
        | false => rfl
        | true =>
          have : tid = tid1 := by simpa using hq
          rw [this, e1] at h
          exact absurd h (by simp)
      rw [this]
      exact h
  pendingNew := fun r h1 h2 => by
    rcases hP with e | ⟨_, e⟩
    · rw [e, h1] at h2; exact absurd h2 (by simp)
    · rw [e] at h2
      rw [← Option.some.inj h2]
      exact lookup_freshRef_none _
  indirectNew := fun r h1 h2 => by
    rcases hI with e | ⟨_, e⟩
    · rw [e, h1] at h2; exact absurd h2 (by simp)
    · rw [e] at h2
      rw [← Option.some.inj h2]
      exact lookup_freshRef_none _
  bakedNew := fun tid r h1 h2 => by
    rcases hB with e | ⟨tid1, _, e2⟩
    · rw [e, h1] at h2; exact absurd h2 (by simp)
    · rw [e2, List.lookup_cons] at h2
      cases hq : (tid == tid1) with
      | false => rw [hq] at h2; simp only [] at h2; rw [h1] at h2; exact absurd h2 (by simp)
      | true =>
        rw [hq] at h2
        simp only [] at h2
        rw [← Option.some.inj h2]
        exact lookup_freshRef_none _

theorem lua_setfield_pushValue_kept (s : LuaState) (l : List Value) (n : Nat) (v : Value)
    (k : String) (hs : s.stack = l ++ [Value.table n]) :
    ∃ tb, lua_setfield (pushValue s v) (-2) k = { s with tables := tb } ∧
      tb.length = s.tables.length ∧ ∀ i, i ≠ n → tb.get? i = s.tables.get? i := by
  unfold lua_setfield
  have h2 := stackAt_top2 (pushValue s v) l (Value.table n) v (by simp [pushValue, hs])
  rw [h2.1]
  simp only [lua_pop_pushValue]
  unfold tableSet
  split
  · refine ⟨_, rfl, by simp, ?_⟩
    intro i hi
    simp only [List.get?_eq_getElem?]
    rw [List.getElem?_set_ne (Ne.symm hi)]
  · exact ⟨s.tables, by cases s; rfl, rfl, fun _ _ => rfl⟩

theorem setMemberFuncs_kept (tid : Nat) (l : List Value) (n : Nat) :
    ∀ (ms : List String) (s : LuaState), s.stack = l ++ [Value.table n] →
    ∃ tb, setMemberFuncs tid ms s = { s with tables := tb } ∧
      tb.length = s.tables.length ∧ ∀ i, i ≠ n → tb.get? i = s.tables.get? i := by
  intro ms
  induction ms with
  | nil => intro s _; exact ⟨s.tables, by cases s; rfl, rfl, fun _ _ => rfl⟩
  | cons m ms ih =>
    intro s hs
    simp only [setMemberFuncs]
    obtain ⟨tb1, e1, hl1, hk1⟩ := lua_setfield_pushValue_kept s l n (Value.cfunc m tid) m hs
    rw [e1]
    obtain ⟨tb2, e2, hl2, hk2⟩ := ih { s with tables := tb1 } hs
    refine ⟨tb2, by rw [e2], by rw [hl2]; exact hl1, ?_⟩
    intro i hi
    rw [hk2 i hi]
    exact hk1 i hi

theorem get?_append_lt (a : List Table) (x : Table) (i : Nat) (h : i < a.length) :
    (a ++ [x]).get? i = a.get? i := by
  simp only [List.get?_eq_getElem?]
  rw [List.getElem?_append_left h]

/-- Creating the metatable of the markers: the new table is the last one, the
tables that existed are kept. -/
theorem refHoldingMetatable_none_kept (s : LuaState) :
    ∃ tb, refHoldingMetatable s none =
        ({ s with stack := s.stack ++ [Value.table s.tables.length], tables := tb,
                  registry := (freshRef s.registry, Value.table s.tables.length) :: s.registry },
          some (freshRef s.registry)) ∧ s.tables.length < tb.length ∧
      ∀ i, i < s.tables.length → tb.get? i = s.tables.get? i := by
  simp only [refHoldingMetatable]
  have e1 : lua_createtable s = pushValue
      { s with tables := s.tables ++ [{ entries := [], meta := none }] }
      (Value.table s.tables.length) := by
    cases s; rfl
  obtain ⟨tb, e3, hlen, hk⟩ := lua_setfield_pushValue_kept (lua_createtable s) s.stack
    s.tables.length (Value.cfunc "refHolding.__gc" 0) "__gc" (by cases s; rfl)
  rw [e3]
  have e4 : lua_pushvalue { lua_createtable s with tables := tb } (-1) =
      pushValue { lua_createtable s with tables := tb } (Value.table s.tables.length) :=
    lua_pushvalue_top _ s.stack _ (by cases s; rfl)
  rw [e4, luaL_ref_pushValue _ _ (by simp)]
  have hlen1 : tb.length = s.tables.length + 1 := by
    rw [hlen, e1]; simp [pushValue]
  refine ⟨tb, ?_, by omega, ?_⟩
  · cases s; rfl
  · intro i hi
    rw [hk i (by omega), e1]
    exact get?_append_lt _ _ _ hi

/-- What `IndirectData::metatable` does on a well-formed registry. -/
theorem IndirectData_metatable_spec (s : LuaState) (h : MetatablesOk s) :
    ∃ tI rI, (IndirectData_metatable s).stack = s.stack ++ [Value.table tI] ∧
      (IndirectData_metatable s).indirectRefs = some rI ∧
      HoldsTable (IndirectData_metatable s) rI tI ∧
      (s.indirectRefs = none → s.tables.length ≤ tI) ∧
      (∀ r, s.indirectRefs = some r → IndirectData_metatable s = pushValue s (Value.table tI)) ∧
      (IndirectData_metatable s).pendingRefs = s.pendingRefs ∧
      CachesGrown s (IndirectData_metatable s) ∧ MetatablesOk (IndirectData_metatable s) := by
  cases hI : s.indirectRefs with
  | some r =>
    obtain ⟨t, ht⟩ := h.indirect r hI
    have e : IndirectData_metatable s = pushValue s (Value.table t) := by
      rw [IndirectData_metatable_some s r hI, registryGet_of_lookup s r _ ht.1]
    rw [e]
    exact ⟨t, r, rfl, hI, ht, fun hn => absurd hn (by simp), fun _ _ => rfl, rfl,
      CachesGrown.grown_of_fields rfl rfl rfl rfl rfl rfl,
      h.ok_of_fields rfl rfl rfl rfl rfl rfl⟩
  | none =>
    obtain ⟨tb, e, hl, hk⟩ := refHoldingMetatable_none_kept s
    have e1 : IndirectData_metatable s =
        { s with stack := s.stack ++ [Value.table s.tables.length], tables := tb,
                 registry := (freshRef s.registry, Value.table s.tables.length) :: s.registry,
                 indirectRefs := some (freshRef s.registry) } := by
      unfold IndirectData_metatable
      rw [hI, e]
    rw [e1]
    refine ⟨s.tables.length, freshRef s.registry, rfl, rfl, ⟨lookup_cons_self _ _ _, hl⟩,
      fun _ => le_refl _, fun r hr => absurd hr (by simp), rfl, ?_, ?_⟩
    · exact CachesGrown.of_grow rfl hl hk rfl (Or.inl rfl) (Or.inr ⟨hI, rfl⟩) (Or.inl rfl)
    · exact h.ok_grow rfl hl rfl (fun r hr => Or.inl hr)
        (fun r hr => Or.inr ⟨(Option.some.inj hr).symm, rfl, rfl⟩) (fun tid r hr => Or.inl hr)

/-- What `PendingData::metatable` does on a well-formed registry. -/
theorem PendingData_metatable_spec (s : LuaState) (h : MetatablesOk s) :
    ∃ tP rP, (PendingData_metatable s).stack = s.stack ++ [Value.table tP] ∧
      (PendingData_metatable s).pendingRefs = some rP ∧
      HoldsTable (PendingData_metatable s) rP tP ∧
      (s.pendingRefs = none → s.tables.length ≤ tP) ∧
      (∀ r, s.pendingRefs = some r → PendingData_metatable s = pushValue s (Value.table tP)) ∧
      (PendingData_metatable s).indirectRefs = s.indirectRefs ∧
      CachesGrown s (PendingData_metatable s) ∧ MetatablesOk (PendingData_metatable s) := by
  cases hI : s.pendingRefs with
  | some r =>
    obtain ⟨t, ht⟩ := h.pending r hI
    have e : PendingData_metatable s = pushValue s (Value.table t) := by
      rw [PendingData_metatable_some s r hI, registryGet_of_lookup s r _ ht.1]
    rw [e]
    exact ⟨t, r, rfl, hI, ht, fun hn => absurd hn (by simp), fun _ _ => rfl, rfl,
      CachesGrown.grown_of_fields rfl rfl rfl rfl rfl rfl,
      h.ok_of_fields rfl rfl rfl rfl rfl rfl⟩
  | none =>
    obtain ⟨tb, e, hl, hk⟩ := refHoldingMetatable_none_kept s
    have e1 : PendingData_metatable s =
        { s with stack := s.stack ++ [Value.table s.tables.length], tables := tb,
                 registry := (freshRef s.registry, Value.table s.tables.length) :: s.registry,
                 pendingRefs := some (freshRef s.registry) } := by
      unfold PendingData_metatable
      rw [hI, e]
    rw [e1]
    refine ⟨s.tables.length, freshRef s.registry, rfl, rfl, ⟨lookup_cons_self _ _ _, hl⟩,
      fun _ => le_refl _, fun r hr => absurd hr (by simp), rfl, ?_, ?_⟩
    · exact CachesGrown.of_grow rfl hl hk rfl (Or.inr ⟨hI, rfl⟩) (Or.inl rfl) (Or.inl rfl)
    · exact h.ok_grow rfl hl rfl
        (fun r hr => Or.inr ⟨(Option.some.inj hr).symm, rfl, rfl⟩) (fun r hr => Or.inl hr)
        (fun tid r hr => Or.inl hr)

theorem lua_absindex_natCast (s : LuaState) (n : Nat) (h : n ≠ 0) :
    lua_absindex s (n : Int) = n := by
  unfold lua_absindex
  have : (0 : Int) < (n : Int) := by omega
  simp [this]

theorem stackAt_ne_zero (s : LuaState) (n : Nat) (v : Value) (h : stackAt s n = some v) :
    n ≠ 0 := by
  intro e
  rw [e] at h
  simp [stackAt] at h

theorem metatableOf_udata_some (s : LuaState) (u t : Nat)
    (h : metatableOf s (Value.udata u) = some t) :
    ∃ ud, s.udatas.get? u = some ud ∧ ud.meta = some t := by
  simp only [metatableOf] at h
  cases hu : s.udatas.get? u with
  | none => rw [hu] at h; simp at h
  | some ud => rw [hu] at h; exact ⟨ud, rfl, by simpa using h⟩

theorem markerMetatable_grown (s t : LuaState) (a b : Option Int) (t0 : Nat)
    (g : CachesGrown s t) (h0 : t0 < s.tables.length)
    (hk : ∀ r, a = some r → b = some r)
    (hn : ∀ r, a = none → b = some r → s.registry.lookup r = none)
    (ha : ∀ r, a = some r → ∃ t1, HoldsTable s r t1)
    (hb : ∀ r, b = some r → ∃ t1, HoldsTable t r t1) :
    (markerMetatable t b = some (Value.table t0)) ↔
      (markerMetatable s a = some (Value.table t0)) := by
  cases hA : a with
  | some r =>
    obtain ⟨t1, h1, _⟩ := ha r hA
    rw [hk r hA]
    simp only [markerMetatable, Option.map_some']
    rw [registryGet_of_lookup s r _ h1, registryGet_of_lookup t r _ (g.registry r _ h1)]
  | none =>
    simp only [markerMetatable, Option.map_none']
    constructor
    · intro hq
      cases hB : b with
      | none => rw [hB] at hq; simp at hq
      | some r =>
        exfalso
        rw [hB] at hq
        obtain ⟨t1, h1, _⟩ := hb r hB
        obtain ⟨n, hn1, hn2⟩ := g.fresh r _ (hn r hA hB) h1
        simp only [Option.map_some', registryGet_of_lookup t r _ h1] at hq
        have e1 : t1 = t0 := by simpa using hq
        have e2 : t1 = n := by simpa using hn1
        omega
    · intro hq
      exact absurd hq (by simp)

/-- Creating metatables does not change the classification of a value. -/
theorem classifyByTable_grown (s t : LuaState) (v : Value) (hs : MetatablesOk s)
    (ht : MetatablesOk t) (g : CachesGrown s t) : classifyByTable t v = classifyByTable s v := by
  cases v with
  | udata u =>
    have hmo : metatableOf t (Value.udata u) = metatableOf s (Value.udata u) := by
      simp only [metatableOf, g.udatas]
    simp only [classifyByTable, hmo]
    cases hm : metatableOf s (Value.udata u) with
    | none => rfl
    | some t0 =>
      obtain ⟨ud, hu1, hu2⟩ := metatableOf_udata_some s u t0 hm
      have h0 := hs.udataMeta u ud t0 hu1 hu2
      have eI := markerMetatable_grown s t s.indirectRefs t.indirectRefs t0 g h0 g.indirect
        g.indirectNew hs.indirect ht.indirect
      have eP := markerMetatable_grown s t s.pendingRefs t.pendingRefs t0 g h0 g.pending
        g.pendingNew hs.pending ht.pending
      simp only [eI, eP]
  | nil => rfl
  | bool _ => rfl
  | int _ => rfl
  | num _ => rfl
  | str _ => rfl
  | table _ => rfl
  | cfunc _ _ => rfl

theorem dataDispatch_udata_eq (s : LuaState) (idx : Int) (u t0 : Nat)
    (hv : stackAt s (lua_absindex s idx) = some (Value.udata u))
    (hm : metatableOf s (Value.udata u) = some t0) :
    dataDispatch s idx =
      if lua_rawequal (IndirectData_metatable (pushValue s (Value.table t0))) (-2) (-1) = true then
        (AnyData.IndirectData (lua_absindex s idx),
          lua_pop (IndirectData_metatable (pushValue s (Value.table t0))) 2)
      else if lua_rawequal (PendingData_metatable
          (lua_pop (IndirectData_metatable (pushValue s (Value.table t0))) 1)) (-2) (-1) = true then
        (AnyData.PendingData (lua_absindex s idx), lua_pop (PendingData_metatable
          (lua_pop (IndirectData_metatable (pushValue s (Value.table t0))) 1)) 2)
      else
        (AnyData.BakedData (lua_absindex s idx), lua_pop (PendingData_metatable
          (lua_pop (IndirectData_metatable (pushValue s (Value.table t0))) 1)) 2) := by
  have hisu : lua_isuserdata s (lua_absindex s idx) = true := by
    unfold lua_isuserdata; rw [hv]
  have hgm : lua_getmetatable s ((lua_absindex s idx : Nat) : Int) =
      (true, pushValue s (Value.table t0)) := by
    unfold lua_getmetatable
    rw [lua_absindex_natCast s _ (stackAt_ne_zero s _ _ hv), hv]
    simp only [Option.some_bind, hm]
  unfold dataDispatch
  simp only [hisu, hgm, Bool.not_true, Bool.false_eq_true, if_false]

theorem dataDispatch_nometa_eq (s : LuaState) (idx : Int) (u : Nat)
    (hv : stackAt s (lua_absindex s idx) = some (Value.udata u))
    (hm : metatableOf s (Value.udata u) = none) :
    dataDispatch s idx = (AnyData.FailData, lua_pop s 1) := by
  have hisu : lua_isuserdata s (lua_absindex s idx) = true := by
    unfold lua_isuserdata; rw [hv]
  have hgm : lua_getmetatable s ((lua_absindex s idx : Nat) : Int) = (false, s) := by
    unfold lua_getmetatable
    rw [lua_absindex_natCast s _ (stackAt_ne_zero s _ _ hv), hv]
    simp only [Option.some_bind, hm]
  unfold dataDispatch
  simp only [hisu, hgm, Bool.not_true, Bool.false_eq_true, if_false, Bool.not_false, if_true]

theorem classifyByTable_not_udata (s : LuaState) (v : Value) (h : ¬ ∃ u, v = Value.udata u) :
    classifyByTable s v = DataState.Dynamic := by
  cases v with
  | udata u => exact absurd ⟨u, rfl⟩ h
  | nil => rfl
  | bool _ => rfl
  | int _ => rfl
  | num _ => rfl
  | str _ => rfl
  | table _ => rfl
  | cfunc _ _ => rfl

/-- What `dataDispatch` returns and leaves, on a well-formed registry. -/
theorem dataDispatch_spec (s : LuaState) (idx : Int) (v : Value) (h : MetatablesOk s)
    (hv : stackAt s (lua_absindex s idx) = some v) :
    (dataDispatch s idx).1 = AnyData.ofState (classifyByTable s v) (lua_absindex s idx) ∧
    CachesGrown s (dataDispatch s idx).2 ∧ MetatablesOk (dataDispatch s idx).2 ∧
    (classifyByTable s v ≠ DataState.Fail → (dataDispatch s idx).2.stack = s.stack) ∧
    (classifyByTable s v = DataState.Fail → (dataDispatch s idx).2 = lua_pop s 1) := by
  by_cases hu : ∃ u, v = Value.udata u
  · obtain ⟨u, rfl⟩ := hu
    cases hm : metatableOf s (Value.udata u) with
    | none =>
      rw [dataDispatch_nometa_eq s idx u hv hm]
      have hc : classifyByTable s (Value.udata u) = DataState.Fail := by
        simp only [classifyByTable, hm]
      rw [hc]
      exact ⟨rfl, CachesGrown.grown_of_fields rfl rfl rfl rfl rfl rfl,
        h.ok_of_fields rfl rfl rfl rfl rfl rfl, fun hne => absurd rfl hne, fun _ => rfl⟩
    | some t0 =>
      obtain ⟨ud, hu1, hu2⟩ := metatableOf_udata_some s u t0 hm
      have h0 := h.udataMeta u ud t0 hu1 hu2
      have hs0 : MetatablesOk (pushValue s (Value.table t0)) :=
        h.ok_of_fields rfl rfl rfl rfl rfl rfl
      obtain ⟨tI, rI, hst1, hIr, hHI, hInew, hIsome, hIp, g1, ok1⟩ :=
        IndirectData_metatable_spec _ hs0
      rw [dataDispatch_udata_eq s idx u t0 hv hm]
      generalize IndirectData_metatable (pushValue s (Value.table t0)) = S1 at *
      have hst1a : S1.stack = s.stack ++ [Value.table t0, Value.table tI] := by
        rw [hst1]; simp [pushValue]
      rw [lua_rawequal_top2 S1 s.stack _ _ hst1a, rawEqualValues_table]
      have gs0 : CachesGrown s (pushValue s (Value.table t0)) :=
        CachesGrown.grown_of_fields rfl rfl rfl rfl rfl rfl
      have gs1 : CachesGrown s S1 := gs0.trans g1
      by_cases he : t0 = tI
      · simp only [he, decide_True, if_true]
        have gT : CachesGrown s (lua_pop S1 2) :=
          gs1.trans (CachesGrown.grown_of_fields rfl rfl rfl rfl rfl rfl)
        have okT : MetatablesOk (lua_pop S1 2) := ok1.ok_of_fields rfl rfl rfl rfl rfl rfl
        have hcT : classifyByTable (lua_pop S1 2) (Value.udata u) = DataState.Indirect := by
          have hmo : metatableOf (lua_pop S1 2) (Value.udata u) = some tI := by
            rw [← he, ← hm]
            simp only [metatableOf]
            rw [show (lua_pop S1 2).udatas = s.udatas from gT.udatas]
          simp only [classifyByTable, hmo]
          have : markerMetatable (lua_pop S1 2) (lua_pop S1 2).indirectRefs =
              some (Value.table tI) := by
            show markerMetatable (lua_pop S1 2) S1.indirectRefs = _
            rw [hIr]
            simp only [markerMetatable, Option.map_some']
            rw [registryGet_of_lookup _ rI _
              (show (lua_pop S1 2).registry.lookup rI = _ from hHI.1)]
          simp only [this, if_true]
        have hc : classifyByTable s (Value.udata u) = DataState.Indirect := by
          rw [← classifyByTable_grown s _ _ h okT gT, hcT]
        rw [hc]
        refine ⟨rfl, gT, okT, fun _ => ?_, fun hf => absurd hf (by simp)⟩
        show (lua_pop S1 2).stack = s.stack
        rw [lua_pop_stack S1 s.stack _ 2 hst1a rfl]
      · have hd : decide (t0 = tI) = false := by simpa using he
        simp only [hd, Bool.false_eq_true, if_false]
        have ok1p : MetatablesOk (lua_pop S1 1) := ok1.ok_of_fields rfl rfl rfl rfl rfl rfl
        have hst1p : (lua_pop S1 1).stack = s.stack ++ [Value.table t0] := by
          rw [lua_pop_stack S1 (s.stack ++ [Value.table t0]) [Value.table tI] 1
            (by rw [hst1a]; simp) rfl]
        obtain ⟨tP, rP, hst2, hPr, hHP, hPnew, hPsome, hPi, g2, ok2⟩ :=
          PendingData_metatable_spec _ ok1p
        generalize PendingData_metatable (lua_pop S1 1) = S2 at *
        have hst2a : S2.stack = s.stack ++ [Value.table t0, Value.table tP] := by
          rw [hst2, hst1p]; simp
        rw [lua_rawequal_top2 S2 s.stack _ _ hst2a, rawEqualValues_table]
        have gs1p : CachesGrown S1 (lua_pop S1 1) :=
          CachesGrown.grown_of_fields rfl rfl rfl rfl rfl rfl
        have gs2 : CachesGrown s S2 := (gs1.trans gs1p).trans g2
        have gT : CachesGrown s (lua_pop S2 2) :=
          gs2.trans (CachesGrown.grown_of_fields rfl rfl rfl rfl rfl rfl)
        have okT : MetatablesOk (lua_pop S2 2) := ok2.ok_of_fields rfl rfl rfl rfl rfl rfl
        have hstT : (lua_pop S2 2).stack = s.stack := by
          rw [lua_pop_stack S2 s.stack _ 2 hst2a rfl]
        have hmo : metatableOf (lua_pop S2 2) (Value.udata u) = some t0 := by
          rw [← hm]
          simp only [metatableOf]
          rw [show (lua_pop S2 2).udatas = s.udatas from gT.udatas]
        have hmI : markerMetatable (lua_pop S2 2) (lua_pop S2 2).indirectRefs =
            some (Value.table tI) := by
          show markerMetatable (lua_pop S2 2) S2.indirectRefs = _
          rw [hPi]
          show markerMetatable (lua_pop S2 2) S1.indirectRefs = _
          rw [hIr]
          simp only [markerMetatable, Option.map_some']
          rw [registryGet_of_lookup _ rI _
            (show (lua_pop S2 2).registry.lookup rI = _ from g2.registry rI _ hHI.1)]
        have hmP : markerMetatable (lua_pop S2 2) (lua_pop S2 2).pendingRefs =
            some (Value.table tP) := by
          show markerMetatable (lua_pop S2 2) S2.pendingRefs = _
          rw [hPr]
          simp only [markerMetatable, Option.map_some']
          rw [registryGet_of_lookup _ rP _
            (show (lua_pop S2 2).registry.lookup rP = _ from hHP.1)]
        have hneI : ¬ (some (Value.table tI) = some (Value.table t0)) := by
          intro e
          exact he (by simpa using e.symm)
        by_cases hp : t0 = tP
        · simp only [hp, decide_True, if_true]
          have hcT : classifyByTable (lua_pop S2 2) (Value.udata u) = DataState.PendingBake := by
            have hP1 : some (Value.table tP) = some (Value.table t0) := by rw [hp]
            simp only [classifyByTable, hmo, hmI, hmP, hneI, if_false, hP1, if_true]
          have hc : classifyByTable s (Value.udata u) = DataState.PendingBake := by
            rw [← classifyByTable_grown s _ _ h okT gT, hcT]
          rw [hc]
          exact ⟨rfl, gT, okT, fun _ => hstT, fun hf => absurd hf (by simp)⟩
        · have hd2 : decide (t0 = tP) = false := by simpa using hp
          simp only [hd2, Bool.false_eq_true, if_false]
          have hneP : ¬ (some (Value.table tP) = some (Value.table t0)) := by
            intro e
            exact hp (by simpa using e.symm)
          have hcT : classifyByTable (lua_pop S2 2) (Value.udata u) = DataState.Baked := by
            simp only [classifyByTable, hmo, hmI, hmP, hneI, hneP, if_false]
          have hc : classifyByTable s (Value.udata u) = DataState.Baked := by
            rw [← classifyByTable_grown s _ _ h okT gT, hcT]
          rw [hc]
          exact ⟨rfl, gT, okT, fun _ => hstT, fun hf => absurd hf (by simp)⟩
  · have hc := classifyByTable_not_udata s v hu
    rw [dataDispatch_LuaData s idx (by
      intro u hq
      rw [hv] at hq
      exact hu ⟨u, Option.some.inj hq⟩), hc]
    exact ⟨rfl, CachesGrown.refl s, h, fun _ => rfl, fun hf => absurd hf (by simp)⟩

theorem AnyData.state_ofState (d : DataState) (i : Nat) : (AnyData.ofState d i).state = d := by
  cases d <;> rfl

theorem markers_distinct (s : LuaState) (h : MetatablesOk s) (t : Value)
    (hP : markerMetatable s s.pendingRefs = some t) :
    markerMetatable s s.indirectRefs ≠ some t := by
  intro hI
  cases hp : s.pendingRefs with
  | none => rw [hp] at hP; simp [markerMetatable] at hP
  | some rP =>
    cases hi : s.indirectRefs with
    | none => rw [hi] at hI; simp [markerMetatable] at hI
    | some rI =>
      obtain ⟨tP, h1, _⟩ := h.pending rP hp
      obtain ⟨tI, h2, _⟩ := h.indirect rI hi
      rw [hp] at hP
      rw [hi] at hI
      simp only [markerMetatable, Option.map_some', registryGet_of_lookup s rP _ h1,
        registryGet_of_lookup s rI _ h2] at hP hI
      apply h.pendingIndirect rP rI hp hi
      rw [h1, h2, hP, hI]

theorem pendingState_ok : MetatablesOk pendingState where
  pending := fun r h => by
    have : r = 4 := by
      have h1 : pendingState.pendingRefs = some 4 := rfl
      rw [h1] at h
      exact (Option.some.inj h).symm
    rw [this]
    exact ⟨0, rfl, by decide⟩
  indirect := fun r h => by
    have h1 : pendingState.indirectRefs = none := rfl
    rw [h1] at h
    exact absurd h (by simp)
  baked := fun tid r h => by
    have h1 : pendingState.bakedRefs = [] := rfl
    rw [h1] at h
    exact absurd h (by simp)
  pendingIndirect := fun rP rI _ h => by
    have h1 : pendingState.indirectRefs = none := rfl
    rw [h1] at h
    exact absurd h (by simp)
  bakedPending := fun tid rB rP h _ => by
    have h1 : pendingState.bakedRefs = [] := rfl
    rw [h1] at h
    exact absurd h (by simp)
  bakedIndirect := fun tid rB rI h _ => by
    have h1 : pendingState.bakedRefs = [] := rfl
    rw [h1] at h
    exact absurd h (by simp)
  udataMeta := fun u ud t h1 h2 => by
    have hu : pendingState.udatas = [{ payload := NVal.int 3, meta := some 0 }] := rfl
    have ht : pendingState.tables.length = 1 := rfl
    rw [hu] at h1
    rw [ht]
    cases u with
    | zero =>
      simp only [List.get?_cons_zero] at h1
      have := Option.some.inj h1
      rw [← this] at h2
      have : t = 0 := (Option.some.inj h2).symm
      omega
    | succ n => simp at h1

/-- C11: on a registry whose metatables are well formed, `dataDispatch`
returns, for the value `v` at the index, the alternative that the classification
table assigns to `v` (Dynamic for a value that is not a userdata, Fail for a
userdata without metatable, Indirect or PendingBake for the metatable of the
respective markers, Baked for any other metatable).  Before and after the call
no table is the metatable of both kinds of markers, the registry stays well
formed, and classifying the same value again, at whatever index it is then
found, gives the same state. -/
theorem dataDispatch_classifies (s : LuaState) (idx : Int) (v : Value) (h : MetatablesOk s)
    (hv : stackAt s (lua_absindex s idx) = some v) :
    (dataDispatch s idx).1 = AnyData.ofState (classifyByTable s v) (lua_absindex s idx) ∧
    (dataDispatch s idx).1.state = classifyByTable s v ∧
    (∀ t, markerMetatable s s.pendingRefs = some t → markerMetatable s s.indirectRefs ≠ some t) ∧
    (∀ t, markerMetatable (dataDispatch s idx).2 (dataDispatch s idx).2.pendingRefs = some t →
      markerMetatable (dataDispatch s idx).2 (dataDispatch s idx).2.indirectRefs ≠ some t) ∧
    MetatablesOk (dataDispatch s idx).2 ∧
    ∀ j : Int, stackAt (dataDispatch s idx).2 (lua_absindex (dataDispatch s idx).2 j) = some v →
      (dataDispatch (dataDispatch s idx).2 j).1.state = (dataDispatch s idx).1.state := by
  obtain ⟨h1, g, ok, _, _⟩ := dataDispatch_spec s idx v h hv
  refine ⟨h1, ?_, markers_distinct s h, markers_distinct _ ok, ok, ?_⟩
  · rw [h1, AnyData.state_ofState]
  · intro j hj
    obtain ⟨h2, _⟩ := dataDispatch_spec _ j v ok hj
    rw [h2, h1, AnyData.state_ofState, AnyData.state_ofState]
    exact classifyByTable_grown s _ v h ok g

theorem dataDispatch_classifies_witness :
    MetatablesOk pendingState ∧ stackAt pendingState (lua_absindex pendingState 1) =
      some (Value.udata 0) ∧ (dataDispatch pendingState 1).1 = AnyData.PendingData 1 ∧
      (dataDispatch (dataDispatch pendingState 1).2 (-2)).1.state = DataState.PendingBake := by
  have h := dataDispatch_classifies pendingState 1 (Value.udata 0) pendingState_ok rfl
  have hj : stackAt (dataDispatch pendingState 1).2
      (lua_absindex (dataDispatch pendingState 1).2 (-2)) = some (Value.udata 0) := rfl
  exact ⟨pendingState_ok, rfl, h.1, (h.2.2.2.2.2 (-2) hj).trans h.2.1⟩

/-! ## Properties: baking a pending marker -/

/-- Creating the metatable of a baked type: the new table is the last one, the
tables that existed are kept. -/
theorem BakedData_metatable_none_kept (tr : Traits) (s : LuaState)
    (hn : s.bakedRefs.lookup tr.tid = none) :
    ∃ tb, BakedData_metatable tr s =
        { s with stack := s.stack ++ [Value.table s.tables.length], tables := tb,
                 registry := (freshRef s.registry, Value.table s.tables.length) :: s.registry,
                 bakedRefs := (tr.tid, freshRef s.registry) :: s.bakedRefs } ∧
      s.tables.length < tb.length ∧
      ∀ i, i < s.tables.length → tb.get? i = s.tables.get? i := by
  unfold BakedData_metatable
  rw [hn]
  simp only []
  have hst : (lua_createtable s).stack = s.stack ++ [Value.table s.tables.length] := by
    cases s; rfl
  have e0 : lua_pushvalue (lua_createtable s) (-1) =
      pushValue (lua_createtable s) (Value.table s.tables.length) :=
    lua_pushvalue_top _ s.stack _ hst
  rw [e0]
  obtain ⟨tb1, e1, hl1, hk1⟩ := lua_setfield_pushValue_kept (lua_createtable s) s.stack
    s.tables.length (Value.table s.tables.length) "__index" hst
  rw [e1]
  obtain ⟨tb2, e2, hl2, hk2⟩ := lua_setfield_pushValue_kept
    { lua_createtable s with tables := tb1 } s.stack s.tables.length
    (Value.cfunc "__gc" tr.tid) "__gc" hst
  rw [e2]
  have h4 : ∃ tb4, (if LuaWritable tr = true then
      lua_setfield (pushValue { lua_createtable s with tables := tb2 }
        (Value.cfunc "toLuaData" tr.tid)) (-2) "toLuaData"
      else { lua_createtable s with tables := tb2 }) =
      { lua_createtable s with tables := tb4 } ∧ tb4.length = tb2.length ∧
      ∀ i, i ≠ s.tables.length → tb4.get? i = tb2.get? i := by
    split
    · exact lua_setfield_pushValue_kept { lua_createtable s with tables := tb2 } s.stack
        s.tables.length (Value.cfunc "toLuaData" tr.tid) "toLuaData" hst
    · exact ⟨tb2, rfl, rfl, fun _ _ => rfl⟩
  obtain ⟨tb4, e4, hl4, hk4⟩ := h4
  rw [e4]
  have h5 : ∃ tb5, (if LuaInterfacable tr = true then
      lua_setfield (pushValue { lua_createtable s with tables := tb4 }
        (Value.cfunc "toBakedData" tr.tid)) (-2) "toBakedData"
      else { lua_createtable s with tables := tb4 }) =
      { lua_createtable s with tables := tb5 } ∧ tb5.length = tb4.length ∧
      ∀ i, i ≠ s.tables.length → tb5.get? i = tb4.get? i := by
    split
    · exact lua_setfield_pushValue_kept { lua_createtable s with tables := tb4 } s.stack
        s.tables.length (Value.cfunc "toBakedData" tr.tid) "toBakedData" hst
    · exact ⟨tb4, rfl, rfl, fun _ _ => rfl⟩
  obtain ⟨tb5, e5, hl5, hk5⟩ := h5
  rw [e5]
  obtain ⟨tb6, e6, hl6, hk6⟩ := setMemberFuncs_kept tr.tid s.stack s.tables.length tr.memberFuncs
    { lua_createtable s with tables := tb5 } hst
  rw [e6]
  have e7 : lua_pushvalue { lua_createtable s with tables := tb6 } (-1) =
      pushValue { lua_createtable s with tables := tb6 } (Value.table s.tables.length) :=
    lua_pushvalue_top _ s.stack _ hst
  rw [e7, luaL_ref_pushValue _ _ (by simp)]
  have hct : (lua_createtable s).tables = s.tables ++ [{ entries := [], meta := none }] := by
    cases s; rfl
  have hlen : tb6.length = s.tables.length + 1 := by
    rw [hl6]
    show tb5.length = _
    rw [hl5, hl4, hl2]
    show tb1.length = _
    rw [hl1, hct]
    simp
  refine ⟨tb6, ?_, by omega, ?_⟩
  · cases s; rfl
  · intro i hi
    have hne : i ≠ s.tables.length := by omega
    rw [hk6 i hne]
    show tb5.get? i = _
    rw [hk5 i hne, hk4 i hne, hk2 i hne]
    show tb1.get? i = _
    rw [hk1 i hne, hct]
    exact get?_append_lt _ _ _ hi

/-- What `BakedData::metatable<T>` does on a well-formed registry. -/
theorem BakedData_metatable_spec (tr : Traits) (s : LuaState) (h : MetatablesOk s) :
    ∃ tB rB, (BakedData_metatable tr s).stack = s.stack ++ [Value.table tB] ∧
      (BakedData_metatable tr s).bakedRefs.lookup tr.tid = some rB ∧
      HoldsTable (BakedData_metatable tr s) rB tB ∧
      (∀ r, s.bakedRefs.lookup tr.tid = some r →
        BakedData_metatable tr s = pushValue s (Value.table tB)) ∧
      (BakedData_metatable tr s).pendingRefs = s.pendingRefs ∧
      (BakedData_metatable tr s).indirectRefs = s.indirectRefs ∧
      CachesGrown s (BakedData_metatable tr s) ∧ MetatablesOk (BakedData_metatable tr s) := by
  cases hB : s.bakedRefs.lookup tr.tid with
  | some r =>
    obtain ⟨t, ht⟩ := h.baked tr.tid r hB
    have e : BakedData_metatable tr s = pushValue s (Value.table t) := by
      unfold BakedData_metatable
      rw [hB]
      simp only [lua_rawgeti_registry, registryGet_of_lookup s r _ ht.1]
    rw [e]
    exact ⟨t, r, rfl, hB, ht, fun _ _ => rfl, rfl, rfl,
      CachesGrown.grown_of_fields rfl rfl rfl rfl rfl rfl,
      h.ok_of_fields rfl rfl rfl rfl rfl rfl⟩
  | none =>
    obtain ⟨tb, e, hl, hk⟩ := BakedData_metatable_none_kept tr s hB
    rw [e]
    refine ⟨s.tables.length, freshRef s.registry, rfl, ?_, ⟨lookup_cons_self _ _ _, hl⟩,
      fun r hr => absurd hr (by simp), rfl, rfl, ?_, ?_⟩
    · simp [List.lookup_cons]
    · exact CachesGrown.of_grow rfl hl hk rfl (Or.inl rfl) (Or.inl rfl) (Or.inr ⟨tr.tid, hB, rfl⟩)
    · refine h.ok_grow rfl hl rfl (fun r hr => Or.inl hr) (fun r hr => Or.inl hr) ?_
      intro tid r hr
      simp only [List.lookup_cons] at hr
      cases hq : (tid == tr.tid) with
      | false => rw [hq] at hr; exact Or.inl hr
      | true =>
        rw [hq] at hr
        exact Or.inr ⟨(Option.some.inj hr).symm, rfl, rfl⟩

/-- The invariant survives a step that keeps the tables, the static maps and
the slots they name, and gives no userdata a metatable that does not exist. -/
theorem MetatablesOk.transfer {s t : LuaState} (h : MetatablesOk s)
    (htb : t.tables = s.tables) (hp : t.pendingRefs = s.pendingRefs)
    (hi : t.indirectRefs = s.indirectRefs) (hb : t.bakedRefs = s.bakedRefs)
    (hreg : ∀ k, (s.pendingRefs = some k ∨ s.indirectRefs = some k ∨
      ∃ tid, s.bakedRefs.lookup tid = some k) → t.registry.lookup k = s.registry.lookup k)
    (hud : ∀ u ud t0, t.udatas.get? u = some ud → ud.meta = some t0 → t0 < s.tables.length) :
    MetatablesOk t where
  pending := fun r hr => by
    rw [hp] at hr
    obtain ⟨t0, h1, h2⟩ := h.pending r hr
    exact ⟨t0, by rw [hreg r (Or.inl hr)]; exact h1, by rw [htb]; exact h2⟩
  indirect := fun r hr => by
    rw [hi] at hr
    obtain ⟨t0, h1, h2⟩ := h.indirect r hr
    exact ⟨t0, by rw [hreg r (Or.inr (Or.inl hr))]; exact h1, by rw [htb]; exact h2⟩
  baked := fun tid r hr => by
    rw [hb] at hr
    obtain ⟨t0, h1, h2⟩ := h.baked tid r hr
    exact ⟨t0, by rw [hreg r (Or.inr (Or.inr ⟨tid, hr⟩))]; exact h1, by rw [htb]; exact h2⟩
  pendingIndirect := fun rP rI h1 h2 => by
    rw [hp] at h1
    rw [hi] at h2
    rw [hreg rP (Or.inl h1), hreg rI (Or.inr (Or.inl h2))]
    exact h.pendingIndirect rP rI h1 h2
  bakedPending := fun tid rB rP h1 h2 => by
    rw [hb] at h1
    rw [hp] at h2
    rw [hreg rB (Or.inr (Or.inr ⟨tid, h1⟩)), hreg rP (Or.inl h2)]
    exact h.bakedPending tid rB rP h1 h2
  bakedIndirect := fun tid rB rI h1 h2 => by
    rw [hb] at h1
    rw [hi] at h2
    rw [hreg rB (Or.inr (Or.inr ⟨tid, h1⟩)), hreg rI (Or.inr (Or.inl h2))]
    exact h.bakedIndirect tid rB rI h1 h2
  udataMeta := fun u ud t0 h1 h2 => by
    rw [htb]
    exact hud u ud t0 h1 h2

theorem udata_get?_append_new (a : List UData) (x : UData) :
    (a ++ [x]).get? a.length = some x := by
  simp [List.get?_eq_getElem?]

theorem udata_get?_append_old (a : List UData) (x y : UData) (i : Nat)
    (h : a.get? i = some y) : (a ++ [x]).get? i = some y := by
  simp only [List.get?_eq_getElem?] at h ⊢
  have hi : i < a.length := by
    by_contra hc
    rw [List.getElem?_eq_none (by omega)] at h
    exact absurd h (by simp)
  rw [List.getElem?_append_left hi]
  exact h

theorem udata_get?_lt (a : List UData) (y : UData) (i : Nat) (h : a.get? i = some y) :
    i < a.length := by
  simp only [List.get?_eq_getElem?] at h
  by_contra hc
  rw [List.getElem?_eq_none (by omega)] at h
  exact absurd h (by simp)

theorem udata_get?_set_self (a : List UData) (x : UData) (i : Nat) (h : i < a.length) :
    (a.set i x).get? i = some x := by
  simp only [List.get?_eq_getElem?]
  rw [List.getElem?_set_self h]

theorem udata_get?_set_ne (a : List UData) (x : UData) (i j : Nat) (h : i ≠ j) :
    (a.set i x).get? j = a.get? j := by
  simp only [List.get?_eq_getElem?]
  rw [List.getElem?_set_ne h]

theorem stackAt_mid (s : LuaState) (l e : List Value) (v : Value) (h : s.stack = l ++ v :: e) :
    stackAt s (l.length + 1) = some v := by
  unfold stackAt
  rw [if_neg (by omega), h, List.get?_eq_getElem?, Nat.add_sub_cancel,
    List.getElem?_append_right (le_refl _)]
  simp

/-- The second half of `bakePendingData<T>`, after the value of the slot has
been read as `v`: the new userdata, the overwritten slot and the rewritten
marker. -/
theorem bakeTail_spec (tr : Traits) (s2 : LuaState) (l e : List Value) (m : Nat) (r : Int)
    (d : Value) (v : NVal) (tP : Nat) (ok : MetatablesOk s2)
    (hst : s2.stack = l ++ Value.udata m :: e)
    (hmk : s2.udatas.get? m = some { payload := NVal.int r, meta := some tP })
    (hslot : s2.registry.lookup r = some d)
    (hnP : s2.pendingRefs ≠ some r) (hnI : s2.indirectRefs ≠ some r)
    (hnB : ∀ tid, s2.bakedRefs.lookup tid ≠ some r) :
    ∃ T tB rB tI rI,
      lua_setmetatable (IndirectData_metatable (lua_rawseti_registry
        (lua_setmetatable (BakedData_metatable tr (lua_newuserdata s2 v)) (-2)) r))
        ((l.length + 1 : Nat) : Int) = T ∧
      T.stack = s2.stack ∧
      T.udatas.length = s2.udatas.length + 1 ∧
      T.udatas.get? s2.udatas.length = some { payload := v, meta := some tB } ∧
      T.udatas.get? m = some { payload := NVal.int r, meta := some tI } ∧
      (∀ j, j ≠ m → j ≠ s2.udatas.length → T.udatas.get? j = s2.udatas.get? j) ∧
      T.bakedRefs.lookup tr.tid = some rB ∧ HoldsTable T rB tB ∧
      T.indirectRefs = some rI ∧ HoldsTable T rI tI ∧
      T.pendingRefs = s2.pendingRefs ∧
      T.registry.lookup r = some (Value.udata s2.udatas.length) ∧
      (∀ k, k ≠ r → ∀ x, s2.registry.lookup k = some x → T.registry.lookup k = some x) ∧
      (∀ k x, s2.registry.lookup k = none → T.registry.lookup k = some x →
        ∃ n, x = Value.table n) ∧
      (∀ i, i < s2.tables.length → T.tables.get? i = s2.tables.get? i) ∧
      MetatablesOk T := by
  have hmlt := udata_get?_lt _ _ _ hmk
  have hmne : m ≠ s2.udatas.length := by omega
  -- the new userdata
  have e3 : lua_newuserdata s2 v =
      { s2 with stack := s2.stack ++ [Value.udata s2.udatas.length],
                udatas := s2.udatas ++ [{ payload := v, meta := none }] } := rfl
  have ok3 : MetatablesOk (lua_newuserdata s2 v) := by
    refine ok.transfer rfl rfl rfl rfl (fun _ _ => rfl) ?_
    intro u ud t0 h1 h2
    rw [e3] at h1
    simp only [] at h1
    by_cases hu : u < s2.udatas.length
    · rw [List.get?_eq_getElem?, List.getElem?_append_left hu, ← List.get?_eq_getElem?] at h1
      exact ok.udataMeta u ud t0 h1 h2
    · by_cases hu2 : u = s2.udatas.length
      · rw [hu2, udata_get?_append_new] at h1
        rw [← Option.some.inj h1] at h2
        exact absurd h2 (by simp)
      · rw [List.get?_eq_getElem?, List.getElem?_eq_none (by simp; omega)] at h1
        exact absurd h1 (by simp)
  obtain ⟨tB, rB, hst4, hB4, hH4, _, hp4, hi4, g4, ok4⟩ := BakedData_metatable_spec tr _ ok3
  generalize BakedData_metatable tr (lua_newuserdata s2 v) = S4 at *
  have hst4a : S4.stack = s2.stack ++ [Value.udata s2.udatas.length, Value.table tB] := by
    rw [hst4, e3]; simp
  have hu4 : S4.udatas = s2.udatas ++ [{ payload := v, meta := none }] := g4.udatas
  obtain ⟨mt5, e5, hmt5⟩ := lua_setmetatable_udata S4 (s2.stack ++ [Value.udata s2.udatas.length])
    (Value.table tB) (-2) s2.udatas.length { payload := v, meta := none }
    (by rw [hst4a]; simp) (stackAt_top2 S4 s2.stack _ _ hst4a).1
    (by rw [hu4]; exact udata_get?_append_new _ _)
  have hmt5a : mt5 = some tB := hmt5 tB rfl
  subst hmt5a
  rw [e5]
  rw [lua_rawseti_registry_top _ s2.stack (Value.udata s2.udatas.length) r rfl]
  -- the state after the slot has been overwritten
  have hrefs4 : ∀ k, (S4.pendingRefs = some k ∨ S4.indirectRefs = some k ∨
      ∃ tid, S4.bakedRefs.lookup tid = some k) → k ≠ r := by
    intro k hk
    rcases hk with h1 | h1 | ⟨tid, h1⟩
    · rw [hp4] at h1
      intro e1
      exact hnP (e1 ▸ h1)
    · rw [hi4] at h1
      intro e1
      exact hnI (e1 ▸ h1)
    · cases hb : (lua_newuserdata s2 v).bakedRefs.lookup tid with
      | some k1 =>
        have := g4.baked tid k1 hb
        rw [this] at h1
        intro e1
        apply hnB tid
        have hb1 : s2.bakedRefs.lookup tid = some k1 := hb
        rw [hb1, Option.some.inj h1, e1]
      | none =>
        have hn1 := g4.bakedNew tid k hb h1
        intro e1
        rw [e1] at hn1
        have : s2.registry.lookup r = none := hn1
        rw [hslot] at this
        exact absurd this (by simp)
  have ok6 : MetatablesOk { S4 with
      stack := s2.stack,
      udatas := S4.udatas.set s2.udatas.length { payload := v, meta := some tB },
      registry := (r, Value.udata s2.udatas.length) :: S4.registry } := by
    refine ok4.transfer rfl rfl rfl rfl ?_ ?_
    · intro k hk
      exact lookup_cons_of_ne _ _ _ _ (hrefs4 k hk)
    · intro u ud t0 h1 h2
      simp only [] at h1
      by_cases hu : u = s2.udatas.length
      · rw [hu, udata_get?_set_self _ _ _ (by rw [hu4]; simp)] at h1
        rw [← Option.some.inj h1] at h2
        have : tB = t0 := by simpa using h2
        rw [← this]
        exact hH4.2
      · rw [udata_get?_set_ne _ _ _ _ (Ne.symm hu)] at h1
        exact ok4.udataMeta u ud t0 h1 h2
  obtain ⟨tI, rI, hst7, hI7, hH7, _, _, hp7, g7, ok7⟩ := IndirectData_metatable_spec _ ok6
  generalize IndirectData_metatable { S4 with
      stack := s2.stack,
      udatas := S4.udatas.set s2.udatas.length { payload := v, meta := some tB },
      registry := (r, Value.udata s2.udatas.length) :: S4.registry } = S7 at *
  have hst7a : S7.stack = s2.stack ++ [Value.table tI] := hst7
  have hu7 : S7.udatas = (s2.udatas ++ [({ payload := v, meta := none } : UData)]).set
      s2.udatas.length { payload := v, meta := some tB } := by
    rw [g7.udatas, hu4]
  have hm7 : S7.udatas.get? m = some { payload := NVal.int r, meta := some tP } := by
    rw [hu7, udata_get?_set_ne _ _ _ _ (Ne.symm hmne)]
    exact udata_get?_append_old _ _ _ _ hmk
  have hv7 : stackAt S7 (lua_absindex S7 ((l.length + 1 : Nat) : Int)) = some (Value.udata m) := by
    rw [lua_absindex_natCast _ _ (by omega)]
    exact stackAt_mid S7 l (e ++ [Value.table tI]) _ (by rw [hst7a, hst]; simp)
  obtain ⟨mt8, e8, hmt8⟩ := lua_setmetatable_udata S7 s2.stack (Value.table tI)
    ((l.length + 1 : Nat) : Int) m { payload := NVal.int r, meta := some tP } hst7a hv7 hm7
  have hmt8a : mt8 = some tI := hmt8 tI rfl
  subst hmt8a
  refine ⟨_, tB, rB, tI, rI, e8, rfl, ?_, ?_, ?_, ?_, ?_, ?_, hI7, hH7, ?_, ?_, ?_, ?_, ?_, ?_⟩
  · simp [hu7]
  · show (S7.udatas.set m _).get? s2.udatas.length = _
    rw [udata_get?_set_ne _ _ _ _ hmne, hu7]
    exact udata_get?_set_self _ _ _ (by simp)
  · show (S7.udatas.set m _).get? m = _
    exact udata_get?_set_self _ _ _ (udata_get?_lt _ _ _ hm7)
  · intro j hj1 hj2
    show (S7.udatas.set m _).get? j = _
    rw [udata_get?_set_ne _ _ _ _ (Ne.symm hj1), hu7, udata_get?_set_ne _ _ _ _ (Ne.symm hj2)]
    simp only [List.get?_eq_getElem?]
    by_cases hj : j < s2.udatas.length
    · rw [List.getElem?_append_left hj]
    · rw [List.getElem?_eq_none (by simp; omega), List.getElem?_eq_none (by omega)]
  · exact g7.baked tr.tid rB hB4
  · refine ⟨g7.registry rB _ ?_, lt_of_lt_of_le hH4.2 g7.tablesLen⟩
    show ((r, Value.udata s2.udatas.length) :: S4.registry).lookup rB = _
    rw [lookup_cons_of_ne _ _ _ _ (hrefs4 rB (Or.inr (Or.inr ⟨tr.tid, hB4⟩)))]
    exact hH4.1
  · show S7.pendingRefs = _
    rw [hp7]
    exact hp4
  · exact g7.registry r _ (lookup_cons_self _ _ _)
  · intro k hk x hx
    apply g7.registry k x
    show ((r, Value.udata s2.udatas.length) :: S4.registry).lookup k = _
    rw [lookup_cons_of_ne _ _ _ _ hk]
    exact g4.registry k x hx
  · intro k x hk hx
    have hkr : k ≠ r := by
      intro e1
      rw [e1, hslot] at hk
      exact absurd hk (by simp)
    cases h6 : ((r, Value.udata s2.udatas.length) :: S4.registry).lookup k with
    | none =>
      obtain ⟨n, hn, _⟩ := g7.fresh k x h6 hx
      exact ⟨n, hn⟩
    | some y =>
      have := g7.registry k y h6
      have hx1 : S7.registry.lookup k = some x := hx
      rw [this] at hx1
      rw [lookup_cons_of_ne _ _ _ _ hkr] at h6
      obtain ⟨n, hn, _⟩ := g4.fresh k y hk h6
      exact ⟨n, by rw [← Option.some.inj hx1]; exact hn⟩
  · intro i hi
    show S7.tables.get? i = _
    rw [g7.tables i (lt_of_lt_of_le hi g4.tablesLen)]
    exact g4.tables i hi
  · refine ok7.transfer rfl rfl rfl rfl (fun _ _ => rfl) ?_
    intro u ud t0 h1 h2
    simp only [] at h1
    by_cases hu : u = m
    · rw [hu, udata_get?_set_self _ _ _ (udata_get?_lt _ _ _ hm7)] at h1
      rw [← Option.some.inj h1] at h2
      have : tI = t0 := by simpa using h2
      rw [← this]
      exact hH7.2
    · rw [udata_get?_set_ne _ _ _ _ (Ne.symm hu)] at h1
      exact ok7.udataMeta u ud t0 h1 h2

theorem lua_absindex_neg1 (s : LuaState) : lua_absindex s (-1) = s.stack.length := by
  unfold lua_absindex
  simp

/-- The first half of `bakePendingData<T>` on a pending marker: the value of
the slot is pushed and read as Lua data. -/
theorem bakePendingData_eq (tr : Traits) (fuel : Nat) (s : LuaState) (l : List Value)
    (m : Nat) (r : Int) (d : Value) (hm : PendingMarker s m r d)
    (hs : s.stack = l ++ [Value.udata m]) :
    bakePendingData tr (readAs tr fuel) s =
      match LuaData_readAs tr (lua_gettop s + 1) (pushValue s d) with
      | none => none
      | some (PotentialOwner.monostate, s2) => some (none, s2)
      | some (readAttempt, s2) =>
          match readAttempt.deref s2 with
          | none => none
          | some v =>
              some (some s2.udatas.length,
                lua_setmetatable (IndirectData_metatable (lua_rawseti_registry
                  (lua_setmetatable (BakedData_metatable tr (lua_newuserdata s2 v)) (-2)) r))
                  ((lua_gettop s : Nat) : Int)) := by
  obtain ⟨tP, rP, hud, _, _⟩ := hm.marker
  unfold bakePendingData
  rw [readRef_top s l m r (some tP) hs hud]
  simp only []
  have hS1 : lua_rawgeti_registry s r = pushValue s d := by
    unfold lua_rawgeti_registry
    rw [registryGet_of_lookup s r d hm.slot]
  rw [hS1]
  have hab : lua_absindex (pushValue s d) (-1) = lua_gettop s + 1 := by
    rw [lua_absindex_neg1]
    simp [pushValue, lua_gettop]
  have htop : stackAt (pushValue s d) (lua_absindex (pushValue s d) (-1)) = some d :=
    (stackAt_top1 (pushValue s d) s.stack d rfl).1
  rw [dataDispatch_LuaData _ (-1) (by
    rw [htop]
    intro u hu
    exact hm.dynamic u (Option.some.inj hu))]
  simp only [readAs_LuaData, hab]
  have hg : lua_gettop (pushValue s d) - 1 = lua_gettop s := by
    simp [pushValue, lua_gettop]
  rw [hg]

theorem classifyByTable_udata (s : LuaState) (u : Nat) (ud : UData) (t : Nat)
    (hu : s.udatas.get? u = some ud) (hmeta : ud.meta = some t) :
    classifyByTable s (Value.udata u) =
      if markerMetatable s s.indirectRefs = some (Value.table t) then DataState.Indirect
      else if markerMetatable s s.pendingRefs = some (Value.table t) then DataState.PendingBake
      else DataState.Baked := by
  have : metatableOf s (Value.udata u) = some t := by
    simp only [metatableOf, hu, Option.some_bind, hmeta]
  simp only [classifyByTable, this]

theorem markerMetatable_of_holds (s : LuaState) (refs : Option Int) (r : Int) (t : Nat)
    (h1 : refs = some r) (h2 : s.registry.lookup r = some (Value.table t)) :
    markerMetatable s refs = some (Value.table t) := by
  rw [h1]
  simp only [markerMetatable, Option.map_some', registryGet_of_lookup s r _ h2]

/-- A pending marker classifies as PendingBake. -/
theorem PendingMarker.classify {s : LuaState} {m : Nat} {r : Int} {d : Value}
    (hm : PendingMarker s m r d) : classifyByTable s (Value.udata m) = DataState.PendingBake := by
  obtain ⟨tP, rP, hud, hp, hreg⟩ := hm.marker
  rw [classifyByTable_udata s m _ tP hud rfl]
  have hP := markerMetatable_of_holds s _ rP tP hp hreg
  have hI := markers_distinct s hm.ok _ hP
  simp only [hI, if_false, hP, if_true]

theorem classify_after_bake (tr : Traits) (T : LuaState) (m u : Nat) (r rB rI : Int) (v : NVal) (tB tI : Nat)
    (ok : MetatablesOk T)
    (hu : T.udatas.get? u = some { payload := v, meta := some tB })
    (hm : T.udatas.get? m = some { payload := NVal.int r, meta := some tI })
    (hB : T.bakedRefs.lookup tr.tid = some rB) (hHB : HoldsTable T rB tB)
    (hI : T.indirectRefs = some rI) (hHI : HoldsTable T rI tI) :
    classifyByTable T (Value.udata m) = DataState.Indirect ∧
    classifyByTable T (Value.udata u) = DataState.Baked := by
  have hmI := markerMetatable_of_holds T _ rI tI hI hHI.1
  constructor
  · rw [classifyByTable_udata T m _ tI hm rfl]
    simp only [hmI, if_true]
  · rw [classifyByTable_udata T u _ tB hu rfl]
    have h1 : markerMetatable T T.indirectRefs ≠ some (Value.table tB) := by
      rw [hmI]
      intro e
      apply ok.bakedIndirect tr.tid rB rI hB hI
      rw [hHB.1, hHI.1]
      exact e.symm
    have h2 : markerMetatable T T.pendingRefs ≠ some (Value.table tB) := by
      intro e
      cases hp : T.pendingRefs with
      | none => rw [hp] at e; simp [markerMetatable] at e
      | some rP =>
        obtain ⟨tP, h3, _⟩ := ok.pending rP hp
        rw [markerMetatable_of_holds T _ rP tP hp h3] at e
        apply ok.bakedPending tr.tid rB rP hB hp
        rw [hHB.1, h3]
        exact e.symm
    simp only [h1, h2, if_false]

theorem LuaData_readAs_some (tr : Traits)
    (rd : LuaState → Nat → Option (Option NVal × LuaState))
    (j : Nat) (s s2 : LuaState) (v : NVal) (hli : LuaInterfacable tr = true)
    (hrd : tr.read = some rd) (hj : j ≠ 0) (h : rd s j = some (some v, s2)) :
    LuaData_readAs tr j s = some (PotentialOwner.owned v, s2) := by
  unfold LuaData_readAs read
  rw [if_pos hli, hrd]
  simp only [lua_absindex_natCast s j hj, h]

theorem LuaData_readAs_none (tr : Traits)
    (rd : LuaState → Nat → Option (Option NVal × LuaState))
    (j : Nat) (s s2 : LuaState) (hli : LuaInterfacable tr = true)
    (hrd : tr.read = some rd) (hj : j ≠ 0) (h : rd s j = some (none, s2)) :
    LuaData_readAs tr j s = some (PotentialOwner.monostate, s2) := by
  unfold LuaData_readAs read
  rw [if_pos hli, hrd]
  simp only [lua_absindex_natCast s j hj, h]

theorem markerOnTop_marker : PendingMarker markerOnTop 0 3 (Value.int 5) where
  ok := pendingState_ok.ok_of_fields rfl rfl rfl rfl rfl rfl
  marker := ⟨0, 4, rfl, rfl, rfl⟩
  slot := rfl
  dynamic := fun u h => by simp at h
  notPending := by decide
  notIndirect := by decide
  notBaked := fun tid => by
    have : markerOnTop.bakedRefs = [] := rfl
    rw [this]
    simp

/-- What `bakePendingData<T>` returns and leaves when a pending marker is on top
of the stack. -/
theorem bakePendingData_returns (tr : Traits) (fuel : Nat) (s : LuaState) (l : List Value)
    (m : Nat) (r : Int) (d : Value) (rd : LuaState → Nat → Option (Option NVal × LuaState))
    (res : Option NVal) (s2 : LuaState)
    (hm : PendingMarker s m r d) (hs : s.stack = l ++ [Value.udata m])
    (hrd : tr.read = some rd) (hf : FramedRead tr)
    (hread : rd (pushValue s d) (lua_gettop s + 1) = some (res, s2)) :
    classifyByTable s (Value.udata m) = DataState.PendingBake ∧
    (LuaInterfacable tr = false →
      bakePendingData tr (readAs tr fuel) s = some (none, pushValue s d)) ∧
    (LuaInterfacable tr = true → res = none →
      ∃ extra, bakePendingData tr (readAs tr fuel) s =
        some (none, { s with stack := s.stack ++ d :: extra })) ∧
    (LuaInterfacable tr = true → ∀ v, res = some v → ∃ T tB rB tI extra,
      bakePendingData tr (readAs tr fuel) s = some (some s.udatas.length, T) ∧
      T.stack = s.stack ++ d :: extra ∧
      T.udatas.get? s.udatas.length = some { payload := v, meta := some tB } ∧
      T.bakedRefs.lookup tr.tid = some rB ∧ T.registry.lookup rB = some (Value.table tB) ∧
      classifyByTable T (Value.udata s.udatas.length) = DataState.Baked ∧
      T.registry.lookup r = some (Value.udata s.udatas.length) ∧
      (∀ k, k ≠ r → ∀ x, s.registry.lookup k = some x → T.registry.lookup k = some x) ∧
      (∀ k x, s.registry.lookup k = none → T.registry.lookup k = some x →
        ∃ n, x = Value.table n) ∧
      T.udatas.get? m = some { payload := NVal.int r, meta := some tI } ∧
      classifyByTable T (Value.udata m) = DataState.Indirect ∧
      (∀ j, j ≠ m → j ≠ s.udatas.length → T.udatas.get? j = s.udatas.get? j) ∧
      MetatablesOk T ∧ T.pendingRefs = s.pendingRefs ∧
      ∃ rI, T.indirectRefs = some rI ∧ T.registry.lookup rI = some (Value.table tI)) := by
  have heq := bakePendingData_eq tr fuel s l m r d hm hs
  obtain ⟨extra, hs2⟩ := hf rd hrd _ _ _ _ hread
  have hs2a : s2 = { s with stack := s.stack ++ d :: extra } := by
    rw [hs2]
    simp [pushValue]
  refine ⟨hm.classify, ?_, ?_, ?_⟩
  · intro hli
    rw [heq]
    have : LuaData_readAs tr (lua_gettop s + 1) (pushValue s d) =
        some (PotentialOwner.monostate, pushValue s d) := by
      unfold LuaData_readAs
      rw [hli]
      rfl
    rw [this]
  · intro hli hres
    subst hres
    rw [heq, LuaData_readAs_none tr rd _ _ _ hli hrd (by omega) hread]
    exact ⟨extra, by rw [hs2a]⟩
  · intro hli v hres
    subst hres
    rw [heq, LuaData_readAs_some tr rd _ _ _ _ hli hrd (by omega) hread]
    simp only [PotentialOwner.deref]
    obtain ⟨tP, rP, hud, hp, hreg⟩ := hm.marker
    have hlen : lua_gettop s = l.length + 1 := by
      simp [lua_gettop, hs]
    rw [hlen]
    have ok2 : MetatablesOk s2 := by
      rw [hs2a]
      exact hm.ok.ok_of_fields rfl rfl rfl rfl rfl rfl
    obtain ⟨T, tB, rB, tI, rI, hT, h1, h2, h3, h4, h5, h6, h7, h8, h9, h10, h11, h12, h13, h14,
      h15⟩ := bakeTail_spec tr s2 l (d :: extra) m r d v tP ok2
        (by rw [hs2a]; simp [hs]) (by rw [hs2a]; exact hud) (by rw [hs2a]; exact hm.slot)
        (by rw [hs2a]; exact hm.notPending) (by rw [hs2a]; exact hm.notIndirect)
        (by rw [hs2a]; exact hm.notBaked)
    have hu2 : s2.udatas = s.udatas := by rw [hs2a]
    have hr2 : s2.registry = s.registry := by rw [hs2a]
    rw [hu2] at h3 h5
    have hc := classify_after_bake tr T m s.udatas.length r rB rI v tB tI h15 h3 h4 h6 h7 h8 h9
    refine ⟨T, tB, rB, tI, extra, ?_, ?_, h3, h6, h7.1, hc.2, ?_, ?_, ?_, h4, hc.1, ?_, h15, ?_,
      rI, h8, h9.1⟩
    · rw [hT, hu2]
    · rw [h1, hs2a]
    · rw [hu2] at h11; exact h11
    · rw [hr2] at h12; exact h12
    · rw [hr2] at h13; exact h13
    · exact h5
    · rw [h10, hs2a]

/-- C12: `bakePendingData<T>` with a pending marker on top of the stack, the
slot `r` of the marker holding `d`.  If `d` does not read as `T` (or `T` cannot
be read at all) the function returns null and leaves everything but the stack
as it was, so the marker is still a pending marker for `d`.  If `d` reads as
`v`, the function returns the pointer to a new userdata holding `v` under the
metatable of `BakedData<T>`; slot `r` holds that userdata; every other slot
that existed is unchanged and a slot that is new holds a table (the metatable
of `BakedData<T>` or of the indirect markers, created on first use); the
marker still holds `r` and now classifies as Indirect. -/
theorem bakePendingData_spec (tr : Traits) (fuel : Nat) (s : LuaState) (l : List Value)
    (m : Nat) (r : Int) (d : Value) (rd : LuaState → Nat → Option (Option NVal × LuaState))
    (res : Option NVal) (s2 : LuaState)
    (hm : PendingMarker s m r d) (hs : s.stack = l ++ [Value.udata m])
    (hrd : tr.read = some rd) (hf : FramedRead tr)
    (hread : rd (pushValue s d) (lua_gettop s + 1) = some (res, s2)) :
    classifyByTable s (Value.udata m) = DataState.PendingBake ∧
    (LuaInterfacable tr = false →
      bakePendingData tr (readAs tr fuel) s = some (none, pushValue s d)) ∧
    (LuaInterfacable tr = true → res = none →
      ∃ extra, bakePendingData tr (readAs tr fuel) s =
        some (none, { s with stack := s.stack ++ d :: extra })) ∧
    (LuaInterfacable tr = true → ∀ v, res = some v → ∃ T tB rB tI extra,
      bakePendingData tr (readAs tr fuel) s = some (some s.udatas.length, T) ∧
      T.stack = s.stack ++ d :: extra ∧
      T.udatas.get? s.udatas.length = some { payload := v, meta := some tB } ∧
      T.bakedRefs.lookup tr.tid = some rB ∧ T.registry.lookup rB = some (Value.table tB) ∧
      classifyByTable T (Value.udata s.udatas.length) = DataState.Baked ∧
      T.registry.lookup r = some (Value.udata s.udatas.length) ∧
      (∀ k, k ≠ r → ∀ x, s.registry.lookup k = some x → T.registry.lookup k = some x) ∧
      (∀ k x, s.registry.lookup k = none → T.registry.lookup k = some x →
        ∃ n, x = Value.table n) ∧
      T.udatas.get? m = some { payload := NVal.int r, meta := some tI } ∧
      classifyByTable T (Value.udata m) = DataState.Indirect ∧
      (∀ j, j ≠ m → j ≠ s.udatas.length → T.udatas.get? j = s.udatas.get? j) ∧
      MetatablesOk T) := by
  obtain ⟨h1, h2, h3, h4⟩ :=
    bakePendingData_returns tr fuel s l m r d rd res s2 hm hs hrd hf hread
  refine ⟨h1, h2, h3, ?_⟩
  intro hli v hv
  obtain ⟨T, tB, rB, tI, extra, a1, a2, a3, a4, a5, a6, a7, a8, a9, a10, a11, a12, a13, _⟩ :=
    h4 hli v hv
  exact ⟨T, tB, rB, tI, extra, a1, a2, a3, a4, a5, a6, a7, a8, a9, a10, a11, a12, a13⟩

theorem bakePendingData_spec_witness :
    PendingMarker markerOnTop 0 3 (Value.int 5) ∧
    ∃ T tB rB tI extra,
      bakePendingData intTraits (readAs intTraits 0) markerOnTop = some (some 1, T) ∧
      T.stack = [Value.udata 0] ++ Value.int 5 :: extra ∧
      T.udatas.get? 1 = some { payload := NVal.int 5, meta := some tB } ∧
      T.bakedRefs.lookup 1 = some rB ∧ T.registry.lookup rB = some (Value.table tB) ∧
      classifyByTable T (Value.udata 1) = DataState.Baked ∧
      T.registry.lookup 3 = some (Value.udata 1) ∧
      (∀ k, k ≠ 3 → ∀ x, markerOnTop.registry.lookup k = some x →
        T.registry.lookup k = some x) ∧
      (∀ k x, markerOnTop.registry.lookup k = none → T.registry.lookup k = some x →
        ∃ n, x = Value.table n) ∧
      T.udatas.get? 0 = some { payload := NVal.int 3, meta := some tI } ∧
      classifyByTable T (Value.udata 0) = DataState.Indirect ∧
      (∀ j, j ≠ 0 → j ≠ 1 → T.udatas.get? j = markerOnTop.udatas.get? j) ∧
      MetatablesOk T :=
  ⟨markerOnTop_marker,
    (bakePendingData_spec intTraits 0 markerOnTop [] 0 3 (Value.int 5) _ (some (NVal.int 5)) _
      markerOnTop_marker rfl rfl intTraits_framed rfl).2.2.2 rfl (NVal.int 5) rfl⟩

/-- Baking for the first time as `int` adds registry entries: slot 5, empty
before, afterwards holds the metatable of `BakedData<int>`, and slot 6 the
metatable of the indirect markers. -/
theorem bakePendingData_registry_counterexample :
    markerOnTop.registry.lookup 5 = none ∧ markerOnTop.registry.lookup 6 = none ∧
    (bakePendingData intTraits (readAs intTraits 0) markerOnTop).map
      (fun p => (p.1, p.2.registry.lookup 3, p.2.registry.lookup 5, p.2.registry.lookup 6)) =
      some (some 1, some (Value.udata 1), some (Value.table 1), some (Value.table 2)) :=
  ⟨rfl, rfl, rfl⟩

/-! ## Properties: repeated reads of a value marked for baking -/

theorem readDecodes_BakedData (tr : Traits) (fuel j : Nat) (s : LuaState) :
    readDecodes tr fuel (AnyData.BakedData j) s = 0 := by
  cases fuel <;> rfl

theorem readDecodes_LuaData (tr : Traits) (fuel j : Nat) (s : LuaState) :
    readDecodes tr fuel (AnyData.LuaData j) s = if LuaInterfacable tr then 1 else 0 := by
  cases fuel <;> rfl

theorem lua_pushvalue_nat (s : LuaState) (n : Nat) (v : Value) (h : stackAt s n = some v) :
    lua_pushvalue s (n : Int) = pushValue s v := by
  unfold lua_pushvalue
  rw [lua_absindex_natCast s n (stackAt_ne_zero s n v h), h]
  rfl

theorem readRef_nat (s : LuaState) (n m : Nat) (r : Int) (mt : Option Nat)
    (h : stackAt s n = some (Value.udata m))
    (hud : s.udatas.get? m = some { payload := NVal.int r, meta := mt }) :
    readRef s (n : Int) = some r := by
  unfold readRef lua_touserdata
  rw [lua_absindex_natCast s n (stackAt_ne_zero s n _ h), h]
  simp only [hud]

theorem PendingMarker.marker_of_fields {s t : LuaState} {m : Nat} {r : Int} {d : Value}
    (h : PendingMarker s m r d)
    (h1 : t.tables = s.tables) (h2 : t.udatas = s.udatas) (h3 : t.registry = s.registry)
    (h4 : t.pendingRefs = s.pendingRefs) (h5 : t.indirectRefs = s.indirectRefs)
    (h6 : t.bakedRefs = s.bakedRefs) : PendingMarker t m r d where
  ok := h.ok.ok_of_fields h1 h2 h3 h4 h5 h6
  marker := by
    obtain ⟨tP, rP, a, b, c⟩ := h.marker
    exact ⟨tP, rP, by rw [h2]; exact a, by rw [h4]; exact b, by rw [h3]; exact c⟩
  slot := by rw [h3]; exact h.slot
  dynamic := h.dynamic
  notPending := by rw [h4]; exact h.notPending
  notIndirect := by rw [h5]; exact h.notIndirect
  notBaked := by rw [h6]; exact h.notBaked

theorem PendingMarker.grown {s t : LuaState} {m : Nat} {r : Int} {d : Value}
    (h : PendingMarker s m r d) (g : CachesGrown s t) (ok : MetatablesOk t) :
    PendingMarker t m r d where
  ok := ok
  marker := by
    obtain ⟨tP, rP, a, b, c⟩ := h.marker
    exact ⟨tP, rP, by rw [g.udatas]; exact a, g.pending rP b, g.registry rP _ c⟩
  slot := g.registry r d h.slot
  dynamic := h.dynamic
  notPending := by
    obtain ⟨tP, rP, _, b, _⟩ := h.marker
    rw [g.pending rP b]
    have := h.notPending
    rw [b] at this
    exact this
  notIndirect := by
    intro e
    cases hi : s.indirectRefs with
    | some r1 =>
      have := g.indirect r1 hi
      rw [this] at e
      exact h.notIndirect (by rw [hi, Option.some.inj e])
    | none =>
      have := g.indirectNew r hi e
      rw [h.slot] at this
      exact absurd this (by simp)
  notBaked := by
    intro tid e
    cases hi : s.bakedRefs.lookup tid with
    | some r1 =>
      have := g.baked tid r1 hi
      rw [this] at e
      exact h.notBaked tid (by rw [hi, Option.some.inj e])
    | none =>
      have := g.bakedNew tid r hi e
      rw [h.slot] at this
      exact absurd this (by simp)

theorem popIfOnTop_ne (s : LuaState) (i : Nat) (h : i ≠ lua_gettop s) : popIfOnTop s i = s := by
  unfold popIfOnTop
  rw [if_neg h]

theorem udatas_length_of_get? (a b : List UData) (u : Nat) (x : UData) (hu : a.length = u)
    (h1 : b.get? u = some x) (h2 : b.get? (u + 1) = a.get? (u + 1)) : b.length = u + 1 := by
  have := udata_get?_lt b x u h1
  have h3 : a.get? (u + 1) = none := by
    rw [List.get?_eq_getElem?, List.getElem?_eq_none (by omega)]
  rw [h3, List.get?_eq_getElem?] at h2
  have := List.getElem?_eq_none_iff.1 h2
  omega

/-- The first read of a pending marker through `dataDispatch(ls, idx).readAs<T>()`:
the value of the slot is decoded once, the read yields the pointer to the new
userdata and leaves an indirect marker. -/
theorem readAs_pending_first (tr : Traits) (fuel : Nat) (s : LuaState) (idx : Int) (m : Nat)
    (r : Int) (d : Value) (rd : LuaState → Nat → Option (Option NVal × LuaState)) (v : NVal)
    (s2 : LuaState) (hm : PendingMarker s m r d)
    (hv : stackAt s (lua_absindex s idx) = some (Value.udata m))
    (hli : LuaInterfacable tr = true) (hrd : tr.read = some rd) (hf : FramedRead tr)
    (hread : rd (pushValue (pushValue (dataDispatch s idx).2 (Value.udata m)) d)
      (lua_gettop s + 2) = some (some v, s2)) :
    ∃ T e, readAs tr (fuel + 1) (dataDispatch s idx).1 (dataDispatch s idx).2 =
        some (PotentialOwner.ptr s.udatas.length, T) ∧
      readDecodes tr (fuel + 1) (dataDispatch s idx).1 (dataDispatch s idx).2 = 1 ∧
      T.stack = s.stack ++ e ∧ T.udatas.length = s.udatas.length + 1 ∧
      IndirectMarker T m r s.udatas.length tr.tid v := by
  obtain ⟨h1, g, ok1, hst, _⟩ := dataDispatch_spec s idx (Value.udata m) hm.ok hv
  rw [hm.classify] at h1 hst
  have hst1 := hst (by decide)
  generalize dataDispatch s idx = D at *
  obtain ⟨a, s1⟩ := D
  simp only [] at h1 g ok1 hst1 hread ⊢
  subst h1
  simp only [AnyData.ofState]
  have hm1 : PendingMarker s1 m r d := hm.grown g ok1
  have hv1 : stackAt s1 (lua_absindex s idx) = some (Value.udata m) := by
    unfold stackAt at hv ⊢
    rw [hst1]
    exact hv
  have hmT : PendingMarker (pushValue s1 (Value.udata m)) m r d :=
    hm1.marker_of_fields rfl rfl rfl rfl rfl rfl
  have e1 : lua_gettop (pushValue s1 (Value.udata m)) + 1 = lua_gettop s + 2 := by
    simp [lua_gettop, pushValue, hst1]
  obtain ⟨_, _, _, h4⟩ := bakePendingData_returns tr fuel (pushValue s1 (Value.udata m))
    s1.stack m r d rd (some v) s2 hmT rfl hrd hf (by rw [e1]; exact hread)
  obtain ⟨T, tB, rB, tI, extra, a1, a2, a3, a4, a5, a6, a7, a8, a9, a10, a11, a12, a13, a14, rI,
    a15, a16⟩ := h4 hli v rfl
  have hu1 : (pushValue s1 (Value.udata m)).udatas = s.udatas := g.udatas
  rw [hu1] at a1 a3 a6 a7 a12
  have hlenT : T.udatas.length = s.udatas.length + 1 := by
    have hmlt : m < s.udatas.length := by
      obtain ⟨tP, rP, hud, _, _⟩ := hm.marker
      exact udata_get?_lt _ _ _ hud
    exact udatas_length_of_get? s.udatas T.udatas _ _ rfl a3
      (a12 _ (by omega) (by omega))
  refine ⟨T, [Value.udata m] ++ d :: extra, ?_, ?_, ?_, hlenT, ?_⟩
  · simp only [readAs]
    rw [lua_pushvalue_nat s1 _ _ hv1, a1]
    simp only []
    rw [popIfOnTop_ne]
    rw [show lua_gettop T = T.stack.length from rfl, a2]
    simp [lua_gettop, pushValue]
  · simp only [readDecodes]
    rw [lua_pushvalue_nat s1 _ _ hv1]
    obtain ⟨tP, rP, hud, _, _⟩ := hmT.marker
    rw [readRef_top (pushValue s1 (Value.udata m)) s1.stack m r (some tP) rfl hud]
    simp only []
    have hS1 : lua_rawgeti_registry (pushValue s1 (Value.udata m)) r =
        pushValue (pushValue s1 (Value.udata m)) d := by
      unfold lua_rawgeti_registry
      rw [registryGet_of_lookup _ r d hmT.slot]
    rw [hS1]
    have htop : stackAt (pushValue (pushValue s1 (Value.udata m)) d)
        (lua_absindex (pushValue (pushValue s1 (Value.udata m)) d) (-1)) = some d :=
      (stackAt_top1 _ (pushValue s1 (Value.udata m)).stack d rfl).1
    rw [dataDispatch_LuaData _ (-1) (by
      rw [htop]
      intro u hu
      exact hm.dynamic u (Option.some.inj hu))]
    simp only [readDecodes_LuaData, hli, if_true]
  · rw [a2]
    simp [pushValue, hst1]
  · obtain ⟨rP, hp⟩ : ∃ rP, s.pendingRefs = some rP := by
      obtain ⟨tP, rP, _, hp, _⟩ := hm.marker
      exact ⟨rP, hp⟩
    exact ⟨a13, ⟨tI, rI, a10, a15, a16⟩, a7, ⟨tB, rB, a3, a4, a5⟩,
      ⟨rP, by rw [a14]; exact g.pending rP hp⟩⟩

theorem lua_pop2_push2 (s : LuaState) (a b : Value) :
    lua_pop (pushValue (pushValue s a) b) 2 = s := by
  cases s
  simp [lua_pop, pushValue]

theorem metatableOf_udata (s : LuaState) (u : Nat) (ud : UData) (t : Nat)
    (hu : s.udatas.get? u = some ud) (hmeta : ud.meta = some t) :
    metatableOf s (Value.udata u) = some t := by
  simp only [metatableOf, hu, Option.some_bind, hmeta]

/-- Classifying an indirect marker changes nothing. -/
theorem dataDispatch_indirect_fix (T : LuaState) (idx : Int) (m : Nat) (r : Int) (u tid : Nat)
    (v : NVal) (h : IndirectMarker T m r u tid v)
    (hv : stackAt T (lua_absindex T idx) = some (Value.udata m)) :
    dataDispatch T idx = (AnyData.IndirectData (lua_absindex T idx), T) := by
  obtain ⟨tI, rI, hud, hI, hreg⟩ := h.marker
  rw [dataDispatch_udata_eq T idx m tI hv (metatableOf_udata T m _ tI hud rfl)]
  rw [IndirectData_metatable_some (pushValue T (Value.table tI)) rI hI,
    registryGet_of_lookup (pushValue T (Value.table tI)) rI _ hreg,
    lua_rawequal_top2 _ T.stack (Value.table tI) (Value.table tI) (by simp [pushValue]),
    rawEqualValues_table]
  simp only [decide_True, if_true, lua_pop2_push2]

/-- Classifying a baked object changes nothing once both marker metatables
exist. -/
theorem dataDispatch_baked_fix (T : LuaState) (idx : Int) (u tid : Nat) (v : NVal) (tB : Nat)
    (rB rI rP : Int) (ok : MetatablesOk T)
    (hu : T.udatas.get? u = some { payload := v, meta := some tB })
    (hB : T.bakedRefs.lookup tid = some rB) (hrB : T.registry.lookup rB = some (Value.table tB))
    (hI : T.indirectRefs = some rI) (hP : T.pendingRefs = some rP)
    (hv : stackAt T (lua_absindex T idx) = some (Value.udata u)) :
    dataDispatch T idx = (AnyData.BakedData (lua_absindex T idx), T) := by
  obtain ⟨tI, hHI, _⟩ := ok.indirect rI hI
  obtain ⟨tP, hHP, _⟩ := ok.pending rP hP
  have hneI : tB ≠ tI := by
    intro e
    apply ok.bakedIndirect tid rB rI hB hI
    rw [hrB, hHI, e]
  have hneP : tB ≠ tP := by
    intro e
    apply ok.bakedPending tid rB rP hB hP
    rw [hrB, hHP, e]
  rw [dataDispatch_udata_eq T idx u tB hv (metatableOf_udata T u _ tB hu rfl)]
  rw [IndirectData_metatable_some (pushValue T (Value.table tB)) rI hI,
    registryGet_of_lookup (pushValue T (Value.table tB)) rI _ hHI,
    lua_rawequal_top2 _ T.stack (Value.table tB) (Value.table tI) (by simp [pushValue]),
    rawEqualValues_table]
  have d1 : decide (tB = tI) = false := by simpa using hneI
  simp only [d1, Bool.false_eq_true, if_false, lua_pop_pushValue]
  rw [PendingData_metatable_some (pushValue T (Value.table tB)) rP hP,
    registryGet_of_lookup (pushValue T (Value.table tB)) rP _ hHP,
    lua_rawequal_top2 _ T.stack (Value.table tB) (Value.table tP) (by simp [pushValue]),
    rawEqualValues_table]
  have d2 : decide (tB = tP) = false := by simpa using hneP
  simp only [d2, Bool.false_eq_true, if_false, lua_pop2_push2]

theorem stackAt_le (s : LuaState) (j : Nat) (v : Value) (h : stackAt s j = some v) :
    j ≤ s.stack.length := by
  unfold stackAt at h
  split at h
  · simp at h
  · rw [List.get?_eq_getElem?] at h
    by_contra hc
    rw [List.getElem?_eq_none (by omega)] at h
    exact absurd h (by simp)

/-- Reading a baked object of the type it was baked as yields the pointer to
its block and changes nothing. -/
theorem BakedData_readAs_fix (tr : Traits) (T : LuaState) (j u : Nat) (v : NVal) (tB : Nat)
    (rB : Int) (hu : T.udatas.get? u = some { payload := v, meta := some tB })
    (hB : T.bakedRefs.lookup tr.tid = some rB)
    (hrB : T.registry.lookup rB = some (Value.table tB))
    (hv : stackAt T j = some (Value.udata u)) :
    BakedData_readAs tr j T = some (PotentialOwner.ptr u, T) := by
  have e1 : BakedData_metatable tr T = pushValue T (Value.table tB) := by
    unfold BakedData_metatable
    rw [hB]
    simp only [lua_rawgeti_registry, registryGet_of_lookup T rB _ hrB]
  have hj := stackAt_ne_zero T j _ hv
  have hv1 : stackAt (pushValue T (Value.table tB)) j = some (Value.udata u) := by
    rw [← hv]
    exact stackAt_append T [Value.table tB] j (stackAt_le T j _ hv)
  have e2 : lua_getmetatable (pushValue T (Value.table tB)) (j : Int) =
      (true, pushValue (pushValue T (Value.table tB)) (Value.table tB)) := by
    unfold lua_getmetatable
    rw [lua_absindex_natCast _ j hj, hv1]
    have : metatableOf (pushValue T (Value.table tB)) (Value.udata u) = some tB :=
      metatableOf_udata _ u _ tB hu rfl
    simp only [Option.some_bind, this]
  have e3 : lua_touserdata T (j : Int) = some u := by
    unfold lua_touserdata
    rw [lua_absindex_natCast _ j hj, hv]
  have e4 : lua_rawequal (pushValue (pushValue T (Value.table tB)) (Value.table tB)) (-2) (-1) =
      true := by
    rw [lua_rawequal_top2 _ T.stack (Value.table tB) (Value.table tB) (by simp [pushValue]),
      rawEqualValues_table]
    simp
  unfold BakedData_readAs
  simp only [e1, e2, e4, Bool.and_self, if_true, lua_pop2_push2, e3]

/-- A read of an indirect marker yields the pointer to the baked object,
decodes nothing and changes nothing, whatever `Traits<T>::read` is. -/
theorem readAs_indirect (tr : Traits) (fuel : Nat) (T : LuaState) (i m : Nat) (r : Int)
    (u : Nat) (v : NVal) (h : IndirectMarker T m r u tr.tid v)
    (hv : stackAt T i = some (Value.udata m)) :
    readAs tr (fuel + 1) (AnyData.IndirectData i) T = some (PotentialOwner.ptr u, T) ∧
    readDecodes tr (fuel + 1) (AnyData.IndirectData i) T = 0 := by
  obtain ⟨tI, rI, hud, hI, hreg⟩ := h.marker
  obtain ⟨tB, rB, hu, hB, hrB⟩ := h.object
  obtain ⟨rP, hP⟩ := h.pending
  have hS1 : lua_rawgeti_registry T r = pushValue T (Value.udata u) := by
    unfold lua_rawgeti_registry
    rw [registryGet_of_lookup T r _ h.slot]
  have htop := (stackAt_top1 (pushValue T (Value.udata u)) T.stack (Value.udata u) rfl).1
  have hd := dataDispatch_baked_fix (pushValue T (Value.udata u)) (-1) u tr.tid v tB rB rI rP
    (h.ok.ok_of_fields rfl rfl rfl rfl rfl rfl) hu hB hrB hI hP htop
  constructor
  · simp only [readAs]
    rw [readRef_nat T i m r _ hv hud]
    simp only [hS1, hd, readAs_BakedData]
    rw [BakedData_readAs_fix tr (pushValue T (Value.udata u)) _ u v tB rB hu hB hrB htop]
    simp only []
    have : popIfOnTop (pushValue T (Value.udata u)) (lua_gettop (pushValue T (Value.udata u))) =
        T := by
      unfold popIfOnTop
      rw [if_pos rfl, lua_pop_pushValue]
    rw [this]
  · simp only [readDecodes]
    rw [readRef_nat T i m r _ hv hud]
    simp only [hS1, hd, readDecodes_BakedData]

theorem readRepeatedly_indirect (tr : Traits) (fuel : Nat) (T : LuaState) (i m : Nat)
    (r : Int) (u : Nat) (v : NVal) (h : IndirectMarker T m r u tr.tid v)
    (hv : stackAt T (i + 1) = some (Value.udata m)) : ∀ n,
    readRepeatedly tr (fuel + 1) ((i : Int) + 1) n T =
      some (List.replicate n (PotentialOwner.ptr u), 0, T) := by
  intro n
  induction n with
  | zero => rfl
  | succ n ih =>
    have hv1 : stackAt T (lua_absindex T ((i : Int) + 1)) = some (Value.udata m) := by
      rw [lua_absindex_pos]; exact hv
    have hd := dataDispatch_indirect_fix T ((i : Int) + 1) m r u tr.tid v h hv1
    rw [lua_absindex_pos] at hd
    obtain ⟨h1, h2⟩ := readAs_indirect tr fuel T (i + 1) m r u v h hv
    simp only [readRepeatedly, hd, h1, ih, h2, List.replicate_succ]

theorem pendingState_marker_ok : PendingMarker pendingState 0 3 (Value.int 5) :=
  markerOnTop_marker.marker_of_fields rfl rfl rfl rfl rfl rfl

/-- C13: a pending marker at stack slot `i + 1` whose slot value reads as `v`.
Evaluating `dataDispatch(ls, i + 1).readAs<T>()` any number `n + 1` of times in a
row, every evaluation returns the pointer to the same userdata, which holds
`v`; `Traits<T>::read` is called once in all (in the first evaluation) and one
userdata is created in all.  After the first evaluation the reads do not depend
on `Traits<T>::read`: they give the same pointer, decode nothing and change
nothing for any traits record of the same type id. -/
theorem readAs_bakes_once (tr : Traits) (fuel n : Nat) (s : LuaState) (i m : Nat) (r : Int)
    (d : Value) (rd : LuaState → Nat → Option (Option NVal × LuaState)) (v : NVal)
    (s2 : LuaState) (hm : PendingMarker s m r d)
    (hv : stackAt s (i + 1) = some (Value.udata m))
    (hli : LuaInterfacable tr = true) (hrd : tr.read = some rd) (hf : FramedRead tr)
    (hread : rd (pushValue (pushValue (dataDispatch s ((i : Int) + 1)).2 (Value.udata m)) d)
      (lua_gettop s + 2) = some (some v, s2)) :
    ∃ T e, readRepeatedly tr (fuel + 1) ((i : Int) + 1) (n + 1) s =
        some (List.replicate (n + 1) (PotentialOwner.ptr s.udatas.length), 1, T) ∧
      T.stack = s.stack ++ e ∧ T.udatas.length = s.udatas.length + 1 ∧
      (PotentialOwner.ptr s.udatas.length).deref T = some v ∧
      ∀ (tr1 : Traits) (k : Nat), tr1.tid = tr.tid →
        readRepeatedly tr1 (fuel + 1) ((i : Int) + 1) k T =
          some (List.replicate k (PotentialOwner.ptr s.udatas.length), 0, T) := by
  have hv0 : stackAt s (lua_absindex s ((i : Int) + 1)) = some (Value.udata m) := by
    rw [lua_absindex_pos]; exact hv
  obtain ⟨T, e, h1, h2, hst, hlen, hIM⟩ :=
    readAs_pending_first tr fuel s ((i : Int) + 1) m r d rd v s2 hm hv0 hli hrd hf hread
  have hvT : stackAt T (i + 1) = some (Value.udata m) := by
    rw [stackAt_of_stack s T e (i + 1) hst (stackAt_le s _ _ hv)]
    exact hv
  refine ⟨T, e, ?_, hst, hlen, ?_, ?_⟩
  · simp only [readRepeatedly, h1, h2,
      readRepeatedly_indirect tr fuel T i m r s.udatas.length v hIM hvT n,
      List.replicate_succ]
  · obtain ⟨tB, rB, hu, _, _⟩ := hIM.object
    simp only [PotentialOwner.deref, hu, Option.map_some']
  · intro tr1 k htid
    have hIM1 : IndirectMarker T m r s.udatas.length tr1.tid v := by
      rw [htid]; exact hIM
    exact readRepeatedly_indirect tr1 fuel T i m r s.udatas.length v hIM1 hvT k

theorem readAs_bakes_once_witness :
    PendingMarker pendingState 0 3 (Value.int 5) ∧
    ∃ T e, readRepeatedly intTraits 1 1 3 pendingState =
        some ([PotentialOwner.ptr 1, PotentialOwner.ptr 1, PotentialOwner.ptr 1], 1, T) ∧
      T.stack = pendingState.stack ++ e ∧ T.udatas.length = 2 ∧
      (PotentialOwner.ptr 1).deref T = some (NVal.int 5) ∧
      ∀ (tr1 : Traits) (k : Nat), tr1.tid = intTraits.tid →
        readRepeatedly tr1 1 1 k T = some (List.replicate k (PotentialOwner.ptr 1), 0, T) :=
  ⟨pendingState_marker_ok,
    readAs_bakes_once intTraits 0 2 pendingState 0 0 3 (Value.int 5) _ (NVal.int 5) _
      pendingState_marker_ok rfl rfl rfl intTraits_framed rfl⟩

/-! ## Properties: marking for baking -/

theorem lua_settop_one (s : LuaState) (v : Value) (rest : List Value) (hs : s.stack = v :: rest) :
    lua_settop s 1 = { s with stack := [v] } := by
  unfold lua_settop
  rw [hs]
  simp

theorem stackAt_one (s : LuaState) (v : Value) (rest : List Value) (hs : s.stack = v :: rest) :
    stackAt s 1 = some v := by
  unfold stackAt
  simp [hs]

theorem lua_absindex_one (s : LuaState) : lua_absindex s 1 = 1 := by
  unfold lua_absindex
  simp

theorem classifyByTable_of_fields (s t : LuaState) (v : Value) (h2 : t.udatas = s.udatas)
    (h3 : t.registry = s.registry) (h4 : t.pendingRefs = s.pendingRefs)
    (h5 : t.indirectRefs = s.indirectRefs) : classifyByTable t v = classifyByTable s v := by
  cases v <;> try rfl
  rename_i u
  have hmo : metatableOf t (Value.udata u) = metatableOf s (Value.udata u) := by
    simp only [metatableOf, h2]
  have hr : ∀ refs, markerMetatable t refs = markerMetatable s refs := by
    intro refs
    have : registryGet t = registryGet s := by
      funext k
      simp only [registryGet, h3]
    simp only [markerMetatable, this]
  simp only [classifyByTable, hmo, hr, h4, h5]

theorem classifyByTable_dynamic_iff (s : LuaState) (v : Value) :
    classifyByTable s v = DataState.Dynamic ↔ ∀ u, v ≠ Value.udata u := by
  constructor
  · intro h u e
    subst e
    simp only [classifyByTable] at h
    split at h
    · exact absurd h (by simp)
    · split at h
      · exact absurd h (by simp)
      · split at h <;> exact absurd h (by simp)
  · intro h
    exact classifyByTable_not_udata s v (fun ⟨u, e⟩ => h u e)

/-- The function `markedForBaking` on a value that is not Dynamic and not
Fail. -/
theorem markedForBaking_error (env : CFuncs) (s : LuaState) (v : Value) (rest : List Value)
    (ok : MetatablesOk s) (hs : s.stack = v :: rest) :
    (classifyByTable s v = DataState.PendingBake →
      markedForBaking env s = some (Except.error "The data is already marked for baking.")) ∧
    (classifyByTable s v = DataState.Indirect ∨ classifyByTable s v = DataState.Baked →
      markedForBaking env s = some (Except.error "The data is already baked.")) := by
  have htop : lua_gettop s ≠ 0 := by simp [lua_gettop, hs]
  have hS := lua_settop_one s v rest hs
  have okS : MetatablesOk (lua_settop s 1) := ok.ok_of_fields rfl rfl rfl rfl rfl rfl
  have hvS : stackAt (lua_settop s 1) (lua_absindex (lua_settop s 1) 1) = some v := by
    rw [lua_absindex_one, hS]
    exact stackAt_one _ v [] rfl
  have hcS : classifyByTable (lua_settop s 1) v = classifyByTable s v :=
    classifyByTable_of_fields s _ v rfl rfl rfl rfl
  obtain ⟨h1, _⟩ := dataDispatch_spec (lua_settop s 1) 1 v okS hvS
  rw [hcS] at h1
  constructor
  · intro hc
    rw [hc] at h1
    unfold markedForBaking
    rw [if_neg htop]
    simp only [h1, AnyData.ofState, toBakedData]
  · intro hc
    unfold markedForBaking
    rw [if_neg htop]
    rcases hc with hc | hc
    · rw [hc] at h1
      simp only [h1, AnyData.ofState, toBakedData]
    · rw [hc] at h1
      simp only [h1, AnyData.ofState, toBakedData]

/-- The function `markedForBaking` on a Dynamic value goes to
`LuaData::toBakedData` with the value alone on the stack. -/
theorem markedForBaking_dynamic (env : CFuncs) (s : LuaState) (v : Value) (rest : List Value)
    (hs : s.stack = v :: rest) (hd : ∀ u, v ≠ Value.udata u) :
    markedForBaking env s = LuaData_toBakedData env { s with stack := [v] } := by
  have htop : lua_gettop s ≠ 0 := by simp [lua_gettop, hs]
  unfold markedForBaking
  rw [if_neg htop, lua_settop_one s v rest hs]
  rw [dataDispatch_LuaData _ 1 (by
    rw [lua_absindex_one, stackAt_one _ v [] rfl]
    intro u hu
    exact hd u (Option.some.inj hu))]
  rfl

/-- The second branch of `LuaData::toBakedData`: the value is registered under
a fresh reference and a pending marker for it is pushed. -/
theorem pendingTail_spec (S : LuaState) (v : Value) (hs : S.stack = [v]) (hv : v ≠ Value.nil)
    (hnu : ∀ u, v ≠ Value.udata u) (ok : MetatablesOk S) :
    ∃ T, lua_setmetatable (PendingData_metatable (lua_newuserdata
        (luaL_ref (lua_pushvalue S (-1))).2 (NVal.int (luaL_ref (lua_pushvalue S (-1))).1)))
        (-2) = T ∧
      T.stack = [v, Value.udata S.udatas.length] ∧
      PendingMarker T S.udatas.length (freshRef S.registry) v ∧
      T.udatas.length = S.udatas.length + 1 ∧
      (∀ j, j < S.udatas.length → T.udatas.get? j = S.udatas.get? j) ∧
      (∀ i, i < S.tables.length → T.tables.get? i = S.tables.get? i) ∧
      (∀ k x, S.registry.lookup k = some x → T.registry.lookup k = some x) := by
  have e1 : lua_pushvalue S (-1) = pushValue S v := lua_pushvalue_top S [] v (by simpa using hs)
  rw [e1, luaL_ref_pushValue S v hv]
  simp only []
  generalize hS4 : lua_newuserdata { S with registry := (freshRef S.registry, v) :: S.registry }
    (NVal.int (freshRef S.registry)) = S4
  have a1 : S4.stack = S.stack ++ [Value.udata S.udatas.length] := by subst hS4; rfl
  have a2 : S4.udatas = S.udatas ++
      [({ payload := NVal.int (freshRef S.registry), meta := none } : UData)] := by
    subst hS4; rfl
  have a3 : S4.registry = (freshRef S.registry, v) :: S.registry := by subst hS4; rfl
  have a4 : S4.tables = S.tables := by subst hS4; rfl
  have a5 : S4.pendingRefs = S.pendingRefs := by subst hS4; rfl
  have a6 : S4.indirectRefs = S.indirectRefs := by subst hS4; rfl
  have a7 : S4.bakedRefs = S.bakedRefs := by subst hS4; rfl
  have hrefs : ∀ k, (S.pendingRefs = some k ∨ S.indirectRefs = some k ∨
      ∃ tid, S.bakedRefs.lookup tid = some k) → ∃ t, HoldsTable S k t := by
    intro k hk
    rcases hk with h1 | h1 | ⟨tid, h1⟩
    · exact ok.pending k h1
    · exact ok.indirect k h1
    · exact ok.baked tid k h1
  have ok4 : MetatablesOk S4 := by
    refine ok.transfer a4 a5 a6 a7 ?_ ?_
    · intro k hk
      obtain ⟨t, ht, _⟩ := hrefs k hk
      rw [a3, lookup_cons_fresh _ _ _ _ ht, ht]
    · intro u ud t0 h1 h2
      rw [a2] at h1
      by_cases hu : u < S.udatas.length
      · rw [List.get?_eq_getElem?, List.getElem?_append_left hu, ← List.get?_eq_getElem?] at h1
        exact ok.udataMeta u ud t0 h1 h2
      · by_cases hu2 : u = S.udatas.length
        · rw [hu2, udata_get?_append_new] at h1
          rw [← Option.some.inj h1] at h2
          exact absurd h2 (by simp)
        · rw [List.get?_eq_getElem?, List.getElem?_eq_none (by simp; omega)] at h1
          exact absurd h1 (by simp)
  obtain ⟨tP, rP, hst5, hP5, hH5, _, _, hi5, g5, ok5⟩ := PendingData_metatable_spec _ ok4
  generalize PendingData_metatable S4 = S5 at *
  have hst5a : S5.stack = [v, Value.udata S.udatas.length] ++ [Value.table tP] := by
    rw [hst5, a1]; simp [hs]
  have hu5 : S5.udatas = S.udatas ++
      [({ payload := NVal.int (freshRef S.registry), meta := none } : UData)] := by
    rw [g5.udatas, a2]
  obtain ⟨mt, e6, hmt⟩ := lua_setmetatable_udata S5 [v, Value.udata S.udatas.length]
    (Value.table tP) (-2) S.udatas.length
    { payload := NVal.int (freshRef S.registry), meta := none } hst5a
    (stackAt_top2 S5 [v] _ _ (by rw [hst5a]; rfl)).1
    (by rw [hu5]; exact udata_get?_append_new _ _)
  have hmt1 : mt = some tP := hmt tP rfl
  subst hmt1
  have hfresh4 : S4.registry.lookup (freshRef S.registry) = some v := by
    rw [a3]; exact lookup_cons_self _ _ _
  have hfresh5 : S5.registry.lookup (freshRef S.registry) = some v :=
    g5.registry _ _ hfresh4
  refine ⟨_, e6, rfl, ?_, ?_, ?_, ?_, ?_⟩
  · refine ⟨?_, ⟨tP, rP, ?_, hP5, hH5.1⟩, hfresh5, hnu, ?_, ?_, ?_⟩
    · refine ok5.transfer rfl rfl rfl rfl (fun _ _ => rfl) ?_
      intro u ud t0 h1 h2
      simp only [] at h1
      by_cases hu : u = S.udatas.length
      · rw [hu, udata_get?_set_self _ _ _ (by rw [hu5]; simp)] at h1
        rw [← Option.some.inj h1] at h2
        have : tP = t0 := by simpa using h2
        rw [← this]
        exact hH5.2
      · rw [udata_get?_set_ne _ _ _ _ (Ne.symm hu)] at h1
        exact ok5.udataMeta u ud t0 h1 h2
    · show (S5.udatas.set _ _).get? S.udatas.length = _
      exact udata_get?_set_self _ _ _ (by rw [hu5]; simp)
    · show S5.pendingRefs ≠ _
      rw [hP5]
      intro e
      have e1 : rP = freshRef S.registry := Option.some.inj e
      cases hp : S.pendingRefs with
      | some k =>
        have := g5.pending k (a5.trans hp)
        rw [hP5] at this
        obtain ⟨t, ht, _⟩ := ok.pending k hp
        have hk : k = freshRef S.registry := by rw [← e1]; exact (Option.some.inj this).symm
        rw [hk, lookup_freshRef_none] at ht
        exact absurd ht (by simp)
      | none =>
        have := g5.pendingNew rP (a5.trans hp) hP5
        rw [e1, hfresh4] at this
        exact absurd this (by simp)
    · show S5.indirectRefs ≠ _
      rw [hi5, a6]
      intro e
      obtain ⟨t, ht, _⟩ := ok.indirect _ e
      rw [lookup_freshRef_none] at ht
      exact absurd ht (by simp)
    · intro tid e
      have e0 : S5.bakedRefs.lookup tid = some (freshRef S.registry) := e
      cases hb : S.bakedRefs.lookup tid with
      | some k =>
        have := g5.baked tid k (by rw [a7]; exact hb)
        rw [this] at e0
        obtain ⟨t, ht, _⟩ := ok.baked tid k hb
        rw [Option.some.inj e0, lookup_freshRef_none] at ht
        exact absurd ht (by simp)
      | none =>
        have := g5.bakedNew tid _ (by rw [a7]; exact hb) e0
        rw [hfresh4] at this
        exact absurd this (by simp)
  · show (S5.udatas.set _ _).length = _
    simp [hu5]
  · intro j hj
    show (S5.udatas.set _ _).get? j = _
    rw [udata_get?_set_ne _ _ _ _ (by omega), hu5]
    simp only [List.get?_eq_getElem?]
    rw [List.getElem?_append_left hj]
  · intro i hi
    show S5.tables.get? i = _
    rw [g5.tables i (by rw [a4]; exact hi), a4]
  · intro k x hk
    exact g5.registry k x (by rw [a3]; exact lookup_cons_fresh _ _ _ _ hk)

theorem bakingHook_none_cases (S : LuaState) (v : Value) (hh : bakingHook S v = none) :
    metatableOf S v = none ∨ ∃ t, metatableOf S v = some t ∧
      ∀ n tid, tableGet S t (Value.str "toBakedData") ≠ Value.cfunc n tid := by
  unfold bakingHook at hh
  cases hm : metatableOf S v with
  | none => exact Or.inl rfl
  | some t =>
    right
    rw [hm] at hh
    simp only [] at hh
    refine ⟨t, rfl, ?_⟩
    intro n tid e
    rw [e] at hh
    exact absurd hh (by simp)

theorem bakingHook_some_cases (S : LuaState) (v h : Value) (hh : bakingHook S v = some h) :
    ∃ t n tid, metatableOf S v = some t ∧ h = Value.cfunc n tid ∧
      tableGet S t (Value.str "toBakedData") = Value.cfunc n tid := by
  unfold bakingHook at hh
  cases hm : metatableOf S v with
  | none => rw [hm] at hh; exact absurd hh (by simp)
  | some t =>
    rw [hm] at hh
    simp only [] at hh
    split at hh
    · rename_i n tid e
      exact ⟨t, n, tid, rfl, (Option.some.inj hh).symm, e⟩
    · exact absurd hh (by simp)

theorem lua_getmetatable_top (S : LuaState) (l : List Value) (v : Value)
    (hs : S.stack = l ++ [v]) :
    lua_getmetatable S (-1) =
      match metatableOf S v with
      | some t => (true, pushValue S (Value.table t))
      | none => (false, S) := by
  unfold lua_getmetatable
  rw [(stackAt_top1 S l v hs).1]
  rfl

theorem lua_getfield_top (S : LuaState) (t : Nat) (k : String) :
    lua_getfield (pushValue S (Value.table t)) (-1) k =
      pushValue (pushValue S (Value.table t)) (tableGet S t (Value.str k)) := by
  unfold lua_getfield
  rw [(stackAt_top1 (pushValue S (Value.table t)) S.stack _ rfl).1]
  rfl

theorem lua_iscfunction_top (S : LuaState) (x : Value) :
    lua_iscfunction (pushValue S x) (-1) =
      match x with
      | Value.cfunc _ _ => true
      | _ => false := by
  unfold lua_iscfunction
  rw [(stackAt_top1 (pushValue S x) S.stack _ rfl).1]
  cases x <;> rfl

/-- The function `LuaData::toBakedData` on a value whose metatable provides no
hook. -/
theorem LuaData_toBakedData_nohook (env : CFuncs) (S : LuaState) (v : Value)
    (hs : S.stack = [v]) (hh : bakingHook S v = none) :
    LuaData_toBakedData env S =
      some (Except.ok (lua_setmetatable (PendingData_metatable (lua_newuserdata
        (luaL_ref (lua_pushvalue S (-1))).2 (NVal.int (luaL_ref (lua_pushvalue S (-1))).1)))
        (-2))) := by
  unfold LuaData_toBakedData
  rw [lua_getmetatable_top S [] v (by simpa using hs)]
  rcases bakingHook_none_cases S v hh with hm | ⟨t, hm, hf⟩
  · rw [hm]
    simp only [Bool.false_eq_true, if_false]
  · rw [hm]
    simp only [if_true, lua_getfield_top, lua_iscfunction_top]
    have : (match tableGet S t (Value.str "toBakedData") with
        | Value.cfunc _ _ => true
        | _ => false) = false := by
      split
      · rename_i n tid e
        exact absurd e (hf n tid)
      · rfl
    simp only [this, Bool.false_eq_true, if_false, lua_pop2_push2]

theorem stackAt_get (s : LuaState) (i : Nat) (v : Value) (h : s.stack.get? i = some v) :
    stackAt s (i + 1) = some v := by
  unfold stackAt
  simpa using h

theorem lua_call11_none (env : CFuncs) (s : LuaState) (f arg : Value)
    (hf : stackAt s (lua_gettop s - 1) = some f) (ha : stackAt s (lua_gettop s) = some arg)
    (he : env f { s with stack := [arg] } = none) : lua_call11 env s = none := by
  unfold lua_call11
  simp only [hf, ha, Option.getD_some, he]

theorem lua_call11_error (env : CFuncs) (s : LuaState) (f arg : Value) (e : String)
    (hf : stackAt s (lua_gettop s - 1) = some f) (ha : stackAt s (lua_gettop s) = some arg)
    (he : env f { s with stack := [arg] } = some (Except.error e)) :
    lua_call11 env s = some (Except.error e) := by
  unfold lua_call11
  simp only [hf, ha, Option.getD_some, he]

theorem lua_call11_ok (env : CFuncs) (s s1 : LuaState) (f arg : Value)
    (hf : stackAt s (lua_gettop s - 1) = some f) (ha : stackAt s (lua_gettop s) = some arg)
    (he : env f { s with stack := [arg] } = some (Except.ok s1)) :
    lua_call11 env s =
      some (Except.ok { s1 with stack := s.stack.take (lua_gettop s - 2) ++ [returned s1] }) := by
  unfold lua_call11
  simp only [hf, ha, Option.getD_some, he]
  rfl

/-- The function `LuaData::toBakedData` on a value whose metatable provides the
hook `h`: the hook is called with the value, its result is returned. -/
theorem LuaData_toBakedData_hook (env : CFuncs) (S : LuaState) (v h : Value)
    (hs : S.stack = [v]) (hh : bakingHook S v = some h) :
    (env h S = none → LuaData_toBakedData env S = none) ∧
    (∀ e, env h S = some (Except.error e) →
      LuaData_toBakedData env S = some (Except.error e)) ∧
    (∀ s1, env h S = some (Except.ok s1) →
      LuaData_toBakedData env S = some (Except.ok { s1 with stack := [v, returned s1] })) := by
  obtain ⟨t, n, tid, hm, hh1, hf⟩ := bakingHook_some_cases S v h hh
  subst hh1
  have hX : (pushValue (pushValue S (Value.table t)) (Value.cfunc n tid)).stack =
      [v, Value.table t, Value.cfunc n tid] := by
    simp [pushValue, hs]
  have hpv : lua_pushvalue (pushValue (pushValue S (Value.table t)) (Value.cfunc n tid)) (-3) =
      pushValue (pushValue (pushValue S (Value.table t)) (Value.cfunc n tid)) v := by
    unfold lua_pushvalue
    have : lua_absindex (pushValue (pushValue S (Value.table t)) (Value.cfunc n tid)) (-3) = 1 := by
      unfold lua_absindex
      simp [hX]
    rw [this, stackAt_one _ v _ hX]
    rfl
  generalize hYdef : pushValue (pushValue (pushValue S (Value.table t)) (Value.cfunc n tid)) v = Y
    at hpv
  have hY : Y.stack = [v, Value.table t, Value.cfunc n tid, v] := by
    subst hYdef
    simp [pushValue, hs]
  have hfr : ({ Y with stack := [v] } : LuaState) = S := by
    subst hYdef
    cases S
    simp only [] at hs
    subst hs
    rfl
  have hn : lua_gettop Y = 4 := by simp [lua_gettop, hY]
  have hf1 : stackAt Y (lua_gettop Y - 1) = some (Value.cfunc n tid) := by
    rw [hn]; exact stackAt_get Y 2 _ (by rw [hY]; rfl)
  have ha1 : stackAt Y (lua_gettop Y) = some v := by
    rw [hn]; exact stackAt_get Y 3 _ (by rw [hY]; rfl)
  have hLD : ∀ r, lua_call11 env Y = r → LuaData_toBakedData env S =
      (match r with
       | none => none
       | some (Except.error e) => some (Except.error e)
       | some (Except.ok s3) => some (Except.ok (lua_remove s3 (-2)))) := by
    intro r hr
    unfold LuaData_toBakedData
    rw [lua_getmetatable_top S [] v (by simpa using hs), hm]
    simp only [if_true, lua_getfield_top, lua_iscfunction_top, hf, hpv, hr]
  refine ⟨?_, ?_, ?_⟩
  · intro he
    rw [hLD _ (lua_call11_none env Y _ _ hf1 ha1 (by rw [hfr]; exact he))]
  · intro e he
    rw [hLD _ (lua_call11_error env Y _ _ e hf1 ha1 (by rw [hfr]; exact he))]
  · intro s1 he
    rw [hLD _ (lua_call11_ok env Y s1 _ _ hf1 ha1 (by rw [hfr]; exact he))]
    simp only [lua_remove, lua_absindex, hn, hY]
    rfl

/-- A userdata that carries the metatable of `BakedData<T>` for some type
classifies as Baked. -/
theorem classify_baked (tid : Nat) (T : LuaState) (u : Nat) (v : NVal) (tB : Nat) (rB : Int)
    (ok : MetatablesOk T) (hu : T.udatas.get? u = some { payload := v, meta := some tB })
    (hB : T.bakedRefs.lookup tid = some rB)
    (hrB : T.registry.lookup rB = some (Value.table tB)) :
    classifyByTable T (Value.udata u) = DataState.Baked := by
  rw [classifyByTable_udata T u _ tB hu rfl]
  have h1 : markerMetatable T T.indirectRefs ≠ some (Value.table tB) := by
    intro e
    cases hp : T.indirectRefs with
    | none => rw [hp] at e; simp [markerMetatable] at e
    | some rI =>
      obtain ⟨tI, h3, _⟩ := ok.indirect rI hp
      rw [markerMetatable_of_holds T _ rI tI hp h3] at e
      apply ok.bakedIndirect tid rB rI hB hp
      rw [hrB, h3]
      exact e.symm
  have h2 : markerMetatable T T.pendingRefs ≠ some (Value.table tB) := by
    intro e
    cases hp : T.pendingRefs with
    | none => rw [hp] at e; simp [markerMetatable] at e
    | some rP =>
      obtain ⟨tP, h3, _⟩ := ok.pending rP hp
      rw [markerMetatable_of_holds T _ rP tP hp h3] at e
      apply ok.bakedPending tid rB rP hB hp
      rw [hrB, h3]
      exact e.symm
  simp only [h1, h2, if_false]

theorem returned_top (s : LuaState) (l : List Value) (x : Value) (h : s.stack = l ++ [x]) :
    returned s = x := by
  unfold returned
  rw [(stackAt_top1 s l x h).2]
  rfl

/-- The function stored as `toBakedData` when its argument does not read as
`T`: `unconditionalRead` raises the error. -/
theorem toBakedDataHook_fail (tr : Traits)
    (rd : LuaState → Nat → Option (Option NVal × LuaState)) (S s2 : LuaState)
    (hrd : tr.read = some rd) (hread : rd (lua_newuserdata S NVal.unit) 1 = some (none, s2)) :
    toBakedDataHook tr S = some (Except.error "") := by
  unfold toBakedDataHook read
  simp only [hrd, lua_absindex_one, hread]

/-- The function stored as `toBakedData` when its argument reads as `val`: the
result is a new userdata holding `val` under the metatable of `BakedData<T>`. -/
theorem toBakedDataHook_ok (tr : Traits)
    (rd : LuaState → Nat → Option (Option NVal × LuaState)) (S : LuaState) (v : Value)
    (val : NVal) (hs : S.stack = [v]) (ok : MetatablesOk S) (hrd : tr.read = some rd)
    (hread : rd (lua_newuserdata S NVal.unit) 1 = some (some val, lua_newuserdata S NVal.unit)) :
    ∃ T tB, toBakedDataHook tr S = some (Except.ok T) ∧
      T.stack = [v, Value.udata S.udatas.length] ∧
      T.udatas.get? S.udatas.length = some { payload := val, meta := some tB } ∧
      classifyByTable T (Value.udata S.udatas.length) = DataState.Baked ∧
      MetatablesOk T ∧
      (∀ j, j < S.udatas.length → T.udatas.get? j = S.udatas.get? j) ∧
      (∀ i, i < S.tables.length → T.tables.get? i = S.tables.get? i) ∧
      (∀ k x, S.registry.lookup k = some x → T.registry.lookup k = some x) := by
  unfold toBakedDataHook read
  simp only [hrd, lua_absindex_one, hread]
  generalize hS3 : setPayload (lua_newuserdata S NVal.unit) S.udatas.length val = S3
  have b1 : S3.udatas = S.udatas ++ [({ payload := val, meta := none } : UData)] := by
    subst hS3
    unfold setPayload
    have : (lua_newuserdata S NVal.unit).udatas.get? S.udatas.length =
        some { payload := NVal.unit, meta := none } := udata_get?_append_new _ _
    rw [this]
    simp [lua_newuserdata]
  have hfields : S3.stack = S.stack ++ [Value.udata S.udatas.length] ∧ S3.tables = S.tables ∧
      S3.registry = S.registry ∧ S3.pendingRefs = S.pendingRefs ∧
      S3.indirectRefs = S.indirectRefs ∧ S3.bakedRefs = S.bakedRefs := by
    subst hS3
    unfold setPayload
    split <;> exact ⟨rfl, rfl, rfl, rfl, rfl, rfl⟩
  obtain ⟨b2, b3, b4, b5, b6, b7⟩ := hfields
  have ok3 : MetatablesOk S3 := by
    refine ok.transfer b3 b5 b6 b7 (fun k _ => by rw [b4]) ?_
    intro u ud t0 h1 h2
    rw [b1] at h1
    by_cases hu : u < S.udatas.length
    · rw [List.get?_eq_getElem?, List.getElem?_append_left hu, ← List.get?_eq_getElem?] at h1
      exact ok.udataMeta u ud t0 h1 h2
    · by_cases hu2 : u = S.udatas.length
      · rw [hu2, udata_get?_append_new] at h1
        rw [← Option.some.inj h1] at h2
        exact absurd h2 (by simp)
      · rw [List.get?_eq_getElem?, List.getElem?_eq_none (by simp; omega)] at h1
        exact absurd h1 (by simp)
  obtain ⟨tB, rB, hst4, hB4, hH4, _, _, _, g4, ok4⟩ := BakedData_metatable_spec tr S3 ok3
  generalize BakedData_metatable tr S3 = S4 at *
  have hst4a : S4.stack = [v, Value.udata S.udatas.length] ++ [Value.table tB] := by
    rw [hst4, b2]; simp [hs]
  have hu4 : S4.udatas = S.udatas ++ [({ payload := val, meta := none } : UData)] := by
    rw [g4.udatas, b1]
  obtain ⟨mt, e5, hmt⟩ := lua_setmetatable_udata S4 [v, Value.udata S.udatas.length]
    (Value.table tB) (-2) S.udatas.length { payload := val, meta := none } hst4a
    (stackAt_top2 S4 [v] _ _ (by rw [hst4a]; rfl)).1
    (by rw [hu4]; exact udata_get?_append_new _ _)
  have hmt1 : mt = some tB := hmt tB rfl
  subst hmt1
  rw [e5]
  have hget : (S4.udatas.set S.udatas.length
      ({ payload := val, meta := some tB } : UData)).get? S.udatas.length =
      some { payload := val, meta := some tB } :=
    udata_get?_set_self _ _ _ (by rw [hu4]; simp)
  have okT : MetatablesOk { S4 with stack := [v, Value.udata S.udatas.length], udatas := S4.udatas.set S.udatas.length { payload := val, meta := some tB } } := by
    refine ok4.transfer rfl rfl rfl rfl (fun _ _ => rfl) ?_
    intro u ud t0 h1 h2
    simp only [] at h1
    by_cases hu : u = S.udatas.length
    · rw [hu, hget] at h1
      rw [← Option.some.inj h1] at h2
      have : tB = t0 := by simpa using h2
      rw [← this]
      exact hH4.2
    · rw [udata_get?_set_ne _ _ _ _ (Ne.symm hu)] at h1
      exact ok4.udataMeta u ud t0 h1 h2
  refine ⟨_, tB, rfl, rfl, hget, ?_, okT, ?_, ?_, ?_⟩
  · exact classify_baked tr.tid _ _ val tB rB okT hget hB4 hH4.1
  · intro j hj
    show (S4.udatas.set _ _).get? j = _
    rw [udata_get?_set_ne _ _ _ _ (by omega), hu4]
    simp only [List.get?_eq_getElem?]
    rw [List.getElem?_append_left hj]
  · intro i hi
    show S4.tables.get? i = _
    rw [g4.tables i (by rw [b3]; exact hi), b3]
  · intro k x hk
    exact g4.registry k x (by rw [b4]; exact hk)

theorem emptyState_ok (st : List Value) : MetatablesOk { emptyState with stack := st } where
  pending := fun r h => by simp [emptyState] at h
  indirect := fun r h => by simp [emptyState] at h
  baked := fun tid r h => by simp [emptyState] at h
  pendingIndirect := fun rP rI h _ => by simp [emptyState] at h
  bakedPending := fun tid rB rP h _ => by simp [emptyState] at h
  bakedIndirect := fun tid rB rI h _ => by simp [emptyState] at h
  udataMeta := fun u ud t h _ => by simp [emptyState] at h

/-- C14: `markedForBaking(v)`, `v` the first argument, on a well-formed
registry.  It raises an error when `v` classifies as PendingBake, Indirect or
Baked.  For a Dynamic `v` (not nil) whose metatable provides no `toBakedData`
hook it returns a new userdata that classifies as PendingBake and is a pending
marker whose registry slot holds `v` itself, the tables being untouched.  For a
Dynamic `v` whose metatable provides the hook it calls the hook with `v` and
returns what the hook returns, and raises what the hook raises; the hook that
`BakedData::metatable<T>` installs returns a new userdata classifying as Baked
that holds the decoded value when `v` reads as `T`, and raises an error (with an
empty message) when `v` does not read as `T`. -/
theorem markedForBaking_spec (env : CFuncs) (s : LuaState) (v : Value) (rest : List Value)
    (ok : MetatablesOk s) (hs : s.stack = v :: rest) :
    (classifyByTable s v = DataState.PendingBake →
      markedForBaking env s = some (Except.error "The data is already marked for baking.")) ∧
    (classifyByTable s v = DataState.Indirect ∨ classifyByTable s v = DataState.Baked →
      markedForBaking env s = some (Except.error "The data is already baked.")) ∧
    (classifyByTable s v = DataState.Dynamic → bakingHook s v = none → v ≠ Value.nil →
      ∃ T m r, markedForBaking env s = some (Except.ok T) ∧ returned T = Value.udata m ∧
        classifyByTable T (Value.udata m) = DataState.PendingBake ∧ PendingMarker T m r v ∧
        s.udatas.length ≤ m ∧
        (∀ i, i < s.tables.length → T.tables.get? i = s.tables.get? i)) ∧
    (classifyByTable s v = DataState.Dynamic → ∀ h, bakingHook s v = some h →
      (env h { s with stack := [v] } = none → markedForBaking env s = none) ∧
      (∀ e, env h { s with stack := [v] } = some (Except.error e) →
        markedForBaking env s = some (Except.error e)) ∧
      (∀ s1, env h { s with stack := [v] } = some (Except.ok s1) →
        ∃ T, markedForBaking env s = some (Except.ok T) ∧ returned T = returned s1)) ∧
    (classifyByTable s v = DataState.Dynamic → ∀ h tr rd, bakingHook s v = some h →
      env h = toBakedDataHook tr → tr.read = some rd →
      (∀ s2, rd (lua_newuserdata { s with stack := [v] } NVal.unit) 1 = some (none, s2) →
        markedForBaking env s = some (Except.error "")) ∧
      (∀ val, rd (lua_newuserdata { s with stack := [v] } NVal.unit) 1 =
          some (some val, lua_newuserdata { s with stack := [v] } NVal.unit) →
        ∃ T u tB, markedForBaking env s = some (Except.ok T) ∧ returned T = Value.udata u ∧
          classifyByTable T (Value.udata u) = DataState.Baked ∧
          T.udatas.get? u = some { payload := val, meta := some tB } ∧
          s.udatas.length ≤ u)) := by
  obtain ⟨ha1, ha2⟩ := markedForBaking_error env s v rest ok hs
  have okS : MetatablesOk { s with stack := [v] } := ok.ok_of_fields rfl rfl rfl rfl rfl rfl
  refine ⟨ha1, ha2, ?_, ?_, ?_⟩
  · intro hd hh hv
    have hnu := (classifyByTable_dynamic_iff s v).1 hd
    rw [markedForBaking_dynamic env s v rest hs hnu,
      LuaData_toBakedData_nohook env { s with stack := [v] } v rfl hh]
    obtain ⟨T, hT, h1, h2, h3, h4, h5, h6⟩ :=
      pendingTail_spec { s with stack := [v] } v rfl hv hnu okS
    rw [hT]
    exact ⟨T, s.udatas.length, _, rfl, returned_top T [v] _ h1, h2.classify, h2, le_refl _, h5⟩
  · intro hd h hh
    have hnu := (classifyByTable_dynamic_iff s v).1 hd
    rw [markedForBaking_dynamic env s v rest hs hnu]
    obtain ⟨c1, c2, c3⟩ := LuaData_toBakedData_hook env { s with stack := [v] } v h rfl hh
    refine ⟨c1, c2, ?_⟩
    intro s1 he
    exact ⟨_, c3 s1 he, returned_top _ [v] _ rfl⟩
  · intro hd h tr rd hh henv hrd
    have hnu := (classifyByTable_dynamic_iff s v).1 hd
    rw [markedForBaking_dynamic env s v rest hs hnu]
    obtain ⟨c1, c2, c3⟩ := LuaData_toBakedData_hook env { s with stack := [v] } v h rfl hh
    rw [henv] at c1 c2 c3
    constructor
    · intro s2 hread
      exact c2 "" (toBakedDataHook_fail tr rd _ s2 hrd hread)
    · intro val hread
      obtain ⟨T0, tB, e0, h1, h2, h3, h4, _⟩ :=
        toBakedDataHook_ok tr rd { s with stack := [v] } v val rfl okS hrd hread
      have hr : returned T0 = Value.udata s.udatas.length := returned_top T0 [v] _ h1
      refine ⟨_, s.udatas.length, tB, c3 T0 e0, ?_, ?_, h2, le_refl _⟩
      · rw [hr]
        exact returned_top _ [v] _ rfl
      · exact Eq.trans (classifyByTable_of_fields T0 _ _ rfl rfl rfl rfl) h3

theorem markedForBaking_spec_witness :
    MetatablesOk oneIntState ∧
    ∃ T m r, markedForBaking (hooksOf []) oneIntState = some (Except.ok T) ∧
      returned T = Value.udata m ∧
      classifyByTable T (Value.udata m) = DataState.PendingBake ∧
      PendingMarker T m r (Value.int 3) ∧ oneIntState.udatas.length ≤ m ∧
      (∀ i, i < oneIntState.tables.length → T.tables.get? i = oneIntState.tables.get? i) :=
  ⟨emptyState_ok _,
    (markedForBaking_spec (hooksOf []) oneIntState (Value.int 3) [] (emptyState_ok _) rfl).2.2.1
      rfl rfl (by decide)⟩

/-- A Dynamic value for which `markedForBaking` raises an error: the table
`{"x"}` with the metatable of `BakedData<std::vector<int>>`; the hook
`toBakedData` of that metatable fails to read it as a vector of `int`. -/
theorem markedForBaking_counterexample :
    hookedTable.stack = [Value.table 0] ∧
    classifyByTable hookedTable (Value.table 0) = DataState.Dynamic ∧
    bakingHook hookedTable (Value.table 0) = some (Value.cfunc "toBakedData" 2) ∧
    markedForBaking (hooksOf [vecIntTraits]) hookedTable = some (Except.error "") :=
  ⟨rfl, rfl, rfl, rfl⟩

/-! ## Properties: unbaking -/

/-- The function `unbaked` on a Dynamic value raises an error. -/
theorem unbaked_dynamic (env : CFuncs) (s : LuaState) (v : Value) (rest : List Value)
    (hs : s.stack = v :: rest) (hd : ∀ u, v ≠ Value.udata u) :
    unbaked env s = some (Except.error "Can't convert LuaData to LuaData.") := by
  have htop : lua_gettop s ≠ 0 := by simp [lua_gettop, hs]
  unfold unbaked
  rw [if_neg htop, lua_settop_one s v rest hs]
  rw [dataDispatch_LuaData _ 1 (by
    rw [lua_absindex_one, stackAt_one _ v [] rfl]
    intro u hu
    exact hd u (Option.some.inj hu))]
  rfl

/-- The function `unbaked` on a pending marker returns the value of its slot. -/
theorem unbaked_pending (env : CFuncs) (s : LuaState) (m : Nat) (r : Int) (d : Value)
    (rest : List Value) (hm : PendingMarker s m r d) (hs : s.stack = Value.udata m :: rest) :
    ∃ T, unbaked env s = some (Except.ok T) ∧ T.stack = [Value.udata m, d] ∧
      returned T = d ∧ classifyByTable T d = DataState.Dynamic ∧
      CachesGrown s T ∧ MetatablesOk T := by
  have htop : lua_gettop s ≠ 0 := by simp [lua_gettop, hs]
  have hmS : PendingMarker { s with stack := [Value.udata m] } m r d :=
    hm.marker_of_fields rfl rfl rfl rfl rfl rfl
  have hvS : stackAt { s with stack := [Value.udata m] }
      (lua_absindex { s with stack := [Value.udata m] } 1) = some (Value.udata m) := by
    rw [lua_absindex_one]
    exact stackAt_one _ _ [] rfl
  obtain ⟨h1, g, ok1, hst, _⟩ := dataDispatch_spec _ 1 (Value.udata m) hmS.ok hvS
  rw [hmS.classify] at h1 hst
  have hst1 := hst (by decide)
  unfold unbaked
  rw [if_neg htop, lua_settop_one s _ rest hs]
  generalize dataDispatch { s with stack := [Value.udata m] } 1 = D at *
  obtain ⟨a, S1⟩ := D
  simp only [] at h1 g ok1 hst1 ⊢
  subst h1
  have hm1 : PendingMarker S1 m r d := hmS.grown g ok1
  obtain ⟨tP, rP, hud, _, _⟩ := hm1.marker
  have hv1 : stackAt S1 1 = some (Value.udata m) := stackAt_one S1 _ [] hst1
  simp only [AnyData.ofState, toLuaData]
  have hrr : readRef S1 1 = some r := readRef_nat S1 1 m r _ hv1 hud
  rw [hrr]
  simp only []
  have hS2 : lua_rawgeti_registry S1 r = pushValue S1 d := by
    unfold lua_rawgeti_registry
    rw [registryGet_of_lookup S1 r d hm1.slot]
  rw [hS2]
  have hgs : CachesGrown s { s with stack := [Value.udata m] } :=
    CachesGrown.grown_of_fields rfl rfl rfl rfl rfl rfl
  have hgp : CachesGrown S1 (pushValue S1 d) := CachesGrown.grown_of_fields rfl rfl rfl rfl rfl rfl
  refine ⟨_, rfl, ?_, ?_, ?_, (hgs.trans g).trans hgp, ok1.ok_of_fields rfl rfl rfl rfl rfl rfl⟩
  · simp [pushValue, hst1]
  · exact returned_top _ S1.stack d rfl
  · exact (classifyByTable_dynamic_iff _ d).2 hm.dynamic

theorem eraseIdx_append_two (A : List Value) (x y : Value) :
    (A ++ [x, y]).eraseIdx A.length = A ++ [y] := by
  induction A with
  | nil => rfl
  | cons a A ih => simp [List.eraseIdx, ih]

theorem take_length_succ (A : List Value) (x y z : Value) :
    (A ++ [x, y, z]).take (A.length + 1) = A ++ [x] := by
  induction A with
  | nil => rfl
  | cons a A ih => simp [ih]

theorem lua_remove_second (s : LuaState) (A : List Value) (x y : Value)
    (h : s.stack = A ++ [x, y]) : lua_remove s (-2) = { s with stack := A ++ [y] } := by
  unfold lua_remove
  have : lua_absindex s (-2) - 1 = A.length := by
    unfold lua_absindex
    simp [h]
  rw [this, h, eraseIdx_append_two]

theorem lua_pushvalue_third (s : LuaState) (A : List Value) (x y z : Value)
    (h : s.stack = A ++ [x, y, z]) : lua_pushvalue s (-3) = pushValue s x := by
  unfold lua_pushvalue
  have : lua_absindex s (-3) = A.length + 1 := by
    unfold lua_absindex
    simp [h]
  rw [this, stackAt_mid s A [y, z] x h]
  rfl

/-- The function stored as `toLuaData`, called with a baked object of its type:
it writes the object. -/
theorem toLuaDataHook_eq (tr : Traits) (C : LuaState) (u : Nat) (val : NVal) (tB : Nat)
    (rB : Int) (hs : C.stack = [Value.udata u])
    (hu : C.udatas.get? u = some { payload := val, meta := some tB })
    (hB : C.bakedRefs.lookup tr.tid = some rB)
    (hrB : C.registry.lookup rB = some (Value.table tB)) :
    toLuaDataHook tr C =
      (write tr { C with stack := [Value.udata u, Value.table tB, Value.table tB] }
        val).map Except.ok := by
  have e1 : lua_getmetatable C 1 = (true, pushValue C (Value.table tB)) := by
    unfold lua_getmetatable
    rw [lua_absindex_one, stackAt_one C _ [] hs]
    simp only [Option.some_bind, metatableOf_udata C u _ tB hu rfl]
  have e2 : BakedData_metatable tr (pushValue C (Value.table tB)) =
      pushValue (pushValue C (Value.table tB)) (Value.table tB) := by
    unfold BakedData_metatable
    have : (pushValue C (Value.table tB)).bakedRefs.lookup tr.tid = some rB := hB
    rw [this]
    simp only [lua_rawgeti_registry]
    rw [registryGet_of_lookup (pushValue C (Value.table tB)) rB _ hrB]
  have e3 : lua_rawequal (pushValue (pushValue C (Value.table tB)) (Value.table tB)) (-2) (-1) =
      true := by
    rw [lua_rawequal_top2 _ C.stack (Value.table tB) (Value.table tB) (by simp [pushValue]),
      rawEqualValues_table]
    simp
  have e4 : lua_touserdata (pushValue (pushValue C (Value.table tB)) (Value.table tB)) 1 =
      some u := by
    unfold lua_touserdata
    rw [lua_absindex_one, stackAt_one _ (Value.udata u) [Value.table tB, Value.table tB]
      (by simp [pushValue, hs])]
  have e5 : pushValue (pushValue C (Value.table tB)) (Value.table tB) =
      { C with stack := [Value.udata u, Value.table tB, Value.table tB] } := by
    cases C
    simp only [] at hs
    subst hs
    rfl
  unfold toLuaDataHook
  simp only [e1, e2, e3, e4, Bool.not_true, Bool.false_eq_true, if_false, Option.some_bind]
  have e6 : (pushValue (pushValue C (Value.table tB)) (Value.table tB)).udatas.get? u =
      some { payload := val, meta := some tB } := hu
  rw [e6]
  simp only [e5]
  cases write tr { C with stack := [Value.udata u, Value.table tB, Value.table tB] } val <;> rfl

/-- The function `BakedData::toLuaData` on a baked object whose metatable
holds the function `toLuaData` of its type: the result is what `write` pushes. -/
theorem BakedData_toLuaData_eq (env : CFuncs) (tr : Traits) (S : LuaState) (l : List Value)
    (u : Nat) (val : NVal) (tB : Nat) (rB : Int) (n : String) (tid0 : Nat)
    (hs : S.stack = l ++ [Value.udata u])
    (hu : S.udatas.get? u = some { payload := val, meta := some tB })
    (hB : S.bakedRefs.lookup tr.tid = some rB)
    (hrB : S.registry.lookup rB = some (Value.table tB))
    (hf : tableGet S tB (Value.str "toLuaData") = Value.cfunc n tid0)
    (henv : env (Value.cfunc n tid0) = toLuaDataHook tr) :
    BakedData_toLuaData env S =
      (write tr { S with stack := [Value.udata u, Value.table tB, Value.table tB] } val).map
        (fun W => Except.ok { W with stack := S.stack ++ [returned W] }) := by
  have hpv : lua_pushvalue (pushValue (pushValue S (Value.table tB)) (Value.cfunc n tid0)) (-3) =
      pushValue (pushValue (pushValue S (Value.table tB)) (Value.cfunc n tid0))
        (Value.udata u) :=
    lua_pushvalue_third (pushValue (pushValue S (Value.table tB)) (Value.cfunc n tid0)) l
      (Value.udata u) (Value.table tB) (Value.cfunc n tid0) (by simp [pushValue, hs])
  generalize hYdef : pushValue (pushValue (pushValue S (Value.table tB)) (Value.cfunc n tid0))
    (Value.udata u) = Y at hpv
  have hY : Y.stack = (S.stack ++ [Value.table tB]) ++ [Value.cfunc n tid0, Value.udata u] := by
    subst hYdef
    simp [pushValue]
  have hfr : ({ Y with stack := [Value.udata u] } : LuaState) =
      { S with stack := [Value.udata u] } := by
    subst hYdef
    rfl
  have hn : lua_gettop Y = S.stack.length + 3 := by simp [lua_gettop, hY]
  have hf1 : stackAt Y (lua_gettop Y - 1) = some (Value.cfunc n tid0) := by
    rw [hn]
    have := stackAt_mid Y (S.stack ++ [Value.table tB]) [Value.udata u] (Value.cfunc n tid0)
      (by rw [hY])
    simpa using this
  have ha1 : stackAt Y (lua_gettop Y) = some (Value.udata u) :=
    (stackAt_top1 Y (S.stack ++ [Value.table tB, Value.cfunc n tid0]) _
      (by rw [hY]; simp)).2
  have hhook := toLuaDataHook_eq tr { S with stack := [Value.udata u] } u val tB rB rfl hu hB hrB
  have hC : ({ ({ S with stack := [Value.udata u] } : LuaState) with
      stack := [Value.udata u, Value.table tB, Value.table tB] } : LuaState) =
      { S with stack := [Value.udata u, Value.table tB, Value.table tB] } := rfl
  rw [hC] at hhook
  have hBDn : lua_call11 env Y = none → BakedData_toLuaData env S = none := by
    intro hr
    unfold BakedData_toLuaData
    rw [lua_getmetatable_top S l _ hs, metatableOf_udata S u _ tB hu rfl]
    simp only [Bool.not_true, Bool.false_eq_true, if_false, lua_getfield_top,
      lua_iscfunction_top, hf, hpv, hr]
  have hBDo : ∀ s3, lua_call11 env Y = some (Except.ok s3) →
      BakedData_toLuaData env S = some (Except.ok (lua_remove s3 (-2))) := by
    intro s3 hr
    unfold BakedData_toLuaData
    rw [lua_getmetatable_top S l _ hs, metatableOf_udata S u _ tB hu rfl]
    simp only [Bool.not_true, Bool.false_eq_true, if_false, lua_getfield_top,
      lua_iscfunction_top, hf, hpv, hr]
  cases hw : write tr { S with stack := [Value.udata u, Value.table tB, Value.table tB] } val with
  | none =>
    rw [hw] at hhook
    rw [hBDn (lua_call11_none env Y _ _ hf1 ha1 (by rw [hfr, henv]; exact hhook))]
    rfl
  | some W =>
    rw [hw] at hhook
    rw [hBDo _ (lua_call11_ok env Y W _ _ hf1 ha1 (by rw [hfr, henv]; exact hhook))]
    simp only [Option.map_some']
    rw [lua_remove_second _ S.stack (Value.table tB) (returned W) (by
      simp [hn, hY, take_length_succ])]

theorem tableGet_of_tables (s t : LuaState) (i : Nat) (k : Value)
    (h : t.tables.get? i = s.tables.get? i) : tableGet t i k = tableGet s i k := by
  unfold tableGet
  rw [h]

/-- The function `unbaked` on a baked object whose metatable holds the function
`toLuaData` of its type returns what `write` pushes for the object. -/
theorem unbaked_baked (env : CFuncs) (tr : Traits) (s : LuaState) (rest : List Value) (u : Nat)
    (val : NVal) (tB : Nat) (rB : Int) (n : String) (tid0 : Nat) (ok : MetatablesOk s)
    (hs : s.stack = Value.udata u :: rest)
    (hu : s.udatas.get? u = some { payload := val, meta := some tB })
    (hB : s.bakedRefs.lookup tr.tid = some rB)
    (hrB : s.registry.lookup rB = some (Value.table tB))
    (hf : tableGet s tB (Value.str "toLuaData") = Value.cfunc n tid0)
    (henv : env (Value.cfunc n tid0) = toLuaDataHook tr) :
    unbaked env s =
      (write tr { (dataDispatch { s with stack := [Value.udata u] } 1).2 with
          stack := [Value.udata u, Value.table tB, Value.table tB] } val).map
        (fun W => Except.ok { W with stack := [Value.udata u, returned W] }) := by
  have htop : lua_gettop s ≠ 0 := by simp [lua_gettop, hs]
  have okS : MetatablesOk { s with stack := [Value.udata u] } :=
    ok.ok_of_fields rfl rfl rfl rfl rfl rfl
  have hvS : stackAt { s with stack := [Value.udata u] }
      (lua_absindex { s with stack := [Value.udata u] } 1) = some (Value.udata u) := by
    rw [lua_absindex_one]
    exact stackAt_one _ _ [] rfl
  obtain ⟨h1, g, ok1, hst, _⟩ := dataDispatch_spec _ 1 (Value.udata u) okS hvS
  have hc : classifyByTable { s with stack := [Value.udata u] } (Value.udata u) =
      DataState.Baked := classify_baked tr.tid _ u val tB rB okS hu hB hrB
  rw [hc] at h1 hst
  have hst1 := hst (by decide)
  obtain ⟨tB1, hH⟩ := ok.baked tr.tid rB hB
  have htB : tB < s.tables.length := by
    have : tB1 = tB := by
      have := hH.1
      rw [hrB] at this
      simpa using this.symm
    rw [← this]
    exact hH.2
  unfold unbaked
  rw [if_neg htop, lua_settop_one s _ rest hs]
  generalize dataDispatch { s with stack := [Value.udata u] } 1 = D at *
  obtain ⟨a, S1⟩ := D
  simp only [] at h1 g ok1 hst1 ⊢
  subst h1
  simp only [AnyData.ofState, toLuaData]
  rw [BakedData_toLuaData_eq env tr S1 [] u val tB rB n tid0 (by simpa using hst1)
    (by rw [g.udatas]; exact hu) (g.baked _ _ hB) (g.registry _ _ hrB)
    (by rw [tableGet_of_tables _ S1 tB _ (g.tables tB htB)]; exact hf) henv, hst1]
  rfl

/-- The function `unbaked` on an indirect marker returns what `write` pushes for
the object in the slot of the marker. -/
theorem unbaked_indirect (env : CFuncs) (tr : Traits) (s : LuaState) (rest : List Value)
    (m : Nat) (r : Int) (u : Nat) (val : NVal) (tB : Nat) (n : String) (tid0 : Nat)
    (h : IndirectMarker s m r u tr.tid val) (hs : s.stack = Value.udata m :: rest)
    (hu : s.udatas.get? u = some { payload := val, meta := some tB })
    (hf : tableGet s tB (Value.str "toLuaData") = Value.cfunc n tid0)
    (henv : env (Value.cfunc n tid0) = toLuaDataHook tr) :
    unbaked env s =
      (write tr { s with stack := [Value.udata u, Value.table tB, Value.table tB] } val).map
        (fun W => Except.ok { W with stack := [Value.udata m, returned W] }) := by
  have htop : lua_gettop s ≠ 0 := by simp [lua_gettop, hs]
  have hS : IndirectMarker { s with stack := [Value.udata m] } m r u tr.tid val :=
    ⟨h.ok.ok_of_fields rfl rfl rfl rfl rfl rfl, h.marker, h.slot, h.object, h.pending⟩
  have hvS : stackAt { s with stack := [Value.udata m] }
      (lua_absindex { s with stack := [Value.udata m] } 1) = some (Value.udata m) := by
    rw [lua_absindex_one]
    exact stackAt_one _ _ [] rfl
  have hd := dataDispatch_indirect_fix _ 1 m r u tr.tid val hS hvS
  obtain ⟨tI, rI, hud, _, _⟩ := h.marker
  obtain ⟨tB1, rB, hu1, hB, hrB⟩ := h.object
  have htB : tB1 = tB := by
    rw [hu] at hu1
    have := Option.some.inj hu1
    simpa using (congrArg UData.meta this).symm
  subst htB
  unfold unbaked
  rw [if_neg htop, lua_settop_one s _ rest hs, hd]
  simp only [toLuaData]
  rw [readRef_top { s with stack := [Value.udata m] } [] m r (some tI) rfl hud]
  simp only []
  have hS1 : lua_rawgeti_registry { s with stack := [Value.udata m] } r =
      { s with stack := [Value.udata m, Value.udata u] } := by
    unfold lua_rawgeti_registry
    rw [registryGet_of_lookup _ r _ hS.slot]
    rfl
  rw [hS1, BakedData_toLuaData_eq env tr { s with stack := [Value.udata m, Value.udata u] }
    [Value.udata m] u val tB1 rB n tid0 rfl hu hB hrB hf henv]
  have hC : ({ ({ s with stack := [Value.udata m, Value.udata u] } : LuaState) with
      stack := [Value.udata u, Value.table tB1, Value.table tB1] } : LuaState) =
      { s with stack := [Value.udata u, Value.table tB1, Value.table tB1] } := rfl
  rw [hC]
  cases write tr { s with stack := [Value.udata u, Value.table tB1, Value.table tB1] } val with
  | none => rfl
  | some W =>
    simp only [Option.map_some']
    rw [lua_remove_second _ [Value.udata m] (Value.udata u) (returned W) rfl]
    rfl

theorem table_get?_lt (a b : List Table) (i : Nat) (hi : i < a.length)
    (h : b.get? i = a.get? i) : i < b.length := by
  by_contra hc
  rw [List.get?_eq_getElem?, List.get?_eq_getElem?, List.getElem?_eq_none (by omega),
    List.getElem?_eq_getElem hi] at h
  exact absurd h (by simp)

/-- Marking a Dynamic value without hook and unbaking the marker at once gives
the value back, with every table as it was; unbaking that result fails. -/
theorem unbaked_markedForBaking (env : CFuncs) (s : LuaState) (v : Value) (rest : List Value)
    (ok : MetatablesOk s) (hs : s.stack = v :: rest) (hd : ∀ u, v ≠ Value.udata u)
    (hh : bakingHook s v = none) (hv : v ≠ Value.nil) :
    ∃ T T2, markedForBaking env s = some (Except.ok T) ∧
      unbaked env { T with stack := [returned T] } = some (Except.ok T2) ∧
      returned T2 = v ∧
      (∀ i, i < s.tables.length → T2.tables.get? i = s.tables.get? i) ∧
      unbaked env { T2 with stack := [returned T2] } =
        some (Except.error "Can't convert LuaData to LuaData.") := by
  have okS : MetatablesOk { s with stack := [v] } := ok.ok_of_fields rfl rfl rfl rfl rfl rfl
  rw [markedForBaking_dynamic env s v rest hs hd,
    LuaData_toBakedData_nohook env { s with stack := [v] } v rfl hh]
  obtain ⟨T, hT, h1, h2, h3, h4, h5, h6⟩ :=
    pendingTail_spec { s with stack := [v] } v rfl hv hd okS
  rw [hT]
  have hr : returned T = Value.udata s.udatas.length := returned_top T [v] _ h1
  have hm : PendingMarker { T with stack := [returned T] } s.udatas.length
      (freshRef s.registry) v := h2.marker_of_fields rfl rfl rfl rfl rfl rfl
  obtain ⟨T2, e2, _, hr2, _, g2, _⟩ := unbaked_pending env { T with stack := [returned T] }
    s.udatas.length (freshRef s.registry) v [] hm (by rw [hr])
  refine ⟨T, T2, rfl, e2, hr2, ?_, ?_⟩
  · intro i hi
    have hiT : i < T.tables.length := table_get?_lt _ _ i hi (h5 i hi)
    rw [g2.tables i hiT]
    exact h5 i hi
  · exact unbaked_dynamic env _ v [] (by rw [hr2]) hd

/-- What `unbaked(v)` does, `v` the first argument, on a well-formed registry
(the general behaviour behind C15).  It raises an error when `v` is Dynamic.  For a pending marker it returns the value
of the marker's slot, which is Dynamic.  For a baked object, and for an indirect
marker of one, whose metatable holds the function `toLuaData` of the type `T`,
it returns what `LuaStrap::write<T>` pushes for the object (a Dynamic value
when that is not a userdata) and does not return when `write` does not.
Marking a Dynamic, non-nil value without hook and unbaking the result at once
returns the value itself with all tables as they were, and unbaking that result
raises the error. -/
theorem unbaked_spec (env : CFuncs) (s : LuaState) (v : Value) (rest : List Value)
    (ok : MetatablesOk s) (hs : s.stack = v :: rest) :
    (classifyByTable s v = DataState.Dynamic →
      unbaked env s = some (Except.error "Can't convert LuaData to LuaData.")) ∧
    (∀ m r d, v = Value.udata m → PendingMarker s m r d →
      ∃ T, unbaked env s = some (Except.ok T) ∧ returned T = d ∧
        classifyByTable T (returned T) = DataState.Dynamic) ∧
    (∀ (tr : Traits) (u : Nat) (val : NVal) (tB : Nat) (rB : Int) (n : String) (tid0 : Nat),
      v = Value.udata u → s.udatas.get? u = some { payload := val, meta := some tB } →
      s.bakedRefs.lookup tr.tid = some rB → s.registry.lookup rB = some (Value.table tB) →
      tableGet s tB (Value.str "toLuaData") = Value.cfunc n tid0 →
      env (Value.cfunc n tid0) = toLuaDataHook tr →
      classifyByTable s v = DataState.Baked ∧
      (write tr { (dataDispatch { s with stack := [Value.udata u] } 1).2 with
          stack := [Value.udata u, Value.table tB, Value.table tB] } val = none →
        unbaked env s = none) ∧
      (∀ W, write tr { (dataDispatch { s with stack := [Value.udata u] } 1).2 with
          stack := [Value.udata u, Value.table tB, Value.table tB] } val = some W →
        ∃ T, unbaked env s = some (Except.ok T) ∧ returned T = returned W ∧
          ((∀ x, returned W ≠ Value.udata x) →
            classifyByTable T (returned T) = DataState.Dynamic))) ∧
    (∀ (tr : Traits) (m : Nat) (r : Int) (u : Nat) (val : NVal) (tB : Nat) (n : String)
      (tid0 : Nat),
      v = Value.udata m → IndirectMarker s m r u tr.tid val →
      s.udatas.get? u = some { payload := val, meta := some tB } →
      tableGet s tB (Value.str "toLuaData") = Value.cfunc n tid0 →
      env (Value.cfunc n tid0) = toLuaDataHook tr →
      (write tr { s with stack := [Value.udata u, Value.table tB, Value.table tB] } val = none →
        unbaked env s = none) ∧
      (∀ W, write tr { s with stack := [Value.udata u, Value.table tB, Value.table tB] } val =
          some W →
        ∃ T, unbaked env s = some (Except.ok T) ∧ returned T = returned W ∧
          ((∀ x, returned W ≠ Value.udata x) →
            classifyByTable T (returned T) = DataState.Dynamic))) ∧
    (classifyByTable s v = DataState.Dynamic → bakingHook s v = none → v ≠ Value.nil →
      ∃ T T2, markedForBaking env s = some (Except.ok T) ∧
        unbaked env { T with stack := [returned T] } = some (Except.ok T2) ∧
        returned T2 = v ∧
        (∀ i, i < s.tables.length → T2.tables.get? i = s.tables.get? i) ∧
        unbaked env { T2 with stack := [returned T2] } =
          some (Except.error "Can't convert LuaData to LuaData.")) := by
  refine ⟨?_, ?_, ?_, ?_, ?_⟩
  · intro hd
    exact unbaked_dynamic env s v rest hs ((classifyByTable_dynamic_iff s v).1 hd)
  · intro m r d hv hm
    subst hv
    obtain ⟨T, e, _, hr, hc, _, _⟩ := unbaked_pending env s m r d rest hm hs
    exact ⟨T, e, hr, by rw [hr]; exact hc⟩
  · intro tr u val tB rB n tid0 hv hu hB hrB hf henv
    subst hv
    have he := unbaked_baked env tr s rest u val tB rB n tid0 ok hs hu hB hrB hf henv
    refine ⟨classify_baked tr.tid s u val tB rB ok hu hB hrB, ?_, ?_⟩
    · intro hw
      rw [he, hw]
      rfl
    · intro W hw
      rw [he, hw]
      refine ⟨_, rfl, returned_top _ [Value.udata u] _ rfl, ?_⟩
      intro hx
      exact (classifyByTable_dynamic_iff _ _).2 (by
        rw [returned_top _ [Value.udata u] _ rfl]
        exact hx)
  · intro tr m r u val tB n tid0 hv hm hu hf henv
    subst hv
    have he := unbaked_indirect env tr s rest m r u val tB n tid0 hm hs hu hf henv
    constructor
    · intro hw
      rw [he, hw]
      rfl
    · intro W hw
      rw [he, hw]
      refine ⟨_, rfl, returned_top _ [Value.udata m] _ rfl, ?_⟩
      intro hx
      exact (classifyByTable_dynamic_iff _ _).2 (by
        rw [returned_top _ [Value.udata m] _ rfl]
        exact hx)
  · intro hd hh hv
    exact unbaked_markedForBaking env s v rest ok hs ((classifyByTable_dynamic_iff s v).1 hd)
      hh hv

theorem unbaked_spec_witness :
    MetatablesOk markerOnTop ∧ PendingMarker markerOnTop 0 3 (Value.int 5) ∧
    ∃ T, unbaked (hooksOf []) markerOnTop = some (Except.ok T) ∧ returned T = Value.int 5 ∧
      classifyByTable T (returned T) = DataState.Dynamic :=
  ⟨markerOnTop_marker.ok, markerOnTop_marker,
    (unbaked_spec (hooksOf []) markerOnTop (Value.udata 0) [] markerOnTop_marker.ok rfl).2.1
      0 3 (Value.int 5) rfl markerOnTop_marker⟩

/-- C15 (the code at the failing input): `unbaked(b)`, where `b` is what
`makeBakedData<std::optional<int>, int>(5, ls)` pushed.  The argument classifies
as Baked and its type is writable (`LuaWritable`), so `unbaked` should return a
Dynamic value; but the function `toLuaData` of the metatable ends in `write` of
the engaged optional, which calls itself without end, and `unbaked` does not
return. -/
theorem unbaked_baked_optional_diverges :
    bakedOptional.stack = [Value.udata 0] ∧
    classifyByTable bakedOptional (Value.udata 0) = DataState.Baked ∧
    LuaWritable optIntTraits = true ∧
    unbaked (hooksOf [optIntTraits]) bakedOptional = none :=
  ⟨rfl, rfl, rfl, rfl⟩

/-! ## Properties: text and optional values -/

theorem cString_of_no_zero (s : String) (h : ∀ c ∈ s.data, c ≠ Char.ofNat 0) : cString s = s := by
  unfold cString
  have : s.data.takeWhile (fun c => c != Char.ofNat 0) = s.data := by
    rw [List.takeWhile_eq_self_iff]
    intro c hc
    simpa using h c hc
  rw [this]

theorem stringTraits_write_read (st : LuaState) (s : String) :
    write stringTraits st (NVal.str s) = some (pushValue st (Value.str (cString s))) ∧
    read stringTraits (pushValue st (Value.str (cString s))) (-1) =
      some (some (NVal.str (cString (cString s))), pushValue st (Value.str (cString s))) := by
  refine ⟨rfl, ?_⟩
  unfold read
  simp only [stringTraits, (stackAt_top1 (pushValue st (Value.str (cString s))) st.stack _ rfl).1]

/-- C17: what `read` returns for the value that `write(s)` pushed is the part
of `s` before its first zero byte, for every string `s` and state; it is `s`
when `s` contains no zero byte, and for the two-byte-plus string `"a\0b"` it is
`"a"`, which differs from the string written. -/
theorem string_roundtrip_truncates (st : LuaState) (s : String) :
    (∃ st1, write stringTraits st (NVal.str s) = some st1 ∧
      st1.stack = st.stack ++ [Value.str (cString s)] ∧
      read stringTraits st1 (-1) = some (some (NVal.str (cString s)), st1)) ∧
    ((∀ c ∈ s.data, c ≠ Char.ofNat 0) → cString s = s) ∧
    (∃ st1, write stringTraits st (NVal.str "a\x00b") = some st1 ∧
      read stringTraits st1 (-1) = some (some (NVal.str "a"), st1)) ∧
    "a" ≠ "a\x00b" := by
  have hcc : ∀ t : String, cString (cString t) = cString t := by
    intro t
    apply cString_of_no_zero
    intro c hc
    have : c ∈ t.data.takeWhile (fun c => c != Char.ofNat 0) := hc
    have := List.mem_takeWhile_imp this
    simpa using this
  refine ⟨?_, cString_of_no_zero s, ?_, by decide⟩
  · obtain ⟨h1, h2⟩ := stringTraits_write_read st s
    exact ⟨_, h1, rfl, by rw [h2, hcc]⟩
  · obtain ⟨h1, h2⟩ := stringTraits_write_read st "a\x00b"
    have e : cString "a\x00b" = "a" := by decide
    rw [e] at h1 h2
    have e2 : cString "a" = "a" := by decide
    rw [e2] at h2
    exact ⟨_, h1, h2⟩

theorem optionalWriteCalls_engaged (s : LuaState) (x : NVal) :
    ∀ fuel, optionalWriteCalls fuel s (NVal.opt (some x)) = none := by
  intro fuel
  induction fuel with
  | zero => rfl
  | succ n ih => simpa [optionalWriteCalls] using ih

/-- C18: `Traits<std::optional<Val>>::write` of an engaged optional does not
terminate: however many calls are unrolled, the chain has not ended, and the
trait function returns nothing; no `emplace` is available for the optional.
Only the empty optional is written (as nil), and it reads back as the empty
optional. -/
theorem optional_write_engaged_diverges (val : Traits) (tid : Nat) (s : LuaState) (x : NVal) :
    (∀ fuel, optionalWriteCalls fuel s (NVal.opt (some x)) = none) ∧
    write (optionalTraits val tid) s (NVal.opt (some x)) = none ∧
    (optionalTraits val tid).emplace = none ∧
    emplace (optionalTraits val tid) s (NVal.opt (some x)) (-1) = none ∧
    write (optionalTraits val tid) s (NVal.opt none) = some (pushValue s Value.nil) ∧
    optionalWriteCalls 1 s (NVal.opt none) = some (pushValue s Value.nil) ∧
    read (optionalTraits val tid) (pushValue s Value.nil) (-1) =
      some (some (NVal.opt none), pushValue s Value.nil) := by
  refine ⟨optionalWriteCalls_engaged s x, rfl, rfl, rfl, rfl, rfl, ?_⟩
  unfold read
  have h1 := (stackAt_top1 (pushValue s Value.nil) s.stack _ rfl).1
  have h2 : lua_isnil (pushValue s Value.nil) ((lua_absindex (pushValue s Value.nil) (-1) : Nat) : Int)
      = true := by
    unfold lua_isnil
    rw [lua_absindex_natCast _ _ (stackAt_ne_zero _ _ _ h1), h1]
  simp only [optionalTraits, h2, if_true]

/-! ## Properties: stack depth of the container reads -/

/-- C19 (a failing input): on the table `{ 1, "x" }` at index 1, the reads of
`std::complex<double>`, of `std::map<int, int>` and the helper `readArrayUpTo<int>`
with capacity 1 all return empty (or -1) and leave the stack deeper than they
found it: by two slots, by one slot (the key of the entry that failed) and by
one slot (the element past the capacity); the read of `std::array<int, 1>` then
fails its assertion on the stack depth. -/
theorem container_reads_leave_pushes :
    lua_gettop mixedTable = 1 ∧
    ((complexTraits (fun _ => none) 7).read.bind (fun rd => rd mixedTable 1)).map
        (fun r => (r.1.isSome, lua_gettop r.2)) = some (false, 3) ∧
    ((mapTraits intTraits intTraits (fun a b => decide (a.toInt < b.toInt)) 8).read.bind
        (fun rd => rd mixedTable 1)).map
        (fun r => (r.1.isSome, lua_gettop r.2)) = some (false, 2) ∧
    (readArrayUpTo intTraits mixedTable 1 1).map
        (fun r => (r.1, lua_gettop r.2.2)) = some (-1, 2) ∧
    ((arrayTraits intTraits 1 9).read.bind (fun rd => rd mixedTable 1)).isNone = true := by
  refine ⟨rfl, ?_, ?_, ?_, ?_⟩ <;> decide

/-! ## Properties: reading a map -/

theorem mapInsert_none_iff (lt : NVal → NVal → Bool) (K : NVal → Prop)
    (hirr : ∀ a, K a → lt a a = false)
    (htrans : ∀ a b c, K a → K b → K c → lt a b = true → lt b c = true → lt a c = true)
    (htri : ∀ a b, K a → K b → lt a b = false → lt b a = false → a = b)
    (k v : NVal) (hk : K k) :
    ∀ acc : List (NVal × NVal), (∀ a ∈ acc, K a.1) →
      acc.Pairwise (fun a b => lt a.1 b.1 = true) →
      (mapInsert lt k v acc = none ↔ ∃ a ∈ acc, a.1 = k) := by
  intro acc
  induction acc with
  | nil => intro _ _; simp [mapInsert]
  | cons hd rest ih =>
      obtain ⟨k1, v1⟩ := hd
      intro hK hs
      have hk1 : K k1 := hK (k1, v1) (List.mem_cons_self _ _)
      have hKr : ∀ a ∈ rest, K a.1 := fun a ha => hK a (List.mem_cons_of_mem _ ha)
      rw [List.pairwise_cons] at hs
      have ihr := ih hKr hs.2
      unfold mapInsert
      by_cases h1 : lt k k1 = true
      · rw [if_pos h1]
        constructor
        · intro h; cases h
        · rintro ⟨a, ha, hak⟩
          exfalso
          have hkk := hirr k hk
          rcases List.mem_cons.mp ha with e | hr
          · subst e
            simp only at hak
            rw [hak] at h1
            rw [h1] at hkk
            cases hkk
          · have h2 := hs.1 a hr
            simp only at h2
            rw [hak] at h2
            have := htrans k k1 k hk hk1 hk h1 h2
            rw [this] at hkk
            cases hkk
      · rw [if_neg h1]
        by_cases h2 : lt k1 k = true
        · rw [if_pos h2]
          rw [Option.map_eq_none', ihr]
          constructor
          · rintro ⟨a, ha, hak⟩
            exact ⟨a, List.mem_cons_of_mem _ ha, hak⟩
          · rintro ⟨a, ha, hak⟩
            rcases List.mem_cons.mp ha with e | hr
            · exfalso
              subst e
              simp only at hak
              rw [hak] at h2
              have hkk := hirr k hk
              rw [h2] at hkk
              cases hkk
            · exact ⟨a, hr, hak⟩
        · rw [if_neg h2]
          constructor
          · intro _
            refine ⟨(k1, v1), List.mem_cons_self _ _, ?_⟩
            exact htri k1 k hk1 hk (by simpa using h2) (by simpa using h1)
          · intro _; rfl

theorem mapInsert_some (lt : NVal → NVal → Bool) (K : NVal → Prop)
    (htrans : ∀ a b c, K a → K b → K c → lt a b = true → lt b c = true → lt a c = true)
    (k v : NVal) (hk : K k) :
    ∀ (acc r : List (NVal × NVal)), (∀ a ∈ acc, K a.1) →
      acc.Pairwise (fun a b => lt a.1 b.1 = true) →
      mapInsert lt k v acc = some r →
      r.Perm ((k, v) :: acc) ∧ r.Pairwise (fun a b => lt a.1 b.1 = true) := by
  intro acc
  induction acc with
  | nil =>
      intro r _ _ h
      simp only [mapInsert, Option.some.injEq] at h
      subst h
      exact ⟨List.Perm.refl _, List.pairwise_singleton _ _⟩
  | cons hd rest ih =>
      obtain ⟨k1, v1⟩ := hd
      intro r hK hs h
      have hk1 : K k1 := hK (k1, v1) (List.mem_cons_self _ _)
      have hKr : ∀ a ∈ rest, K a.1 := fun a ha => hK a (List.mem_cons_of_mem _ ha)
      have hs0 := hs
      rw [List.pairwise_cons] at hs
      unfold mapInsert at h
      by_cases h1 : lt k k1 = true
      · rw [if_pos h1] at h
        have e := Option.some.inj h
        subst e
        refine ⟨List.Perm.refl _, ?_⟩
        rw [List.pairwise_cons]
        refine ⟨?_, hs0⟩
        intro a ha
        rcases List.mem_cons.mp ha with e | hr
        · subst e; exact h1
        · exact htrans k k1 a.1 hk hk1 (hKr a hr) h1 (hs.1 a hr)
      · rw [if_neg h1] at h
        by_cases h2 : lt k1 k = true
        · rw [if_pos h2] at h
          rcases hm : mapInsert lt k v rest with _ | r1
          · rw [hm] at h; cases h
          · rw [hm] at h
            have e := Option.some.inj h
            subst e
            obtain ⟨hp, hsr⟩ := ih r1 hKr hs.2 hm
            constructor
            · exact (List.Perm.cons _ hp).trans (List.Perm.swap _ _ _)
            · rw [List.pairwise_cons]
              refine ⟨?_, hsr⟩
              intro a ha
              rcases List.mem_cons.mp (hp.mem_iff.mp ha) with e | hr
              · subst e; exact h2
              · exact hs.1 a hr
        · rw [if_neg h2] at h
          cases h

theorem readNoPush_decodes (tr : Traits) (dec : List Table → Value → Option NVal)
    (h : Decodes tr dec) (s : LuaState) (i : Int) (v : Value)
    (hv : stackAt s (lua_absindex s i) = some v) :
    readNoPush tr s i = some (dec s.tables v, s) := by
  obtain ⟨rd, hrd, hd⟩ := h
  unfold readNoPush
  rw [hrd]
  simp only [hd s _ v hv, if_true]

theorem read_decodes (tr : Traits) (dec : List Table → Value → Option NVal)
    (h : Decodes tr dec) (s : LuaState) (i : Int) (v : Value)
    (hv : stackAt s (lua_absindex s i) = some v) :
    read tr s i = some (dec s.tables v, s) := by
  obtain ⟨rd, hrd, hd⟩ := h
  unfold read
  rw [hrd]
  simp only [hd s _ v hv]

theorem sorted_keys_nodup (lt : NVal → NVal → Bool) (K : NVal → Prop)
    (hirr : ∀ a, K a → lt a a = false) :
    ∀ acc : List (NVal × NVal), (∀ a ∈ acc, K a.1) →
      acc.Pairwise (fun a b => lt a.1 b.1 = true) →
      (acc.map (fun a => some a.1)).Nodup := by
  intro acc
  induction acc with
  | nil => intro _ _; simp
  | cons hd rest ih =>
      intro hK hs
      rw [List.pairwise_cons] at hs
      rw [List.map_cons, List.nodup_cons]
      refine ⟨?_, ih (fun a ha => hK a (List.mem_cons_of_mem _ ha)) hs.2⟩
      intro hmem
      obtain ⟨a, ha, e⟩ := List.mem_map.mp hmem
      have e1 : a.1 = hd.1 := Option.some.inj e
      have h1 := hs.1 a ha
      rw [e1] at h1
      have h2 := hirr hd.1 (hK hd (List.mem_cons_self _ _))
      rw [h1] at h2
      cases h2

theorem mapReadLoop_spec (key val : Traits) (lt : NVal → NVal → Bool)
    (decK decV : List Table → Value → Option NVal) (K : NVal → Prop)
    (hKd : Decodes key decK) (hVd : Decodes val decV)
    (hrange : ∀ t v a, decK t v = some a → K a)
    (hirr : ∀ a, K a → lt a a = false)
    (htrans : ∀ a b c, K a → K b → K c → lt a b = true → lt b c = true → lt a c = true)
    (htri : ∀ a b, K a → K b → lt a b = false → lt b a = false → a = b)
    (s : LuaState) :
    ∀ (es : List (Value × Value)) (acc : List (NVal × NVal)), (∀ a ∈ acc, K a.1) →
      acc.Pairwise (fun a b => lt a.1 b.1 = true) →
      ∃ r s1, mapReadLoop key val lt es acc s = some (r, s1) ∧
        (r = none ↔ ((∃ e ∈ es, decK s.tables e.1 = none) ∨ (∃ e ∈ es, decV s.tables e.2 = none) ∨
            ¬ (acc.map (fun a => some a.1) ++ es.map (fun e => decK s.tables e.1)).Nodup)) ∧
        (∀ m, r = some m → s1 = s ∧ m.Pairwise (fun a b => lt a.1 b.1 = true) ∧
            m.Perm (acc ++ es.map (fun e =>
              ((decK s.tables e.1).getD NVal.unit, (decV s.tables e.2).getD NVal.unit)))) := by
  intro es
  induction es with
  | nil =>
      intro acc hK hs
      refine ⟨some acc, s, rfl, ?_, ?_⟩
      · constructor
        · intro h; cases h
        · rintro (⟨e, he, _⟩ | ⟨e, he, _⟩ | h)
          · cases he
          · cases he
          · exfalso
            apply h
            simpa using sorted_keys_nodup lt K hirr acc hK hs
      · intro m hm
        have e := Option.some.inj hm
        subst e
        exact ⟨rfl, hs, by simp⟩
  | cons hd rest ih =>
      obtain ⟨k, v⟩ := hd
      intro acc hK hs
      have hst : (pushValue (pushValue s k) v).stack = s.stack ++ [k, v] := by
        simp [pushValue]
      obtain ⟨t2, t1, _⟩ := stackAt_top2 _ s.stack k v hst
      have r1 := readNoPush_decodes key decK hKd (pushValue (pushValue s k) v) (-2) k t2
      have r2 := readNoPush_decodes val decV hVd (pushValue (pushValue s k) v) (-1) v t1
      have htab : (pushValue (pushValue s k) v).tables = s.tables := rfl
      rw [htab] at r1 r2
      have hpop1 : lua_pop (pushValue (pushValue s k) v) 1 = pushValue s k :=
        lua_pop_pushValue _ _
      rcases hdk : decK s.tables k with _ | kk
      · rw [hdk] at r1
        have hunf : mapReadLoop key val lt ((k, v) :: rest) acc s = some (none, pushValue s k) := by
          rw [mapReadLoop]
          simp only [r1, r2, hpop1]
        refine ⟨none, pushValue s k, hunf, ?_, ?_⟩
        · constructor
          · intro _; exact Or.inl ⟨(k, v), List.mem_cons_self _ _, hdk⟩
          · intro _; rfl
        · intro m hm; cases hm
      · rw [hdk] at r1
        rcases hdv : decV s.tables v with _ | vv
        · rw [hdv] at r2
          have hunf : mapReadLoop key val lt ((k, v) :: rest) acc s =
              some (none, pushValue s k) := by
            rw [mapReadLoop]
            simp only [r1, r2, hpop1]
          refine ⟨none, pushValue s k, hunf, ?_, ?_⟩
          · constructor
            · intro _; exact Or.inr (Or.inl ⟨(k, v), List.mem_cons_self _ _, hdv⟩)
            · intro _; rfl
          · intro m hm; cases hm
        · rw [hdv] at r2
          have hkk : K kk := hrange _ _ _ hdk
          have hnone := mapInsert_none_iff lt K hirr htrans htri kk vv hkk acc hK hs
          have hnd0 := sorted_keys_nodup lt K hirr acc hK hs
          rcases hmi : mapInsert lt kk vv acc with _ | acc1
          · have hunf : mapReadLoop key val lt ((k, v) :: rest) acc s =
                some (none, pushValue s k) := by
              rw [mapReadLoop]
              simp only [r1, r2, hpop1, hmi]
            refine ⟨none, pushValue s k, hunf, ?_, ?_⟩
            · constructor
              · intro _
                refine Or.inr (Or.inr ?_)
                obtain ⟨a, ha, hak⟩ := hnone.mp hmi
                intro hnd
                rw [List.nodup_append] at hnd
                refine hnd.2.2 (List.mem_map.mpr ⟨a, ha, rfl⟩) ?_
                rw [hak, List.map_cons]
                simp only [hdk]
                exact List.mem_cons_self _ _
              · intro _; rfl
            · intro m hm; cases hm
          · obtain ⟨hp, hs1⟩ := mapInsert_some lt K htrans kk vv hkk acc acc1 hK hs hmi
            have hK1 : ∀ a ∈ acc1, K a.1 := by
              intro a ha
              rcases List.mem_cons.mp (hp.mem_iff.mp ha) with e | hr
              · subst e; exact hkk
              · exact hK a hr
            obtain ⟨r, s1, hr, hiff, hres⟩ := ih acc1 hK1 hs1
            have hunf : mapReadLoop key val lt ((k, v) :: rest) acc s =
                mapReadLoop key val lt rest acc1 s := by
              rw [mapReadLoop]
              simp only [r1, r2, hpop1, hmi, lua_pop_pushValue]
            refine ⟨r, s1, hunf.trans hr, ?_, ?_⟩
            · have hpm : (acc1.map (fun a => some a.1)).Perm
                  (some kk :: acc.map (fun a => some a.1)) := by
                simpa using hp.map (fun a => some a.1)
              have hndiff : (acc1.map (fun a => some a.1) ++
                    rest.map (fun e => decK s.tables e.1)).Nodup ↔
                  (acc.map (fun a => some a.1) ++
                    ((k, v) :: rest).map (fun e => decK s.tables e.1)).Nodup := by
                rw [List.map_cons]
                simp only [hdk]
                rw [(List.Perm.append_right _ hpm).nodup_iff]
                rw [(@List.perm_middle _ (some kk) (acc.map (fun a => some a.1))
                  (rest.map (fun e => decK s.tables e.1))).nodup_iff]
                rfl
              rw [hiff, hndiff]
              constructor
              · rintro (⟨e, he, h⟩ | ⟨e, he, h⟩ | h)
                · exact Or.inl ⟨e, List.mem_cons_of_mem _ he, h⟩
                · exact Or.inr (Or.inl ⟨e, List.mem_cons_of_mem _ he, h⟩)
                · exact Or.inr (Or.inr h)
              · rintro (⟨e, he, h⟩ | ⟨e, he, h⟩ | h)
                · rcases List.mem_cons.mp he with e1 | hr1
                  · subst e1; simp only at h; rw [hdk] at h; cases h
                  · exact Or.inl ⟨e, hr1, h⟩
                · rcases List.mem_cons.mp he with e1 | hr1
                  · subst e1; simp only at h; rw [hdv] at h; cases h
                  · exact Or.inr (Or.inl ⟨e, hr1, h⟩)
                · exact Or.inr (Or.inr h)
            · intro m hm
              obtain ⟨a1, a2, a3⟩ := hres m hm
              refine ⟨a1, a2, a3.trans ?_⟩
              rw [List.map_cons]
              simp only [hdk, hdv, Option.getD_some]
              exact (List.Perm.append_right _ hp).trans (List.perm_middle).symm

theorem toMap_ofMap (l : List (NVal × NVal)) : (NVal.ofMap l).toMap = l := by
  unfold NVal.ofMap NVal.toMap
  simp only [NVal.toList, List.map_map]
  induction l with
  | nil => rfl
  | cons a rest ih =>
      rw [List.map_cons, ih]
      rfl

theorem intTraits_decodes : Decodes intTraits intDecode := by
  refine ⟨_, rfl, ?_⟩
  intro s idx v hv
  simp only [hv]
  cases v <;> rfl

theorem intDecode_range (t : List Table) (v : Value) (a : NVal) (h : intDecode t v = some a) :
    IsInt a := by
  cases v <;> simp only [intDecode] at h <;>
    first
    | exact ⟨_, (Option.some.inj h).symm⟩
    | cases h

theorem intLess_irrefl (a : NVal) (_ : IsInt a) : intLess a a = false := by
  simp [intLess]

theorem intLess_trans (a b c : NVal) (_ : IsInt a) (_ : IsInt b) (_ : IsInt c)
    (h1 : intLess a b = true) (h2 : intLess b c = true) : intLess a c = true := by
  simp only [intLess, decide_eq_true_eq] at *
  omega

theorem intLess_total (a b : NVal) (ha : IsInt a) (hb : IsInt b)
    (h1 : intLess a b = false) (h2 : intLess b a = false) : a = b := by
  obtain ⟨i, rfl⟩ := ha
  obtain ⟨j, rfl⟩ := hb
  simp only [intLess, NVal.toInt, decide_eq_false_iff_not, not_lt] at h1 h2
  rw [le_antisymm h2 h1]

/-- C20: when `Key` and `Val` decode purely and `std::less<Key>` is a strict
total order on the decoded keys, reading the value at an index as
`std::map<Key, Val>` returns; it returns empty exactly when the value is not a
table, or a key of the table does not decode as `Key`, or a value does not
decode as `Val`, or two distinct keys of the table decode to equal native keys;
otherwise the stack is as before and the map holds exactly one entry
`(decode k, decode v)` per table entry `(k, v)`, in ascending key order, so its
size is the number of table entries. -/
theorem map_read_spec (key val : Traits) (keyLt : NVal → NVal → Bool) (tid : Nat)
    (decK decV : List Table → Value → Option NVal) (K : NVal → Prop)
    (hKd : Decodes key decK) (hVd : Decodes val decV)
    (hrange : ∀ t v a, decK t v = some a → K a)
    (hirr : ∀ a, K a → keyLt a a = false)
    (htrans : ∀ a b c, K a → K b → K c → keyLt a b = true → keyLt b c = true →
      keyLt a c = true)
    (htri : ∀ a b, K a → K b → keyLt a b = false → keyLt b a = false → a = b)
    (s : LuaState) (i : Int)
    (hkeys : ((tableEntriesAt s (lua_absindex s i)).map Prod.fst).Nodup) :
    ∃ r s1, read (mapTraits key val keyLt tid) s i = some (r, s1) ∧
      (r = none ↔
        (lua_istable s (lua_absindex s i) = false ∨
         (∃ e ∈ tableEntriesAt s (lua_absindex s i), decK s.tables e.1 = none) ∨
         (∃ e ∈ tableEntriesAt s (lua_absindex s i), decV s.tables e.2 = none) ∨
         (∃ e1 ∈ tableEntriesAt s (lua_absindex s i),
            ∃ e2 ∈ tableEntriesAt s (lua_absindex s i),
              e1.1 ≠ e2.1 ∧ decK s.tables e1.1 = decK s.tables e2.1))) ∧
      (∀ m, r = some m →
        s1 = s ∧ m = NVal.ofMap m.toMap ∧
        m.toMap.Perm ((tableEntriesAt s (lua_absindex s i)).map (fun e =>
          ((decK s.tables e.1).getD NVal.unit, (decV s.tables e.2).getD NVal.unit))) ∧
        m.toMap.length = (tableEntriesAt s (lua_absindex s i)).length ∧
        m.toMap.Pairwise (fun a b => keyLt a.1 b.1 = true)) := by
  generalize hes : tableEntriesAt s (lua_absindex s i) = es at hkeys
  have hread : read (mapTraits key val keyLt tid) s i =
      (if !lua_istable s (lua_absindex s i) then some (none, s)
       else (mapReadLoop key val keyLt es [] s).bind
         (fun p => some (p.1.map NVal.ofMap, p.2))) := by
    unfold read mapTraits
    simp only [hes]
    split
    · rfl
    · rcases mapReadLoop key val keyLt es [] s with _ | ⟨r, s1⟩ <;> rfl
  rw [hread]
  rcases htb : lua_istable s (lua_absindex s i) with _ | _
  · have hnil : es = [] := by
      rw [← hes]
      unfold tableEntriesAt
      unfold lua_istable at htb
      rcases hv : stackAt s (lua_absindex s i) with _ | v
      · rfl
      · rw [hv] at htb
        cases v <;> first | rfl | cases htb
    refine ⟨none, s, by simp, ?_, ?_⟩
    · constructor
      · intro _; exact Or.inl rfl
      · intro _; rfl
    · intro m hm; cases hm
  · obtain ⟨r, s1, hl, hiff, hres⟩ :=
      mapReadLoop_spec key val keyLt decK decV K hKd hVd hrange hirr htrans htri s es []
        (fun a ha => by cases ha) List.Pairwise.nil
    refine ⟨r.map NVal.ofMap, s1, by simp [hl], ?_, ?_⟩
    · rw [Option.map_eq_none', hiff]
      simp only [List.map_nil, List.nil_append, Bool.true_eq_false, false_or]
      have hdup : ¬ (es.map (fun e => decK s.tables e.1)).Nodup ↔
          ∃ e1 ∈ es, ∃ e2 ∈ es, e1.1 ≠ e2.1 ∧ decK s.tables e1.1 = decK s.tables e2.1 := by
        constructor
        · intro hnd
          by_contra hno
          apply hnd
          have e : es.map (fun e => decK s.tables e.1) =
              (es.map Prod.fst).map (decK s.tables) := by
            rw [List.map_map]; rfl
          rw [e]
          refine List.Nodup.map_on ?_ hkeys
          intro x hx y hy hxy
          obtain ⟨e1, he1, rfl⟩ := List.mem_map.mp hx
          obtain ⟨e2, he2, rfl⟩ := List.mem_map.mp hy
          by_contra hne
          exact hno ⟨e1, he1, e2, he2, hne, hxy⟩
        · rintro ⟨e1, he1, e2, he2, hne, heq⟩ hnd
          have := List.inj_on_of_nodup_map hnd he1 he2 heq
          exact hne (by rw [this])
      rw [hdup]
    · intro m hm
      rcases r with _ | l
      · cases hm
      · have e : NVal.ofMap l = m := Option.some.inj hm
        obtain ⟨a1, a2, a3⟩ := hres l rfl
        rw [← e, toMap_ofMap]
        rw [List.nil_append] at a3
        refine ⟨a1, rfl, a3, ?_, a2⟩
        rw [a3.length_eq, List.length_map]

theorem map_read_spec_witness :
    ((tableEntriesAt vecState (lua_absindex vecState 1)).map Prod.fst).Nodup ∧
    ∃ r s1, read (mapTraits intTraits intTraits intLess 8) vecState 1 = some (r, s1) ∧
      (r = none ↔
        (lua_istable vecState (lua_absindex vecState 1) = false ∨
         (∃ e ∈ tableEntriesAt vecState (lua_absindex vecState 1),
            intDecode vecState.tables e.1 = none) ∨
         (∃ e ∈ tableEntriesAt vecState (lua_absindex vecState 1),
            intDecode vecState.tables e.2 = none) ∨
         (∃ e1 ∈ tableEntriesAt vecState (lua_absindex vecState 1),
            ∃ e2 ∈ tableEntriesAt vecState (lua_absindex vecState 1),
              e1.1 ≠ e2.1 ∧ intDecode vecState.tables e1.1 = intDecode vecState.tables e2.1))) ∧
      (∀ m, r = some m →
        s1 = vecState ∧ m = NVal.ofMap m.toMap ∧
        m.toMap.Perm ((tableEntriesAt vecState (lua_absindex vecState 1)).map (fun e =>
          ((intDecode vecState.tables e.1).getD NVal.unit,
           (intDecode vecState.tables e.2).getD NVal.unit))) ∧
        m.toMap.length = (tableEntriesAt vecState (lua_absindex vecState 1)).length ∧
        m.toMap.Pairwise (fun a b => intLess a.1 b.1 = true)) :=
  ⟨by decide,
    map_read_spec intTraits intTraits intLess 8 intDecode intDecode IsInt
      intTraits_decodes intTraits_decodes intDecode_range intLess_irrefl intLess_trans
      intLess_total vecState 1 (by decide)⟩

/-! ## Properties: the round trip of integer-based values -/

theorem wrap_signed_roundtrip (bits : Nat) (i : Int) (h1 : 1 ≤ bits) (h2 : bits ≤ 64)
    (hlo : -(2 : Int) ^ (bits - 1) ≤ i) (hhi : i < 2 ^ (bits - 1)) :
    (((i + 2 ^ 63) % 2 ^ 64 - 2 ^ 63) + 2 ^ (bits - 1)) % 2 ^ bits - 2 ^ (bits - 1) = i := by
  have hb : (2 : Int) ^ bits = 2 * 2 ^ (bits - 1) := by
    rw [← pow_succ']
    congr 1
    omega
  have hle : (2 : Int) ^ (bits - 1) ≤ 2 ^ 63 :=
    pow_le_pow_right₀ (by norm_num) (by omega)
  have hpos : (0 : Int) < 2 ^ (bits - 1) := by positivity
  have e1 : (i + 2 ^ 63) % 2 ^ 64 = i + 2 ^ 63 := by
    apply Int.emod_eq_of_lt
    · omega
    · have : (2 : Int) ^ 64 = 2 ^ 63 + 2 ^ 63 := by norm_num
      omega
  rw [e1]
  have e2 : (i + 2 ^ 63 - 2 ^ 63 + 2 ^ (bits - 1)) % 2 ^ bits = i + 2 ^ (bits - 1) := by
    rw [Int.add_sub_cancel]
    apply Int.emod_eq_of_lt
    · omega
    · rw [hb]; omega
  rw [e2]
  omega

theorem wrap_unsigned_roundtrip (bits : Nat) (i : Int) (h2 : bits ≤ 64)
    (hlo : 0 ≤ i) (hhi : i < 2 ^ bits) :
    ((i + 2 ^ 63) % 2 ^ 64 - 2 ^ 63) % 2 ^ bits = i := by
  have hdvd : (2 : Int) ^ bits ∣ 2 ^ 64 := pow_dvd_pow 2 h2
  have hw : (i + 2 ^ 63) % 2 ^ 64 - 2 ^ 63 = i - 2 ^ 64 * ((i + 2 ^ 63) / 2 ^ 64) := by
    rw [Int.emod_def]
    ring
  rw [hw]
  obtain ⟨c, hc⟩ := hdvd
  rw [hc, mul_assoc, Int.sub_emod, Int.mul_emod_right, sub_zero, Int.emod_emod]
  exact Int.emod_eq_of_lt hlo hhi

theorem roundTrips_integral (bits : Nat) (signed : Bool) (tid : Nat) (i : Int)
    (h1 : 1 ≤ bits) (h2 : bits ≤ 64)
    (hr : if signed then -(2 : Int) ^ (bits - 1) ≤ i ∧ i < 2 ^ (bits - 1)
          else 0 ≤ i ∧ i < 2 ^ bits) :
    RoundTrips (integralTraits bits signed tid) (NVal.int i) := by
  intro s
  refine ⟨Value.int ((i + 2 ^ 63) % 2 ^ 64 - 2 ^ 63), [], ?_, rfl, ?_⟩
  · simp [write, integralTraits, pushValue, LuaState.setHeap, NVal.toInt]
  · intro T1 _ t idx _ hx
    refine ⟨_, rfl, ?_⟩
    simp only [hx]
    cases signed
    · simp only [Bool.false_eq_true, if_false] at hr ⊢
      rw [wrap_unsigned_roundtrip bits i h2 hr.1 hr.2]
    · simp only [if_true] at hr ⊢
      rw [wrap_signed_roundtrip bits i h1 h2 hr.1 hr.2]

theorem roundTrips_bool (b : Bool) : RoundTrips boolTraits (NVal.bool b) := by
  intro s
  refine ⟨Value.bool b, [], ?_, rfl, ?_⟩
  · simp [write, boolTraits, pushValue, LuaState.setHeap]
  · intro T1 _ t idx _ hx
    refine ⟨_, rfl, ?_⟩
    simp only [hx]

theorem seqEntries_append (ys : List Value) (x : Value) :
    seqEntries (ys ++ [x]) = seqEntries ys ++ [(Value.int ((ys.length : Int) + 1), x)] := by
  unfold seqEntries
  rw [List.enum_append, List.map_append]
  rfl

theorem enumFrom_entriesGet (ys : List Value) :
    ∀ (a k : Nat), entriesGet ((ys.enumFrom a).map
        (fun p => (Value.int ((p.1 : Int) + 1), p.2))) (Value.int (((a + k : Nat) : Int) + 1)) =
      (ys.get? k).getD Value.nil := by
  induction ys with
  | nil => intro a k; rfl
  | cons y rest ih =>
      intro a k
      rw [List.enumFrom_cons, List.map_cons]
      unfold entriesGet
      rw [List.find?_cons]
      cases k with
      | zero =>
          have : rawEqualValues (Value.int ((a : Int) + 1)) (Value.int (((a + 0 : Nat) : Int) + 1)) = true := by
            simp [rawEqualValues]
          simp only [this]
          rfl
      | succ k =>
          have : rawEqualValues (Value.int ((a : Int) + 1))
              (Value.int (((a + (k + 1) : Nat) : Int) + 1)) = false := by
            simp only [rawEqualValues, decide_eq_false_iff_not, Value.int.injEq]
            push_cast
            omega
          simp only [this]
          have e := ih (a + 1) k
          unfold entriesGet at e
          rw [show a + (k + 1) = a + 1 + k by omega]
          rw [e]
          rfl

theorem entriesGet_seq (ys : List Value) (k : Nat) :
    entriesGet (seqEntries ys) (Value.int ((k : Int) + 1)) = (ys.get? k).getD Value.nil := by
  have := enumFrom_entriesGet ys 0 k
  rw [Nat.zero_add] at this
  exact this

theorem seqEntries_keys (ys : List Value) (e : Value × Value) (he : e ∈ seqEntries ys) :
    ∃ j : Nat, j < ys.length ∧ e.1 = Value.int ((j : Int) + 1) := by
  unfold seqEntries at he
  obtain ⟨p, hp, rfl⟩ := List.mem_map.mp he
  obtain ⟨j, y⟩ := p
  have := List.fst_lt_of_mem_enum hp
  exact ⟨j, this, rfl⟩

theorem entriesSet_seq (ys : List Value) (x : Value) (hx : x ≠ Value.nil) :
    entriesSet (seqEntries ys) (Value.int ((ys.length : Int) + 1)) x = seqEntries (ys ++ [x]) := by
  unfold entriesSet
  simp only [hx, if_false]
  rw [seqEntries_append]
  congr 1
  rw [List.filter_eq_self]
  intro e he
  obtain ⟨j, hj, hk⟩ := seqEntries_keys ys e he
  rw [hk]
  simp only [rawEqualValues, Bool.not_eq_true', decide_eq_false_iff_not, Value.int.injEq]
  omega

theorem set_append_mid (P : List Table) (a b : Table) (R : List Table) :
    (P ++ a :: R).set P.length b = P ++ b :: R := by
  induction P with
  | nil => rfl
  | cons p rest ih => simp [List.set, ih]

theorem get?_append_mid (P : List Table) (a : Table) (R : List Table) :
    (P ++ a :: R).get? P.length = some a := by
  induction P with
  | nil => rfl
  | cons p rest ih => simpa using ih

theorem isPlain_ne_nil (x : Value) (h : x.isPlain = true) : x ≠ Value.nil := by
  intro e; subst e; cases h

theorem stackAt_setHeap (s0 : LuaState) (St : List Value) (T : List Table) (idx : Nat)
    (hidx : idx ≠ 0) :
    stackAt (s0.setHeap St T) idx = St.get? (idx - 1) := by
  unfold stackAt
  rw [if_neg hidx]
  rfl

theorem stackAt_setHeap_push (s0 : LuaState) (St : List Value) (T : List Table) (idx : Nat)
    (x y : Value) (hidx : idx ≠ 0) (hget : St.get? (idx - 1) = some y) :
    stackAt (s0.setHeap (St ++ [x]) T) idx = some y := by
  rw [stackAt_setHeap _ _ _ _ hidx]
  have hlt : idx - 1 < St.length := by
    rw [List.get?_eq_some] at hget
    exact hget.1
  rw [List.get?_eq_getElem?, List.getElem?_append_left hlt, ← List.get?_eq_getElem?]
  exact hget

theorem stackAt_setHeap_top (s0 : LuaState) (St : List Value) (T : List Table) (x : Value) :
    stackAt (s0.setHeap (St ++ [x]) T) (St.length + 1) = some x := by
  rw [stackAt_setHeap _ _ _ _ (by omega)]
  simp

theorem lua_seti_seq (s0 : LuaState) (St : List Value) (P R : List Table) (E : List (Value × Value))
    (m : Option Nat) (idx : Nat) (k : Int) (x : Value)
    (hidx : idx ≠ 0) (hget : St.get? (idx - 1) = some (Value.table P.length)) :
    lua_seti (s0.setHeap (St ++ [x]) (P ++ { entries := E, meta := m } :: R)) idx k =
      s0.setHeap St (P ++ { entries := entriesSet E (Value.int k) x, meta := m } :: R) := by
  unfold lua_seti
  rw [stackAt_setHeap_push s0 St _ idx x _ hidx hget]
  have htop : stackAt (s0.setHeap (St ++ [x]) (P ++ { entries := E, meta := m } :: R))
      (lua_gettop (s0.setHeap (St ++ [x]) (P ++ { entries := E, meta := m } :: R))) = some x := by
    have : lua_gettop (s0.setHeap (St ++ [x]) (P ++ { entries := E, meta := m } :: R)) =
        St.length + 1 := by
      simp [lua_gettop, LuaState.setHeap]
    rw [this]
    exact stackAt_setHeap_top _ _ _ _
  rw [htop]
  have hpop : lua_pop (s0.setHeap (St ++ [x]) (P ++ { entries := E, meta := m } :: R)) 1 =
      s0.setHeap St (P ++ { entries := E, meta := m } :: R) := by
    simp [lua_pop, LuaState.setHeap]
  simp only [hpop, Option.getD_some]
  unfold tableSet
  have hg : (s0.setHeap St (P ++ { entries := E, meta := m } :: R)).tables.get? P.length =
      some { entries := E, meta := m } := get?_append_mid P _ R
  rw [hg]
  simp only [LuaState.setHeap, set_append_mid]

theorem ReadsBack.widen {tr : Traits} {v : NVal} {y : Value} {lo hi : Nat} {T : List Table}
    (h : ReadsBack tr v y lo hi T) (lo1 hi1 : Nat) (T1 : List Table)
    (hlo : lo1 ≤ lo) (hhi : hi ≤ hi1)
    (hT : ∀ j, lo ≤ j → j < hi → T1.get? j = T.get? j) :
    ReadsBack tr v y lo1 hi1 T1 := by
  intro T2 hagree
  apply h T2
  intro j h1 h2
  rw [hagree j (by omega) (by omega), hT j h1 h2]

theorem get?_after_mid (P : List Table) (a : Table) (R : List Table) (j : Nat)
    (h : P.length < j) : (P ++ a :: R).get? j = R.get? (j - P.length - 1) := by
  rw [List.get?_eq_getElem?, List.getElem?_append_right (by omega)]
  obtain ⟨d, rfl⟩ : ∃ d, j = P.length + 1 + d := ⟨j - P.length - 1, by omega⟩
  rw [show P.length + 1 + d - P.length = d + 1 by omega]
  rw [List.getElem?_cons_succ, List.get?_eq_getElem?]
  congr 1

theorem get?_after_mid_ext (P : List Table) (a b : Table) (R E : List Table) (j : Nat)
    (h1 : P.length < j) (h2 : j < P.length + 1 + R.length) :
    (P ++ a :: (R ++ E)).get? j = (P ++ b :: R).get? j := by
  rw [get?_after_mid P a _ j h1, get?_after_mid P b _ j h1]
  rw [List.get?_eq_getElem?, List.get?_eq_getElem?, List.getElem?_append_left (by omega)]

theorem tupleEmplaceLoop_spec (s0 : LuaState) (St : List Value) (P : List Table) (m : Option Nat)
    (idx : Nat) (hidx : idx ≠ 0) (hget : St.get? (idx - 1) = some (Value.table P.length)) :
    ∀ (trs : List Traits) (xs : List NVal) (ys : List Value) (X : List Table),
      trs.length = xs.length →
      (∀ p, p ∈ trs.zip xs → RoundTrips p.1 p.2) →
      ∃ (ys1 : List Value) (X1 : List Table),
        tupleEmplaceLoop idx trs xs ys.length
            (s0.setHeap St (P ++ { entries := seqEntries ys, meta := m } :: X)) =
          some (s0.setHeap St
            (P ++ { entries := seqEntries (ys ++ ys1), meta := m } :: (X ++ X1))) ∧
        List.Forall₂ (fun p y => y.isPlain = true ∧
            ReadsBack p.1 p.2 y (P.length + 1 + X.length) (P.length + 1 + X.length + X1.length)
              (P ++ { entries := seqEntries (ys ++ ys1), meta := m } :: (X ++ X1)))
          (trs.zip xs) ys1 := by
  intro trs
  induction trs with
  | nil =>
      intro xs ys X _ _
      refine ⟨[], [], ?_, ?_⟩
      · simp only [List.append_nil]
        cases xs <;> rfl
      · simp
  | cons tr rest ih =>
      intro xs ys X hlen hRT
      rcases xs with _ | ⟨x, xs1⟩
      · cases hlen
      have hlen1 : rest.length = xs1.length := by simpa using hlen
      have hRT0 : RoundTrips tr x := hRT (tr, x) (by simp)
      have hRT1 : ∀ p, p ∈ rest.zip xs1 → RoundTrips p.1 p.2 := by
        intro p hp
        exact hRT p (by rw [List.zip_cons_cons]; exact List.mem_cons_of_mem _ hp)
      obtain ⟨y, ext, hw, hpl, hrb⟩ :=
        hRT0 (s0.setHeap St (P ++ { entries := seqEntries ys, meta := m } :: X))
      have hw1 : write tr (s0.setHeap St (P ++ { entries := seqEntries ys, meta := m } :: X)) x =
          some (s0.setHeap (St ++ [y])
            (P ++ { entries := seqEntries ys, meta := m } :: (X ++ ext))) := by
        rw [hw]
        simp [LuaState.setHeap]
      have hseti := lua_seti_seq s0 St P (X ++ ext) (seqEntries ys) m idx
        ((ys.length : Int) + 1) y hidx hget
      rw [entriesSet_seq ys y (isPlain_ne_nil y hpl)] at hseti
      obtain ⟨ys1, X1, hloop, hall⟩ := ih xs1 (ys ++ [y]) (X ++ ext) hlen1 hRT1
      have hlen2 : (ys ++ [y]).length = ys.length + 1 := by simp
      rw [hlen2] at hloop
      refine ⟨y :: ys1, ext ++ X1, ?_, ?_⟩
      · rw [tupleEmplaceLoop]
        simp only [hw1, hseti]
        rw [hloop]
        simp
      · rw [List.zip_cons_cons]
        have hl : (s0.setHeap St (P ++ { entries := seqEntries ys, meta := m } :: X)).tables.length =
            P.length + 1 + X.length := by
          simp [LuaState.setHeap]; omega
        rw [hl] at hrb
        refine List.Forall₂.cons ⟨hpl, ?_⟩ ?_
        · refine hrb.widen _ _ _ (le_refl _) (by simp) ?_
          intro j h1 h2
          have e : (s0.setHeap St (P ++ { entries := seqEntries ys, meta := m } :: X)).tables ++ ext =
              P ++ { entries := seqEntries ys, meta := m } :: (X ++ ext) := by
            simp [LuaState.setHeap]
          rw [e, ← List.append_assoc]
          exact get?_after_mid_ext P _ _ (X ++ ext) X1 j (by omega) (by simp; omega)
        · refine List.Forall₂.imp ?_ hall
          intro p y1 hp
          refine ⟨hp.1, ?_⟩
          have e1 : ys ++ [y] ++ ys1 = ys ++ y :: ys1 := by simp
          have e2 : X ++ ext ++ X1 = X ++ (ext ++ X1) := by simp
          rw [e1, e2] at hp
          exact hp.2.widen _ _ _ (by simp) (by simp; omega) (fun _ _ _ => rfl)

theorem stackAt_pushValue_top (t : LuaState) (y : Value) :
    stackAt (pushValue t y) (lua_absindex (pushValue t y) (-1)) = some y :=
  (stackAt_top1 (pushValue t y) t.stack y rfl).1

theorem read_top_of_readsIn (t : LuaState) (tr : Traits) (v : NVal) (y : Value)
    (h : ReadsIn t.tables tr v y) :
    read tr (pushValue t y) (-1) = some (some v, pushValue t y) := by
  obtain ⟨rd, hrd, hr⟩ := h (pushValue t y) _ rfl (stackAt_pushValue_top t y)
  unfold read
  rw [hrd]
  exact hr

theorem readNoPush_top_of_readsIn (t : LuaState) (tr : Traits) (v : NVal) (y : Value)
    (h : ReadsIn t.tables tr v y) :
    readNoPush tr (pushValue t y) (-1) = some (some v, pushValue t y) := by
  obtain ⟨rd, hrd, hr⟩ := h (pushValue t y) _ rfl (stackAt_pushValue_top t y)
  unfold readNoPush
  rw [hrd]
  simp only [hr, if_true]

theorem lua_geti_seq (t : LuaState) (idx n : Nat) (ys : List Value) (m : Option Nat)
    (hx : stackAt t idx = some (Value.table n))
    (hn : t.tables.get? n = some { entries := seqEntries ys, meta := m }) (k : Nat) :
    lua_geti t idx ((k : Int) + 1) = pushValue t ((ys.get? k).getD Value.nil) := by
  unfold lua_geti
  rw [hx]
  simp only [tableGet, hn, entriesGet_seq]

theorem lua_isnil_pushValue (t : LuaState) (y : Value) :
    lua_isnil (pushValue t y) (-1) = decide (y = Value.nil) := by
  unfold lua_isnil
  rw [stackAt_pushValue_top]
  cases y <;> rfl

theorem sinkArrayElem_elem (t : LuaState) (idx n : Nat) (ys : List Value) (m : Option Nat)
    (hx : stackAt t idx = some (Value.table n))
    (hn : t.tables.get? n = some { entries := seqEntries ys, meta := m })
    (tr : Traits) (v : NVal) (y : Value) (k : Nat) (hk : ys.get? k = some y)
    (hpl : y.isPlain = true) (hr : ReadsIn t.tables tr v y) :
    sinkArrayElem tr t idx ((k : Int) + 1) = some (1, some v, t) := by
  unfold sinkArrayElem
  rw [lua_geti_seq t idx n ys m hx hn k, hk]
  simp only [Option.getD_some, lua_isnil_pushValue, isPlain_ne_nil y hpl, decide_False,
    Bool.false_eq_true, if_false, readNoPush_top_of_readsIn t tr v y hr, lua_pop_pushValue]

theorem sinkArrayElem_end (t : LuaState) (idx n : Nat) (ys : List Value) (m : Option Nat)
    (hx : stackAt t idx = some (Value.table n))
    (hn : t.tables.get? n = some { entries := seqEntries ys, meta := m })
    (tr : Traits) (k : Nat) (hk : ys.get? k = none) :
    sinkArrayElem tr t idx ((k : Int) + 1) = some (0, none, t) := by
  unfold sinkArrayElem
  rw [lua_geti_seq t idx n ys m hx hn k, hk]
  simp only [Option.getD_none, lua_isnil_pushValue, decide_True, if_true, lua_pop_pushValue]

theorem drop_eq_cons_get (ys : List Value) :
    ∀ (k : Nat) (y : Value) (l : List Value), ys.drop k = y :: l →
      ys.get? k = some y ∧ ys.drop (k + 1) = l := by
  induction ys with
  | nil => intro k y l h; simp at h
  | cons a rest ih =>
      intro k y l h
      cases k with
      | zero =>
          simp only [List.drop_zero, List.cons.injEq] at h
          obtain ⟨rfl, rfl⟩ := h
          exact ⟨rfl, rfl⟩
      | succ k =>
          simp only [List.drop_succ_cons] at h
          obtain ⟨h1, h2⟩ := ih k y l h
          exact ⟨by simpa using h1, by simpa using h2⟩

theorem readArrayLoop_seq (t : LuaState) (idx n : Nat) (ys : List Value) (m : Option Nat)
    (hx : stackAt t idx = some (Value.table n))
    (hn : t.tables.get? n = some { entries := seqEntries ys, meta := m }) (val : Traits) :
    ∀ (xs : List NVal) (k : Nat) (acc : List NVal) (fuel : Nat), xs.length < fuel →
      List.Forall₂ (fun v y => y.isPlain = true ∧ ReadsIn t.tables val v y) xs (ys.drop k) →
      readArrayLoop val idx fuel k acc t = some (((k + xs.length : Nat) : Int), acc ++ xs, t) := by
  intro xs
  induction xs with
  | nil =>
      intro k acc fuel hf hall
      have hd : ys.drop k = [] := List.forall₂_nil_left_iff.mp hall
      have hk : ys.get? k = none := by
        rw [List.get?_eq_none]
        exact List.drop_eq_nil_iff.mp hd
      obtain ⟨f, rfl⟩ : ∃ f, fuel = f + 1 := ⟨fuel - 1, by omega⟩
      rw [readArrayLoop]
      simp only [sinkArrayElem_end t idx n ys m hx hn val k hk]
      simp
  | cons x rest ih =>
      intro k acc fuel hf hall
      rcases hd : ys.drop k with _ | ⟨y, l⟩
      · rw [hd] at hall; cases hall
      rw [hd] at hall
      obtain ⟨hk, hd1⟩ := drop_eq_cons_get ys k y l hd
      rw [List.forall₂_cons] at hall
      obtain ⟨⟨hpl, hr⟩, hrest⟩ := hall
      rw [← hd1] at hrest
      obtain ⟨f, rfl⟩ : ∃ f, fuel = f + 1 := ⟨fuel - 1, by omega⟩
      rw [readArrayLoop]
      simp only [sinkArrayElem_elem t idx n ys m hx hn val x y k hk hpl hr, if_true]
      rw [ih (k + 1) _ f (by simp at hf; omega) hrest]
      simp only [Option.map_some', Option.getD_some, List.length_cons, List.append_assoc,
        List.singleton_append]
      congr 3
      omega

theorem readArrayUpToLoop_seq (t : LuaState) (idx n : Nat) (ys : List Value) (m : Option Nat)
    (hx : stackAt t idx = some (Value.table n))
    (hn : t.tables.get? n = some { entries := seqEntries ys, meta := m }) (val : Traits) :
    ∀ (xs : List NVal) (k : Nat) (acc : List NVal),
      List.Forall₂ (fun v y => y.isPlain = true ∧ ReadsIn t.tables val v y) xs (ys.drop k) →
      readArrayUpToLoop val idx xs.length k acc t =
        some (((k + xs.length : Nat) : Int), acc ++ xs, t) := by
  intro xs
  induction xs with
  | nil =>
      intro k acc _
      simp [readArrayUpToLoop]
  | cons x rest ih =>
      intro k acc hall
      rcases hd : ys.drop k with _ | ⟨y, l⟩
      · rw [hd] at hall; cases hall
      rw [hd] at hall
      obtain ⟨hk, hd1⟩ := drop_eq_cons_get ys k y l hd
      rw [List.forall₂_cons] at hall
      obtain ⟨⟨hpl, hr⟩, hrest⟩ := hall
      rw [← hd1] at hrest
      rw [List.length_cons, readArrayUpToLoop]
      simp only [sinkArrayElem_elem t idx n ys m hx hn val x y k hk hpl hr, if_true]
      rw [ih (k + 1) _ hrest]
      simp only [Option.map_some', Option.getD_some, List.append_assoc,
        List.singleton_append]
      congr 3
      omega

theorem tupleReadLoop_seq (t : LuaState) (idx n : Nat) (ys : List Value) (m : Option Nat)
    (hx : stackAt t idx = some (Value.table n))
    (hn : t.tables.get? n = some { entries := seqEntries ys, meta := m }) :
    ∀ (trs : List Traits) (xs : List NVal) (k : Nat) (acc : List NVal),
      trs.length = xs.length →
      List.Forall₂ (fun p y => y.isPlain = true ∧ ReadsIn t.tables p.1 p.2 y)
        (trs.zip xs) (ys.drop k) →
      tupleReadLoop idx trs k acc t = some (some (NVal.list (acc ++ xs)), t) := by
  intro trs
  induction trs with
  | nil =>
      intro xs k acc hlen _
      have : xs = [] := List.eq_nil_of_length_eq_zero hlen.symm
      subst this
      simp [tupleReadLoop]
  | cons tr rest ih =>
      intro xs k acc hlen hall
      rcases xs with _ | ⟨x, xs1⟩
      · cases hlen
      rw [List.zip_cons_cons] at hall
      rcases hd : ys.drop k with _ | ⟨y, l⟩
      · rw [hd] at hall; cases hall
      rw [hd] at hall
      obtain ⟨hk, hd1⟩ := drop_eq_cons_get ys k y l hd
      rw [List.forall₂_cons] at hall
      obtain ⟨⟨hpl, hr⟩, hrest⟩ := hall
      rw [← hd1] at hrest
      rw [tupleReadLoop]
      have hg : lua_rawgeti t idx ((k : Int) + 1) = pushValue t y := by
        unfold lua_rawgeti
        rw [lua_geti_seq t idx n ys m hx hn k, hk]
        rfl
      simp only [hg, readNoPush_top_of_readsIn t tr x y hr, lua_pop_pushValue]
      rw [ih xs1 (k + 1) _ (by simpa using hlen) hrest]
      simp

theorem write_seq (tr : Traits) (v : NVal) (trs : List Traits) (xs : List NVal)
    (hw : tr.write = none) (e : LuaState → NVal → Nat → Option LuaState)
    (he : tr.emplace = some e)
    (hloop : ∀ s idx, e s v idx = tupleEmplaceLoop idx trs xs 0 s)
    (hlen : trs.length = xs.length) (hRT : ∀ p, p ∈ trs.zip xs → RoundTrips p.1 p.2)
    (s : LuaState) :
    ∃ (ys : List Value) (X : List Table),
      write tr s v = some (s.setHeap (s.stack ++ [Value.table s.tables.length])
        (s.tables ++ { entries := seqEntries ys, meta := none } :: X)) ∧
      List.Forall₂ (fun p y => y.isPlain = true ∧
          ReadsBack p.1 p.2 y (s.tables.length + 1) (s.tables.length + 1 + X.length)
            (s.tables ++ { entries := seqEntries ys, meta := none } :: X))
        (trs.zip xs) ys := by
  have hget : (s.stack ++ [Value.table s.tables.length]).get? (s.stack.length + 1 - 1) =
      some (Value.table s.tables.length) := by simp
  obtain ⟨ys, X, h1, h2⟩ := tupleEmplaceLoop_spec s (s.stack ++ [Value.table s.tables.length])
    s.tables none (s.stack.length + 1) (by omega) hget trs xs [] [] hlen hRT
  refine ⟨ys, X, ?_, ?_⟩
  · unfold write
    rw [hw, he]
    simp only [hloop]
    have hc : lua_createtable s = s.setHeap (s.stack ++ [Value.table s.tables.length])
        (s.tables ++ { entries := seqEntries [], meta := none } :: []) := rfl
    have ht : lua_gettop (lua_createtable s) = s.stack.length + 1 := by
      simp [lua_gettop, lua_createtable]
    rw [ht, hc]
    simpa using h1
  · simpa using h2

theorem seq_agree (P : List Table) (ys : List Value) (X : List Table)
    (ps : List (Traits × NVal))
    (hall : List.Forall₂ (fun p y => y.isPlain = true ∧
      ReadsBack p.1 p.2 y (P.length + 1) (P.length + 1 + X.length)
        (P ++ { entries := seqEntries ys, meta := none } :: X)) ps ys)
    (T1 : List Table)
    (hagree : ∀ j, P.length ≤ j →
      j < P.length + ({ entries := seqEntries ys, meta := none } :: X : List Table).length →
      T1.get? j = (P ++ { entries := seqEntries ys, meta := none } :: X).get? j) :
    T1.get? P.length = some { entries := seqEntries ys, meta := none } ∧
      List.Forall₂ (fun (p : Traits × NVal) y => y.isPlain = true ∧ ReadsIn T1 p.1 p.2 y) ps ys := by
  constructor
  · rw [hagree P.length (le_refl _) (by simp), get?_append_mid]
  · refine List.Forall₂.imp ?_ hall
    intro p y hp
    refine ⟨hp.1, hp.2 T1 ?_⟩
    intro j h1 h2
    exact hagree j (by omega) (by simp only [List.length_cons]; omega)

theorem zip_replicate_forall2 (val : Traits) (R : Traits × NVal → Value → Prop) :
    ∀ (xs : List NVal) (ys : List Value),
      List.Forall₂ R ((List.replicate xs.length val).zip xs) ys →
      List.Forall₂ (fun v y => R (val, v) y) xs ys := by
  intro xs
  induction xs with
  | nil => intro ys h; simpa using h
  | cons x rest ih =>
      intro ys h
      rw [List.length_cons, List.replicate_succ, List.zip_cons_cons] at h
      rcases ys with _ | ⟨y, ys1⟩
      · cases h
      rw [List.forall₂_cons] at h ⊢
      exact ⟨h.1, ih ys1 h.2⟩

theorem vectorEmplaceLoop_eq (val : Traits) (idx : Nat) :
    ∀ (xs : List NVal) (i : Nat) (s : LuaState),
      vectorEmplaceLoop val idx xs i s =
        tupleEmplaceLoop idx (List.replicate xs.length val) xs i s := by
  intro xs
  induction xs with
  | nil => intro i s; rfl
  | cons x rest ih =>
      intro i s
      rw [List.length_cons, List.replicate_succ, vectorEmplaceLoop, tupleEmplaceLoop]
      rcases write val s x with _ | s1
      · rfl
      · exact ih _ _

theorem arrayEmplaceLoop_eq (val : Traits) (idx : Nat) :
    ∀ (xs : List NVal) (i : Nat) (s : LuaState),
      arrayEmplaceLoop val idx xs i s =
        tupleEmplaceLoop idx (List.replicate xs.length val) xs i s := by
  intro xs
  induction xs with
  | nil => intro i s; rfl
  | cons x rest ih =>
      intro i s
      rw [List.length_cons, List.replicate_succ, arrayEmplaceLoop, tupleEmplaceLoop]
      rcases write val s x with _ | s1
      · rfl
      · exact ih _ _

theorem mem_zip_replicate (val : Traits) (xs : List NVal) (p : Traits × NVal)
    (hp : p ∈ (List.replicate xs.length val).zip xs) : p.1 = val ∧ p.2 ∈ xs := by
  obtain ⟨a, b⟩ := p
  have h1 := (List.of_mem_zip hp).1
  have h2 := (List.of_mem_zip hp).2
  exact ⟨(List.mem_replicate.mp h1).2, h2⟩

theorem lua_istable_of (t : LuaState) (idx n : Nat) (hx : stackAt t idx = some (Value.table n)) :
    lua_istable t idx = true := by
  unfold lua_istable
  rw [hx]

theorem tableSizeAt_seq (t : LuaState) (idx n : Nat) (ys : List Value) (m : Option Nat)
    (hx : stackAt t idx = some (Value.table n))
    (hn : t.tables.get? n = some { entries := seqEntries ys, meta := m }) :
    tableSizeAt t idx = ys.length := by
  unfold tableSizeAt
  rw [hx]
  simp only [hn, Option.map_some', Option.getD_some]
  simp [seqEntries]

theorem roundTrips_vector (val : Traits) (tid : Nat) (xs : List NVal)
    (h : ∀ x, x ∈ xs → RoundTrips val x) :
    RoundTrips (vectorTraits val tid) (NVal.list xs) := by
  intro s
  have hRT : ∀ p, p ∈ (List.replicate xs.length val).zip xs → RoundTrips p.1 p.2 := by
    intro p hp
    obtain ⟨h1, h2⟩ := mem_zip_replicate val xs p hp
    rw [h1]
    exact h p.2 h2
  obtain ⟨ys, X, hw, hall⟩ := write_seq (vectorTraits val tid) (NVal.list xs)
    (List.replicate xs.length val) xs rfl _ rfl
    (fun s idx => vectorEmplaceLoop_eq val idx xs 0 s) (by simp) hRT s
  refine ⟨Value.table s.tables.length, _, hw, rfl, ?_⟩
  intro T1 hagree t idx htT hx
  subst htT
  obtain ⟨hn, hall1⟩ := seq_agree s.tables ys X _ hall t.tables hagree
  have hall2 := zip_replicate_forall2 val _ xs ys hall1
  have hlen : xs.length = ys.length := hall2.length_eq
  have hloop := readArrayLoop_seq t idx _ ys none hx hn val xs 0 [] (ys.length + 1)
    (by omega) (by simpa using hall2)
  have hrau : readArrayUnlimited val t idx = some ((xs.length : Int), xs, t) := by
    unfold readArrayUnlimited
    rw [lua_istable_of t idx _ hx, tableSizeAt_seq t idx _ ys none hx hn, hloop]
    simp
  refine ⟨_, rfl, ?_⟩
  simp only [hrau, if_true]
  have hne : ((xs.length : Int) ≠ -1) := by omega
  simp only [hne, ne_eq, not_false_eq_true, if_true]

theorem roundTrips_array (val : Traits) (size tid : Nat) (xs : List NVal)
    (hsize : xs.length = size) (h : ∀ x, x ∈ xs → RoundTrips val x) :
    RoundTrips (arrayTraits val size tid) (NVal.list xs) := by
  intro s
  have hRT : ∀ p, p ∈ (List.replicate xs.length val).zip xs → RoundTrips p.1 p.2 := by
    intro p hp
    obtain ⟨h1, h2⟩ := mem_zip_replicate val xs p hp
    rw [h1]
    exact h p.2 h2
  obtain ⟨ys, X, hw, hall⟩ := write_seq (arrayTraits val size tid) (NVal.list xs)
    (List.replicate xs.length val) xs rfl _ rfl
    (fun s idx => arrayEmplaceLoop_eq val idx xs 0 s) (by simp) hRT s
  refine ⟨Value.table s.tables.length, _, hw, rfl, ?_⟩
  intro T1 hagree t idx htT hx
  subst htT
  obtain ⟨hn, hall1⟩ := seq_agree s.tables ys X _ hall t.tables hagree
  have hall2 := zip_replicate_forall2 val _ xs ys hall1
  have hlen : xs.length = ys.length := hall2.length_eq
  have hloop := readArrayUpToLoop_seq t idx _ ys none hx hn val xs 0 [] (by simpa using hall2)
  have hend : ys.get? size = none := by
    rw [List.get?_eq_none]; omega
  have hrau : readArrayUpTo val t idx size = some ((size : Int), xs, t) := by
    unfold readArrayUpTo
    rw [lua_istable_of t idx _ hx, lua_geti_seq t idx _ ys none hx hn size, hend]
    simp only [Bool.not_true, Bool.false_eq_true, if_false, Option.getD_none,
      lua_isnil_pushValue, decide_True, lua_pop_pushValue]
    rw [← hsize, hloop]
    simp
  refine ⟨_, rfl, ?_⟩
  simp only [hrau, if_true]

theorem roundTrips_tuple (vals : List Traits) (tid : Nat) (xs : List NVal)
    (hlen : vals.length = xs.length) (h : ∀ p, p ∈ vals.zip xs → RoundTrips p.1 p.2) :
    RoundTrips (tupleTraits vals tid) (NVal.list xs) := by
  intro s
  obtain ⟨ys, X, hw, hall⟩ := write_seq (tupleTraits vals tid) (NVal.list xs)
    vals xs rfl _ rfl (fun s idx => rfl) hlen h s
  refine ⟨Value.table s.tables.length, _, hw, rfl, ?_⟩
  intro T1 hagree t idx htT hx
  subst htT
  obtain ⟨hn, hall1⟩ := seq_agree s.tables ys X _ hall t.tables hagree
  have hloop := tupleReadLoop_seq t idx _ ys none hx hn vals xs 0 [] hlen (by simpa using hall1)
  refine ⟨_, rfl, ?_⟩
  simp only [lua_istable_of t idx _ hx, Bool.not_true, Bool.false_eq_true, if_false, hloop,
    List.nil_append]

theorem pair_emplace_eq (first second : Traits) (a b : NVal) (s : LuaState) (idx : Nat) :
    (match write first s a with
     | none => none
     | some s1 =>
         match write second (lua_seti s1 idx 1) b with
         | none => none
         | some s2 => some (lua_seti s2 idx 2)) =
      tupleEmplaceLoop idx [first, second] [a, b] 0 s := by
  rw [tupleEmplaceLoop]
  rcases write first s a with _ | s1
  · rfl
  · simp only [Nat.cast_zero, zero_add]
    rw [tupleEmplaceLoop]
    rcases write second (lua_seti s1 idx 1) b with _ | s2
    · rfl
    · simp only [tupleEmplaceLoop]
      rfl

theorem roundTrips_pair (first second : Traits) (tid : Nat) (a b : NVal)
    (ha : RoundTrips first a) (hb : RoundTrips second b) :
    RoundTrips (pairTraits first second tid) (NVal.list [a, b]) := by
  intro s
  have hRT : ∀ p, p ∈ [first, second].zip [a, b] → RoundTrips p.1 p.2 := by
    intro p hp
    simp only [List.zip_cons_cons, List.zip_nil_right, List.mem_cons, List.mem_singleton,
      List.not_mem_nil, or_false] at hp
    rcases hp with rfl | rfl
    · exact ha
    · exact hb
  obtain ⟨ys, X, hw, hall⟩ := write_seq (pairTraits first second tid) (NVal.list [a, b])
    [first, second] [a, b] rfl _ rfl
    (fun s idx => pair_emplace_eq first second a b s idx) rfl hRT s
  refine ⟨Value.table s.tables.length, _, hw, rfl, ?_⟩
  intro T1 hagree t idx htT hx
  subst htT
  obtain ⟨hn, hall1⟩ := seq_agree s.tables ys X _ hall t.tables hagree
  rcases ys with _ | ⟨y1, _ | ⟨y2, _ | ⟨y3, ys3⟩⟩⟩
  · cases hall1
  · rw [List.zip_cons_cons, List.forall₂_cons] at hall1
    cases hall1.2
  · rw [List.zip_cons_cons, List.forall₂_cons, List.zip_cons_cons, List.forall₂_cons] at hall1
    obtain ⟨⟨_, hr1⟩, ⟨_, hr2⟩, _⟩ := hall1
    have hg1 : lua_rawgeti t idx 1 = pushValue t y1 := by
      have := lua_geti_seq t idx _ [y1, y2] none hx hn 0
      simpa [lua_rawgeti] using this
    have hg2 : lua_rawgeti t idx 2 = pushValue t y2 := by
      have := lua_geti_seq t idx _ [y1, y2] none hx hn 1
      simpa [lua_rawgeti] using this
    refine ⟨_, rfl, ?_⟩
    simp only [lua_istable_of t idx _ hx, Bool.not_true, Bool.false_eq_true, if_false, hg1,
      read_top_of_readsIn t first a y1 hr1, lua_pop_pushValue, hg2,
      read_top_of_readsIn t second b y2 hr2]
  · rw [List.zip_cons_cons, List.forall₂_cons, List.zip_cons_cons, List.forall₂_cons] at hall1
    cases hall1.2.2

theorem EntryReadsBack.widen_entry {key val : Traits} {lo hi : Nat} {T : List Table}
    {e : NVal × NVal} {ye : Value × Value} (h : EntryReadsBack key val lo hi T e ye)
    (lo1 hi1 : Nat) (T1 : List Table) (hlo : lo1 ≤ lo) (hhi : hi ≤ hi1)
    (hT : ∀ j, lo ≤ j → j < hi → T1.get? j = T.get? j) :
    EntryReadsBack key val lo1 hi1 T1 e ye :=
  ⟨h.1, h.2.1, h.2.2.1.widen lo1 hi1 T1 hlo hhi hT, h.2.2.2.widen lo1 hi1 T1 hlo hhi hT⟩

theorem rawEqualValues_plain (a b : Value) (ha : a.isPlain = true) (hb : b.isPlain = true) :
    rawEqualValues a b = decide (a = b) := by
  cases a <;> cases b <;> simp_all [Value.isPlain, rawEqualValues]

theorem readsIn_unique (T : List Table) (tr : Traits) (v w : NVal) (y : Value)
    (h1 : ReadsIn T tr v y) (h2 : ReadsIn T tr w y) : v = w := by
  obtain ⟨rd1, e1, r1⟩ := h1 (emptyState.setHeap [y] T) 1 rfl rfl
  obtain ⟨rd2, e2, r2⟩ := h2 (emptyState.setHeap [y] T) 1 rfl rfl
  rw [e1] at e2
  have := Option.some.inj e2
  subst this
  rw [r1] at r2
  have h3 := Option.some.inj r2
  have h4 := congrArg Prod.fst h3
  exact Option.some.inj h4

theorem lua_settable_entries (s0 : LuaState) (St : List Value) (P R : List Table)
    (E : List (Value × Value)) (m : Option Nat) (idx : Nat) (yk yv : Value)
    (hidx : idx ≠ 0) (hget : St.get? (idx - 1) = some (Value.table P.length))
    (hk : yk ≠ Value.nil) :
    lua_settable (s0.setHeap (St ++ [yk] ++ [yv]) (P ++ { entries := E, meta := m } :: R)) idx =
      some (s0.setHeap St (P ++ { entries := entriesSet E yk yv, meta := m } :: R)) := by
  have hlt : idx - 1 < St.length := by
    rw [List.get?_eq_some] at hget
    exact hget.1
  have htop : lua_gettop (s0.setHeap (St ++ [yk] ++ [yv]) (P ++ { entries := E, meta := m } :: R)) =
      St.length + 2 := by
    simp [lua_gettop, LuaState.setHeap]
  have h1 : stackAt (s0.setHeap (St ++ [yk] ++ [yv]) (P ++ { entries := E, meta := m } :: R))
      (St.length + 2 - 1) = some yk := by
    exact stackAt_mid _ St [yv] yk (by simp [LuaState.setHeap])
  have h2 : stackAt (s0.setHeap (St ++ [yk] ++ [yv]) (P ++ { entries := E, meta := m } :: R))
      (St.length + 2) = some yv := by
    have := stackAt_mid (s0.setHeap (St ++ [yk] ++ [yv]) (P ++ { entries := E, meta := m } :: R))
      (St ++ [yk]) [] yv rfl
    simpa using this
  have h3 : stackAt (s0.setHeap (St ++ [yk] ++ [yv]) (P ++ { entries := E, meta := m } :: R))
      idx = some (Value.table P.length) := by
    rw [stackAt_setHeap _ _ _ _ hidx, List.append_assoc, List.get?_eq_getElem?,
      List.getElem?_append_left hlt, ← List.get?_eq_getElem?]
    exact hget
  have hpop : lua_pop (s0.setHeap (St ++ [yk] ++ [yv]) (P ++ { entries := E, meta := m } :: R)) 2 =
      s0.setHeap St (P ++ { entries := E, meta := m } :: R) := by
    simp [lua_pop, LuaState.setHeap]
  unfold lua_settable
  rw [htop, h1, h2, h3]
  simp only [Option.getD_some, hk, if_false, hpop]
  unfold tableSet
  have hg : (s0.setHeap St (P ++ { entries := E, meta := m } :: R)).tables.get? P.length =
      some { entries := E, meta := m } := get?_append_mid P _ R
  rw [hg]
  simp only [LuaState.setHeap, set_append_mid]

theorem forall2_mem_right {α β : Type} (R : α → β → Prop) :
    ∀ (l1 : List α) (l2 : List β), List.Forall₂ R l1 l2 → ∀ b, b ∈ l2 → ∃ a, a ∈ l1 ∧ R a b := by
  intro l1 l2 h
  induction h with
  | nil => intro b hb; cases hb
  | cons hab _ ih =>
      intro b hb
      rcases List.mem_cons.mp hb with e | hr
      · subst e
        exact ⟨_, List.mem_cons_self _ _, hab⟩
      · obtain ⟨a, ha, hr1⟩ := ih b hr
        exact ⟨a, List.mem_cons_of_mem _ ha, hr1⟩

theorem get?_same_tail (P : List Table) (a b : Table) (R : List Table) (j : Nat)
    (h : P.length < j) : (P ++ a :: R).get? j = (P ++ b :: R).get? j := by
  rw [get?_after_mid P a R j h, get?_after_mid P b R j h]

theorem mapEmplaceLoop_spec (key val : Traits) (s0 : LuaState) (St : List Value)
    (P : List Table) (m0 : Option Nat) (idx : Nat) (hidx : idx ≠ 0)
    (hget : St.get? (idx - 1) = some (Value.table P.length)) :
    ∀ (rest done : List (NVal × NVal)) (E : List (Value × Value)) (X : List Table),
      List.Forall₂ (EntryReadsBack key val (P.length + 1) (P.length + 1 + X.length)
        (P ++ { entries := E, meta := m0 } :: X)) done E →
      (done ++ rest).Pairwise (fun a b => a.1 ≠ b.1) →
      (∀ e, e ∈ rest → RoundTrips key e.1 ∧ RoundTrips val e.2) →
      ∃ (E1 : List (Value × Value)) (X1 : List Table),
        mapEmplaceLoop key val idx rest (s0.setHeap St (P ++ { entries := E, meta := m0 } :: X)) =
          some (s0.setHeap St (P ++ { entries := E ++ E1, meta := m0 } :: (X ++ X1))) ∧
        List.Forall₂ (EntryReadsBack key val (P.length + 1) (P.length + 1 + (X ++ X1).length)
          (P ++ { entries := E ++ E1, meta := m0 } :: (X ++ X1))) (done ++ rest) (E ++ E1) := by
  intro rest
  induction rest with
  | nil =>
      intro done E X hall _ _
      refine ⟨[], [], ?_, ?_⟩
      · simp [mapEmplaceLoop]
      · simpa using hall
  | cons kv rest1 ih =>
      obtain ⟨k, v⟩ := kv
      intro done E X hall hpw hRT
      obtain ⟨hRk, hRv⟩ := hRT (k, v) (List.mem_cons_self _ _)
      obtain ⟨yk, ext1, hw1, hpk, hrk⟩ :=
        hRk (s0.setHeap St (P ++ { entries := E, meta := m0 } :: X))
      have hw1a : write key (s0.setHeap St (P ++ { entries := E, meta := m0 } :: X)) k =
          some (s0.setHeap (St ++ [yk]) (P ++ { entries := E, meta := m0 } :: (X ++ ext1))) := by
        rw [hw1]; simp [LuaState.setHeap]
      obtain ⟨yv, ext2, hw2, hpv, hrv⟩ :=
        hRv (s0.setHeap (St ++ [yk]) (P ++ { entries := E, meta := m0 } :: (X ++ ext1)))
      have hw2a : write val
          (s0.setHeap (St ++ [yk]) (P ++ { entries := E, meta := m0 } :: (X ++ ext1))) v =
          some (s0.setHeap (St ++ [yk] ++ [yv])
            (P ++ { entries := E, meta := m0 } :: (X ++ ext1 ++ ext2))) := by
        rw [hw2]; simp [LuaState.setHeap]
      have hset := lua_settable_entries s0 St P (X ++ ext1 ++ ext2) E m0 idx yk yv hidx hget
        (isPlain_ne_nil yk hpk)
      have hl1 : (s0.setHeap St (P ++ { entries := E, meta := m0 } :: X)).tables.length =
          P.length + 1 + X.length := by
        simp [LuaState.setHeap]; omega
      have hl2 : (s0.setHeap (St ++ [yk])
          (P ++ { entries := E, meta := m0 } :: (X ++ ext1))).tables.length =
          P.length + 1 + (X.length + ext1.length) := by
        simp [LuaState.setHeap]; omega
      have ht1 : (s0.setHeap St (P ++ { entries := E, meta := m0 } :: X)).tables ++ ext1 =
          P ++ { entries := E, meta := m0 } :: (X ++ ext1) := by
        simp [LuaState.setHeap]
      have ht2 : (s0.setHeap (St ++ [yk])
          (P ++ { entries := E, meta := m0 } :: (X ++ ext1))).tables ++ ext2 =
          P ++ { entries := E, meta := m0 } :: (X ++ ext1 ++ ext2) := by
        simp [LuaState.setHeap]
      rw [hl1, ht1] at hrk
      rw [hl2, ht2] at hrv
      have hkin : ReadsIn (P ++ { entries := E, meta := m0 } :: (X ++ ext1)) key k yk :=
        hrk _ (fun _ _ _ => rfl)
      have hfilter : entriesSet E yk yv = E ++ [(yk, yv)] := by
        unfold entriesSet
        simp only [isPlain_ne_nil yv hpv, if_false]
        congr 1
        rw [List.filter_eq_self]
        intro ye hye
        obtain ⟨e, he, hrel⟩ := forall2_mem_right _ done E hall ye hye
        rw [rawEqualValues_plain _ _ hrel.1 hpk]
        simp only [Bool.not_eq_true', decide_eq_false_iff_not]
        intro heq
        have hein : ReadsIn (P ++ { entries := E, meta := m0 } :: (X ++ ext1)) key e.1 ye.1 :=
          hrel.2.2.1 _ (fun j h1 h2 => get?_after_mid_ext P _ _ X ext1 j (by omega) h2)
        rw [heq] at hein
        have hek : e.1 = k := readsIn_unique _ key _ _ yk hein hkin
        rw [List.pairwise_append] at hpw
        exact hpw.2.2 e he (k, v) (List.mem_cons_self _ _) hek
      rw [hfilter] at hset
      have hall1 : List.Forall₂ (EntryReadsBack key val (P.length + 1)
          (P.length + 1 + (X ++ ext1 ++ ext2).length)
          (P ++ { entries := E ++ [(yk, yv)], meta := m0 } :: (X ++ ext1 ++ ext2)))
          (done ++ [(k, v)]) (E ++ [(yk, yv)]) := by
        refine List.rel_append ?_ ?_
        · refine List.Forall₂.imp ?_ hall
          intro e ye hrel
          refine hrel.widen_entry _ _ _ (le_refl _) (by simp) ?_
          intro j h1 h2
          rw [List.append_assoc]
          exact get?_after_mid_ext P _ _ X (ext1 ++ ext2) j (by omega) h2
        · refine List.Forall₂.cons ⟨hpk, hpv, ?_, ?_⟩ List.Forall₂.nil
          · refine hrk.widen _ _ _ (by omega) (by simp; omega) ?_
            intro j h1 h2
            exact get?_after_mid_ext P _ _ (X ++ ext1) ext2 j (by omega)
              (by simp only [List.length_append]; omega)
          · refine hrv.widen _ _ _ (by omega) (by simp; omega) ?_
            intro j h1 h2
            exact get?_same_tail P _ _ _ j (by omega)
      have hpw1 : (done ++ [(k, v)] ++ rest1).Pairwise (fun a b => a.1 ≠ b.1) := by
        simpa using hpw
      obtain ⟨E1, X1, hloop, hres⟩ := ih (done ++ [(k, v)]) (E ++ [(yk, yv)])
        (X ++ ext1 ++ ext2) hall1 hpw1 (fun e he => hRT e (List.mem_cons_of_mem _ he))
      refine ⟨(yk, yv) :: E1, ext1 ++ ext2 ++ X1, ?_, ?_⟩
      · rw [mapEmplaceLoop]
        simp only [hw1a, hw2a, hset]
        rw [hloop]
        simp
      · have e1 : done ++ [(k, v)] ++ rest1 = done ++ (k, v) :: rest1 := by simp
        have e2 : E ++ [(yk, yv)] ++ E1 = E ++ (yk, yv) :: E1 := by simp
        have e3 : X ++ ext1 ++ ext2 ++ X1 = X ++ (ext1 ++ ext2 ++ X1) := by simp
        rw [e1, e2, e3] at hres
        exact hres

theorem mapInsert_append (lt : NVal → NVal → Bool) (k v : NVal) :
    ∀ acc : List (NVal × NVal), (∀ a, a ∈ acc → lt a.1 k = true ∧ lt k a.1 = false) →
      mapInsert lt k v acc = some (acc ++ [(k, v)]) := by
  intro acc
  induction acc with
  | nil => intro _; rfl
  | cons a rest ih =>
      intro h
      obtain ⟨k1, v1⟩ := a
      have h1 := h (k1, v1) (List.mem_cons_self _ _)
      rw [mapInsert]
      simp only [h1.2, Bool.false_eq_true, if_false, h1.1, if_true]
      rw [ih (fun a ha => h a (List.mem_cons_of_mem _ ha))]
      rfl

theorem readNoPush_of_readsIn (t : LuaState) (tr : Traits) (v : NVal) (y : Value) (i : Int)
    (h : ReadsIn t.tables tr v y) (hy : stackAt t (lua_absindex t i) = some y) :
    readNoPush tr t i = some (some v, t) := by
  obtain ⟨rd, hrd, hr⟩ := h t _ rfl hy
  unfold readNoPush
  rw [hrd]
  simp only [hr, if_true]

theorem mapReadLoop_roundtrip (key val : Traits) (lt : NVal → NVal → Bool) (t : LuaState) :
    ∀ (restM : List (NVal × NVal)) (restE : List (Value × Value)) (acc : List (NVal × NVal)),
      List.Forall₂ (fun (e : NVal × NVal) (ye : Value × Value) =>
        ReadsIn t.tables key e.1 ye.1 ∧ ReadsIn t.tables val e.2 ye.2) restM restE →
      (acc ++ restM).Pairwise (fun a b => lt a.1 b.1 = true ∧ lt b.1 a.1 = false) →
      mapReadLoop key val lt restE acc t = some (some (acc ++ restM), t) := by
  intro restM
  induction restM with
  | nil =>
      intro restE acc hall _
      have : restE = [] := List.forall₂_nil_left_iff.mp hall
      subst this
      simp [mapReadLoop]
  | cons kv rest ih =>
      obtain ⟨k, v⟩ := kv
      intro restE acc hall hpw
      rcases restE with _ | ⟨⟨yk, yv⟩, restE1⟩
      · cases hall
      rw [List.forall₂_cons] at hall
      obtain ⟨⟨hk, hv⟩, hrest⟩ := hall
      obtain ⟨t2, t1, _⟩ := stackAt_top2 (pushValue (pushValue t yk) yv) t.stack yk yv
        (by simp [pushValue])
      have r1 := readNoPush_of_readsIn (pushValue (pushValue t yk) yv) key k yk (-2) hk t2
      have r2 := readNoPush_of_readsIn (pushValue (pushValue t yk) yv) val v yv (-1) hv t1
      have hins : mapInsert lt k v acc = some (acc ++ [(k, v)]) := by
        apply mapInsert_append
        intro a ha
        rw [List.pairwise_append] at hpw
        exact hpw.2.2 a ha (k, v) (List.mem_cons_self _ _)
      rw [mapReadLoop]
      simp only [r1, r2, lua_pop_pushValue, hins]
      rw [ih restE1 (acc ++ [(k, v)]) hrest (by simpa using hpw)]
      simp

theorem clearTable_fresh (s : LuaState) :
    clearTable (lua_createtable s) (lua_gettop (lua_createtable s)) =
      s.setHeap (s.stack ++ [Value.table s.tables.length])
        (s.tables ++ { entries := [], meta := none } :: []) := by
  have hx : stackAt (lua_createtable s) (lua_gettop (lua_createtable s)) =
      some (Value.table s.tables.length) :=
    (stackAt_top1 (lua_createtable s) s.stack _ rfl).2
  have hg : (lua_createtable s).tables.get? s.tables.length =
      some { entries := [], meta := none } := get?_append_mid s.tables _ []
  unfold clearTable
  rw [hx]
  simp only [hg]
  simp only [lua_createtable, LuaState.setHeap, set_append_mid]

theorem tableEntriesAt_of (t : LuaState) (idx n : Nat) (E : List (Value × Value)) (m : Option Nat)
    (hx : stackAt t idx = some (Value.table n))
    (hn : t.tables.get? n = some { entries := E, meta := m }) :
    tableEntriesAt t idx = E := by
  unfold tableEntriesAt
  rw [hx]
  simp only [hn, Option.map_some', Option.getD_some]

theorem roundTrips_map (key val : Traits) (keyLt : NVal → NVal → Bool) (tid : Nat)
    (m : List (NVal × NVal))
    (hsorted : m.Pairwise (fun a b => keyLt a.1 b.1 = true))
    (hasym : ∀ a, a ∈ m → ∀ b, b ∈ m → keyLt a.1 b.1 = true → keyLt b.1 a.1 = false)
    (hk : ∀ e, e ∈ m → RoundTrips key e.1) (hv : ∀ e, e ∈ m → RoundTrips val e.2) :
    RoundTrips (mapTraits key val keyLt tid) (NVal.ofMap m) := by
  intro s
  have hQ : m.Pairwise (fun a b => keyLt a.1 b.1 = true ∧ keyLt b.1 a.1 = false) := by
    refine List.Pairwise.imp_of_mem ?_ hsorted
    intro a b ha hb hab
    exact ⟨hab, hasym a ha b hb hab⟩
  have hne : m.Pairwise (fun a b => a.1 ≠ b.1) := by
    refine List.Pairwise.imp ?_ hQ
    intro a b hab heq
    rw [heq] at hab
    rw [hab.1] at hab
    cases hab.2
  have hget : (s.stack ++ [Value.table s.tables.length]).get? (s.stack.length + 1 - 1) =
      some (Value.table s.tables.length) := by simp
  obtain ⟨E1, X1, hloop, hall⟩ := mapEmplaceLoop_spec key val s
    (s.stack ++ [Value.table s.tables.length]) s.tables none (s.stack.length + 1) (by omega) hget
    m [] [] [] List.Forall₂.nil (by simpa using hne) (fun e he => ⟨hk e he, hv e he⟩)
  simp only [List.nil_append] at hloop hall
  refine ⟨Value.table s.tables.length, { entries := E1, meta := none } :: X1, ?_, rfl, ?_⟩
  · have ht : lua_gettop (lua_createtable s) = s.stack.length + 1 := by
      simp [lua_gettop, lua_createtable]
    have hw : write (mapTraits key val keyLt tid) s (NVal.ofMap m) =
        mapEmplaceLoop key val (lua_gettop (lua_createtable s)) (NVal.ofMap m).toMap
          (clearTable (lua_createtable s) (lua_gettop (lua_createtable s))) := rfl
    rw [hw, clearTable_fresh, toMap_ofMap, ht, hloop]
  · intro T1 hagree t idx htT hx
    subst htT
    have hn : t.tables.get? s.tables.length = some { entries := E1, meta := none } := by
      rw [hagree s.tables.length (le_refl _) (by simp), get?_append_mid]
    have hall1 : List.Forall₂ (fun (e : NVal × NVal) (ye : Value × Value) =>
        ReadsIn t.tables key e.1 ye.1 ∧ ReadsIn t.tables val e.2 ye.2) m E1 := by
      refine List.Forall₂.imp ?_ hall
      intro e ye hrel
      have hag : ∀ j, s.tables.length + 1 ≤ j → j < s.tables.length + 1 + X1.length →
          t.tables.get? j = (s.tables ++ { entries := E1, meta := none } :: X1).get? j := by
        intro j h1 h2
        exact hagree j (by omega) (by simp only [List.length_cons]; omega)
      exact ⟨hrel.2.2.1 _ hag, hrel.2.2.2 _ hag⟩
    have hrl := mapReadLoop_roundtrip key val keyLt t m E1 [] hall1 (by simpa using hQ)
    refine ⟨_, rfl, ?_⟩
    simp only [lua_istable_of t idx _ hx, Bool.not_true, Bool.false_eq_true, if_false,
      tableEntriesAt_of t idx _ E1 none hx hn, hrl, List.nil_append, Option.map_some']

theorem integerBased_roundTrips (tr : Traits) (v : NVal) (h : IntegerBased tr v) :
    RoundTrips tr v := by
  induction h with
  | integral bits signed tid i h1 h2 hr => exact roundTrips_integral bits signed tid i h1 h2 hr
  | bool b => exact roundTrips_bool b
  | vector val tid xs _ ih => exact roundTrips_vector val tid xs ih
  | array val size tid xs hs _ ih => exact roundTrips_array val size tid xs hs ih
  | pair first second tid a b _ _ iha ihb => exact roundTrips_pair first second tid a b iha ihb
  | tuple vals tid xs hlen _ ih => exact roundTrips_tuple vals tid xs hlen ih
  | map key val keyLt tid m hs ha _ _ ihk ihv =>
      exact roundTrips_map key val keyLt tid m hs ha ihk ihv

theorem dataDispatch_plain (s : LuaState) (l : List Value) (x : Value) (hs : s.stack = l ++ [x])
    (hx : x.isPlain = true) :
    dataDispatch s (-1) = (AnyData.LuaData (lua_gettop s), s) := by
  have h1 := (stackAt_top1 s l x hs).1
  have habs : lua_absindex s (-1) = lua_gettop s := by
    rw [lua_absindex_neg1]; rfl
  have hnu : lua_isuserdata s (lua_absindex s (-1)) = false := by
    unfold lua_isuserdata
    rw [h1]
    cases x <;> first | rfl | cases hx
  rw [habs] at hnu
  unfold dataDispatch
  simp only [habs, hnu, Bool.not_false, if_true]

theorem nestedMap_integerBased :
    IntegerBased nestedMapTraits (NVal.ofMap nestedMapEntries) := by
  refine IntegerBased.map _ _ intLess 13 nestedMapEntries (by decide) ?_ ?_ ?_
  · intro a _ b _ h
    simp only [intLess, decide_eq_true_eq, decide_eq_false_iff_not, not_lt] at h ⊢
    omega
  · intro e he
    simp only [nestedMapEntries, List.mem_cons, List.mem_singleton, List.not_mem_nil,
      or_false] at he
    rcases he with rfl | rfl
    · exact IntegerBased.integral 32 true 1 1 (by decide) (by decide) (by norm_num)
    · exact IntegerBased.integral 32 true 1 2 (by decide) (by decide) (by norm_num)
  · intro e he
    simp only [nestedMapEntries, List.mem_cons, List.mem_singleton, List.not_mem_nil,
      or_false] at he
    rcases he with rfl | rfl
    · refine IntegerBased.vector _ 12 _ ?_
      intro x hx
      simp only [List.mem_singleton] at hx
      subst hx
      exact IntegerBased.pair _ _ 11 _ _
        (IntegerBased.integral 8 false 10 200 (by decide) (by decide) (by norm_num))
        (IntegerBased.bool true)
    · refine IntegerBased.vector _ 12 _ ?_
      intro x hx
      cases hx

/-- C16 (round trip of the integer-based types): for every value `v` of an
integral type of at most 64 bits, of `bool`, or of a vector, array, pair, tuple
or map built from such types at any depth, `write` returns in every state,
pushes exactly one value on the stack and leaves what was below it; the value
pushed is classified as dynamic by `dataDispatch`; and reading it back as the
same type succeeds, returns `v`, and leaves the stack as it is. -/
theorem integer_based_roundtrip (tr : Traits) (v : NVal) (h : IntegerBased tr v)
    (s : LuaState) :
    ∃ (x : Value) (s1 : LuaState),
      write tr s v = some s1 ∧ s1.stack = s.stack ++ [x] ∧
      dataDispatch s1 (-1) = (AnyData.LuaData (lua_gettop s1), s1) ∧
      read tr s1 (-1) = some (some v, s1) := by
  obtain ⟨x, ext, hw, hpl, hrb⟩ := integerBased_roundTrips tr v h s
  refine ⟨x, _, hw, rfl, dataDispatch_plain _ s.stack x rfl hpl, ?_⟩
  have hx : stackAt (s.setHeap (s.stack ++ [x]) (s.tables ++ ext))
      (lua_absindex (s.setHeap (s.stack ++ [x]) (s.tables ++ ext)) (-1)) = some x :=
    (stackAt_top1 _ s.stack x rfl).1
  obtain ⟨rd, hrd, hr⟩ := hrb _ (fun _ _ _ => rfl) _ _ rfl hx
  unfold read
  rw [hrd]
  exact hr

theorem integer_based_roundtrip_witness :
    IntegerBased nestedMapTraits (NVal.ofMap nestedMapEntries) ∧
    ∃ (x : Value) (s1 : LuaState),
      write nestedMapTraits twoIntState (NVal.ofMap nestedMapEntries) = some s1 ∧
      s1.stack = twoIntState.stack ++ [x] ∧
      dataDispatch s1 (-1) = (AnyData.LuaData (lua_gettop s1), s1) ∧
      read nestedMapTraits s1 (-1) = some (some (NVal.ofMap nestedMapEntries), s1) :=
  ⟨nestedMap_integerBased,
    integer_based_roundtrip nestedMapTraits (NVal.ofMap nestedMapEntries)
      nestedMap_integerBased twoIntState⟩

/-! ## Properties: sizes and the arena -/

theorem integerCeil_eq (a b : Nat) (hb : 0 < b) :
    integerCeil a b = a * ((a + b - 1) / b) := by
  unfold integerCeil
  congr 1
  symm
  have h1 := Nat.div_add_mod a b
  have h2 := Nat.mod_lt a hb
  have hc : a / b * b = b * (a / b) := Nat.mul_comm _ _
  apply Nat.div_eq_of_lt_le
  · by_cases hm : a % b = 0
    · simp only [hm, ne_eq, not_true_eq_false, if_false, Nat.add_zero]
      omega
    · simp only [hm, ne_eq, not_false_eq_true, if_true]
      rw [Nat.add_mul, Nat.one_mul]
      omega
  · by_cases hm : a % b = 0
    · simp only [hm, ne_eq, not_true_eq_false, if_false, Nat.add_zero]
      rw [Nat.add_mul, Nat.one_mul]
      omega
    · simp only [hm, ne_eq, not_false_eq_true, if_true]
      rw [Nat.add_mul, Nat.add_mul, Nat.one_mul]
      omega

/-- C28 (a failing input): `integerCeil(5, 4)` is 10, which 4 does not divide
and which is not below 5 + 4.  In general the function returns `a` times the
quotient of `a` by `b` rounded up (not `b` times it), so for positive `a` and
`b` it is at least `a`, and it is `a` itself whenever `a < b`. -/
theorem integerCeil_not_multiple :
    integerCeil 5 4 = 10 ∧ ¬ (4 ∣ integerCeil 5 4) ∧ ¬ (integerCeil 5 4 < 5 + 4) ∧
    (∀ a b : Nat, b = 0 ∨ integerCeil a b = a * ((a + b - 1) / b)) ∧
    (∀ a b : Nat, a = 0 ∨ b = 0 ∨ a ≤ integerCeil a b) ∧
    (∀ a b : Nat, a = 0 ∨ b ≤ a ∨ integerCeil a b = a) := by
  refine ⟨by decide, by decide, by decide, ?_, ?_, ?_⟩
  · intro a b
    rcases Nat.eq_zero_or_pos b with hb | hb
    · exact Or.inl hb
    · exact Or.inr (integerCeil_eq a b hb)
  · intro a b
    rcases Nat.eq_zero_or_pos a with ha | ha
    · exact Or.inl ha
    rcases Nat.eq_zero_or_pos b with hb | hb
    · exact Or.inr (Or.inl hb)
    refine Or.inr (Or.inr ?_)
    rw [integerCeil_eq a b hb]
    have : 1 ≤ (a + b - 1) / b := by
      rw [Nat.le_div_iff_mul_le hb]
      omega
    calc a = a * 1 := (Nat.mul_one a).symm
      _ ≤ a * ((a + b - 1) / b) := Nat.mul_le_mul_left a this
  · intro a b
    rcases Nat.eq_zero_or_pos a with ha | ha
    · exact Or.inl ha
    by_cases hab : b ≤ a
    · exact Or.inr (Or.inl hab)
    refine Or.inr (Or.inr ?_)
    have hb : a < b := by omega
    unfold integerCeil
    rw [Nat.div_eq_of_lt hb, Nat.mod_eq_of_lt hb]
    have : a ≠ 0 := by omega
    simp [this]

/-- C21 (two failing inputs).  In `Pool<2, 20, 16>` (at address 4096) a first
element of 18 bytes is built at offset 0 and leaves `currentAddr` at offset 32,
past the 20 bytes of the pool; the next `build` of a one-byte type passes all
assertions and returns the address at offset 32, outside the pool.  In
`Pool<1, 1, 16>` the `build` of a one-byte type fails its last assertion although
no element is stored and the object fits in the byte that remains. -/
theorem pool_build_outside_capacity :
    ((Pool.fresh 2 20 16 4096).build 18 1 NVal.unit).map (fun r => (r.1, r.2.currentAddr))
      = some (4096, 4096 + 32) ∧
    (((Pool.fresh 2 20 16 4096).build 18 1 NVal.unit).bind
        (fun r => (r.2.build 1 1 NVal.unit).map (fun q => (q.1, q.2.elems.length))))
      = some (4096 + 32, 2) ∧
    ¬ (4096 + 32 + 1 ≤ 4096 + 20) ∧
    ((Pool.fresh 1 1 16 4096).build 1 1 NVal.unit).isNone = true ∧
    stdAlign 1 1 4096 1 = some (4096, 1) := by
  refine ⟨by decide, by decide, by decide, by decide, by decide⟩

/-- C22 (two failing inputs).  With `alignof(std::max_align_t) = 8` the arena of
the single builder `SimpleBuilder<Vec<float, 2>>` has 4 bytes, and building the
8-byte `Vec<float, 2>` into it fails the assertion of `build`; with
`alignof(std::max_align_t) = 16` the arena of `SimpleBuilder<std::complex<double>>`
has 8 bytes, and building the 16-byte object fails.  The subtraction in
`minNeededSpace` wraps and `integerCeil` does not round up to the alignment. -/
theorem arena_too_small :
    (PoolForBuilders 8 4096 [{ possibleTypes := [vecT 2], ambiguous := false, name := "b" }]).size
      = 4 ∧
    ((PoolForBuilders 8 4096
        [{ possibleTypes := [vecT 2], ambiguous := false, name := "b" }]).build
      (vecT 2).size (vecT 2).align NVal.unit).isNone = true ∧
    (PoolForBuilders 16 4096
        [{ possibleTypes := [complexDoubleT], ambiguous := false, name := "b" }]).size = 8 ∧
    ((PoolForBuilders 16 4096
        [{ possibleTypes := [complexDoubleT], ambiguous := false, name := "b" }]).build
      complexDoubleT.size complexDoubleT.align NVal.unit).isNone = true ∧
    minNeededSpace 8 4 8 = 4 ∧ minNeededSpace 16 8 16 = 8 ∧ minNeededSpace 8 4 16 = 2 ^ 64 - 4 := by
  refine ⟨by decide, by decide, by decide, by decide, by decide, by decide, by decide⟩

/-! ## Properties: the stack effect of `dataDispatch` -/

theorem bareUserdata_ok : MetatablesOk bareUserdata where
  pending := fun r h => by simp [bareUserdata, emptyState] at h
  indirect := fun r h => by simp [bareUserdata, emptyState] at h
  baked := fun tid r h => by simp [bareUserdata, emptyState] at h
  pendingIndirect := fun rP rI h _ => by simp [bareUserdata, emptyState] at h
  bakedPending := fun tid rB rP h _ => by simp [bareUserdata, emptyState] at h
  bakedIndirect := fun tid rB rI h _ => by simp [bareUserdata, emptyState] at h
  udataMeta := fun u ud t h hm => by
    cases u with
    | zero =>
        have e : ud = { payload := NVal.unit, meta := none } := (Option.some.inj h).symm
        rw [e] at hm
        cases hm
    | succ n => cases h

/-- C30 (the Fail branch pops): on a well-formed registry `dataDispatch` leaves
the stack as it found it when the value at the index classifies as Dynamic,
PendingBake, Indirect or Baked; when it classifies as Fail (a userdata without
metatable) the call returns `FailData` and the stack has lost its top slot:
`lua_getmetatable` pushed nothing, and `lua_pop(ls, 1)` runs all the same. -/
theorem dataDispatch_stack_effect (s : LuaState) (idx : Int) (v : Value) (h : MetatablesOk s)
    (hv : stackAt s (lua_absindex s idx) = some v) :
    (classifyByTable s v ≠ DataState.Fail → (dataDispatch s idx).2.stack = s.stack) ∧
    (classifyByTable s v = DataState.Fail →
      (dataDispatch s idx).1 = AnyData.FailData ∧
      (dataDispatch s idx).2.stack = s.stack.take (s.stack.length - 1) ∧
      (dataDispatch s idx).2.stack.length + 1 = s.stack.length) := by
  obtain ⟨h1, _, _, h4, h5⟩ := dataDispatch_spec s idx v h hv
  refine ⟨h4, ?_⟩
  intro hc
  have hpos : 0 < s.stack.length := by
    have := stackAt_le s _ v hv
    have := stackAt_ne_zero s _ v hv
    unfold lua_gettop at *
    omega
  rw [hc] at h1
  refine ⟨h1, ?_, ?_⟩
  · rw [h5 hc]; rfl
  · rw [h5 hc]
    simp only [lua_pop, List.length_take]
    omega

theorem dataDispatch_stack_effect_witness :
    MetatablesOk bareUserdata ∧
    stackAt bareUserdata (lua_absindex bareUserdata 1) = some (Value.udata 0) ∧
    (classifyByTable bareUserdata (Value.udata 0) ≠ DataState.Fail →
      (dataDispatch bareUserdata 1).2.stack = bareUserdata.stack) ∧
    (classifyByTable bareUserdata (Value.udata 0) = DataState.Fail →
      (dataDispatch bareUserdata 1).1 = AnyData.FailData ∧
      (dataDispatch bareUserdata 1).2.stack =
        bareUserdata.stack.take (bareUserdata.stack.length - 1) ∧
      (dataDispatch bareUserdata 1).2.stack.length + 1 = bareUserdata.stack.length) :=
  ⟨bareUserdata_ok, rfl, dataDispatch_stack_effect bareUserdata 1 (Value.udata 0)
    bareUserdata_ok rfl⟩

theorem dataDispatch_bareUserdata :
    classifyByTable bareUserdata (Value.udata 0) = DataState.Fail ∧
    (dataDispatch bareUserdata 1).2.stack = [Value.udata 0] ∧
    bareUserdata.stack = [Value.udata 0, Value.int 5] := by
  refine ⟨rfl, ?_, rfl⟩
  rw [dataDispatch_nometa_eq bareUserdata 1 0 rfl rfl]
  rfl

/-! ## Properties: the partition of the builders -/

theorem get?_snoc_cases {α : Type} (l : List α) (a : α) (i : Nat) (x : α)
    (h : (l ++ [a]).get? i = some x) :
    (i < l.length ∧ l.get? i = some x) ∨ (i = l.length ∧ x = a) := by
  rw [List.get?_eq_getElem?] at h
  by_cases hi : i < l.length
  · rw [List.getElem?_append_left hi] at h
    exact Or.inl ⟨hi, by rw [List.get?_eq_getElem?]; exact h⟩
  · rw [List.getElem?_append_right (by omega)] at h
    have hlt : i - l.length < 1 := by
      by_contra hc
      rw [List.getElem?_eq_none (by simp; omega)] at h
      cases h
    have h0 : i - l.length = 0 := by omega
    rw [h0] at h
    exact Or.inr ⟨by omega, (Option.some.inj h).symm⟩

theorem get?_snoc_left {α : Type} (l : List α) (a : α) (i : Nat) (x : α)
    (h : l.get? i = some x) : (l ++ [a]).get? i = some x := by
  rw [List.get?_eq_getElem?] at h ⊢
  have hi : i < l.length := by
    by_contra hc
    rw [List.getElem?_eq_none (by omega)] at h
    cases h
  rw [List.getElem?_append_left hi]
  exact h

theorem get?_snoc_last {α : Type} (l : List α) (a : α) : (l ++ [a]).get? l.length = some a := by
  rw [List.get?_eq_getElem?, List.getElem?_append_right (le_refl _)]
  simp

theorem get?_lt_of_some {α : Type} (l : List α) (i : Nat) (x : α) (h : l.get? i = some x) :
    i < l.length := by
  by_contra hc
  rw [List.get?_eq_getElem?, List.getElem?_eq_none (by omega)] at h
  cases h

theorem getD_snoc_lt (done : List Bool) (p : Bool) (i : Nat) (hi : i < done.length) :
    (done ++ [p]).getD i false = done.getD i false := by
  simp [List.getD_eq_getElem?_getD, List.getElem?_append_left hi]

theorem getD_snoc_last (done : List Bool) (p : Bool) :
    (done ++ [p]).getD done.length false = p := by
  simp [List.getD_eq_getElem?_getD]

theorem filter_range_snoc (done : List Bool) (p : Bool) (f : Bool → Bool) :
    (List.range (done ++ [p]).length).filter (fun i => f ((done ++ [p]).getD i false)) =
      (List.range done.length).filter (fun i => f (done.getD i false)) ++
        (if f p then [done.length] else []) := by
  rw [List.length_append, List.length_singleton, List.range_succ, List.filter_append]
  congr 1
  · apply List.filter_congr
    intro i hi
    rw [getD_snoc_lt done p i (List.mem_range.mp hi)]
  · simp only [List.filter_cons, List.filter_nil, getD_snoc_last]

theorem PartitionInv.start : PartitionInv [] [] [] [] where
  lenI := rfl
  lenTF := rfl
  trues := rfl
  falses := rfl
  invT := fun j t h => by cases h
  invF := fun j f h => by cases h
  ordT := fun i x h _ => by cases h
  ordF := fun i x h _ => by cases h

theorem PartitionInv.step_true {done : List Bool} {T F : List Nat} {I : List Int}
    (h : PartitionInv done T F I) :
    PartitionInv (done ++ [true]) (T ++ [T.length + F.length]) F (I ++ [(T.length : Int)]) where
  lenI := by simp [h.lenI]
  lenTF := by simp; have := h.lenTF; omega
  trues := by
    have e := filter_range_snoc done true (fun b => b)
    simp only [if_true] at e
    rw [e, ← h.trues, h.lenTF]
  falses := by
    have e := filter_range_snoc done true (fun b => !b)
    simp only [Bool.not_true, Bool.false_eq_true, if_false, List.append_nil] at e
    rw [e, ← h.falses]
  invT := by
    intro j t hj
    rcases get?_snoc_cases T _ j t hj with ⟨_, h1⟩ | ⟨h1, h2⟩
    · exact get?_snoc_left _ _ _ _ (h.invT j t h1)
    · subst h1 h2
      have := get?_snoc_last I (T.length : Int)
      rw [h.lenI, ← h.lenTF] at this
      exact this
  invF := fun j f hj => get?_snoc_left _ _ _ _ (h.invF j f hj)
  ordT := by
    intro i x hi hx
    rcases get?_snoc_cases I _ i x hi with ⟨_, h1⟩ | ⟨h1, h2⟩
    · exact get?_snoc_left _ _ _ _ (h.ordT i x h1 hx)
    · subst h1 h2
      rw [Int.toNat_ofNat, h.lenI, ← h.lenTF]
      exact get?_snoc_last T _
  ordF := by
    intro i x hi hx
    rcases get?_snoc_cases I _ i x hi with ⟨_, h1⟩ | ⟨h1, h2⟩
    · exact h.ordF i x h1 hx
    · subst h2
      omega

theorem PartitionInv.step_false {done : List Bool} {T F : List Nat} {I : List Int}
    (h : PartitionInv done T F I) :
    PartitionInv (done ++ [false]) T (F ++ [T.length + F.length])
      (I ++ [-(F.length : Int) - 1]) where
  lenI := by simp [h.lenI]
  lenTF := by simp; have := h.lenTF; omega
  trues := by
    have e := filter_range_snoc done false (fun b => b)
    simp only [Bool.false_eq_true, if_false, List.append_nil] at e
    rw [e, ← h.trues]
  falses := by
    have e := filter_range_snoc done false (fun b => !b)
    simp only [Bool.not_false, if_true] at e
    rw [e, ← h.falses, h.lenTF]
  invT := fun j t hj => get?_snoc_left _ _ _ _ (h.invT j t hj)
  invF := by
    intro j f hj
    rcases get?_snoc_cases F _ j f hj with ⟨_, h1⟩ | ⟨h1, h2⟩
    · exact get?_snoc_left _ _ _ _ (h.invF j f h1)
    · subst h1 h2
      have := get?_snoc_last I (-(F.length : Int) - 1)
      rw [h.lenI, ← h.lenTF] at this
      exact this
  ordT := by
    intro i x hi hx
    rcases get?_snoc_cases I _ i x hi with ⟨_, h1⟩ | ⟨h1, h2⟩
    · exact h.ordT i x h1 hx
    · subst h2
      omega
  ordF := by
    intro i x hi hx
    rcases get?_snoc_cases I _ i x hi with ⟨_, h1⟩ | ⟨h1, h2⟩
    · exact get?_snoc_left _ _ _ _ (h.ordF i x h1 hx)
    · subst h1 h2
      have e : (-(-(F.length : Int) - 1) - 1).toNat = F.length := by omega
      rw [e, h.lenI, ← h.lenTF]
      exact get?_snoc_last F _

theorem typePartitionStep_inv :
    ∀ (rest done : List Bool) (T F : List Nat) (I : List Int), PartitionInv done T F I →
      ∃ T1 F1 I1, PartitionInv (done ++ rest) T1 F1 I1 ∧
        typePartitionStep rest T F I = (T1 ++ F1, I1.map (translateReverseIndex T1.length)) := by
  intro rest
  induction rest with
  | nil =>
      intro done T F I h
      exact ⟨T, F, I, by simpa using h, rfl⟩
  | cons p rest1 ih =>
      intro done T F I h
      cases p with
      | true =>
          obtain ⟨T1, F1, I1, h1, e⟩ := ih _ _ _ _ h.step_true
          refine ⟨T1, F1, I1, by simpa using h1, ?_⟩
          rw [typePartitionStep]
          simpa using e
      | false =>
          obtain ⟨T1, F1, I1, h1, e⟩ := ih _ _ _ _ h.step_false
          refine ⟨T1, F1, I1, by simpa using h1, ?_⟩
          rw [typePartitionStep]
          simpa using e

theorem translateReverseIndex_neg (nTrue j : Nat) (h : nTrue + j < 2 ^ 31) :
    translateReverseIndex nTrue (-(j : Int) - 1) = ((nTrue + j : Nat) : Int) := by
  unfold translateReverseIndex
  rw [if_pos (by omega)]
  have e : (nTrue : Int) - 1 - (-(j : Int) - 1) = ((nTrue + j : Nat) : Int) := by
    push_cast; ring
  rw [e]
  have h31 : (2 : Nat) ^ 31 = 2147483648 := by norm_num
  have h64 : (2 : Int) ^ 64 = 18446744073709551616 := by norm_num
  rw [h31] at h
  rw [h64, Int.emod_eq_of_lt (by omega) (by omega)]
  unfold wrapInt32
  omega

theorem translateReverseIndex_nonneg (nTrue : Nat) (x : Int) (h : 0 ≤ x) :
    translateReverseIndex nTrue x = x := by
  unfold translateReverseIndex
  rw [if_neg (by omega)]

theorem get?_map_some {α β : Type} (f : α → β) (l : List α) (i : Nat) (x : α)
    (h : l.get? i = some x) : (l.map f).get? i = some (f x) := by
  rw [List.get?_eq_getElem?] at h ⊢
  rw [List.getElem?_map, h]
  rfl

theorem get?_append_left_some {α : Type} (l r : List α) (i : Nat) (x : α)
    (h : l.get? i = some x) : (l ++ r).get? i = some x := by
  have hi := get?_lt_of_some l i x h
  rw [List.get?_eq_getElem?] at h ⊢
  rw [List.getElem?_append_left hi]
  exact h

theorem get?_append_right_some {α : Type} (l r : List α) (i : Nat) (x : α)
    (h : r.get? i = some x) : (l ++ r).get? (l.length + i) = some x := by
  rw [List.get?_eq_getElem?] at h ⊢
  rw [List.getElem?_append_right (by omega), Nat.add_sub_cancel_left]
  exact h

theorem get?_some_of_lt {α : Type} (l : List α) (i : Nat) (h : i < l.length) :
    ∃ x, l.get? i = some x :=
  ⟨l.get ⟨i, h⟩, List.get?_eq_get h⟩

theorem typePartition_props (preds : List Bool) (hn : preds.length < 2 ^ 31) :
    (TypePartition preds).1 =
      (List.range preds.length).filter (fun i => preds.getD i false) ++
      (List.range preds.length).filter (fun i => !preds.getD i false) ∧
    (TypePartition preds).1.Perm (List.range preds.length) ∧
    (TypePartition preds).2.length = preds.length ∧
    (∀ i, i < preds.length → ∃ x : Int, (TypePartition preds).2.get? i = some x ∧ 0 ≤ x ∧
        (TypePartition preds).1.get? x.toNat = some i) ∧
    (∀ j, j < preds.length → ∃ i, (TypePartition preds).1.get? j = some i ∧
        (TypePartition preds).2.get? i = some (j : Int)) := by
  obtain ⟨T, F, I, h, e⟩ := typePartitionStep_inv preds [] [] [] [] PartitionInv.start
  rw [List.nil_append] at h
  have e1 : TypePartition preds = (T ++ F, I.map (translateReverseIndex T.length)) := e
  rw [e1]
  have hTF := h.lenTF
  refine ⟨?_, ?_, ?_, ?_, ?_⟩
  · show T ++ F = _
    rw [← h.trues, ← h.falses]
  · show (T ++ F).Perm _
    rw [h.trues, h.falses]
    exact List.filter_append_perm _ _
  · show (I.map _).length = _
    rw [List.length_map, h.lenI]
  · intro i hi
    obtain ⟨x, hx⟩ := get?_some_of_lt I i (by rw [h.lenI]; exact hi)
    by_cases hx0 : 0 ≤ x
    · refine ⟨x, ?_, hx0, ?_⟩
      · have := get?_map_some (translateReverseIndex T.length) I i x hx
        rw [translateReverseIndex_nonneg _ _ hx0] at this
        exact this
      · exact get?_append_left_some T F _ _ (h.ordT i x hx hx0)
    · have hneg : x < 0 := by omega
      have hF := h.ordF i x hx hneg
      have hj := get?_lt_of_some F _ _ hF
      have hxe : x = -(((-x - 1).toNat : Nat) : Int) - 1 := by omega
      refine ⟨((T.length + (-x - 1).toNat : Nat) : Int), ?_, by omega, ?_⟩
      · have := get?_map_some (translateReverseIndex T.length) I i x hx
        rw [hxe, translateReverseIndex_neg _ _ (by omega)] at this
        exact this
      · rw [Int.toNat_ofNat]
        exact get?_append_right_some T F _ _ hF
  · intro j hj
    by_cases hjT : j < T.length
    · obtain ⟨t, ht⟩ := get?_some_of_lt T j hjT
      refine ⟨t, get?_append_left_some T F _ _ ht, ?_⟩
      have := get?_map_some (translateReverseIndex T.length) I t _ (h.invT j t ht)
      rw [translateReverseIndex_nonneg _ _ (by omega)] at this
      exact this
    · obtain ⟨f, hf⟩ := get?_some_of_lt F (j - T.length) (by omega)
      refine ⟨f, ?_, ?_⟩
      · have := get?_append_right_some T F _ _ hf
        rw [show T.length + (j - T.length) = j by omega] at this
        exact this
      · have := get?_map_some (translateReverseIndex T.length) I f _ (h.invF _ f hf)
        rw [translateReverseIndex_neg _ _ (by omega)] at this
        rw [show T.length + (j - T.length) = j by omega] at this
        exact this

/-- C24: for the values of `Pred` on at most `2 ^ 31 - 1` types (`true` for an
unambiguous builder), `TypePartition` yields the order that lists the indices
on which `Pred` holds, ascending, before the indices on which it fails,
ascending; the order is a permutation of `0 .. n - 1`; and the second sequence
is its inverse: `order[inverse[i]] = i` and `inverse[order[j]] = j` for all
`i, j < n`. -/
theorem typePartition_spec (preds : List Bool) (hn : preds.length < 2 ^ 31) :
    (TypePartition preds).1 =
      (List.range preds.length).filter (fun i => preds.getD i false) ++
      (List.range preds.length).filter (fun i => !preds.getD i false) ∧
    (TypePartition preds).1.Perm (List.range preds.length) ∧
    (TypePartition preds).2.length = preds.length ∧
    (∀ i, i < preds.length → ∃ x : Int, (TypePartition preds).2.get? i = some x ∧ 0 ≤ x ∧
        (TypePartition preds).1.get? x.toNat = some i) ∧
    (∀ j, j < preds.length → ∃ i, (TypePartition preds).1.get? j = some i ∧
        (TypePartition preds).2.get? i = some (j : Int)) :=
  typePartition_props preds hn

theorem typePartition_spec_witness :
    [false, true, false, true].length < 2 ^ 31 ∧
    (TypePartition [false, true, false, true]).1 =
      (List.range [false, true, false, true].length).filter
          (fun i => [false, true, false, true].getD i false) ++
      (List.range [false, true, false, true].length).filter
          (fun i => !(([false, true, false, true] : List Bool).getD i false)) ∧
    (TypePartition [false, true, false, true]).1.Perm
      (List.range [false, true, false, true].length) ∧
    (TypePartition [false, true, false, true]).2.length = [false, true, false, true].length ∧
    (∀ i, i < [false, true, false, true].length →
      ∃ x : Int, (TypePartition [false, true, false, true]).2.get? i = some x ∧ 0 ≤ x ∧
        (TypePartition [false, true, false, true]).1.get? x.toNat = some i) ∧
    (∀ j, j < [false, true, false, true].length →
      ∃ i, (TypePartition [false, true, false, true]).1.get? j = some i ∧
        (TypePartition [false, true, false, true]).2.get? i = some (j : Int)) :=
  ⟨by decide, typePartition_spec [false, true, false, true] (by decide)⟩

theorem typePartition_example :
    TypePartition [false, true, false, true] = ([1, 3, 0, 2], [2, 0, 3, 1]) := by
  decide

/-! ## Properties: the bulk dispatch -/

/-- C23 (a failing input): in the call `matVecMul(5, { 2, 3 })` of
`pushBulkFunc<matB, vecB>` the vector is read first and built in the arena as
`Vec<float, 2>`; no matrix type reads the number 5, the dispatch pushes the
message of `failedToReadError` and raises it, and no object is destructed: the
steps contain one build and no destruction. -/
theorem bulk_failed_read_skips_destruct :
    (bulkFunc 8 4096 [matB, vecB] matVecMul numberAndVec).map
        (fun r => (r.1.toOption, r.2.trace.filterMap BulkEvent.builtAddr,
          r.2.trace.filterMap BulkEvent.builtName,
          r.2.trace.filterMap BulkEvent.destroyedAddr, r.2.pool.elems.length))
      = some (none, [4096], ["Vec<float,2>"], [], 1) := by
  decide

/-- C27 (a failing input): in the call `matVecMul(m, 7)` of
`pushBulkFunc<matB, vecB>`, whose builders are reordered to `<vecB, matB>`, the
argument that cannot be read is the number 7 at the original position 2.  The
message names position 2, but its line "Argument type" is taken from slot 2 of
the reordered stack, which holds the matrix `m`: it says "table" where the
argument at position 2 is a number. -/
theorem failedToReadError_reports_other_argument :
    (bulkFunc 8 4096 [matB, vecB] matVecMul matAndNumber).map (fun r => raisedMessage r.1)
      = some (some
          "Wrong format of argument #2\nBuilder: vecB\nArgument type: table\n") ∧
    lua_typename (stackAt matAndNumber 2) = "number" ∧
    (TypePartition ([matB, vecB].map (fun b => !b.ambiguous))).1 = [1, 0] := by
  refine ⟨by decide, by decide, by decide⟩

theorem matVecMul_examples :
    (bulkFunc 8 4096 [matB, vecB] matVecMul matAndVec2).map
        (fun r => (r.1.toOption, r.2.trace.filterMap BulkEvent.builtName,
          r.2.trace.filterMap BulkEvent.builtAddr,
          r.2.trace.filterMap BulkEvent.destroyedAddr))
      = some (some 1, ["Vec<float,2>", "Mat<float,2,3>"], [4096, 4104], [4096, 4104]) ∧
    (bulkFunc 8 4096 [matB, vecB] matVecMul matAndVec3).map
        (fun r => (r.1.toOption, r.2.trace.filterMap BulkEvent.builtName,
          r.2.trace.filterMap BulkEvent.builtAddr,
          r.2.trace.filterMap BulkEvent.destroyedAddr))
      = some (some 1, ["Vec<float,3>", "Mat<float,3,2>"], [4096, 4112], [4096, 4112]) := by
  refine ⟨by decide, by decide⟩

/-! ## Properties: the simple builder -/

theorem tryReadFold_once {α : Type} (idx : Nat) (leads : CType → Bool)
    (cont : BuilderArg → BulkState → Option α) :
    ∀ (ts : List CType) (k : Nat) (st : BulkState),
      tryReadFold idx leads cont ts k st =
        (tryReadFold idx leads (fun a s => some (a, s)) ts k st).bind (fun r => cont r.1 r.2) := by
  intro ts
  induction ts with
  | nil =>
      intro k st
      simp only [tryReadFold]
      split <;> rfl
  | cons t rest ih =>
      intro k st
      rw [tryReadFold, tryReadFold]
      by_cases hl : leads t = true
      · simp only [hl, if_true]
        rcases hr : read t.traits st.lua (idx : Int) with _ | ⟨r, lua1⟩
        · rfl
        · rcases r with _ | v
          · exact ih _ _
          · simp only
            rcases st.pool.build t.size t.align v with _ | ⟨addr, pool1⟩
            · rfl
            · rfl
      · simp only [hl, Bool.false_eq_true, if_false]
        exact ih _ _

theorem tryReadFold_outcome (idx : Nat) (leads : CType → Bool) :
    ∀ (ts : List CType) (k : Nat) (st : BulkState) (arg : BuilderArg) (st1 : BulkState),
      tryReadFold idx leads (fun a s => some (a, s)) ts k st = some (arg, st1) →
      BuilderOutcome idx leads ts k st arg st1 := by
  intro ts
  induction ts with
  | nil =>
      intro k st arg st1 h
      simp only [tryReadFold] at h
      by_cases hk : k = 0
      · rw [if_pos hk] at h
        have e := Option.some.inj h
        have e1 : arg = BuilderArg.leadsNowhereErr := (congrArg Prod.fst e).symm
        have e2 : st1 = st := (congrArg Prod.snd e).symm
        exact Or.inr (Or.inr ⟨e1, hk, fun t ht => (by cases ht), e2⟩)
      · rw [if_neg hk] at h
        have e := Option.some.inj h
        have e1 : arg = BuilderArg.wrongFormatErr := (congrArg Prod.fst e).symm
        have e2 : st1 = st := (congrArg Prod.snd e).symm
        subst e2
        exact Or.inr (Or.inl ⟨e1, Or.inl hk, rfl, [], FailedReads.nil _, by simp⟩)
  | cons t rest ih =>
      intro k st arg st1 h
      rw [tryReadFold] at h
      by_cases hl : leads t = true
      · simp only [hl, if_true] at h
        rcases hr : read t.traits st.lua (idx : Int) with _ | ⟨r, lua1⟩
        · rw [hr] at h; cases h
        · rw [hr] at h
          rcases r with _ | v
          · simp only at h
            rcases ih _ _ _ _ h with hb | hw | hn
            · obtain ⟨pre, t1, post, addr, v, lua0, evs, pool1, h1, h2, h3, h4, h5, h6, h7, h8⟩ := hb
              refine Or.inl ⟨t :: pre, t1, post, addr, v, lua0,
                BulkEvent.read t idx (stackAt st.lua idx) false :: evs, pool1,
                by rw [h1]; rfl, h2, h3, ?_, h5, h6, h7, ?_⟩
              · rw [List.filter_cons_of_pos hl]
                exact FailedReads.cons t _ st.lua lua1 lua0 evs hr h4
              · rw [h8]; simp
            · obtain ⟨h1, _, h3, evs, h4, h5⟩ := hw
              refine Or.inr (Or.inl ⟨h1, Or.inr ⟨t, List.mem_cons_self _ _, hl⟩, h3,
                BulkEvent.read t idx (stackAt st.lua idx) false :: evs, ?_, ?_⟩)
              · rw [List.filter_cons_of_pos hl]
                exact FailedReads.cons t _ st.lua lua1 st1.lua evs hr h4
              · rw [h5]; simp
            · exact absurd hn.2.1 (by omega)
          · simp only at h
            rcases hb : st.pool.build t.size t.align v with _ | ⟨addr, pool1⟩
            · rw [hb] at h; cases h
            · rw [hb] at h
              have e := Option.some.inj h
              have e1 : arg = BuilderArg.built t addr := (congrArg Prod.fst e).symm
              have e2 := (congrArg Prod.snd e).symm
              simp only at e2
              refine Or.inl ⟨[], t, rest, addr, v, st.lua, [], pool1, rfl, hl, e1,
                FailedReads.nil _, ?_, hb, ?_, ?_⟩
              · rw [e2]; exact hr
              · rw [e2]
              · rw [e2]; simp
      · have hl0 : leads t = false := by simpa using hl
        simp only [hl0, Bool.false_eq_true, if_false] at h
        rcases ih _ _ _ _ h with hb | hw | hn
        · obtain ⟨pre, t1, post, addr, v, lua0, evs, pool1, h1, h2, h3, h4, h5, h6, h7, h8⟩ := hb
          refine Or.inl ⟨t :: pre, t1, post, addr, v, lua0, evs, pool1,
            by rw [h1]; rfl, h2, h3, ?_, h5, h6, h7, h8⟩
          rw [List.filter_cons_of_neg (by simpa using hl0)]
          exact h4
        · obtain ⟨h1, h2, h3, evs, h4, h5⟩ := hw
          refine Or.inr (Or.inl ⟨h1, ?_, h3, evs, ?_, h5⟩)
          · rcases h2 with h2 | ⟨t1, ht1, hl1⟩
            · exact Or.inl h2
            · exact Or.inr ⟨t1, List.mem_cons_of_mem _ ht1, hl1⟩
          · rw [List.filter_cons_of_neg (by simpa using hl0)]
            exact h4
        · obtain ⟨h1, h2, h3, h4⟩ := hn
          refine Or.inr (Or.inr ⟨h1, h2, ?_, h4⟩)
          intro t1 ht1
          rcases List.mem_cons.mp ht1 with e | hr
          · rw [e]; exact hl0
          · exact h3 t1 hr

/-- C26: a call of `SimpleBuilder<Ts...>` either aborts before it reaches the
continuation (a read aborts or the arena fails an assertion) or invokes the
continuation exactly once and returns what it returns.  The argument of that
invocation and the state in which it happens are as the contract says: the
object built for the first type in declared order that leads anywhere and
decodes the slot, after exactly the leading types before it were read and
failed; or `wrongFormatErr` when some type leads anywhere and all leading types
were read and failed, with nothing built; or `leadsNowhereErr` when no type
leads anywhere, with nothing read and nothing built.  Types that do not lead
anywhere are never read. -/
theorem SimpleBuilder_spec {α : Type} (b : Builder) (leadsAnywhere : CType → Bool)
    (continuation : BuilderArg → BulkState → Option α) (idx : Nat) (st : BulkState) :
    SimpleBuilder b leadsAnywhere continuation idx st =
      (SimpleBuilder b leadsAnywhere (fun a s => some (a, s)) idx st).bind
        (fun r => continuation r.1 r.2) ∧
    ∀ arg st1, SimpleBuilder b leadsAnywhere (fun a s => some (a, s)) idx st = some (arg, st1) →
      BuilderOutcome idx leadsAnywhere b.possibleTypes 0 st arg st1 :=
  ⟨tryReadFold_once idx leadsAnywhere continuation b.possibleTypes 0 st,
    fun arg st1 h => tryReadFold_outcome idx leadsAnywhere b.possibleTypes 0 st arg st1 h⟩

theorem SimpleBuilder_spec_witness :
    ∃ arg st1,
      SimpleBuilder vecB (fun _ => true) (fun a s => some (a, s)) 2
        { lua := numberAndVec, pool := Pool.fresh 1 24 8 4096, trace := [] } = some (arg, st1) ∧
      BuilderOutcome 2 (fun _ => true) vecB.possibleTypes 0
        { lua := numberAndVec, pool := Pool.fresh 1 24 8 4096, trace := [] } arg st1 := by
  have h := (SimpleBuilder_spec vecB (fun _ => true)
    (fun a s => (some (a, s) : Option (BuilderArg × BulkState))) 2
    { lua := numberAndVec, pool := Pool.fresh 1 24 8 4096, trace := [] }).2
  rcases hr : SimpleBuilder vecB (fun _ => true)
      (fun a s => (some (a, s) : Option (BuilderArg × BulkState))) 2
      { lua := numberAndVec, pool := Pool.fresh 1 24 8 4096, trace := [] } with _ | ⟨arg, st1⟩
  · exfalso
    have : (SimpleBuilder vecB (fun _ => true)
      (fun a s => (some (a, s) : Option (BuilderArg × BulkState))) 2
      { lua := numberAndVec, pool := Pool.fresh 1 24 8 4096, trace := [] }).isSome = true := by
      decide
    rw [hr] at this
    cases this
  · exact ⟨arg, st1, rfl, h arg st1 hr⟩

/-! ## Properties: the order of the arguments of a bulk call -/

theorem StackGrown.same (l : LuaState) : StackGrown l l :=
  ⟨[], by simp⟩

theorem StackGrown.chain {l l1 l2 : LuaState} (h1 : StackGrown l l1) (h2 : StackGrown l1 l2) :
    StackGrown l l2 := by
  obtain ⟨e1, rfl⟩ := h1
  obtain ⟨e2, rfl⟩ := h2
  exact ⟨e1 ++ e2, by simp⟩

theorem StackGrown.stackAt_eq {l l1 : LuaState} (h : StackGrown l l1) (j : Nat)
    (hj : j ≤ l.stack.length) : stackAt l1 j = stackAt l j := by
  obtain ⟨e, rfl⟩ := h
  unfold stackAt
  by_cases h0 : j = 0
  · simp [h0]
  · simp only [h0, if_false]
    rw [List.get?_eq_getElem?, List.get?_eq_getElem?, List.getElem?_append_left (by omega)]

theorem StackGrown.length_le {l l1 : LuaState} (h : StackGrown l l1) :
    l.stack.length ≤ l1.stack.length := by
  obtain ⟨e, rfl⟩ := h
  simp

theorem read_stackGrown (tr : Traits) (hf : FramedRead tr) (l l1 : LuaState) (i : Int)
    (r : Option NVal) (h : read tr l i = some (r, l1)) : StackGrown l l1 := by
  unfold read at h
  rcases hrd : tr.read with _ | rd
  · rw [hrd] at h; cases h
  · rw [hrd] at h
    exact hf rd hrd l _ r l1 h

theorem FailedReads.stackGrown {idx : Nat} {ts : List CType} {l l2 : LuaState}
    {evs : List BulkEvent} (h : FailedReads idx ts l l2 evs)
    (hf : ∀ t, t ∈ ts → FramedRead t.traits) : StackGrown l l2 := by
  induction h with
  | nil l => exact StackGrown.same l
  | cons t ts l l1 l2 evs hr _ ih =>
      exact (read_stackGrown t.traits (hf t (List.mem_cons_self _ _)) l l1 _ none hr).chain
        (ih (fun t1 h1 => hf t1 (List.mem_cons_of_mem _ h1)))

theorem Pool.build_elems (p p1 : Pool) (size align addr : Nat) (v : NVal)
    (h : p.build size align v = some (addr, p1)) :
    p1.elems = p.elems ++ [{ addr := addr, size := size, value := v }] := by
  unfold Pool.build at h
  by_cases hc : ¬ p.elems.length < p.maxElemCount
  · rw [if_pos hc] at h; cases h
  · rw [if_neg hc] at h
    simp only at h
    rcases h1 : stdAlign align size p.currentAddr
        ((p.size + 2 ^ 64 - (p.currentAddr - p.base)) % 2 ^ 64) with _ | ⟨a, sp⟩
    · rw [h1] at h; cases h
    · rw [h1] at h
      simp only at h
      rcases h2 : stdAlign p.alignment 1 (a + size) sp with _ | ⟨nx, sp2⟩
      · rw [h2] at h; cases h
      · rw [h2] at h
        have e := Option.some.inj h
        have e1 := congrArg Prod.fst e
        have e2 := congrArg Prod.snd e
        simp only at e1 e2
        rw [← e2, ← e1]

theorem pushError_top (st : BulkState) (msg : String) :
    stackAt (st.pushError msg).lua (lua_gettop (st.pushError msg).lua) =
      some (Value.str (cString msg)) :=
  (stackAt_top1 (st.pushError msg).lua st.lua.stack _ rfl).2

theorem eraseIdx_drop {α : Type} (l : List α) :
    ∀ i, (l.eraseIdx i).drop i = l.drop (i + 1) := by
  induction l with
  | nil => intro i; simp
  | cons a rest ih =>
      intro i
      cases i with
      | zero => simp
      | succ i => simp [ih]

theorem removeBelow_stack :
    ∀ (k : Nat) (s : LuaState), (removeBelow k s) = { s with stack := s.stack.drop k } := by
  intro k
  induction k with
  | zero => intro s; simp [removeBelow]
  | succ i ih =>
      intro s
      rw [removeBelow, ih]
      have e : (lua_remove s ((i : Int) + 1)).stack = s.stack.eraseIdx i := by
        unfold lua_remove
        rw [lua_absindex_pos]
        rfl
      have e2 : lua_remove s ((i : Int) + 1) = { s with stack := s.stack.eraseIdx i } := by
        unfold lua_remove
        rw [lua_absindex_pos]
        rfl
      rw [e2]
      simp only [eraseIdx_drop]

theorem pushvalue_fold (s : LuaState) :
    ∀ (order : List Nat) (pushed : List Value), (∀ i, i ∈ order → i < s.stack.length) →
      order.foldl (fun (st : LuaState) (i : Nat) => lua_pushvalue st ((i : Int) + 1))
          { s with stack := s.stack ++ pushed } =
        { s with stack := s.stack ++ pushed ++
            order.map (fun i => (s.stack.get? i).getD Value.nil) } := by
  intro order
  induction order with
  | nil => intro pushed _; simp
  | cons i rest ih =>
      intro pushed h
      rw [List.foldl_cons]
      have hi := h i (List.mem_cons_self _ _)
      have e : lua_pushvalue { s with stack := s.stack ++ pushed } ((i : Int) + 1) =
          { s with stack := s.stack ++ (pushed ++ [(s.stack.get? i).getD Value.nil]) } := by
        unfold lua_pushvalue
        rw [lua_absindex_pos]
        have : stackAt { s with stack := s.stack ++ pushed } (i + 1) = s.stack.get? i := by
          unfold stackAt
          simp only [Nat.add_one_ne_zero, if_false, Nat.add_sub_cancel]
          rw [List.get?_eq_getElem?, List.get?_eq_getElem?, List.getElem?_append_left hi]
        rw [this]
        simp [pushValue]
      rw [e, ih _ (fun j hj => h j (List.mem_cons_of_mem _ hj))]
      simp

theorem reorderLuaStack_eq (s : LuaState) (order : List Nat)
    (hlen : s.stack.length = order.length) (h : ∀ i, i ∈ order → i < s.stack.length) :
    reorderLuaStack s order =
      some { s with stack := order.map (fun i => (s.stack.get? i).getD Value.nil) } := by
  unfold reorderLuaStack
  have hg : lua_gettop s = order.length := hlen
  rw [if_neg (by rw [hg]; simp)]
  have e := pushvalue_fold s order [] h
  simp only [List.append_nil] at e
  have e0 : ({ s with stack := s.stack } : LuaState) = s := rfl
  rw [e0] at e
  rw [e, removeBelow_stack]
  simp [← hlen]

theorem destructAll_trace (st st1 : BulkState) (n : Nat) (h : destructAll st n = some st1) :
    st1.lua = st.lua ∧ st1.pool = st.pool ∧ ∃ evs, st1.trace = st.trace ++ evs := by
  unfold destructAll at h
  rcases hd : st.pool.destruct n with _ | ds
  · rw [hd] at h; cases h
  · rw [hd] at h
    have e := Option.some.inj h
    rw [← e]
    exact ⟨rfl, rfl, _, rfl⟩

theorem bulkCaller_trace (ex : GenericExec) (args : List CType) (st st1 : BulkState)
    (h : bulkCaller ex args st = some st1) :
    st1.trace = st.trace ++ [BulkEvent.called args (st.pool.elems.map (fun e => e.value))] := by
  unfold bulkCaller at h
  simp only at h
  split at h
  · cases h
  · split at h
    · cases h
    · have e := Option.some.inj h
      rw [← e]

theorem bulkExecStep_called (ex : GenericExec) (argOrder : List Nat) :
    ∀ (rest : List Builder) (args : List CType) (idx : Nat) (st st1 : BulkState),
      (∀ b, b ∈ rest → ∀ t, t ∈ b.possibleTypes → FramedRead t.traits) →
      idx ≠ 0 → idx + rest.length ≤ st.lua.stack.length + 1 →
      bulkExecStep ex argOrder rest args idx st = some st1 →
      (∃ n, stackAt st1.lua (lua_gettop st1.lua) = some (Value.int n)) →
      ∃ (ts : List CType) (vs : List NVal) (evs : List BulkEvent),
        st1.trace = st.trace ++ evs ∧
        BulkEvent.called (args ++ ts) (st.pool.elems.map (fun e => e.value) ++ vs) ∈ evs ∧
        ts.length = rest.length ∧ vs.length = rest.length ∧
        ∀ k b, rest.get? k = some b → ∃ t v addr l1 l2,
          ts.get? k = some t ∧ vs.get? k = some v ∧ t ∈ b.possibleTypes ∧
          BulkEvent.built t addr v ∈ evs ∧
          BulkEvent.read t (idx + k) (stackAt st.lua (idx + k)) true ∈ evs ∧
          read t.traits l1 ((idx + k : Nat) : Int) = some (some v, l2) ∧ StackGrown st.lua l1 := by
  intro rest
  induction rest with
  | nil =>
      intro args idx st st1 _ _ _ h htop
      rw [bulkExecStep] at h
      by_cases hinv : ex.invocable args = true
      · rw [if_pos hinv] at h
        rcases hc : bulkCaller ex args st with _ | stc
        · rw [hc] at h; cases h
        · rw [hc] at h
          simp only at h
          obtain ⟨_, _, evs, he⟩ := destructAll_trace _ _ _ h
          have ht := bulkCaller_trace ex args st stc hc
          refine ⟨[], [], [BulkEvent.called args (st.pool.elems.map (fun e => e.value))] ++ evs,
            ?_, ?_, rfl, rfl, ?_⟩
          · rw [he, ht]; simp
          · simp
          · intro k b hk; cases hk
      · rw [if_neg hinv] at h
        exfalso
        rcases hd : destructAll st args.length with _ | std
        · rw [hd] at h; cases h
        · rw [hd] at h
          simp only at h
          have e := Option.some.inj h
          obtain ⟨n, hn⟩ := htop
          rw [← e, pushError_top] at hn
          cases hn
  | cons b rest ih =>
      intro args idx st st1 hf hidx hlen h htop
      rw [bulkExecStep] at h
      by_cases hany : (!(b.possibleTypes.any
          (fun t => stepReturnsTrue ex.invocable rest (args ++ [t])))) = true
      · rw [if_pos hany] at h
        exfalso
        rcases hd : destructAll st args.length with _ | std
        · rw [hd] at h; cases h
        · rw [hd] at h
          simp only at h
          have e := Option.some.inj h
          obtain ⟨n, hn⟩ := htop
          rw [← e, pushError_top] at hn
          cases hn
      · rw [if_neg hany] at h
        unfold SimpleBuilder at h
        rw [tryReadFold_once] at h
        rcases hp : tryReadFold idx (fun t => stepReturnsTrue ex.invocable rest (args ++ [t]))
            (fun a s => some (a, s)) b.possibleTypes 0 st with _ | ⟨arg, stm⟩
        · rw [hp] at h; cases h
        · rw [hp] at h
          simp only [Option.some_bind] at h
          have hout := tryReadFold_outcome idx _ b.possibleTypes 0 st arg stm hp
          cases arg with
          | nullopt =>
              exfalso
              simp only at h
              have e := Option.some.inj h
              obtain ⟨n, hn⟩ := htop
              rw [← e, pushError_top] at hn
              cases hn
          | leadsNowhereErr =>
              exfalso
              simp only at h
              have e := Option.some.inj h
              obtain ⟨n, hn⟩ := htop
              rw [← e, pushError_top] at hn
              cases hn
          | wrongFormatErr =>
              exfalso
              simp only at h
              have e := Option.some.inj h
              obtain ⟨n, hn⟩ := htop
              rw [← e, pushError_top] at hn
              cases hn
          | built t addr =>
              simp only at h
              rcases hout with hb | hw | hnw
              · obtain ⟨pre, t1, post, addr1, v, lua0, evs0, pool1, h1, h2, h3, h4, h5, h6, h7, h8⟩ := hb
                have ht : t = t1 := by cases h3; rfl
                have ha : addr = addr1 := by cases h3; rfl
                subst ht ha
                have hmem : t ∈ b.possibleTypes := by rw [h1]; simp
                have hfb := hf b (List.mem_cons_self _ _)
                have hg0 : StackGrown st.lua lua0 := h4.stackGrown (fun t1 ht1 =>
                  hfb t1 (by rw [h1]; exact List.mem_append_left _ (List.mem_filter.mp ht1).1))
                have hg1 : StackGrown lua0 stm.lua :=
                  read_stackGrown t.traits (hfb t hmem) lua0 stm.lua _ _ h5
                have hg : StackGrown st.lua stm.lua := hg0.chain hg1
                have hle := hg.length_le
                simp only [List.length_cons] at hlen
                obtain ⟨ts, vs, evs, e1, e2, e3, e4, e5⟩ := ih (args ++ [t]) (idx + 1) stm st1
                  (fun b1 hb1 => hf b1 (List.mem_cons_of_mem _ hb1)) (by omega) (by omega) h htop
                have hel := Pool.build_elems st.pool pool1 t.size t.align addr v h6
                rw [h7, hel] at e2
                refine ⟨t :: ts, v :: vs,
                  evs0 ++ [BulkEvent.read t idx (stackAt lua0 idx) true, BulkEvent.built t addr v]
                    ++ evs, ?_, ?_, by simp [e3], by simp [e4], ?_⟩
                · rw [e1, h8]; simp
                · simp only [List.mem_append]
                  right
                  simpa using e2
                · intro k b1 hk
                  cases k with
                  | zero =>
                      have hb1 : b1 = b := (Option.some.inj hk).symm
                      subst hb1
                      refine ⟨t, v, addr, lua0, stm.lua, rfl, rfl, hmem, ?_, ?_, ?_, hg0⟩
                      · simp
                      · rw [Nat.add_zero, ← hg0.stackAt_eq idx (by omega)]
                        simp
                      · rw [Nat.add_zero]; exact h5
                  | succ k =>
                      have hk1 : rest.get? k = some b1 := by simpa using hk
                      have hkl := get?_lt_of_some rest k b1 hk1
                      obtain ⟨t2, v2, a2, l1, l2, f1, f2, f3, f4, f5, f6, f7⟩ := e5 k b1 hk1
                      have eidx : idx + 1 + k = idx + (k + 1) := by omega
                      rw [eidx] at f5 f6
                      rw [hg.stackAt_eq (idx + (k + 1)) (by omega)] at f5
                      refine ⟨t2, v2, a2, l1, l2, by simpa using f1, by simpa using f2, f3,
                        ?_, ?_, f6, hg.chain f7⟩
                      · simp only [List.mem_append]; exact Or.inr f4
                      · simp only [List.mem_append]; exact Or.inr f5
              · cases hw.1
              · cases hnw.1

theorem filterMap_get?_total {α β : Type} (f : α → Option β) :
    ∀ (l : List α), (∀ a, a ∈ l → (f a).isSome = true) →
      (l.filterMap f).length = l.length ∧
      ∀ p, (l.filterMap f).get? p = (l.get? p).bind f := by
  intro l
  induction l with
  | nil => intro _; exact ⟨rfl, fun p => rfl⟩
  | cons a rest ih =>
      intro h
      obtain ⟨b, hb⟩ := Option.isSome_iff_exists.mp (h a (List.mem_cons_self _ _))
      obtain ⟨i1, i2⟩ := ih (fun x hx => h x (List.mem_cons_of_mem _ hx))
      rw [List.filterMap_cons_some hb]
      refine ⟨by simp [i1], ?_⟩
      intro p
      cases p with
      | zero => simp [hb]
      | succ p => simpa using i2 p

theorem lua_settop_length (s : LuaState) (n : Nat) : (lua_settop s n).stack.length = n := by
  unfold lua_settop
  simp only [List.length_append, List.length_take, List.length_replicate]
  omega

theorem stackAt_succ (s : LuaState) (i : Nat) : stackAt s (i + 1) = s.stack.get? i := by
  unfold stackAt
  simp

theorem get?_isSome_of_lt {α : Type} (l : List α) (i : Nat) (h : i < l.length) :
    (l.get? i).isSome = true := by
  obtain ⟨x, hx⟩ := get?_some_of_lt l i h
  rw [hx]; rfl

/-- C29: in every successful bulk dispatch whose candidate types read within
the contract of `read` (they only push), the callable given to `bulkExecStep`
is called with the objects of the arena, and `reorderedExec` passes them to
`Exec` picked by the inverse order; the argument that `Exec` receives at the
declared position `i` is an object that the `i`-th declared builder built, of
one of its possible types, and its value was read from a slot holding the
dynamic argument that the caller supplied at position `i` (nil when omitted). -/
theorem bulk_call_declared_order (maxAlign base : Nat) (builders : List Builder)
    (exec : GenericExec) (s : LuaState) (r : Nat) (st : BulkState)
    (hframed : ∀ b, b ∈ builders → ∀ t, t ∈ b.possibleTypes → FramedRead t.traits)
    (hrun : bulkFunc maxAlign base builders exec s = some (Except.ok r, st)) :
    ∃ (reTypes : List CType) (reVals : List NVal),
      BulkEvent.called reTypes reVals ∈ st.trace ∧
      (∀ l, (reorderedExec exec (TypePartition (builders.map (fun b => !b.ambiguous))).1
            (TypePartition (builders.map (fun b => !b.ambiguous))).2).call reTypes reVals l =
          ((exec.call
              (pickInts (TypePartition (builders.map (fun b => !b.ambiguous))).2 reTypes)
              (pickInts (TypePartition (builders.map (fun b => !b.ambiguous))).2 reVals) l).1,
            pickNats (TypePartition (builders.map (fun b => !b.ambiguous))).1
              (exec.call
                (pickInts (TypePartition (builders.map (fun b => !b.ambiguous))).2 reTypes)
                (pickInts (TypePartition (builders.map (fun b => !b.ambiguous))).2 reVals)
                l).2.1,
            (exec.call
              (pickInts (TypePartition (builders.map (fun b => !b.ambiguous))).2 reTypes)
              (pickInts (TypePartition (builders.map (fun b => !b.ambiguous))).2 reVals)
              l).2.2)) ∧
      ∀ i b, builders.get? i = some b → ∃ t v addr p l1 l2,
        (pickInts (TypePartition (builders.map (fun b => !b.ambiguous))).2 reTypes).get? i
          = some t ∧
        (pickInts (TypePartition (builders.map (fun b => !b.ambiguous))).2 reVals).get? i
          = some v ∧
        t ∈ b.possibleTypes ∧ BulkEvent.built t addr v ∈ st.trace ∧
        BulkEvent.read t p (stackAt (lua_settop s builders.length) (i + 1)) true ∈ st.trace ∧
        read t.traits l1 (p : Int) = some (some v, l2) ∧
        stackAt l1 p = stackAt (lua_settop s builders.length) (i + 1) := by
  generalize hpar : TypePartition (builders.map (fun b => !b.ambiguous)) = par
  unfold bulkFunc at hrun
  simp only [hpar] at hrun
  by_cases h0 : builders.length = 0 ∨ 8 < builders.length
  · rw [if_pos h0] at hrun; cases hrun
  rw [if_neg h0] at hrun
  split at hrun
  · cases hrun
  have hn31 : (builders.map (fun b => !b.ambiguous)).length < 2 ^ 31 := by
    rw [List.length_map]
    have : (2 : Nat) ^ 31 = 2147483648 := by norm_num
    omega
  obtain ⟨_, pperm, plen, pinv, pord⟩ := typePartition_props _ hn31
  rw [hpar, List.length_map] at pperm plen pinv pord
  have hordlen : par.1.length = builders.length := by
    rw [pperm.length_eq, List.length_range]
  have hordlt : ∀ i, i ∈ par.1 → i < builders.length := by
    intro i hi
    exact List.mem_range.mp (pperm.mem_iff.mp hi)
  have hs1 := lua_settop_length s builders.length
  have hro := reorderLuaStack_eq (lua_settop s builders.length) par.1
    (by rw [hs1, hordlen]) (by rw [hs1]; exact hordlt)
  rw [hro] at hrun
  simp only at hrun
  obtain ⟨rlen, rget⟩ := filterMap_get?_total (fun i => builders.get? i) par.1
    (fun i hi => get?_isSome_of_lt builders i (hordlt i hi))
  have rlen1 : (pickNats par.1 builders).length = builders.length := by
    unfold pickNats; rw [rlen, hordlen]
  split at hrun
  · cases hrun
  rename_i st1 hstep
  split at hrun
  · rename_i n htop
    have e := Option.some.inj hrun
    have est : st = { st1 with lua := lua_pop st1.lua 1 } := (congrArg Prod.snd e).symm
    have hfr : ∀ b, b ∈ pickNats par.1 builders → ∀ t, t ∈ b.possibleTypes →
        FramedRead t.traits := by
      intro b hb
      unfold pickNats at hb
      obtain ⟨i, _, hi⟩ := List.mem_filterMap.mp hb
      exact hframed b (List.mem_iff_get?.mpr ⟨i, hi⟩)
    obtain ⟨ts, vs, evs, e1, e2, e3, e4, e5⟩ := bulkExecStep_called _ par.1
      (pickNats par.1 builders) [] 1 _ st1 hfr (by omega)
      (by simp only [List.length_map, rlen1, hordlen]; omega) hstep ⟨n, htop⟩
    have hpe : (PoolForBuilders maxAlign base (pickNats par.1 builders)).elems = [] := rfl
    simp only [List.nil_append, hpe, List.map_nil] at e1 e2
    have htr : st.trace = evs := by rw [est]; exact e1
    have hts : ∀ j : Int, j ∈ par.2 → (ts.get? j.toNat).isSome = true ∧
        (vs.get? j.toNat).isSome = true := by
      intro j hj
      obtain ⟨i, hi⟩ := List.mem_iff_get?.mp hj
      have hil := get?_lt_of_some par.2 i j hi
      rw [plen] at hil
      obtain ⟨x, hx1, hx2, hx3⟩ := pinv i hil
      rw [hi] at hx1
      have ex : j = x := Option.some.inj hx1
      have hp := get?_lt_of_some par.1 _ _ hx3
      rw [ex]
      exact ⟨get?_isSome_of_lt ts _ (by omega), get?_isSome_of_lt vs _ (by omega)⟩
    obtain ⟨_, tget⟩ := filterMap_get?_total (fun i : Int => ts.get? i.toNat) par.2
      (fun j hj => (hts j hj).1)
    obtain ⟨_, vget⟩ := filterMap_get?_total (fun i : Int => vs.get? i.toNat) par.2
      (fun j hj => (hts j hj).2)
    refine ⟨ts, vs, by rw [htr]; exact e2, fun l => rfl, ?_⟩
    intro i b hb
    have hil := get?_lt_of_some builders i b hb
    obtain ⟨x, hx1, hx2, hx3⟩ := pinv i hil
    have hp := get?_lt_of_some par.1 _ _ hx3
    have hrb : (pickNats par.1 builders).get? x.toNat = some b := by
      unfold pickNats
      rw [rget, hx3]
      exact hb
    obtain ⟨t, v, addr, l1, l2, f1, f2, f3, f4, f5, f6, f7⟩ := e5 x.toNat b hrb
    refine ⟨t, v, addr, 1 + x.toNat, l1, l2, ?_, ?_, f3, by rw [htr]; exact f4, ?_, f6, ?_⟩
    · unfold pickInts; rw [tget, hx1]; exact f1
    · unfold pickInts; rw [vget, hx1]; exact f2
    · have hsrc : stackAt { lua_settop s builders.length with
          stack := par.1.map (fun i => ((lua_settop s builders.length).stack.get? i).getD
            Value.nil) } (1 + x.toNat) = stackAt (lua_settop s builders.length) (i + 1) := by
        rw [Nat.add_comm 1, stackAt_succ, stackAt_succ]
        simp only
        rw [List.get?_eq_getElem?, List.getElem?_map, ← List.get?_eq_getElem?, hx3]
        obtain ⟨y, hy⟩ := get?_some_of_lt (lua_settop s builders.length).stack i
          (by rw [hs1]; exact hil)
        simp only [Option.map_some', hy, Option.getD_some]
      rw [htr, ← hsrc]
      exact f5
    · have hsrc : stackAt { lua_settop s builders.length with
          stack := par.1.map (fun i => ((lua_settop s builders.length).stack.get? i).getD
            Value.nil) } (1 + x.toNat) = stackAt (lua_settop s builders.length) (i + 1) := by
        rw [Nat.add_comm 1, stackAt_succ, stackAt_succ]
        simp only
        rw [List.get?_eq_getElem?, List.getElem?_map, ← List.get?_eq_getElem?, hx3]
        obtain ⟨y, hy⟩ := get?_some_of_lt (lua_settop s builders.length).stack i
          (by rw [hs1]; exact hil)
        simp only [Option.map_some', hy, Option.getD_some]
      rw [← hsrc]
      exact f7.stackAt_eq _ (by simp only [List.length_map, hordlen]; omega)
  · cases hrun
  · cases hrun

theorem integralTraits_framed (bits : Nat) (signed : Bool) (tid : Nat) :
    FramedRead (integralTraits bits signed tid) := by
  intro rd hrd s i res s1 h
  simp only [integralTraits, Option.some.injEq] at hrd
  subst hrd
  simp only [] at h
  split at h
  · cases h; exact ⟨[], by simp⟩
  · cases h; exact ⟨[], by simp⟩

theorem ambiguousThenSimple_framed :
    ∀ b, b ∈ ambiguousThenSimple → ∀ t, t ∈ b.possibleTypes → FramedRead t.traits := by
  intro b hb t ht
  simp only [ambiguousThenSimple, List.mem_cons, List.mem_singleton, List.not_mem_nil,
    or_false] at hb
  rcases hb with rfl | rfl
  · simp only [List.mem_singleton] at ht
    subst ht
    exact integralTraits_framed 64 true 15
  · simp only [List.mem_singleton] at ht
    subst ht
    exact integralTraits_framed 64 true 15

theorem minus_run :
    (bulkFunc 8 4096 ambiguousThenSimple minus twoIntState).map
        (fun r => (r.1.toOption, r.2.trace.filterMap BulkEvent.builtAddr,
          (stackAt r.2.lua (lua_gettop r.2.lua))))
      = some (some 1, [4096, 4104], some (Value.int (-2))) := by
  decide

theorem bulk_call_declared_order_witness :
    ∃ st, bulkFunc 8 4096 ambiguousThenSimple minus twoIntState = some (Except.ok 1, st) ∧
      ∃ (reTypes : List CType) (reVals : List NVal),
        BulkEvent.called reTypes reVals ∈ st.trace ∧
        (∀ l, (reorderedExec minus
              (TypePartition (ambiguousThenSimple.map (fun b => !b.ambiguous))).1
              (TypePartition (ambiguousThenSimple.map (fun b => !b.ambiguous))).2).call
              reTypes reVals l =
            ((minus.call
                (pickInts (TypePartition (ambiguousThenSimple.map (fun b => !b.ambiguous))).2
                  reTypes)
                (pickInts (TypePartition (ambiguousThenSimple.map (fun b => !b.ambiguous))).2
                  reVals) l).1,
              pickNats (TypePartition (ambiguousThenSimple.map (fun b => !b.ambiguous))).1
                (minus.call
                  (pickInts (TypePartition (ambiguousThenSimple.map (fun b => !b.ambiguous))).2
                    reTypes)
                  (pickInts (TypePartition (ambiguousThenSimple.map (fun b => !b.ambiguous))).2
                    reVals) l).2.1,
              (minus.call
                (pickInts (TypePartition (ambiguousThenSimple.map (fun b => !b.ambiguous))).2
                  reTypes)
                (pickInts (TypePartition (ambiguousThenSimple.map (fun b => !b.ambiguous))).2
                  reVals) l).2.2)) ∧
        ∀ i b, ambiguousThenSimple.get? i = some b → ∃ t v addr p l1 l2,
          (pickInts (TypePartition (ambiguousThenSimple.map (fun b => !b.ambiguous))).2
            reTypes).get? i = some t ∧
          (pickInts (TypePartition (ambiguousThenSimple.map (fun b => !b.ambiguous))).2
            reVals).get? i = some v ∧
          t ∈ b.possibleTypes ∧ BulkEvent.built t addr v ∈ st.trace ∧
          BulkEvent.read t p
            (stackAt (lua_settop twoIntState ambiguousThenSimple.length) (i + 1)) true
              ∈ st.trace ∧
          read t.traits l1 (p : Int) = some (some v, l2) ∧
          stackAt l1 p = stackAt (lua_settop twoIntState ambiguousThenSimple.length) (i + 1) := by
  rcases hr : bulkFunc 8 4096 ambiguousThenSimple minus twoIntState with _ | ⟨res, st⟩
  · exfalso
    have h : (bulkFunc 8 4096 ambiguousThenSimple minus twoIntState).isSome = true := by decide
    rw [hr] at h
    cases h
  · have h : (bulkFunc 8 4096 ambiguousThenSimple minus twoIntState).map
        (fun r => r.1.toOption) = some (some 1) := by decide
    rw [hr] at h
    have h1 : res.toOption = some 1 := Option.some.inj h
    have h2 : res = Except.ok 1 := by
      cases res with
      | error m => cases h1
      | ok n => rw [Option.some.inj h1]
    subst h2
    exact ⟨st, rfl, bulk_call_declared_order 8 4096 ambiguousThenSimple minus twoIntState 1 st
      ambiguousThenSimple_framed hr⟩

/-! ## Properties: the shapes of the vector and matrix test -/

theorem floatTraits_readsIn (f : String → Option Rat) (T : List Table) (y : Value)
    (hy : y.isNumber = true) : ReadsIn T (floatTraits f) (NVal.num y.toNum) y := by
  intro t idx _ hx
  refine ⟨_, rfl, ?_⟩
  simp only [hx]
  cases y <;> first | rfl | cases hy

theorem isNumber_ne_nil (y : Value) (hy : y.isNumber = true) : y ≠ Value.nil := by
  intro e; subst e; cases hy

theorem sinkArrayElem_number (t : LuaState) (idx n : Nat) (ys : List Value) (m : Option Nat)
    (hx : stackAt t idx = some (Value.table n))
    (hn : t.tables.get? n = some { entries := seqEntries ys, meta := m })
    (f : String → Option Rat) (y : Value) (k : Nat) (hk : ys.get? k = some y)
    (hy : y.isNumber = true) :
    sinkArrayElem (floatTraits f) t idx ((k : Int) + 1) = some (1, some (NVal.num y.toNum), t) := by
  unfold sinkArrayElem
  rw [lua_geti_seq t idx n ys m hx hn k, hk]
  simp only [Option.getD_some, lua_isnil_pushValue, isNumber_ne_nil y hy, decide_False,
    Bool.false_eq_true, if_false,
    readNoPush_top_of_readsIn t (floatTraits f) _ y (floatTraits_readsIn f t.tables y hy),
    lua_pop_pushValue]

theorem readArrayUpToLoop_numbers (t : LuaState) (idx n : Nat) (ys : List Value) (m : Option Nat)
    (hx : stackAt t idx = some (Value.table n))
    (hn : t.tables.get? n = some { entries := seqEntries ys, meta := m })
    (f : String → Option Rat) (hnum : ∀ y, y ∈ ys → y.isNumber = true) :
    ∀ (r k : Nat) (acc : List NVal), k ≤ ys.length → ys.length ≤ k + r →
      readArrayUpToLoop (floatTraits f) idx r k acc t =
        some ((ys.length : Int), acc ++ (ys.drop k).map (fun y => NVal.num y.toNum), t) := by
  intro r
  induction r with
  | zero =>
      intro k acc h1 h2
      have hk : k = ys.length := by omega
      subst hk
      simp [readArrayUpToLoop]
  | succ r ih =>
      intro k acc h1 h2
      rw [readArrayUpToLoop]
      by_cases hk : k < ys.length
      · obtain ⟨y, hy⟩ := get?_some_of_lt ys k hk
        have hmem : y ∈ ys := List.mem_iff_get?.mpr ⟨k, hy⟩
        simp only [sinkArrayElem_number t idx n ys m hx hn f y k hy (hnum y hmem), if_true]
        rw [ih (k + 1) _ (by omega) (by omega)]
        have hd : ys.drop k = y :: ys.drop (k + 1) := by
          rw [List.get?_eq_getElem?] at hy
          have hlt : k < ys.length := hk
          rw [List.getElem?_eq_getElem hlt] at hy
          rw [← Option.some.inj hy]
          exact List.drop_eq_getElem_cons hlt
        rw [hd]
        simp
      · have hk0 : k = ys.length := by omega
        have hend : ys.get? k = none := by
          rw [List.get?_eq_none]; omega
        simp only [sinkArrayElem_end t idx n ys m hx hn (floatTraits f) k hend]
        subst hk0
        simp

theorem readArrayUpTo_numbers (t : LuaState) (idx n : Nat) (ys : List Value) (m : Option Nat)
    (hx : stackAt t idx = some (Value.table n))
    (hn : t.tables.get? n = some { entries := seqEntries ys, meta := m })
    (f : String → Option Rat) (hnum : ∀ y, y ∈ ys → y.isNumber = true) (c : Nat) :
    ∃ extra, readArrayUpTo (floatTraits f) t idx c =
      some (if c < ys.length then -1 else (ys.length : Int),
        if c < ys.length then [] else ys.map (fun y => NVal.num y.toNum),
        { t with stack := t.stack ++ extra }) := by
  unfold readArrayUpTo
  rw [lua_istable_of t idx n hx, lua_geti_seq t idx n ys m hx hn c]
  simp only [Bool.not_true, Bool.false_eq_true, if_false]
  by_cases hc : c < ys.length
  · obtain ⟨y, hy⟩ := get?_some_of_lt ys c hc
    have hmem : y ∈ ys := List.mem_iff_get?.mpr ⟨c, hy⟩
    rw [hy]
    simp only [Option.getD_some, lua_isnil_pushValue, isNumber_ne_nil y (hnum y hmem),
      decide_False, Bool.not_false, if_true, hc]
    exact ⟨[y], rfl⟩
  · have hend : ys.get? c = none := by
      rw [List.get?_eq_none]; omega
    rw [hend]
    simp only [Option.getD_none, lua_isnil_pushValue, decide_True, Bool.not_true,
      Bool.false_eq_true, if_false, lua_pop_pushValue, hc]
    rw [readArrayUpToLoop_numbers t idx n ys m hx hn f hnum c 0 [] (by omega) (by omega)]
    exact ⟨[], by simp⟩

theorem read_natCast (tr : Traits) (rd : LuaState → Nat → Option (Option NVal × LuaState))
    (hrd : tr.read = some rd) (l : LuaState) (idx : Nat) (h : idx ≠ 0) :
    read tr l (idx : Int) = rd l idx := by
  unfold read
  rw [hrd, lua_absindex_natCast l idx h]

theorem shapeLike_vecT (k : Nat) : ShapeLike (vecT k) k := by
  intro l idx n ys m hx hn hnum
  have h0 := stackAt_ne_zero l idx _ hx
  obtain ⟨extra, he⟩ := readArrayUpTo_numbers l idx n ys m hx hn (fun _ => none) hnum k
  refine ⟨extra, ?_⟩
  rw [read_natCast (vecT k).traits _ rfl l idx h0]
  simp only [he]
  by_cases hc : k < ys.length
  · simp only [hc, if_true]
    have h1 : ¬ ((-1 : Int) = (k : Int)) := by omega
    have h2 : ¬ (k = ys.length) := by omega
    simp only [h1, h2, if_false]
  · simp only [hc, if_false]
    by_cases he2 : k = ys.length
    · subst he2
      simp [NVal.ofNumbers]
    · have h1 : ¬ ((ys.length : Int) = (k : Int)) := by omega
      simp only [h1, he2, if_false]

theorem shapeLike_matT (w h : Nat) : ShapeLike (matT w h) (w * h) := by
  intro l idx n ys m hx hn hnum
  have h0 := stackAt_ne_zero l idx _ hx
  obtain ⟨extra, he⟩ := readArrayUpTo_numbers l idx n ys m hx hn (fun _ => none) hnum (w * h)
  refine ⟨extra, ?_⟩
  rw [read_natCast (matT w h).traits _ rfl l idx h0]
  simp only [lua_istable_of l idx n hx, Bool.not_true, Bool.false_eq_true, if_false, he]
  by_cases hc : w * h < ys.length
  · simp only [hc, if_true]
    have h1 : ¬ ((-1 : Int) = ((w * h : Nat) : Int)) := by omega
    have h2 : ¬ (w * h = ys.length) := by omega
    simp only [h1, h2, if_false]
  · simp only [hc, if_false]
    by_cases he2 : w * h = ys.length
    · simp only [he2, if_true]
      simp [NVal.ofNumbers]
    · have h1 : ¬ ((ys.length : Int) = ((w * h : Nat) : Int)) := by omega
      simp only [h1, he2, if_false]

theorem tryReadFold_shape {α : Type} (idx n : Nat) (ys : List Value) (m : Option Nat)
    (leads : CType → Bool) (cont : BuilderArg → BulkState → Option α) (cap : CType → Nat)
    (hnum : ∀ y, y ∈ ys → y.isNumber = true) :
    ∀ (ts : List CType) (k : Nat) (st : BulkState) (t : CType) (addr : Nat) (pool1 : Pool),
      (∀ t1, t1 ∈ ts → ShapeLike t1 (cap t1)) →
      stackAt st.lua idx = some (Value.table n) →
      st.lua.tables.get? n = some { entries := seqEntries ys, meta := m } →
      ts.find? (fun t1 => leads t1 && decide (cap t1 = ys.length)) = some t →
      st.pool.build t.size t.align (NVal.ofNumbers ys) = some (addr, pool1) →
      ∃ extra evs, evs.filterMap BulkEvent.builtName = [] ∧
        tryReadFold idx leads cont ts k st =
          cont (BuilderArg.built t addr)
            { lua := { st.lua with stack := st.lua.stack ++ extra }, pool := pool1,
              trace := st.trace ++ evs ++
                [BulkEvent.read t idx (some (Value.table n)) true,
                 BulkEvent.built t addr (NVal.ofNumbers ys)] } := by
  intro ts
  induction ts with
  | nil => intro k st t addr pool1 _ _ _ hfind _; cases hfind
  | cons t1 rest ih =>
      intro k st t addr pool1 hsh hx hn hfind hbuild
      have hle := stackAt_le st.lua idx _ hx
      obtain ⟨extra, hr⟩ := hsh t1 (List.mem_cons_self _ _) st.lua idx n ys m hx hn hnum
      rw [List.find?_cons] at hfind
      rw [tryReadFold]
      by_cases hl : leads t1 = true
      · simp only [hl, if_true]
        by_cases hc : cap t1 = ys.length
        · simp only [hl, hc, decide_True, Bool.and_self] at hfind
          have ht : t1 = t := Option.some.inj hfind
          subst ht
          rw [hr]
          simp only [hc, if_true, hbuild, hx]
          exact ⟨extra, [], rfl, by simp⟩
        · simp only [hl, hc, decide_False, Bool.and_false] at hfind
          rw [hr]
          simp only [hc, if_false]
          have hg : StackGrown st.lua { st.lua with stack := st.lua.stack ++ extra } :=
            ⟨extra, rfl⟩
          obtain ⟨extra1, evs1, h1, h2⟩ := ih (k + 1)
            { st with lua := { st.lua with stack := st.lua.stack ++ extra },
                      trace := st.trace ++ [BulkEvent.read t1 idx (stackAt st.lua idx) false] }
            t addr pool1 (fun t2 h2 => hsh t2 (List.mem_cons_of_mem _ h2))
            (by rw [hg.stackAt_eq idx hle]; exact hx) hn hfind hbuild
          refine ⟨extra ++ extra1, BulkEvent.read t1 idx (stackAt st.lua idx) false :: evs1,
            by simpa [BulkEvent.builtName] using h1, ?_⟩
          rw [h2]
          simp
      · have hl0 : leads t1 = false := by simpa using hl
        simp only [hl0, Bool.false_and, Bool.false_eq_true, if_false] at hfind ⊢
        exact ih k st t addr pool1 (fun t2 h2 => hsh t2 (List.mem_cons_of_mem _ h2)) hx hn
          hfind hbuild

theorem lua_seti_pushValue_stack (s : LuaState) (x : Value) (idx : Nat) (k : Int) :
    (lua_seti (pushValue s x) idx k).stack = s.stack := by
  have hp : (lua_pop (pushValue s x) 1).stack = s.stack := by rw [lua_pop_pushValue]
  unfold lua_seti
  simp only
  split
  · unfold tableSet
    split
    · exact hp
    · exact hp
  · exact hp

theorem shapeEmplaceLoop_float (f : String → Option Rat) (idx : Nat) (v : List NVal) :
    ∀ (r i : Nat) (s : LuaState), ∃ s1,
      shapeEmplaceLoop (floatTraits f) idx v r i s = some s1 ∧ s1.stack = s.stack := by
  intro r
  induction r with
  | zero => intro i s; exact ⟨s, rfl, rfl⟩
  | succ r ih =>
      intro i s
      rw [shapeEmplaceLoop]
      have hw : write (floatTraits f) s (v.getD i NVal.unit) =
          some (pushValue s (Value.num (v.getD i NVal.unit).toNum)) := rfl
      rw [hw]
      simp only
      obtain ⟨s1, h1, h2⟩ := ih (i + 1)
        (lua_seti (pushValue s (Value.num (v.getD i NVal.unit).toNum)) idx ((i : Int) + 1))
      exact ⟨s1, h1, by rw [h2, lua_seti_pushValue_stack]⟩

theorem emplaceIfPossible_stack :
    ∀ (ts : List CType) (vs : List NVal) (i : Nat) (s : LuaState),
      (∀ t, t ∈ ts → ∀ (s : LuaState) (v : NVal) (j : Int),
        ∃ s1, emplace t.traits s v j = some s1 ∧ s1.stack = s.stack) →
      ∃ s1, emplaceIfPossible ts vs i s = some s1 ∧ s1.stack = s.stack := by
  intro ts
  induction ts with
  | nil => intro vs i s _; exact ⟨s, by simp [emplaceIfPossible], rfl⟩
  | cons t rest ih =>
      intro vs i s h
      rcases vs with _ | ⟨v, vs1⟩
      · exact ⟨s, by simp [emplaceIfPossible], rfl⟩
      rw [emplaceIfPossible]
      have hrest := fun t1 h1 => h t1 (List.mem_cons_of_mem _ h1)
      split
      · obtain ⟨s1, e1, e2⟩ := h t (List.mem_cons_self _ _) s v (i : Int)
        rw [e1]
        simp only
        obtain ⟨s2, e3, e4⟩ := ih vs1 (i + 1) s1 hrest
        exact ⟨s2, e3, by rw [e4, e2]⟩
      · exact ih vs1 (i + 1) s hrest

theorem emplace_vecT (k : Nat) (s : LuaState) (v : NVal) (j : Int) :
    ∃ s1, emplace (vecT k).traits s v j = some s1 ∧ s1.stack = s.stack :=
  shapeEmplaceLoop_float _ _ _ _ _ _

theorem emplace_matT (w h : Nat) (s : LuaState) (v : NVal) (j : Int) :
    ∃ s1, emplace (matT w h).traits s v j = some s1 ∧ s1.stack = s.stack :=
  shapeEmplaceLoop_float _ _ _ _ _ _

theorem write_vecT (k : Nat) (s : LuaState) (v : NVal) :
    ∃ s1, write (vecT k).traits s v = some s1 ∧
      s1.stack = s.stack ++ [Value.table s.tables.length] := by
  obtain ⟨s1, h1, h2⟩ := shapeEmplaceLoop_float (fun _ => none) (lua_gettop (lua_createtable s))
    v.toList k 0 (lua_createtable s)
  exact ⟨s1, h1, h2⟩

theorem Pool.build_float (p : Pool) (size off : Nat) (v : NVal)
    (hal : p.alignment = 8) (hb : 8 ∣ p.base) (hc : p.currentAddr = p.base + off)
    (ho : 8 ∣ off) (hfit : off + size + 8 ≤ p.size) (hs : p.size < 2 ^ 64)
    (hcount : p.elems.length < p.maxElemCount) :
    ∃ p1, p.build size 4 v = some (p.base + off, p1) ∧ p1.alignment = 8 ∧ p1.base = p.base ∧
      p1.size = p.size ∧ p1.maxElemCount = p.maxElemCount ∧
      p1.currentAddr = p.base + (off + size + 7) / 8 * 8 ∧
      p1.elems = p.elems ++ [{ addr := p.base + off, size := size, value := v }] := by
  have h64 : (2 : Nat) ^ 64 = 18446744073709551616 := by norm_num
  rw [h64] at hs
  have hspace : (p.size + 2 ^ 64 - (p.base + off - p.base)) % 2 ^ 64 = p.size - off := by
    rw [h64, Nat.add_sub_cancel_left]
    omega
  have ha1 : stdAlign 4 size (p.base + off) (p.size - off) =
      some (p.base + off, p.size - off) := by
    unfold stdAlign
    have e : (p.base + off + 4 - 1) / 4 * 4 = p.base + off := by omega
    simp only [e, Nat.sub_self, Nat.sub_zero]
    rw [if_neg (by omega), if_neg (by omega)]
  have ha2 : stdAlign 8 1 (p.base + off + size) (p.size - off) =
      some (p.base + (off + size + 7) / 8 * 8,
        p.size - off - (p.base + (off + size + 7) / 8 * 8 - (p.base + off + size))) := by
    unfold stdAlign
    have e : (p.base + off + size + 8 - 1) / 8 * 8 = p.base + (off + size + 7) / 8 * 8 := by
      omega
    simp only [e]
    rw [if_neg (by omega), if_neg (by omega)]
  unfold Pool.build
  rw [if_neg (by omega)]
  simp only [hc, hspace, ha1, hal, ha2]
  exact ⟨_, rfl, rfl, rfl, rfl, rfl, rfl, rfl⟩

theorem bulkExecStep_cons_built (ex : GenericExec) (argOrder : List Nat) (b : Builder)
    (rest : List Builder) (args : List CType) (idx : Nat) (st st1 : BulkState) (t : CType)
    (addr : Nat)
    (hany : b.possibleTypes.any
      (fun t => stepReturnsTrue ex.invocable rest (args ++ [t])) = true)
    (h : tryReadFold idx (fun t => stepReturnsTrue ex.invocable rest (args ++ [t]))
      (fun a s => some (a, s)) b.possibleTypes 0 st = some (BuilderArg.built t addr, st1)) :
    bulkExecStep ex argOrder (b :: rest) args idx st =
      bulkExecStep ex argOrder rest (args ++ [t]) (idx + 1) st1 := by
  rw [bulkExecStep, if_neg (by rw [hany]; simp)]
  unfold SimpleBuilder
  rw [tryReadFold_once, h]
  rfl

theorem bulkExecStep_nil_invocable (ex : GenericExec) (argOrder : List Nat) (args : List CType)
    (idx : Nat) (st st1 st2 : BulkState) (hinv : ex.invocable args = true)
    (hc : bulkCaller ex args st = some st1) (hd : destructAll st1 args.length = some st2) :
    bulkExecStep ex argOrder [] args idx st = some st2 := by
  rw [bulkExecStep, if_pos hinv, hc]
  exact hd

theorem bulkFunc_ok (maxAlign base : Nat) (builders : List Builder) (exec : GenericExec)
    (s s2 : LuaState) (st : BulkState) (n : Int)
    (h0 : ¬ (builders.length = 0 ∨ 8 < builders.length))
    (h1 : stepReturnsTrue
      (reorderedExec exec (TypePartition (builders.map (fun b => !b.ambiguous))).1
        (TypePartition (builders.map (fun b => !b.ambiguous))).2).invocable
      (pickNats (TypePartition (builders.map (fun b => !b.ambiguous))).1 builders) [] = true)
    (h2 : reorderLuaStack (lua_settop s builders.length)
      (TypePartition (builders.map (fun b => !b.ambiguous))).1 = some s2)
    (h3 : bulkExecStep
      (reorderedExec exec (TypePartition (builders.map (fun b => !b.ambiguous))).1
        (TypePartition (builders.map (fun b => !b.ambiguous))).2)
      (TypePartition (builders.map (fun b => !b.ambiguous))).1
      (pickNats (TypePartition (builders.map (fun b => !b.ambiguous))).1 builders) [] 1
      { lua := s2,
        pool := PoolForBuilders maxAlign base
          (pickNats (TypePartition (builders.map (fun b => !b.ambiguous))).1 builders),
        trace := [] } = some st)
    (h4 : stackAt st.lua (lua_gettop st.lua) = some (Value.int n)) :
    bulkFunc maxAlign base builders exec s =
      some (Except.ok n.toNat, { st with lua := lua_pop st.lua 1 }) := by
  unfold bulkFunc
  simp only
  rw [if_neg h0, if_neg (by rw [h1]; simp), h2]
  simp only [h3, h4]

theorem bulkCaller_vec (ex : GenericExec) (args : List CType) (st : BulkState) (k : Nat)
    (hret : ex.ret args = some (vecT k).traits)
    (hemp : ∀ t, t ∈ args → ∀ (s : LuaState) (v : NVal) (j : Int),
      ∃ s1, emplace t.traits s v j = some s1 ∧ s1.stack = s.stack) :
    ∃ st1, bulkCaller ex args st = some st1 ∧
      st1.trace = st.trace ++ [BulkEvent.called args (st.pool.elems.map (fun e => e.value))] ∧
      st1.pool.elems.length = min st.pool.elems.length
        (ex.call args (st.pool.elems.map (fun e => e.value)) st.lua).2.1.length ∧
      stackAt st1.lua (lua_gettop st1.lua) = some (Value.int 1) := by
  obtain ⟨s1, hw, hs1⟩ := write_vecT k
    (ex.call args (st.pool.elems.map (fun e => e.value)) st.lua).2.2
    (ex.call args (st.pool.elems.map (fun e => e.value)) st.lua).1
  obtain ⟨s2, he, hs2⟩ := emplaceIfPossible_stack args
    (ex.call args (st.pool.elems.map (fun e => e.value)) st.lua).2.1 1
    (pushValue s1 (Value.int 1)) hemp
  unfold bulkCaller
  simp only [hret, hw, Option.map_some', he]
  refine ⟨_, rfl, rfl, ?_, ?_⟩
  · simp only [List.length_zipWith]
  · exact (stackAt_top1 s2 s1.stack (Value.int 1) (by rw [hs2]; rfl)).2

theorem destroyed_builtName (ds : List Nat) :
    (ds.map BulkEvent.destroyed).filterMap BulkEvent.builtName = [] := by
  induction ds with
  | nil => rfl
  | cons d ds ih => simp [List.filterMap_cons, BulkEvent.builtName]

theorem lua_settop_same (s : LuaState) (n : Nat) (h : s.stack.length = n) :
    lua_settop s n = s := by
  unfold lua_settop
  rw [← h, List.take_length, Nat.sub_self]
  simp

theorem vecB_matB_arena :
    ((pickNats [1, 0] [matB, vecB]).map (fun b =>
        integerCeil (mostSpaciousTupleElem 8 b.possibleTypes) 8 % 2 ^ 64)).sum % 2 ^ 64 = 504 := by
  decide

theorem matVecMul_core (base d h : Nat) (s : LuaState) (a b : Nat) (ms vs : List Value)
    (mm mv : Option Nat) (hbase : 8 ∣ base)
    (hstack : s.stack = [Value.table a, Value.table b])
    (hm : s.tables.get? a = some { entries := seqEntries ms, meta := mm })
    (hv : s.tables.get? b = some { entries := seqEntries vs, meta := mv })
    (hml : ms.length = d * h) (hvl : vs.length = d)
    (hmn : ∀ y, y ∈ ms → y.isNumber = true) (hvn : ∀ y, y ∈ vs → y.isNumber = true)
    (hfindV : vecB.possibleTypes.find? (fun t1 =>
        stepReturnsTrue (reorderedExec matVecMul [1, 0] [1, 0]).invocable [matB]
          (([] : List CType) ++ [t1]) && decide (t1.size / 4 = d)) = some (vecT d))
    (hfindM : matB.possibleTypes.find? (fun t1 =>
        stepReturnsTrue (reorderedExec matVecMul [1, 0] [1, 0]).invocable []
          (([] : List CType) ++ [vecT d] ++ [t1]) && decide (t1.size / 4 = d * h)) =
        some (matT d h))
    (hanyM : matB.possibleTypes.any (fun t =>
        stepReturnsTrue (reorderedExec matVecMul [1, 0] [1, 0]).invocable []
          (([] : List CType) ++ [vecT d] ++ [t])) = true)
    (hinv : (reorderedExec matVecMul [1, 0] [1, 0]).invocable
        (([] : List CType) ++ [vecT d] ++ [matT d h]) = true)
    (hret : (reorderedExec matVecMul [1, 0] [1, 0]).ret
        (([] : List CType) ++ [vecT d] ++ [matT d h]) = some (vecT h).traits)
    (hfit : (4 * d + 7) / 8 * 8 + 4 * (d * h) + 8 ≤ 504) :
    ∃ st, bulkFunc 8 base [matB, vecB] matVecMul s = some (Except.ok 1, st) ∧
      st.trace.filterMap BulkEvent.builtName =
        [(vecT d).traits.typeName, (matT d h).traits.typeName] ∧
      BulkEvent.called [vecT d, matT d h] [NVal.ofNumbers vs, NVal.ofNumbers ms] ∈ st.trace := by
  subst hvl
  rw [← hml] at hfindM
  -- the arena
  have hpsize : (PoolForBuilders 8 base (pickNats [1, 0] [matB, vecB])).size = 504 :=
    vecB_matB_arena
  have h64 : (504 : Nat) < 2 ^ 64 := by norm_num
  -- the vector
  obtain ⟨pool1, hb1, hal1, hba1, hsz1, hmx1, hcur1, hel1⟩ :=
    Pool.build_float (PoolForBuilders 8 base (pickNats [1, 0] [matB, vecB]))
      (vecT vs.length).size 0 (NVal.ofNumbers vs) rfl hbase rfl (Nat.dvd_zero 8)
      (by rw [hpsize]; show 0 + 4 * vs.length + 8 ≤ 504; omega) (by rw [hpsize]; exact h64)
      (by decide : (0 : Nat) < 2)
  have hshapeV : ∀ t1, t1 ∈ vecB.possibleTypes → ShapeLike t1 (t1.size / 4) := by
    intro t1 ht1
    simp only [vecB, List.mem_cons, List.mem_singleton, List.not_mem_nil, or_false] at ht1
    rcases ht1 with rfl | rfl | rfl
    · exact shapeLike_vecT 2
    · exact shapeLike_vecT 3
    · exact shapeLike_vecT 4
  have hshapeM : ∀ t1, t1 ∈ matB.possibleTypes → ShapeLike t1 (t1.size / 4) := by
    intro t1 ht1
    simp only [matB, List.mem_cons, List.mem_singleton, List.not_mem_nil, or_false] at ht1
    rcases ht1 with rfl | rfl | rfl | rfl | rfl | rfl | rfl | rfl | rfl
    · exact shapeLike_matT 2 2
    · exact shapeLike_matT 2 3
    · exact shapeLike_matT 2 4
    · exact shapeLike_matT 3 2
    · exact shapeLike_matT 3 3
    · exact shapeLike_matT 3 4
    · exact shapeLike_matT 4 2
    · exact shapeLike_matT 4 3
    · exact shapeLike_matT 4 4
  obtain ⟨extra1, evs1, hev1, f1⟩ := tryReadFold_shape 1 b vs mv
    (fun t1 => stepReturnsTrue (reorderedExec matVecMul [1, 0] [1, 0]).invocable [matB]
      (([] : List CType) ++ [t1]))
    (fun a s => some (a, s)) (fun t => t.size / 4) hvn vecB.possibleTypes 0
    { lua := { s with stack := [Value.table b, Value.table a] },
      pool := PoolForBuilders 8 base (pickNats [1, 0] [matB, vecB]), trace := [] }
    (vecT vs.length) _ pool1 hshapeV rfl hv hfindV hb1
  -- the matrix
  obtain ⟨pool2, hb2, hal2, hba2, hsz2, hmx2, hcur2, hel2⟩ :=
    Pool.build_float pool1 (matT vs.length h).size ((0 + (vecT vs.length).size + 7) / 8 * 8)
      (NVal.ofNumbers ms) hal1 (by rw [hba1]; exact hbase) (by rw [hcur1, hba1])
      (Nat.dvd_mul_left 8 _)
      (by rw [hsz1, hpsize]
          show (0 + 4 * vs.length + 7) / 8 * 8 + 4 * (vs.length * h) + 8 ≤ 504
          rw [Nat.zero_add]; exact hfit)
      (by rw [hsz1, hpsize]; exact h64)
      (by rw [hel1, hmx1]; exact (by decide : (1 : Nat) < 2))
  obtain ⟨extra2, evs2, hev2, f2⟩ := tryReadFold_shape 2 a ms mm
    (fun t1 => stepReturnsTrue (reorderedExec matVecMul [1, 0] [1, 0]).invocable []
      (([] : List CType) ++ [vecT vs.length] ++ [t1]))
    (fun a s => some (a, s)) (fun t => t.size / 4) hmn matB.possibleTypes 0
    { lua := { s with stack := [Value.table b, Value.table a] ++ extra1 },
      pool := pool1,
      trace := [] ++ evs1 ++
        [BulkEvent.read (vecT vs.length) 1 (some (Value.table b)) true,
         BulkEvent.built (vecT vs.length)
           ((PoolForBuilders 8 base (pickNats [1, 0] [matB, vecB])).base + 0)
           (NVal.ofNumbers vs)] }
    (matT vs.length h) _ pool2 hshapeM rfl hm hfindM hb2
  -- the call
  have hemp : ∀ t, t ∈ (([] : List CType) ++ [vecT vs.length] ++ [matT vs.length h]) →
      ∀ (s : LuaState) (v : NVal) (j : Int),
        ∃ s1, emplace t.traits s v j = some s1 ∧ s1.stack = s.stack := by
    intro t ht
    simp only [List.nil_append, List.cons_append, List.mem_cons, List.mem_singleton,
      List.not_mem_nil, or_false] at ht
    rcases ht with rfl | rfl
    · exact emplace_vecT _
    · exact emplace_matT _ _
  obtain ⟨st3, hcall, htr3, hlen3, htop3⟩ := bulkCaller_vec
    (reorderedExec matVecMul [1, 0] [1, 0])
    (([] : List CType) ++ [vecT vs.length] ++ [matT vs.length h])
    { lua := { s with stack := [Value.table b, Value.table a] ++ extra1 ++ extra2 },
      pool := pool2,
      trace := ([] ++ evs1 ++
        [BulkEvent.read (vecT vs.length) 1 (some (Value.table b)) true,
         BulkEvent.built (vecT vs.length)
           ((PoolForBuilders 8 base (pickNats [1, 0] [matB, vecB])).base + 0)
           (NVal.ofNumbers vs)]) ++ evs2 ++
        [BulkEvent.read (matT vs.length h) 2 (some (Value.table a)) true,
         BulkEvent.built (matT vs.length h)
           (pool1.base + (0 + (vecT vs.length).size + 7) / 8 * 8) (NVal.ofNumbers ms)] }
    h hret hemp
  have hel2x : pool2.elems =
      [{ addr := (PoolForBuilders 8 base (pickNats [1, 0] [matB, vecB])).base + 0,
         size := (vecT vs.length).size, value := NVal.ofNumbers vs },
       { addr := pool1.base + (0 + (vecT vs.length).size + 7) / 8 * 8,
         size := (matT vs.length h).size, value := NVal.ofNumbers ms }] := by
    rw [hel2, hel1]; rfl
  simp only [hel2x, List.map_cons, List.map_nil] at htr3 hlen3
  have hlen3x : st3.pool.elems.length = 2 := hlen3
  have hdes : destructAll st3 2 = some
      { st3 with trace := st3.trace ++
          (st3.pool.elems.map (fun e => e.addr)).map BulkEvent.destroyed } := by
    unfold destructAll Pool.destruct
    rw [if_pos hlen3x]
  have hstep3 := bulkExecStep_nil_invocable (reorderedExec matVecMul [1, 0] [1, 0]) [1, 0]
    (([] : List CType) ++ [vecT vs.length] ++ [matT vs.length h]) (1 + 1 + 1) _ st3 _ hinv hcall
    hdes
  have hstep2 := (bulkExecStep_cons_built (reorderedExec matVecMul [1, 0] [1, 0]) [1, 0]
    matB [] (([] : List CType) ++ [vecT vs.length]) (1 + 1) _ _ (matT vs.length h) _ hanyM
    f2).trans hstep3
  have hstep1 := (bulkExecStep_cons_built (reorderedExec matVecMul [1, 0] [1, 0]) [1, 0]
    vecB [matB] ([] : List CType) 1 _ _ (vecT vs.length) _ (by decide) f1).trans hstep2
  have hre : reorderLuaStack (lua_settop s 2) [1, 0] =
      some { s with stack := [Value.table b, Value.table a] } := by
    rw [lua_settop_same s 2 (by rw [hstack]; rfl),
      reorderLuaStack_eq s [1, 0] (by rw [hstack]; rfl)
        (by rw [hstack]; intro i hi; simp at hi; rcases hi with rfl | rfl <;> simp), hstack]
    rfl
  refine ⟨_, bulkFunc_ok 8 base [matB, vecB] matVecMul s _ _ 1 (by decide) (by decide) hre
    hstep1 htop3, ?_, ?_⟩
  · show (st3.trace ++ _).filterMap BulkEvent.builtName = _
    rw [htr3]
    simp only [List.filterMap_append, destroyed_builtName, hev1, hev2, List.nil_append,
      List.append_nil, List.filterMap_cons, List.filterMap_nil, BulkEvent.builtName]
    rfl
  · show _ ∈ st3.trace ++ _
    rw [htr3]
    simp

/-- C25: ambiguous shapes are resolved by the positions already built.  For
`matVecMul` bound with the builders `<matB, vecB>` (the arena aligned to 8),
called with a flat sequence of `d * h` numbers and a sequence of `d` numbers
(`d`, `h` in 2..4), the dispatch builds the vector first, as `Vec<float, d>`,
then builds the flat sequence as `Mat<float, d, h>` and nothing else, calls the
callable with these two objects, and returns one result.  So a sequence of six
numbers is built as `Mat<float, 2, 3>` next to a vector of two and as
`Mat<float, 3, 2>` next to a vector of three; the dispatch being a function of
the state, the choice is the same on every call with the same input. -/
theorem matVecMul_resolves (base d h : Nat) (s : LuaState) (a b : Nat) (ms vs : List Value)
    (mm mv : Option Nat) (hd : d = 2 ∨ d = 3 ∨ d = 4) (hh : h = 2 ∨ h = 3 ∨ h = 4)
    (hbase : 8 ∣ base)
    (hstack : s.stack = [Value.table a, Value.table b])
    (hm : s.tables.get? a = some { entries := seqEntries ms, meta := mm })
    (hv : s.tables.get? b = some { entries := seqEntries vs, meta := mv })
    (hml : ms.length = d * h) (hvl : vs.length = d)
    (hmn : ∀ y, y ∈ ms → y.isNumber = true) (hvn : ∀ y, y ∈ vs → y.isNumber = true) :
    ∃ st, bulkFunc 8 base [matB, vecB] matVecMul s = some (Except.ok 1, st) ∧
      st.trace.filterMap BulkEvent.builtName =
        [(vecT d).traits.typeName, (matT d h).traits.typeName] ∧
      BulkEvent.called [vecT d, matT d h] [NVal.ofNumbers vs, NVal.ofNumbers ms] ∈ st.trace := by
  rcases hd with rfl | rfl | rfl <;> rcases hh with rfl | rfl | rfl <;>
    exact matVecMul_core base _ _ s a b ms vs mm mv hbase hstack hm hv hml hvl hmn hvn
      rfl rfl (by decide) (by decide) rfl (by decide)

theorem matVecMul_resolves_witness :
    ∃ st, bulkFunc 8 4096 [matB, vecB] matVecMul matAndVec2 = some (Except.ok 1, st) ∧
      st.trace.filterMap BulkEvent.builtName =
        [(vecT 2).traits.typeName, (matT 2 3).traits.typeName] ∧
      BulkEvent.called [vecT 2, matT 2 3]
        [NVal.ofNumbers [Value.int 2, Value.int 3],
         NVal.ofNumbers [Value.int 1, Value.int 0, Value.int 0, Value.int 1, Value.int 1,
           Value.int 1]] ∈ st.trace :=
  matVecMul_resolves 4096 2 3 matAndVec2 0 1
    [Value.int 1, Value.int 0, Value.int 0, Value.int 1, Value.int 1, Value.int 1]
    [Value.int 2, Value.int 3] none none (by decide) (by decide) (by decide) rfl rfl rfl rfl rfl
    (by decide) (by decide)

/-! ## Properties: a successful call, for arguments in any state -/

theorem setPayload_stack (s : LuaState) (u : Nat) (v : NVal) :
    (setPayload s u v).stack = s.stack := by
  unfold setPayload
  split <;> rfl

theorem storeArgs_stack : ∀ (ps : List Param) (args : List PotentialOwner) (nv : List NVal)
    (t : LuaState), (storeArgs ps args nv t).2.stack = t.stack := by
  intro ps
  induction ps with
  | nil => intro args nv t; simp [storeArgs]
  | cons p ps ih =>
    intro args nv t
    cases args with
    | nil => simp [storeArgs]
    | cons a rest =>
      cases nv with
      | nil => simp [storeArgs]
      | cons w ws =>
        simp only [storeArgs]
        split
        · cases a with
          | monostate => exact ih rest ws t
          | owned v => exact ih rest ws t
          | ptr u =>
            show (storeArgs ps rest ws (setPayload t u w)).2.stack = t.stack
            rw [ih rest ws (setPayload t u w), setPayload_stack]
        · exact ih rest ws t

theorem storeArgs_owned_iff : ∀ (ps : List Param) (args : List PotentialOwner) (nv : List NVal)
    (t : LuaState) (j : Nat),
    (∃ w, (storeArgs ps args nv t).1.get? j = some (PotentialOwner.owned w)) ↔
      ∃ v, args.get? j = some (PotentialOwner.owned v) := by
  intro ps
  induction ps with
  | nil => intro args nv t j; simp [storeArgs]
  | cons p ps ih =>
    intro args nv t j
    cases args with
    | nil => simp [storeArgs]
    | cons a rest =>
      cases nv with
      | nil => simp [storeArgs]
      | cons w ws =>
        cases j with
        | zero =>
          simp only [storeArgs]
          split
          · cases a <;> simp
          · simp
        | succ j =>
          simp only [storeArgs]
          split
          · cases a with
            | monostate => simpa using ih rest ws t j
            | owned v => simpa using ih rest ws t j
            | ptr u => simpa using ih rest ws (setPayload t u w) j
          · simpa using ih rest ws t j

theorem emplaceArgs_good (n : Nat) : ∀ (ps : List Param) (args : List PotentialOwner) (i : Nat)
    (t : LuaState),
    (∀ j p v, ps.get? j = some p → p.kind = RefKind.mutRef →
      args.get? j = some (PotentialOwner.owned v) → ∃ e, p.traits.emplace = some e ∧
      ∀ (t0 : LuaState) (v : NVal) (j : Nat), ∃ t1, e t0 v j = some t1 ∧ t1.stack = t0.stack) →
    ∃ t1 evs, emplaceArgs n ps args i t =
        some ({ howManyArgsRead := n, howManyArgsTotal := n, errMsg := "" }, t1, evs) ∧
      t1.stack = t.stack ∧ invocations evs = [] := by
  intro ps
  induction ps with
  | nil => intro args i t _; exact ⟨t, [], by simp [emplaceArgs], rfl, rfl⟩
  | cons p ps ih =>
    intro args i t hemp
    cases args with
    | nil => exact ⟨t, [], by simp [emplaceArgs], rfl, rfl⟩
    | cons a rest =>
      have hemp1 : ∀ j q v, ps.get? j = some q → q.kind = RefKind.mutRef →
          rest.get? j = some (PotentialOwner.owned v) → ∃ e, q.traits.emplace = some e ∧
          ∀ (t0 : LuaState) (v : NVal) (j : Nat),
            ∃ t1, e t0 v j = some t1 ∧ t1.stack = t0.stack :=
        fun j q v hq hk ha => hemp (j + 1) q v hq hk ha
      by_cases hk : p.kind = RefKind.mutRef
      · cases a with
        | owned v =>
          obtain ⟨e, he, hcontract⟩ := hemp 0 p v rfl hk rfl
          obtain ⟨t1, ht1, hst1⟩ := hcontract t v (lua_absindex t ((i : Int) + 1))
          obtain ⟨t2, evs, h2, hst2, hinv⟩ := ih rest (i + 1) t1 hemp1
          refine ⟨t2, Event.emplace (i + 1) v :: evs, ?_, by rw [hst2, hst1], by
            simpa [invocations] using hinv⟩
          simp only [emplaceArgs, if_pos hk, he, emplace, ht1, h2]
        | monostate =>
          obtain ⟨t2, evs, h2, hst2, hinv⟩ := ih rest (i + 1) t hemp1
          exact ⟨t2, evs, by simp only [emplaceArgs, if_pos hk, h2], hst2, hinv⟩
        | ptr u =>
          obtain ⟨t2, evs, h2, hst2, hinv⟩ := ih rest (i + 1) t hemp1
          exact ⟨t2, evs, by simp only [emplaceArgs, if_pos hk, h2], hst2, hinv⟩
      · obtain ⟨t2, evs, h2, hst2, hinv⟩ := ih rest (i + 1) t hemp1
        exact ⟨t2, evs, by simp only [emplaceArgs, if_neg hk, h2], hst2, hinv⟩

theorem emplaceArgs_bad (n : Nat) : ∀ (ps : List Param) (args : List PotentialOwner) (i : Nat)
    (t : LuaState) (k : Nat) (q : Param) (x : NVal),
    ps.get? k = some q → q.kind = RefKind.mutRef →
    args.get? k = some (PotentialOwner.owned x) → q.traits.emplace = none →
    (∀ j p v, j < k → ps.get? j = some p → p.kind = RefKind.mutRef →
      args.get? j = some (PotentialOwner.owned v) → ∃ e, p.traits.emplace = some e ∧
      ∀ (t0 : LuaState) (v : NVal) (j : Nat), ∃ t1, e t0 v j = some t1 ∧ t1.stack = t0.stack) →
    ∃ t1 evs, emplaceArgs n ps args i t =
        some ({ howManyArgsRead := n, howManyArgsTotal := n,
                errMsg := failedToEmplaceError q.traits.typeName }, t1, evs) ∧
      t1.stack = t.stack ∧ invocations evs = [] := by
  intro ps
  induction ps with
  | nil => intro args i t k q x hq; simp at hq
  | cons p ps ih =>
    intro args i t k q x hq hqk ha hqe hemp
    cases args with
    | nil => simp at ha
    | cons a rest =>
      cases k with
      | zero =>
        simp only [List.get?_cons_zero, Option.some.injEq] at hq ha
        subst hq ha
        exact ⟨t, [], by simp only [emplaceArgs, if_pos hqk, hqe], rfl, rfl⟩
      | succ k =>
        simp only [List.get?_cons_succ] at hq ha
        have hemp1 : ∀ j p1 v, j < k → ps.get? j = some p1 → p1.kind = RefKind.mutRef →
            rest.get? j = some (PotentialOwner.owned v) → ∃ e, p1.traits.emplace = some e ∧
            ∀ (t0 : LuaState) (v : NVal) (j : Nat),
              ∃ t1, e t0 v j = some t1 ∧ t1.stack = t0.stack :=
          fun j p1 v hj hp1 hk1 ha1 => hemp (j + 1) p1 v (by omega) hp1 hk1 ha1
        by_cases hk : p.kind = RefKind.mutRef
        · cases a with
          | owned v =>
            obtain ⟨e, he, hcontract⟩ := hemp 0 p v (by omega) rfl hk rfl
            obtain ⟨t1, ht1, hst1⟩ := hcontract t v (lua_absindex t ((i : Int) + 1))
            obtain ⟨t2, evs, h2, hst2, hinv⟩ := ih rest (i + 1) t1 k q x hq hqk ha hqe hemp1
            refine ⟨t2, Event.emplace (i + 1) v :: evs, ?_, by rw [hst2, hst1], by
              simpa [invocations] using hinv⟩
            simp only [emplaceArgs, if_pos hk, he, emplace, ht1, h2]
          | monostate =>
            obtain ⟨t2, evs, h2, hst2, hinv⟩ := ih rest (i + 1) t k q x hq hqk ha hqe hemp1
            exact ⟨t2, evs, by simp only [emplaceArgs, if_pos hk, h2], hst2, hinv⟩
          | ptr u =>
            obtain ⟨t2, evs, h2, hst2, hinv⟩ := ih rest (i + 1) t k q x hq hqk ha hqe hemp1
            exact ⟨t2, evs, by simp only [emplaceArgs, if_pos hk, h2], hst2, hinv⟩
        · obtain ⟨t2, evs, h2, hst2, hinv⟩ := ih rest (i + 1) t k q x hq hqk ha hqe hemp1
          exact ⟨t2, evs, by simp only [emplaceArgs, if_neg hk, h2], hst2, hinv⟩


/-- C3 (amended): a signature whose last parameter is not defaultable, called
with exactly `|Args|` arguments, in any state (Dynamic, Baked, Indirect,
PendingBake), that each decode: `args` are the translated arguments that the
reads produce, one after the other, and `vals` the objects they refer to (for a
pointer, the object inside the userdata block).  If every parameter taken by
mutable reference whose argument was read as an owned object (a Dynamic
argument) has `emplace` (an emplace that returns and is stack-neutral),
`tryToCallRaw` succeeds, invokes the callable exactly once, on `vals` in
positional order, and the stack it leaves is the one left by `write` of the
returned object (the encoding is on top); for a `void` callable it invokes it
once and pushes nothing.  If the parameter `k` is the first one taken by mutable
reference whose argument was read as an owned object and whose type has no
`emplace`, the callable is still invoked exactly once on `vals`, and the call
returns `failedToEmplaceError` for that type, which is not a success. -/
theorem tryToCallRaw_succeeds (fuel : Nat) (params : List Param) (rt : Traits) (f : Invoc)
    (s s1 s3 : LuaState) (args : List PotentialOwner) (vals : List NVal)
    (hN : lua_gettop s = params.length)
    (hlast : ∀ p, params.getLast? = some p → p.isDefaultable = false)
    (hread : readSeq fuel params 0 s = some (args, s1))
    (hdec : ∀ a ∈ args, a.toBool = true)
    (hvals : derefAll s1 args = some vals)
    (hw : write rt (storeArgs params args (f vals s1).2.1 (f vals s1).2.2).2 (f vals s1).1
      = some s3) :
    ((∀ j p v, params.get? j = some p → p.kind = RefKind.mutRef →
        args.get? j = some (PotentialOwner.owned v) → ∃ e, p.traits.emplace = some e ∧
        ∀ (t0 : LuaState) (v : NVal) (j : Nat), ∃ t1, e t0 v j = some t1 ∧ t1.stack = t0.stack) →
      (∃ o, tryToCallRaw fuel params (some rt) f s = some o ∧
        o.res = { howManyArgsRead := params.length, howManyArgsTotal := params.length,
                  errMsg := "" } ∧
        invocations o.trace = [vals] ∧ o.state.stack = s3.stack) ∧
      (∃ o, tryToCallRaw fuel params none f s = some o ∧
        o.res = { howManyArgsRead := params.length, howManyArgsTotal := params.length,
                  errMsg := "" } ∧
        invocations o.trace = [vals] ∧ o.state.stack = (f vals s1).2.2.stack)) ∧
    (∀ k q x, params.get? k = some q → q.kind = RefKind.mutRef →
        args.get? k = some (PotentialOwner.owned x) → q.traits.emplace = none →
      (∀ j p v, j < k → params.get? j = some p → p.kind = RefKind.mutRef →
        args.get? j = some (PotentialOwner.owned v) → ∃ e, p.traits.emplace = some e ∧
        ∀ (t0 : LuaState) (v : NVal) (j : Nat), ∃ t1, e t0 v j = some t1 ∧ t1.stack = t0.stack) →
      (∃ o, tryToCallRaw fuel params (some rt) f s = some o ∧
        o.res = { howManyArgsRead := params.length, howManyArgsTotal := params.length,
                  errMsg := failedToEmplaceError q.traits.typeName } ∧
        o.res.errMsg ≠ "" ∧ invocations o.trace = [vals] ∧ o.state.stack = s3.stack) ∧
      (∃ o, tryToCallRaw fuel params none f s = some o ∧
        o.res = { howManyArgsRead := params.length, howManyArgsTotal := params.length,
                  errMsg := failedToEmplaceError q.traits.typeName } ∧
        o.res.errMsg ≠ "" ∧ invocations o.trace = [vals] ∧
        o.state.stack = (f vals s1).2.2.stack)) := by
  have hb := getMinMax_bounds (params.map Param.isDefaultable)
  rw [List.length_map] at hb
  have hmin : (getMinMaxArgumentCount (params.map Param.isDefaultable)).1 ≤ lua_gettop s := by
    rw [hN]; exact hb.1
  have hmax : lua_gettop s ≤ (getMinMaxArgumentCount (params.map Param.isDefaultable)).2 := by
    rw [hN, hb.2]
  have hra := readArgs_append fuel (lua_gettop s) params 0 s _ s1 hread hdec
    (by rw [hN]; omega) []
  simp only [List.append_nil, readArgs, Nat.zero_add] at hra
  have hfill : fillDefaults params (lua_gettop s) s1
      (reverseIotaSequence (List.range params.length)) args = args := by
    rw [hN]; exact fillDefaults_all_supplied params s1 _ hlast
  have hvals1 : derefAll s1 (fillDefaults params (lua_gettop s) s1
      (reverseIotaSequence (List.range params.length)) args) = some vals := by
    rw [hfill]; exact hvals
  have hrt := readArgs_trace fuel (lua_gettop s) params 0 s _ hra
  have hw1 : (writeReturn (some rt) (storeArgs params (fillDefaults params (lua_gettop s) s1
      (reverseIotaSequence (List.range params.length)) args)
        (f vals s1).2.1 (f vals s1).2.2).2 (f vals s1).1).1 = some s3 := by
    rw [hfill]; exact hw
  have hw0 : (writeReturn none (storeArgs params (fillDefaults params (lua_gettop s) s1
      (reverseIotaSequence (List.range params.length)) args)
        (f vals s1).2.1 (f vals s1).2.2).2 (f vals s1).1).1 =
        some (storeArgs params args (f vals s1).2.1 (f vals s1).2.2).2 := by
    rw [hfill]; rfl
  have hown : ∀ j w, (storeArgs params (fillDefaults params (lua_gettop s) s1
      (reverseIotaSequence (List.range params.length)) args)
        (f vals s1).2.1 (f vals s1).2.2).1.get? j = some (PotentialOwner.owned w) →
      ∃ v, args.get? j = some (PotentialOwner.owned v) := by
    intro j w hj
    rw [hfill] at hj
    exact (storeArgs_owned_iff params args _ _ j).1 ⟨w, hj⟩
  constructor
  · intro hemp
    have hemp1 : ∀ j p v, params.get? j = some p → p.kind = RefKind.mutRef →
        (storeArgs params (fillDefaults params (lua_gettop s) s1
          (reverseIotaSequence (List.range params.length)) args)
            (f vals s1).2.1 (f vals s1).2.2).1.get? j = some (PotentialOwner.owned v) →
        ∃ e, p.traits.emplace = some e ∧
        ∀ (t0 : LuaState) (v : NVal) (j : Nat),
          ∃ t1, e t0 v j = some t1 ∧ t1.stack = t0.stack := by
      intro j p v hp hk hj
      obtain ⟨v0, hv0⟩ := hown j v hj
      exact hemp j p v0 hp hk hv0
    constructor
    · obtain ⟨t1, evs, he, hstack, hinv⟩ := emplaceArgs_good params.length params _ 0 s3 hemp1
      refine ⟨_, tryToCallRaw_invoke fuel params (some rt) f s s1 s3 _ _ vals _ hmin hmax hra
        hvals1 hw1 he, rfl, ?_, hstack⟩
      simp only [invocations_append, hrt.1, hinv, writeReturn, invocations, List.nil_append,
        List.append_nil]
    · obtain ⟨t1, evs, he, hstack, hinv⟩ := emplaceArgs_good params.length params _ 0
        (storeArgs params args (f vals s1).2.1 (f vals s1).2.2).2 hemp1
      refine ⟨_, tryToCallRaw_invoke fuel params none f s s1 _ _ _ vals _ hmin hmax hra
        hvals1 hw0 he, rfl, ?_, ?_⟩
      · simp only [invocations_append, hrt.1, hinv, writeReturn, invocations, List.nil_append,
          List.append_nil]
      · exact hstack.trans (storeArgs_stack _ _ _ _)
  · intro k q x hq hqk hx hqe hemp
    have hemp1 : ∀ j p v, j < k → params.get? j = some p → p.kind = RefKind.mutRef →
        (storeArgs params (fillDefaults params (lua_gettop s) s1
          (reverseIotaSequence (List.range params.length)) args)
            (f vals s1).2.1 (f vals s1).2.2).1.get? j = some (PotentialOwner.owned v) →
        ∃ e, p.traits.emplace = some e ∧
        ∀ (t0 : LuaState) (v : NVal) (j : Nat),
          ∃ t1, e t0 v j = some t1 ∧ t1.stack = t0.stack := by
      intro j p v hjk hp hk hj
      obtain ⟨v0, hv0⟩ := hown j v hj
      exact hemp j p v0 hjk hp hk hv0
    obtain ⟨x1, hx1⟩ := (storeArgs_owned_iff params args (f vals s1).2.1 (f vals s1).2.2 k).2
      ⟨x, hx⟩
    have hx2 : (storeArgs params (fillDefaults params (lua_gettop s) s1
        (reverseIotaSequence (List.range params.length)) args)
          (f vals s1).2.1 (f vals s1).2.2).1.get? k = some (PotentialOwner.owned x1) := by
      rw [hfill]; exact hx1
    constructor
    · obtain ⟨t1, evs, he, hstack, hinv⟩ := emplaceArgs_bad params.length params _ 0 s3 k q x1
        hq hqk hx2 hqe hemp1
      refine ⟨_, tryToCallRaw_invoke fuel params (some rt) f s s1 s3 _ _ vals _ hmin hmax hra
        hvals1 hw1 he, rfl, failedToEmplaceError_ne_empty _, ?_, hstack⟩
      simp only [invocations_append, hrt.1, hinv, writeReturn, invocations, List.nil_append,
        List.append_nil]
    · obtain ⟨t1, evs, he, hstack, hinv⟩ := emplaceArgs_bad params.length params _ 0
        (storeArgs params args (f vals s1).2.1 (f vals s1).2.2).2 k q x1 hq hqk hx2 hqe hemp1
      refine ⟨_, tryToCallRaw_invoke fuel params none f s s1 _ _ _ vals _ hmin hmax hra
        hvals1 hw0 he, rfl, failedToEmplaceError_ne_empty _, ?_, ?_⟩
      · simp only [invocations_append, hrt.1, hinv, writeReturn, invocations, List.nil_append,
          List.append_nil]
      · exact hstack.trans (storeArgs_stack _ _ _ _)

/-- C3 (witness): `average` bound with two numbers and called with `(3, 5)`
succeeds, is invoked once with `(3, 5)` and leaves `4` on top of the stack; and
`int inc(int&)` called with the pending marker of `5` succeeds too: the
argument is read as a pointer, the callable is invoked once with `5`, and `6`
is left on top of the stack. -/
theorem tryToCallRaw_succeeds_witness :
    (∃ o, tryToCallRaw 0 twoDoubles (some (doubleTraits (fun _ => none))) average twoIntState
        = some o ∧
      o.res = { howManyArgsRead := 2, howManyArgsTotal := 2, errMsg := "" } ∧
      invocations o.trace = [[NVal.num 3, NVal.num 5]] ∧
      o.state.stack = [Value.int 3, Value.int 5, Value.num 4]) ∧
    (dataDispatch markerOnTop 1).1 = AnyData.PendingData 1 ∧
    (∃ o, tryToCallRaw 1 oneIntRef (some intTraits) incInt markerOnTop = some o ∧
      o.res = { howManyArgsRead := 1, howManyArgsTotal := 1, errMsg := "" } ∧
      invocations o.trace = [[NVal.int 5]] ∧
      o.state.stack = [Value.udata 0, Value.udata 0, Value.int 5, Value.int 6]) := by
  refine ⟨?_, rfl, ?_⟩
  · exact ((tryToCallRaw_succeeds 0 twoDoubles (doubleTraits (fun _ => none)) average
      twoIntState twoIntState
      (pushValue twoIntState (Value.num 4)) [PotentialOwner.owned (NVal.num 3),
        PotentialOwner.owned (NVal.num 5)] [NVal.num 3, NVal.num 5] rfl
      (by intro p hp; cases hp; rfl) (by
        simp [readSeq, readArg, twoDoubles, dataDispatch, lua_absindex, lua_isuserdata, stackAt,
          twoIntState, emptyState, readAs, LuaData_readAs, LuaInterfacable, LuaWritable,
          doubleTraits, read])
      (by intro a ha; simp only [List.mem_cons, List.mem_singleton, List.not_mem_nil,
            or_false] at ha; rcases ha with rfl | rfl <;> rfl)
      rfl
      (by
        simp only [write, doubleTraits, average, List.getD, NVal.toNum, storeArgs, twoDoubles]
        norm_num)).1
      (by
        intro j p v hp hk
        have hmem := List.get?_mem hp
        simp only [twoDoubles, List.mem_cons, List.mem_singleton, List.not_mem_nil, or_false,
          or_self] at hmem
        subst hmem
        cases hk)).1
  · obtain ⟨o, ho, hres, _, _⟩ := ((tryToCallRaw_succeeds 1 oneIntRef intTraits incInt
      markerOnTop _ _ _ _ rfl
      (by intro p hp; cases hp; rfl) rfl
      (by intro a ha; simp only [List.mem_singleton] at ha; subst ha; rfl)
      rfl rfl).1
      (by
        intro j p v hp hk ha
        cases j with
        | zero => cases ha
        | succ j => cases ha)).1
    have hx : (tryToCallRaw 1 oneIntRef (some intTraits) incInt markerOnTop).map
        (fun o => (invocations o.trace, o.state.stack)) =
        some ([[NVal.int 5]], [Value.udata 0, Value.udata 0, Value.int 5, Value.int 6]) := rfl
    rw [ho] at hx
    have hx1 := Option.some.inj hx
    exact ⟨o, ho, hres, congrArg Prod.fst hx1, congrArg Prod.snd hx1⟩

/-- C3 (counterexample): the signature `int inc(int&)` called with the single
Dynamic argument `3`, which decodes as `int`: the callable runs and its result
is written, yet the call does not succeed; it returns `failedToEmplaceError`. -/
theorem tryToCallRaw_succeeds_counterexample :
    readSeq 0 oneIntRef 0 oneIntState = some ([PotentialOwner.owned (NVal.int 3)], oneIntState) ∧
    (tryToCallRaw 0 oneIntRef (some intTraits) incInt oneIntState).map (fun o => o.res) =
      some { howManyArgsRead := 1, howManyArgsTotal := 1,
             errMsg := failedToEmplaceError "int" } ∧
    failedToEmplaceError "int" ≠ "" := by
  refine ⟨rfl, rfl, by decide⟩

end LuaStrap
